import Mathlib

/-!
# Packing coordinate lists into level-compressed tensor storage

A shallow embedding of `src/storage/pack.cpp` (functions `getUniqueEntries`,
`PACK_NEXT_LEVEL`, `packTensor`, `findMaxFixedValue` and `pack`) followed by
theorems about it.

Conventions of the embedding:

* `vector<T>` is `List T`; `push_back` appends at the end.
* `int` values are `Int` (inputs are expected in the 32-bit range, `IsInt`);
  `size_t` values are `Nat`.  The conversions the source performs implicitly or
  by a cast are explicit: `toSizeT` (int to size_t, reduction modulo `2^64`) and
  `toInt` (to int, two's complement wrap to 32 bits).
* `double` values are only copied, never computed with; the value type is a
  parameter `α` with a zero standing for the literal `0.0`.
* A failed `taco_iassert` is `PackError.assertion`; an access outside a vector
  (undefined behaviour in the source) is `PackError.outOfRange`.
* Recursion over the levels is structural on `dimTypes.size() - i`; loops are
  structural on their iteration space.
-/

namespace taco
namespace storage

/-- The three per-dimension storage kinds of `taco/format.h`. -/
inductive DimensionType where
  | Dense
  | Sparse
  | Fixed
  deriving DecidableEq, Repr

/-- How a call can fail to return. -/
inductive PackError where
  /-- A `taco_iassert` did not hold. -/
  | assertion
  /-- A vector or pointer was read or written outside its range. -/
  | outOfRange
  deriving DecidableEq, Repr

/-- Results of the embedded functions. -/
abbrev Result (β : Type) := Except PackError β

instance {β : Type} [DecidableEq β] : DecidableEq (Result β) := fun a b =>
  match a, b with
  | Except.ok x, Except.ok y =>
    if h : x = y then isTrue (by rw [h]) else isFalse (fun h2 => h (by cases h2; rfl))
  | Except.error x, Except.error y =>
    if h : x = y then isTrue (by rw [h]) else isFalse (fun h2 => h (by cases h2; rfl))
  | Except.ok _, Except.error _ => isFalse (fun h => by cases h)
  | Except.error _, Except.ok _ => isFalse (fun h => by cases h)

/-- Conversion of an `int` to `size_t` (64 bit, unsigned). -/
def toSizeT (x : Int) : Nat := (x % (2 ^ 64 : Int)).toNat

/-- Conversion of an integer value to `int` (32 bit, two's complement): the
representative of `x` modulo `2^32` in `[-2^31, 2^31)`. -/
def toInt (x : Int) : Int :=
  if x % (2 ^ 32 : Int) < 2 ^ 31 then x % (2 ^ 32 : Int) else x % (2 ^ 32 : Int) - 2 ^ 32

/-- The values an `int` can hold. -/
def IsInt (x : Int) : Prop := -(2 ^ 31 : Int) ≤ x ∧ x < (2 ^ 31 : Int)

instance (x : Int) : Decidable (IsInt x) := by unfold IsInt; infer_instance

/-- Element `k` of a vector, out of range when there is none. -/
def at? {β : Type} (v : List β) (k : Nat) : Result β :=
  match v[k]? with
  | some x => pure x
  | none => throw PackError.outOfRange

/-- The loop of `getUniqueEntries` (lines 21-28) over the elements after the
first one, with the locals `curr` and `uniqueEntries`. -/
def getUniqueEntriesLoop : Nat → List Nat → List Int → Result (List Nat)
  | _, uniqueEntries, [] => pure uniqueEntries
  | curr, uniqueEntries, x :: rest =>
    let next := toSizeT x
    if next ≥ curr then
      if curr < next then
        getUniqueEntriesLoop next (uniqueEntries ++ [next]) rest
      else
        getUniqueEntriesLoop curr uniqueEntries rest
    else
      throw PackError.assertion

/-- Count unique entries (assumes the values are sorted); the argument is the
content of the iterator range `[begin, end)`. -/
def getUniqueEntries : List Int → Result (List Nat)
  | [] => pure []
  | x :: rest =>
    let curr := toSizeT x
    getUniqueEntriesLoop curr [curr] rest

/-- The content of the iterator range `[v.begin()+b, v.begin()+e)`. -/
def range? (v : List Int) (b e : Nat) : Result (List Int) :=
  if b ≤ e ∧ e ≤ v.length then pure ((v.drop b).take (e - b))
  else throw PackError.outOfRange

/-- The index arrays under construction: per dimension, its arrays. -/
abbrev Indices := List (List (List Int))

/-- The two outputs `packTensor` writes through its pointer arguments. -/
structure PackState (α : Type) where
  indices : Indices
  values : List α
  deriving DecidableEq, Repr

/-- Array `k` of the index of dimension `i`. -/
def getArray (indices : Indices) (i k : Nat) : Result (List Int) := do
  let index ← at? indices i
  at? index k

/-- Appends `xs` at the end of array `k` of the index of dimension `i`. -/
def appendArray (indices : Indices) (i k : Nat) (xs : List Int) : Result Indices := do
  let index ← at? indices i
  let arr ← at? index k
  pure (indices.set i (index.set k (arr ++ xs)))

/-- The scan `while (cend < end && levelCoords[cend] == j) cend++`; the first
argument is `end - cend`, the number of iterations left at most. -/
def scan (levelCoords : List Int) (end_ : Nat) (j : Int) : Nat → Nat → Result Nat
  | 0, cend => pure cend
  | fuel + 1, cend =>
    if cend < end_ then do
      let c ← at? levelCoords cend
      if c = j then scan levelCoords end_ j fuel (cend + 1) else pure cend
    else pure cend

/-- The macro `PACK_NEXT_LEVEL(cend)`: `leaf` is `i + 1 == dimTypes.size()` and
`next` is the recursive call of `packTensor` at level `i+1`. -/
def packNextLevel {α : Type} [Zero α] (vals : List α) (leaf : Bool)
    (next : Nat → Nat → PackState α → Result (PackState α))
    (cbegin cend : Nat) (st : PackState α) : Result (PackState α) :=
  if leaf then
    if cbegin < cend then do
      let v ← at? vals cbegin
      pure { st with values := st.values ++ [v] }
    else
      pure { st with values := st.values ++ [0] }
  else
    next cbegin cend st

/-- The loop shared by the three cases of `packTensor`: for each index value
`j`, scan its segment `[cbegin, cend)` and pack the next level on it. -/
def packSegments {α : Type} (levelCoords : List Int) (end_ : Nat)
    (pnl : Nat → Nat → PackState α → Result (PackState α)) :
    List Int → Nat → PackState α → Result (Nat × PackState α)
  | [], cbegin, st => pure (cbegin, st)
  | j :: js, cbegin, st => do
    let cend ← scan levelCoords end_ j (end_ - cbegin) cbegin
    let st ← pnl cbegin cend st
    packSegments levelCoords end_ pnl js cend st

/-- The padding loop of the Fixed case (lines 118-124); the first argument is
the number of iterations, `fixedValue - curSize` when positive. -/
def fixedPad {α : Type} (i : Nat) (indexValues : List Nat) (segmentSize : Int)
    (pnl : Nat → Nat → PackState α → Result (PackState α)) (cbegin : Nat) :
    Nat → PackState α → Result (PackState α)
  | 0, st => pure st
  | n + 1, st => do
    let last ← if segmentSize > 0 then at? indexValues (toSizeT (segmentSize - 1)) else pure 0
    let indices ← appendArray st.indices i 1 [toInt last]
    let st ← pnl cbegin cbegin { st with indices := indices }
    fixedPad i indexValues segmentSize pnl cbegin n st

/-- The body of `packTensor`; the first argument is `dimTypes.size() - i`. -/
def packTensorAux {α : Type} [Zero α] (dims : List Int) (coords : List (List Int))
    (vals : List α) (dimTypes : List DimensionType) :
    Nat → Nat → Nat → Nat → PackState α → Result (PackState α)
  | 0, _, _, _, _ => throw PackError.outOfRange
  | fuel + 1, begin_, end_, i, st => do
    let dimType ← at? dimTypes i
    let levelCoords ← at? coords i
    let _ ← at? st.indices i
    let pnl := packNextLevel vals (i + 1 == dimTypes.length)
      (fun b e s => packTensorAux dims coords vals dimTypes fuel b e (i + 1) s)
    match dimType with
    | DimensionType.Dense => do
      let d ← at? dims i
      let r ← packSegments levelCoords end_ pnl
        ((List.range d.toNat).map Int.ofNat) begin_ st
      pure r.2
    | DimensionType.Sparse => do
      let seg ← range? levelCoords begin_ end_
      let indexValues ← getUniqueEntries seg
      let idx ← getArray st.indices i 1
      let indices ← appendArray st.indices i 0 [toInt (idx.length + indexValues.length)]
      let indices ← appendArray indices i 1 (indexValues.map (fun (j : Nat) => toInt j))
      let r ← packSegments levelCoords end_ pnl
        (indexValues.map (fun (j : Nat) => toInt j)) begin_ { st with indices := indices }
      pure r.2
    | DimensionType.Fixed => do
      let pos ← getArray st.indices i 0
      let fixedValue ← at? pos 0
      let seg ← range? levelCoords begin_ end_
      let indexValues ← getUniqueEntries seg
      let segmentSize := toInt indexValues.length
      let r ←
        if segmentSize > 0 then do
          let indices ← appendArray st.indices i 1 (indexValues.map (fun (j : Nat) => toInt j))
          packSegments levelCoords end_ pnl
            (indexValues.map (fun (j : Nat) => toInt j)) begin_ { st with indices := indices }
        else pure (begin_, st)
      fixedPad i indexValues segmentSize pnl r.1 (fixedValue - segmentSize).toNat r.2

/-- Pack tensor coordinates into an index structure and value array. -/
def packTensor {α : Type} [Zero α] (dims : List Int) (coords : List (List Int))
    (vals : List α) (begin_ end_ : Nat) (dimTypes : List DimensionType) (i : Nat)
    (st : PackState α) : Result (PackState α) :=
  packTensorAux dims coords vals dimTypes (dimTypes.length - i) begin_ end_ i st

/-- The locals of the frequency loop of `findMaxFixedValue` (lines 144-147). -/
structure RunState where
  maxSize : Nat
  maxCoords : List Int
  coordCur : Int
  sizeCur : Nat
  deriving DecidableEq, Repr

/-- The update of `maxSize` and `maxCoords` when a run of equal coordinates
ends (lines 153-160 and again 165-172). -/
def recordRun (s : RunState) : RunState :=
  if s.sizeCur > s.maxSize then
    { s with maxSize := s.sizeCur, maxCoords := [s.coordCur] }
  else if s.sizeCur = s.maxSize then
    { s with maxCoords := s.maxCoords ++ [s.coordCur] }
  else s

/-- The loop `for (j=1; j<numCoords; j++)` of lines 148-164 over `coords[i]`. -/
def countRuns (levelCoords : List Int) : List Nat → RunState → Result RunState
  | [], s => pure s
  | j :: js, s => do
    let c ← at? levelCoords j
    if c = s.coordCur then
      countRuns levelCoords js { s with sizeCur := s.sizeCur + 1 }
    else
      let s1 := recordRun s
      countRuns levelCoords js { s1 with sizeCur := 1, coordCur := c }

/-- The loop `for (k=0; k<order; k++) newCoords[k].push_back(coords[k][j])`. -/
def pushRow (coords : List (List Int)) (j : Nat) :
    List Nat → List (List Int) → Result (List (List Int))
  | [], newCoords => pure newCoords
  | k :: ks, newCoords => do
    let col ← at? coords k
    let c ← at? col j
    let row ← at? newCoords k
    pushRow coords j ks (newCoords.set k (row ++ [c]))

/-- The loop `for (j=0; j<numCoords; j++)` of lines 182-188 that copies the
entries whose level-`i` coordinate is `m` into `newCoords`. -/
def selectRows (coords : List (List Int)) (order i : Nat) (m : Int) :
    List Nat → List (List Int) → Result (List (List Int))
  | [], newCoords => pure newCoords
  | j :: js, newCoords => do
    let col ← at? coords i
    let c ← at? col j
    if c = m then do
      let newCoords ← pushRow coords j (List.range order) newCoords
      selectRows coords order i m js newCoords
    else
      selectRows coords order i m js newCoords

/-- The loop over `maxCoords` of lines 177-192; `next` is the recursive call of
`findMaxFixedValue` at level `i+1` on the selected entries. -/
def exploreMax (coords : List (List Int)) (order i numCoords : Nat)
    (next : List (List Int) → Result Int) : List Int → Int → Result Int
  | [], maxFixedValue => pure maxFixedValue
  | m :: ms, maxFixedValue => do
    let newCoords ← selectRows coords order i m (List.range numCoords)
      (List.replicate order [])
    let maxSegment ← next newCoords
    exploreMax coords order i numCoords next ms (max maxFixedValue maxSegment)

/-- The body of `findMaxFixedValue`; the first argument is `order - i`. -/
def findMaxFixedValueAux (order fixedLevel : Nat) :
    Nat → List (List Int) → Nat → Nat → Result Int
  | fuel, coords, i, numCoords =>
    if i = order then
      pure (toInt numCoords)
    else if i = fixedLevel then do
      let levelCoords ← at? coords i
      let indexValues ← getUniqueEntries levelCoords
      pure (toInt indexValues.length)
    else
      match fuel with
      | 0 => throw PackError.outOfRange
      | fuel + 1 => do
        let levelCoords ← at? coords i
        let c0 ← at? levelCoords 0
        let s ← countRuns levelCoords (List.range' 1 (numCoords - 1))
          { maxSize := 0, maxCoords := [], coordCur := c0, sizeCur := 1 }
        let s := recordRun s
        exploreMax coords order i numCoords
          (fun newCoords =>
            findMaxFixedValueAux order fixedLevel fuel newCoords (i + 1) s.maxSize)
          s.maxCoords 0

/-- The capacity pre-pass for the Fixed level `fixedLevel`; `dims` is not read
by the source either. -/
def findMaxFixedValue (_dims : List Int) (coords : List (List Int)) (order fixedLevel i
    numCoords : Nat) : Result Int :=
  findMaxFixedValueAux order fixedLevel (order - i) coords i numCoords

/-- The packed tensor: the format, one index (a list of arrays) per dimension,
and the value array. -/
structure Storage (α : Type) where
  format : List DimensionType
  index : List (List (List Int))
  values : List α
  deriving DecidableEq, Repr

/-- The first loop of `pack` (lines 212-239): one index record per dimension. -/
def initIndices (dimensions : List Int) (format : List DimensionType)
    (coordinates : List (List Int)) (numCoordinates : Nat) :
    List Nat → Indices → Result Indices
  | [], indices => pure indices
  | i :: is, indices => do
    let dimType ← at? format i
    match dimType with
    | DimensionType.Dense =>
      initIndices dimensions format coordinates numCoordinates is (indices ++ [[]])
    | DimensionType.Sparse => do
      let indices ← appendArray (indices ++ [[[], []]]) i 0 [0]
      initIndices dimensions format coordinates numCoordinates is indices
    | DimensionType.Fixed => do
      let r ← findMaxFixedValue dimensions coordinates format.length i 0 numCoordinates
      let maxSize := toSizeT r
      let indices ← appendArray (indices ++ [[[], []]]) i 0 [toInt maxSize]
      initIndices dimensions format coordinates numCoordinates is indices

/-- The last loop of `pack` (lines 246-263): the index of each dimension as it
is stored. -/
def copyIndices (dimensions : List Int) (format : List DimensionType) (indices : Indices) :
    List Nat → Result (List (List (List Int)))
  | [] => pure []
  | i :: is => do
    let dimensionType ← at? format i
    let index ←
      match dimensionType with
      | DimensionType.Dense => do
        let d ← at? dimensions i
        pure [[d]]
      | _ => do
        let pos ← getArray indices i 0
        let idx ← getArray indices i 1
        pure [pos, idx]
    let rest ← copyIndices dimensions format indices is
    pure (index :: rest)

/-- The function `pack`: the Storage of the coordinate list in the format. -/
def pack {α : Type} [Zero α] (dimensions : List Int) (format : List DimensionType)
    (coordinates : List (List Int)) (values : List α) : Result (Storage α) :=
  if dimensions.length = format.length then do
    let numDimensions := dimensions.length
    let numCoordinates := values.length
    let indices ← initIndices dimensions format coordinates numCoordinates
      (List.range numDimensions) []
    let st ← packTensor dimensions coordinates values 0 numCoordinates format 0
      { indices := indices, values := [] }
    let index ← copyIndices dimensions format st.indices (List.range numDimensions)
    pure { format := format, index := index, values := st.values }
  else
    throw PackError.assertion

/-- An entry of the coordinate list: its coordinate tuple and its value. -/
abbrev Row (α : Type) := List Int × α

/-- The entries at positions `[b, e)` of the coordinate list, as rows. -/
def rowsOf {α : Type} [Zero α] (coords : List (List Int)) (vals : List α) (b e : Nat) :
    List (Row α) :=
  (List.range' b (e - b)).map (fun p => (coords.map (fun col => col.getD p 0), vals.getD p 0))

/-- The coordinate of a row at level `i`. -/
def headAt {α : Type} (i : Nat) (r : Row α) : Int := r.1.getD i 0

/-- What a call of `packTensor` appends: per level the entries added to `pos`
(each as the number of `idx` entries written since the start of the call) and to
`idx`, and the values added. -/
structure Delta (α : Type) where
  pos : Nat → List Nat
  idx : Nat → List Int
  values : List α

/-- Nothing appended. -/
def Delta.empty {α : Type} : Delta α := ⟨fun _ => [], fun _ => [], []⟩

/-- The appends of `a` followed by those of `b`. -/
def Delta.append {α : Type} (a b : Delta α) : Delta α :=
  ⟨fun k => a.pos k ++ (b.pos k).map (fun c => (a.idx k).length + c),
   fun k => a.idx k ++ b.idx k,
   a.values ++ b.values⟩

/-- One `pos` entry and the `idx` entries `xs` appended at level `i`. -/
def Delta.level {α : Type} (i : Nat) (ps : List Nat) (xs : List Int) : Delta α :=
  ⟨fun k => if k = i then ps else [], fun k => if k = i then xs else [], []⟩

/-- One value appended. -/
def Delta.leaf {α : Type} (v : α) : Delta α := ⟨fun _ => [], fun _ => [], [v]⟩

/-- The index of one dimension after the appends `ps` to `pos` and `xs` to `idx`. -/
def applyIndex (index : List (List Int)) (ps : List Nat) (xs : List Int) : List (List Int) :=
  match index with
  | pos :: idx :: rest =>
    (pos ++ ps.map (fun (c : Nat) => toInt ((idx.length + c : Nat) : Int))) :: (idx ++ xs) :: rest
  | other => other

/-- The index arrays from level `k` on after the appends of `d`. -/
def applyFrom {α : Type} (d : Delta α) : Nat → Indices → Indices
  | _, [] => []
  | k, index :: rest => applyIndex index (d.pos k) (d.idx k) :: applyFrom d (k + 1) rest

/-- The state after the appends of `d`. -/
def applyDelta {α : Type} (st : PackState α) (d : Delta α) : PackState α :=
  { indices := applyFrom d 0 st.indices, values := st.values ++ d.values }

/-- The loop `packSegments` on rows: the segment of `j` is the longest initial
run of rows whose level-`i` coordinate is `j`. -/
def packSegs {α : Type} (i : Nat) (child : List (Row α) → Result (Delta α)) :
    List Int → List (Row α) → Result (List (Row α) × Delta α)
  | [], rows => pure (rows, Delta.empty)
  | j :: js, rows => do
    let d ← child (rows.takeWhile (fun r => headAt i r = j))
    let r ← packSegs i child js (rows.dropWhile (fun r => headAt i r = j))
    pure (r.1, d.append r.2)

/-- The loop `fixedPad` on rows. -/
def padRows {α : Type} (i : Nat) (indexValues : List Nat) (segmentSize : Int)
    (child : List (Row α) → Result (Delta α)) : Nat → Result (Delta α)
  | 0 => pure Delta.empty
  | n + 1 => do
    let last ← if segmentSize > 0 then at? indexValues (toSizeT (segmentSize - 1)) else pure 0
    let d ← child []
    let r ← padRows i indexValues segmentSize child n
    pure ((Delta.level i [] [toInt last]).append (d.append r))

/-- The value appended at a leaf for the segment `seg`. -/
def leafValue {α : Type} [Zero α] (seg : List (Row α)) : α :=
  match seg with
  | [] => 0
  | r :: _ => r.2

/-- The function `packTensor` on rows: what the call at level `i` on the entries
`rows` appends, `caps k` being `pos[0]` of the Fixed level `k`. -/
def packRows {α : Type} [Zero α] (dims : List Int) (caps : Nat → Int)
    (dimTypes : List DimensionType) : Nat → Nat → List (Row α) → Result (Delta α)
  | 0, _, _ => throw PackError.outOfRange
  | fuel + 1, i, rows => do
    let dimType ← at? dimTypes i
    let child : List (Row α) → Result (Delta α) := fun seg =>
      if i + 1 == dimTypes.length then pure (Delta.leaf (leafValue seg))
      else packRows dims caps dimTypes fuel (i + 1) seg
    match dimType with
    | DimensionType.Dense => do
      let d ← at? dims i
      let r ← packSegs i child ((List.range d.toNat).map Int.ofNat) rows
      pure r.2
    | DimensionType.Sparse => do
      let indexValues ← getUniqueEntries (rows.map (headAt i))
      let js := indexValues.map (fun (j : Nat) => toInt j)
      let r ← packSegs i child js rows
      pure ((Delta.level i [indexValues.length] js).append r.2)
    | DimensionType.Fixed => do
      let indexValues ← getUniqueEntries (rows.map (headAt i))
      let segmentSize := toInt indexValues.length
      let js := indexValues.map (fun (j : Nat) => toInt j)
      let r ←
        if segmentSize > 0 then do
          let r ← packSegs i child js rows
          pure (r.1, (Delta.level i [] js).append r.2)
        else pure (rows, Delta.empty)
      let p ← padRows i indexValues segmentSize child (caps i - segmentSize).toNat
      pure (r.2.append p)

/-- The index arrays have the shape `packTensor` relies on: one index per
level, two arrays at each Sparse or Fixed level, and the capacity `caps k` in
`pos[0]` of each Fixed level `k`. -/
def Shape (dimTypes : List DimensionType) (caps : Nat → Int) (indices : Indices) : Prop :=
  dimTypes.length ≤ indices.length ∧
  ∀ k index, indices[k]? = some index →
    (dimTypes[k]? = some DimensionType.Sparse → ∃ pos idx rest, index = pos :: idx :: rest) ∧
    (dimTypes[k]? = some DimensionType.Fixed →
      ∃ c idx rest, index = (caps k :: c) :: idx :: rest)

/-- The index record `pack` creates for a dimension of kind `t` before packing,
`cap` being the capacity of a Fixed dimension. -/
def initIndex (t : DimensionType) (cap : Int) : List (List Int) :=
  match t with
  | DimensionType.Dense => []
  | DimensionType.Sparse => [[0], []]
  | DimensionType.Fixed => [[cap], []]

/-- The index records of the dimensions `k, k+1, ...` of kinds `ts`. -/
def initFrom (caps : Nat → Int) : Nat → List DimensionType → Indices
  | _, [] => []
  | k, t :: ts => initIndex t (caps k) :: initFrom caps (k + 1) ts

/-- The capacity `pack` stores for level `i`: the result of `findMaxFixedValue`
converted to `size_t` and back to `int` (0 where the pre-pass fails). -/
def capsOf (dims : List Int) (coords : List (List Int)) (order numCoords : Nat) (i : Nat) : Int :=
  match findMaxFixedValue dims coords order i 0 numCoords with
  | Except.ok r => toInt (toSizeT r)
  | Except.error _ => 0

/-- The index of dimension `i` as `pack` copies it into the Storage. -/
def storedIndex (dims : List Int) (format : List DimensionType) (indices : Indices) (i : Nat) :
    List (List Int) :=
  match format.getD i DimensionType.Dense with
  | DimensionType.Dense => [[dims.getD i 0]]
  | _ => [(indices.getD i []).getD 0 [], (indices.getD i []).getD 1 []]

/-- The Storage `pack` returns when `packTensor` appends `d` to the initial
index records. -/
def storageOf {α : Type} (dims : List Int) (format : List DimensionType) (caps : Nat → Int)
    (d : Delta α) : Storage α :=
  { format := format,
    index := (List.range format.length).map
      (storedIndex dims format (applyFrom d 0 (initFrom caps 0 format))),
    values := d.values }

/-- The coordinate tuples of the entries at positions `[0, n)`. -/
def tuplesOf (coords : List (List Int)) (n : Nat) : List (List Int) :=
  (List.range' 0 n).map (fun p => coords.map (fun col => col.getD p 0))

/-- The coordinate sequences (one per dimension, `order` of them) of a list of
coordinate tuples. -/
def columnsOf (order : Nat) (tuples : List (List Int)) : List (List Int) :=
  (List.range order).map (fun k => tuples.map (fun t => t.getD k 0))

/-- The rows that remain when, of each run of consecutive entries with the same
coordinate tuple, only the first entry (and its value) is kept. -/
def dedupRows {α : Type} (rows : List (Row α)) : List (Row α) :=
  rows.destutter (fun a b => a.1 ≠ b.1)

/-- The coordinate sequences of the input without its duplicate entries. -/
def dedupCoordinates {α : Type} [Zero α] (coords : List (List Int)) (vals : List α) :
    List (List Int) :=
  columnsOf coords.length ((dedupRows (rowsOf coords vals 0 vals.length)).map (fun r => r.1))

/-- The value sequence of the input without its duplicate entries. -/
def dedupValues {α : Type} [Zero α] (coords : List (List Int)) (vals : List α) : List α :=
  (dedupRows (rowsOf coords vals 0 vals.length)).map (fun r => r.2)

/-- The rows are well-formed entries of a segment at level `i` of a tensor of
order `n`: every tuple has `n` non-negative `int` coordinates, all tuples agree
on the levels before `i`, and the tuples are in (non-strict) lexicographic
order. -/
def RowsOk {α : Type} (n i : Nat) (rows : List (Row α)) : Prop :=
  (∀ r ∈ rows, r.1.length = n ∧ ∀ x ∈ r.1, 0 ≤ x ∧ IsInt x) ∧
  (∀ a ∈ rows, ∀ b ∈ rows, a.1.take i = b.1.take i) ∧
  (rows.map (fun r => r.1)).Sorted (· ≤ ·)

/-- One iteration of the frequency loop of `findMaxFixedValue` on the
coordinate `c` (the body of `countRuns`). -/
def runStep (s : RunState) (c : Int) : RunState :=
  if c = s.coordCur then { s with sizeCur := s.sizeCur + 1 }
  else { recordRun s with sizeCur := 1, coordCur := c }

/-- The number of distinct level-`f` coordinates among the tuples whose first
`f` coordinates are `p`. -/
def distinctUnder (tuples : List (List Int)) (f : Nat) (p : List Int) : Nat :=
  ((tuples.filter (fun t => t.take f = p)).map (fun t => t.getD f 0)).dedup.length

/-- The maximum, over the prefixes `(c_0, ..., c_(f-1))` that occur in the
tuples, of the number of distinct level-`f` coordinates under the prefix. -/
def trueCapacity (tuples : List (List Int)) (f : Nat) : Nat :=
  ((tuples.map (List.take f)).map (distinctUnder tuples f)).foldr max 0

/-- The frequency loop has recorded the runs of `pre`: `maxSize` is the largest
number of occurrences of a value of `pre` and `maxCoords` holds the values that
occur that often. -/
def RunsDone (pre : List Int) (maxSize : Nat) (maxCoords : List Int) : Prop :=
  (∀ x ∈ pre, pre.count x ≤ maxSize) ∧
  (∀ x ∈ pre, pre.count x = maxSize → x ∈ maxCoords) ∧
  (∀ m ∈ maxCoords, m ∈ pre ∧ pre.count m = maxSize) ∧
  (maxSize = 0 ∨ maxCoords ≠ [])

/-- The tuples are the entries of a segment at level `i` of a coordinate list
of `order` dimensions: every tuple has `order` non-negative `int` coordinates,
all tuples agree on the levels before `i`, and the tuples are in (non-strict)
lexicographic order. -/
def TuplesOk (order i : Nat) (T : List (List Int)) : Prop :=
  (∀ t ∈ T, t.length = order ∧ ∀ x ∈ t, 0 ≤ x ∧ IsInt x) ∧
  (∀ a ∈ T, ∀ b ∈ T, a.take i = b.take i) ∧
  T.Sorted (· ≤ ·)

/-! ## `packTensor` with a record of its calls and loop iterations -/

/-- What a run of `packTensor` does besides changing the indices and values: it
enters a call of `packTensor` at a level (with the number of calls it is nested
in), it starts an iteration of the loop over the index values of a level, or it
starts an iteration of the padding loop of a Fixed level. -/
inductive Event where
  | call (level depth : Nat) : Event
  | iter (level : Nat) : Event
  | pad (level : Nat) : Event
  deriving DecidableEq, Repr

/-- The level an event belongs to. -/
def Event.level : Event → Nat
  | Event.call k _ => k
  | Event.iter k => k
  | Event.pad k => k

/-- A computation that may fail, together with the events recorded until it
returned or failed. -/
structure Traced (β : Type) where
  outcome : Result β
  events : List Event

/-- What the computation returned, or how it failed. -/
def Traced.result {β : Type} : Traced β → Result β
  | ⟨r, _⟩ => r

/-- The events the computation recorded, in order. -/
def Traced.log {β : Type} : Traced β → List Event
  | ⟨_, l⟩ => l

/-- A computation that records nothing. -/
def Traced.lift {β : Type} (r : Result β) : Traced β := ⟨r, []⟩

/-- Record one event. -/
def Traced.tell (ev : Event) : Traced Unit := ⟨Except.ok (), [ev]⟩

/-- Sequencing: the events of the first computation, then (unless it failed)
those of the second. -/
def Traced.bind {β γ : Type} (x : Traced β) (f : β → Traced γ) : Traced γ :=
  match x with
  | ⟨Except.error e, l⟩ => ⟨Except.error e, l⟩
  | ⟨Except.ok b, l⟩ => ⟨(f b).result, l ++ (f b).log⟩

instance : Monad Traced where
  pure x := ⟨Except.ok x, []⟩
  bind := Traced.bind

/-- The macro `PACK_NEXT_LEVEL(cend)` of the recorded run. -/
def packNextLevelT {α : Type} [Zero α] (vals : List α) (leaf : Bool)
    (next : Nat → Nat → PackState α → Traced (PackState α))
    (cbegin cend : Nat) (st : PackState α) : Traced (PackState α) :=
  if leaf then
    if cbegin < cend then do
      let v ← Traced.lift (at? vals cbegin)
      pure { st with values := st.values ++ [v] }
    else
      pure { st with values := st.values ++ [0] }
  else
    next cbegin cend st

/-- The loop over the index values of level `i` of the recorded run: every
iteration is recorded. -/
def packSegmentsT {α : Type} (i : Nat) (levelCoords : List Int) (end_ : Nat)
    (pnl : Nat → Nat → PackState α → Traced (PackState α)) :
    List Int → Nat → PackState α → Traced (Nat × PackState α)
  | [], cbegin, st => pure (cbegin, st)
  | j :: js, cbegin, st => do
    Traced.tell (Event.iter i)
    let cend ← Traced.lift (scan levelCoords end_ j (end_ - cbegin) cbegin)
    let st ← pnl cbegin cend st
    packSegmentsT i levelCoords end_ pnl js cend st

/-- The padding loop of the Fixed case of the recorded run: every iteration is
recorded. -/
def fixedPadT {α : Type} (i : Nat) (indexValues : List Nat) (segmentSize : Int)
    (pnl : Nat → Nat → PackState α → Traced (PackState α)) (cbegin : Nat) :
    Nat → PackState α → Traced (PackState α)
  | 0, st => pure st
  | n + 1, st => do
    Traced.tell (Event.pad i)
    let last ← Traced.lift
      (if segmentSize > 0 then at? indexValues (toSizeT (segmentSize - 1)) else pure 0)
    let indices ← Traced.lift (appendArray st.indices i 1 [toInt last])
    let st ← pnl cbegin cbegin { st with indices := indices }
    fixedPadT i indexValues segmentSize pnl cbegin n st

/-- The Fixed case of `packTensor` of the recorded run, from the line that sets
`segmentSize` on (lines 101-124): the loop over the index values, then the
padding loop. -/
def packFixedT {α : Type} (i : Nat) (levelCoords : List Int) (begin_ end_ : Nat)
    (pnl : Nat → Nat → PackState α → Traced (PackState α)) (indexValues : List Nat)
    (segmentSize fixedValue : Int) (st : PackState α) : Traced (PackState α) := do
  let r ←
    if segmentSize > 0 then do
      let indices ← Traced.lift
        (appendArray st.indices i 1 (indexValues.map (fun (j : Nat) => toInt j)))
      packSegmentsT i levelCoords end_ pnl
        (indexValues.map (fun (j : Nat) => toInt j)) begin_ { st with indices := indices }
    else pure (begin_, st)
  fixedPadT i indexValues segmentSize pnl r.1 (fixedValue - segmentSize).toNat r.2

/-- The body of `packTensor` of the recorded run: the entry of the call is
recorded with its level `i` and its nesting depth, and a recursive call is one
level further and one call deeper.  The first argument is
`dimTypes.size() - i`. -/
def packTensorAuxT {α : Type} [Zero α] (dims : List Int) (coords : List (List Int))
    (vals : List α) (dimTypes : List DimensionType) :
    Nat → Nat → Nat → Nat → Nat → PackState α → Traced (PackState α)
  | 0, _, _, i, depth, _ => do
    Traced.tell (Event.call i depth)
    Traced.lift (throw PackError.outOfRange)
  | fuel + 1, begin_, end_, i, depth, st => do
    Traced.tell (Event.call i depth)
    let dimType ← Traced.lift (at? dimTypes i)
    let levelCoords ← Traced.lift (at? coords i)
    let _ ← Traced.lift (at? st.indices i)
    let pnl := packNextLevelT vals (i + 1 == dimTypes.length)
      (fun b e s => packTensorAuxT dims coords vals dimTypes fuel b e (i + 1) (depth + 1) s)
    match dimType with
    | DimensionType.Dense => do
      let d ← Traced.lift (at? dims i)
      let r ← packSegmentsT i levelCoords end_ pnl
        ((List.range d.toNat).map Int.ofNat) begin_ st
      pure r.2
    | DimensionType.Sparse => do
      let seg ← Traced.lift (range? levelCoords begin_ end_)
      let indexValues ← Traced.lift (getUniqueEntries seg)
      let idx ← Traced.lift (getArray st.indices i 1)
      let indices ← Traced.lift
        (appendArray st.indices i 0 [toInt (idx.length + indexValues.length)])
      let indices ← Traced.lift
        (appendArray indices i 1 (indexValues.map (fun (j : Nat) => toInt j)))
      let r ← packSegmentsT i levelCoords end_ pnl
        (indexValues.map (fun (j : Nat) => toInt j)) begin_ { st with indices := indices }
      pure r.2
    | DimensionType.Fixed => do
      let pos ← Traced.lift (getArray st.indices i 0)
      let fixedValue ← Traced.lift (at? pos 0)
      let seg ← Traced.lift (range? levelCoords begin_ end_)
      let indexValues ← Traced.lift (getUniqueEntries seg)
      packFixedT i levelCoords begin_ end_ pnl indexValues (toInt indexValues.length)
        fixedValue st

/-- The recorded run of `packTensor`, entered at nesting depth 0. -/
def packTensorT {α : Type} [Zero α] (dims : List Int) (coords : List (List Int))
    (vals : List α) (begin_ end_ : Nat) (dimTypes : List DimensionType) (i : Nat)
    (st : PackState α) : Traced (PackState α) :=
  packTensorAuxT dims coords vals dimTypes (dimTypes.length - i) begin_ end_ i 0 st

/-- The event can be recorded by a call of `packTensor` at level `i` and nesting
depth `depth`, for a format of order `n`: its level is at least `i` and below
`n`, and a call it records is as many calls deeper as it is levels further. -/
def Event.Within (n i depth : Nat) : Event → Prop
  | Event.call k d => i ≤ k ∧ k < n ∧ d + i = depth + k
  | Event.iter k => i ≤ k ∧ k < n
  | Event.pad k => i ≤ k ∧ k < n

/-- Every row has `n` coordinates, all of them non-negative `int` values. -/
def RowsWf {α : Type} (n : Nat) (rows : List (Row α)) : Prop :=
  ∀ r ∈ rows, r.1.length = n ∧ ∀ x ∈ r.1, 0 ≤ x ∧ IsInt x

/-- The row-major position of the tuple `t` in a dense array of the sizes `ds`:
`(...((t_0*d_1 + t_1)*d_2 + t_2)...)*d_(n-1) + t_(n-1)`. -/
def rowMajor (ds t : List Nat) : Nat :=
  (ds.zip t).foldl (fun acc p => acc * p.1 + p.2) 0

/-- The value the input stores at the coordinate tuple `t`: the value of the
first entry with these coordinates, and 0 when no entry has them. -/
def valueAt {α : Type} [Zero α] (rows : List (Row α)) (t : List Int) : α :=
  match rows.find? (fun r => decide (r.1 = t)) with
  | some r => r.2
  | none => 0

/-- The row has the coordinates `t` at the levels `i, i+1, ...`. -/
def matchFrom {α : Type} : Nat → List Nat → Row α → Bool
  | _, [], _ => true
  | i, x :: t, r => decide (headAt i r = (x : Int)) && matchFrom (i + 1) t r

/-- The dense expansion of the rows from level `i` on, for the sizes `ds` of the
levels `i, i+1, ...`: one block per index value of level `i`, and at the end
one value per tuple. -/
def denseValues {α : Type} [Zero α] : List Nat → Nat → List (Row α) → List α
  | [], _, rows => [leafValue rows]
  | d :: ds, i, rows =>
    (List.range' 0 d).flatMap (fun (j : Nat) =>
      denseValues ds (i + 1) (rows.filter (fun r => decide (headAt i r = (j : Int)))))

/-- The input entries of row `r` of a matrix, in input order: those whose level-0
coordinate is `r`. -/
def rowEntries {α : Type} (rows : List (Row α)) (r : Int) : List (Row α) :=
  rows.filter (fun e => decide (headAt 0 e = r))

/-- The running sums `acc + c_0, acc + c_0 + c_1, ...` of the counts `c_0, c_1, ...`. -/
def runningSums : List Nat → Nat → List Nat
  | [], _ => []
  | c :: cs, acc => (acc + c) :: runningSums cs (acc + c)

/-- The distinct coordinate prefixes of length `k` of the rows. -/
def prefixesOf {α : Type} (k : Nat) (rows : List (Row α)) : List (List Int) :=
  (rows.map (fun r => r.1.take k)).dedup

/-- The distinct level-`k` coordinates of the rows whose first `k` coordinates
are `p`. -/
def segmentAt {α : Type} (k : Nat) (rows : List (Row α)) (p : List Int) : List Int :=
  ((rows.filter (fun r => decide (r.1.take k = p))).map (headAt k)).dedup

/-- The parent segments of level `k` of a coordinate list, each given by its
coordinate prefix: the single root segment (the empty prefix) at level 0, and
the distinct prefixes `(c_0, ..., c_(k-1))` that occur in the tuples at a level
`k > 0`. -/
def parentPrefixes (tuples : List (List Int)) (k : Nat) : List (List Int) :=
  if k = 0 then [[]] else (tuples.map (List.take k)).dedup

/-! # Theorems -/

/-! ## Integer conversions -/

theorem toSizeT_of_nonneg {x : Int} (h0 : 0 ≤ x) (h1 : x < 2 ^ 64) : toSizeT x = x.toNat := by
  unfold toSizeT
  rw [Int.emod_eq_of_lt h0 h1]

theorem toSizeT_natCast {n : Nat} (h : n < 2 ^ 64) : toSizeT (n : Int) = n := by
  rw [toSizeT_of_nonneg (by positivity) (by exact_mod_cast h)]
  simp

theorem toInt_of_isInt {x : Int} (h : IsInt x) : toInt x = x := by
  unfold IsInt at h
  unfold toInt
  split <;> omega

theorem isInt_toInt (x : Int) : IsInt (toInt x) := by
  unfold IsInt toInt
  split <;> omega

theorem toInt_toSizeT {x : Int} (h : IsInt x) : toInt (toSizeT x) = x := by
  unfold IsInt at h
  unfold toInt toSizeT
  rw [Int.toNat_of_nonneg (Int.emod_nonneg _ (by norm_num))]
  split <;> omega

theorem toSizeT_le_iff {x y : Int} (hx0 : 0 ≤ x) (hx : IsInt x) (hy0 : 0 ≤ y) (hy : IsInt y) :
    toSizeT x ≤ toSizeT y ↔ x ≤ y := by
  unfold IsInt at hx hy
  rw [toSizeT_of_nonneg hx0 (by omega), toSizeT_of_nonneg hy0 (by omega)]
  omega

/-! ## getUniqueEntries -/

theorem getUniqueEntriesLoop_eq (l : List Int) : ∀ (curr : Nat) (init : List Nat),
    getUniqueEntriesLoop curr (init ++ [curr]) l =
      if List.Chain (· ≤ ·) curr (l.map toSizeT) then
        Except.ok (init ++ List.destutter' (· ≠ ·) curr (l.map toSizeT))
      else Except.error PackError.assertion := by
  induction l with
  | nil => intro curr init; simp [getUniqueEntriesLoop, pure, Except.pure]
  | cons x rest ih =>
    intro curr init
    simp only [getUniqueEntriesLoop, List.map_cons, List.chain_cons]
    by_cases h1 : toSizeT x ≥ curr
    · by_cases h2 : curr < toSizeT x
      · have hne : curr ≠ toSizeT x := by omega
        rw [if_pos h1, if_pos h2, ih (toSizeT x) (init ++ [curr])]
        rw [List.destutter'_cons_pos _ hne]
        simp [h1]
      · have he : curr = toSizeT x := by omega
        rw [if_pos h1, if_neg h2, ih curr init]
        rw [List.destutter'_cons_neg _ (by simpa using he)]
        simp [← he]
    · rw [if_neg h1]
      simp [h1, throw, throwThe, MonadExceptOf.throw]

theorem getUniqueEntries_eq (l : List Int) :
    getUniqueEntries l =
      if List.Chain' (· ≤ ·) (l.map toSizeT) then
        Except.ok (List.destutter (· ≠ ·) (l.map toSizeT))
      else Except.error PackError.assertion := by
  cases l with
  | nil => simp [getUniqueEntries, pure, Except.pure]
  | cons x rest =>
    have := getUniqueEntriesLoop_eq rest (toSizeT x) []
    simpa [getUniqueEntries, List.Chain'] using this


theorem destutter'_map_of_injOn {β γ : Type} [DecidableEq β] [DecidableEq γ] (f : β → γ)
    (l : List β) : ∀ (a : β), (∀ x ∈ a :: l, ∀ y ∈ a :: l, f x = f y → x = y) →
    List.destutter' (· ≠ ·) (f a) (l.map f) = (List.destutter' (· ≠ ·) a l).map f := by
  induction l with
  | nil => intro a _; simp
  | cons b l ih =>
    intro a hinj
    have hb : ∀ x ∈ b :: l, ∀ y ∈ b :: l, f x = f y → x = y := fun x hx y hy =>
      hinj x (List.mem_cons_of_mem _ hx) y (List.mem_cons_of_mem _ hy)
    have ha : ∀ x ∈ a :: l, ∀ y ∈ a :: l, f x = f y → x = y := by
      intro x hx y hy
      apply hinj
      · rcases List.mem_cons.1 hx with h | h
        · simp [h]
        · simp [h]
      · rcases List.mem_cons.1 hy with h | h
        · simp [h]
        · simp [h]
    by_cases hab : a = b
    · subst hab
      rw [List.map_cons, List.destutter'_cons_neg _ (by simp), List.destutter'_cons_neg _ (by simp)]
      exact ih a hb
    · have hfab : f a ≠ f b := fun h => hab (hinj a (by simp) b (by simp) h)
      rw [List.map_cons, List.destutter'_cons_pos _ hfab, List.destutter'_cons_pos _ hab,
        List.map_cons, ih b hb]

theorem destutter_map_of_injOn {β γ : Type} [DecidableEq β] [DecidableEq γ] (f : β → γ)
    (l : List β) (hinj : ∀ x ∈ l, ∀ y ∈ l, f x = f y → x = y) :
    List.destutter (· ≠ ·) (l.map f) = (List.destutter (· ≠ ·) l).map f := by
  cases l with
  | nil => simp
  | cons a l => simpa [List.destutter] using destutter'_map_of_injOn f l a hinj

theorem destutter_ne_eq_dedup {β : Type} [LinearOrder β] :
    ∀ (l : List β), l.Sorted (· ≤ ·) → List.destutter (· ≠ ·) l = l.dedup
  | [], _ => by simp
  | [a], _ => by simp
  | a :: b :: l, h => by
    have hs : (b :: l).Sorted (· ≤ ·) := h.of_cons
    have ih := destutter_ne_eq_dedup (b :: l) hs
    have hab : a ≤ b := List.rel_of_sorted_cons h b (by simp)
    by_cases e : a = b
    · subst e
      rw [List.dedup_cons_of_mem (by simp), ← ih]
      simp [List.destutter]
    · have hlt : a < b := lt_of_le_of_ne hab e
      have hnot : a ∉ b :: l := by
        intro hm
        have := List.rel_of_sorted_cons hs
        rcases List.mem_cons.1 hm with h1 | h1
        · exact e h1
        · exact absurd (this a h1) (not_le.2 hlt)
      rw [List.dedup_cons_of_not_mem hnot, ← ih]
      show List.destutter' (· ≠ ·) a (b :: l) = a :: List.destutter' (· ≠ ·) b l
      exact List.destutter'_cons_pos _ e

theorem map_toSizeT_eq {l : List Int} (h : ∀ x ∈ l, 0 ≤ x ∧ IsInt x) :
    l.map toSizeT = l.map Int.toNat := by
  apply List.map_congr_left
  intro x hx
  have := h x hx
  unfold IsInt at this
  exact toSizeT_of_nonneg this.1 (by omega)

theorem chain'_toNat_iff : ∀ {l : List Int}, (∀ x ∈ l, 0 ≤ x) →
    (List.Chain' (· ≤ ·) (l.map Int.toNat) ↔ l.Sorted (· ≤ ·))
  | [], _ => by simp
  | [a], _ => by simp
  | a :: b :: l, h => by
    have ih := chain'_toNat_iff (l := b :: l) (fun x hx => h x (List.mem_cons_of_mem _ hx))
    have ha := h a (by simp)
    have hb := h b (by simp)
    rw [List.map_cons, List.map_cons, List.chain'_cons, ← List.map_cons, ih]
    unfold List.Sorted
    rw [← List.chain'_iff_pairwise, ← List.chain'_iff_pairwise, List.chain'_cons]
    constructor
    · rintro ⟨h1, h2⟩; exact ⟨by omega, h2⟩
    · rintro ⟨h1, h2⟩; exact ⟨by omega, h2⟩

/-- On a non-decreasing range of non-negative coordinates, `getUniqueEntries`
returns its distinct values. -/
theorem getUniqueEntries_of_sorted {l : List Int} (hs : l.Sorted (· ≤ ·))
    (h : ∀ x ∈ l, 0 ≤ x ∧ IsInt x) :
    getUniqueEntries l = Except.ok (l.dedup.map Int.toNat) := by
  rw [getUniqueEntries_eq, map_toSizeT_eq h,
    if_pos ((chain'_toNat_iff (fun x hx => (h x hx).1)).2 hs)]
  rw [destutter_map_of_injOn, destutter_ne_eq_dedup l hs]
  intro x hx y hy hxy
  have := (h x hx).1
  have := (h y hy).1
  omega

/-- On a range of non-negative coordinates that is not non-decreasing,
`getUniqueEntries` fails its assertion. -/
theorem getUniqueEntries_of_not_sorted {l : List Int} (hs : ¬ l.Sorted (· ≤ ·))
    (h : ∀ x ∈ l, 0 ≤ x ∧ IsInt x) :
    getUniqueEntries l = Except.error PackError.assertion := by
  rw [getUniqueEntries_eq, map_toSizeT_eq h,
    if_neg (fun hc => hs ((chain'_toNat_iff (fun x hx => (h x hx).1)).1 hc))]

theorem not_sorted_iff_exists_descent (s : List Int) :
    ¬ s.Sorted (· ≤ ·) ↔
      ∃ (i j : Nat) (hij : i < j) (hj : j < s.length),
        s.get ⟨j, hj⟩ < s.get ⟨i, lt_trans hij hj⟩ := by
  unfold List.Sorted
  rw [List.pairwise_iff_getElem]
  constructor
  · intro h
    by_contra hc
    apply h
    intro i j hi hj hij
    by_contra hlt
    exact hc ⟨i, j, hij, hj, by simpa using hlt⟩
  · rintro ⟨i, j, hij, hj, hlt⟩ h
    have := h i j (lt_trans hij hj) hj hij
    simp only [List.get_eq_getElem] at hlt
    omega

/-- C6: on every non-decreasing sequence `s` of non-negative coordinates
`getUniqueEntries` succeeds; its result is strictly increasing, holds exactly the
values that occur in `s`, and is empty exactly when `s` is empty. -/
theorem getUniqueEntries_distinct_ascending (s : List Int) (hs : s.Sorted (· ≤ ·))
    (h : ∀ x ∈ s, 0 ≤ x ∧ IsInt x) :
    ∃ r : List Nat, getUniqueEntries s = Except.ok r ∧ r.Sorted (· < ·) ∧
      (∀ x : Int, x ∈ r.map Int.ofNat ↔ x ∈ s) ∧ (r = [] ↔ s = []) := by
  refine ⟨s.dedup.map Int.toNat, getUniqueEntries_of_sorted hs h, ?_, ?_, ?_⟩
  · have h1 : s.dedup.Sorted (· ≤ ·) := hs.sublist (List.dedup_sublist s)
    have h2 : s.dedup.Sorted (· < ·) := h1.lt_of_le (List.nodup_dedup s)
    unfold List.Sorted at h2 ⊢
    rw [List.pairwise_map]
    refine h2.imp_of_mem ?_
    intro a b ha hb hab
    have := (h a (List.mem_dedup.1 ha)).1
    have := (h b (List.mem_dedup.1 hb)).1
    omega
  · intro x
    simp only [List.map_map, List.mem_map, List.mem_dedup, Function.comp]
    constructor
    · rintro ⟨y, hy, rfl⟩
      have := (h y hy).1
      simpa [Int.toNat_of_nonneg this] using hy
    · intro hx
      exact ⟨x, hx, by simpa using (h x hx).1⟩
  · simp

/-- The two examples of the specification and an instance of
`getUniqueEntries_distinct_ascending`. -/
theorem getUniqueEntries_distinct_ascending_witness :
    getUniqueEntries [1, 1, 2, 2, 2, 5] = Except.ok [1, 2, 5] ∧
    getUniqueEntries [] = Except.ok [] ∧
    ∃ r : List Nat, getUniqueEntries [1, 1, 2, 2, 2, 5] = Except.ok r ∧ r.Sorted (· < ·) ∧
      (∀ x : Int, x ∈ r.map Int.ofNat ↔ x ∈ [1, 1, 2, 2, 2, 5]) ∧
      (r = [] ↔ ([1, 1, 2, 2, 2, 5] : List Int) = []) :=
  ⟨by decide, by decide,
    getUniqueEntries_distinct_ascending [1, 1, 2, 2, 2, 5] (by decide) (by decide)⟩

/-- C7: on a sequence `s` of non-negative coordinates `getUniqueEntries` fails
its assertion if and only if some later element of `s` is strictly less than an
earlier one, that is, if and only if `s` is not non-decreasing. -/
theorem getUniqueEntries_fails_iff_unsorted (s : List Int)
    (h : ∀ x ∈ s, 0 ≤ x ∧ IsInt x) :
    (getUniqueEntries s = Except.error PackError.assertion ↔
      ∃ (i j : Nat) (hij : i < j) (hj : j < s.length),
        s.get ⟨j, hj⟩ < s.get ⟨i, lt_trans hij hj⟩) ∧
    (getUniqueEntries s = Except.error PackError.assertion ↔ ¬ s.Sorted (· ≤ ·)) := by
  have key : getUniqueEntries s = Except.error PackError.assertion ↔ ¬ s.Sorted (· ≤ ·) := by
    constructor
    · intro he hs
      rw [getUniqueEntries_of_sorted hs h] at he
      cases he
    · intro hs
      exact getUniqueEntries_of_not_sorted hs h
  exact ⟨key.trans (not_sorted_iff_exists_descent s), key⟩

/-- The example of the specification, `[2,1]`, as an instance of
`getUniqueEntries_fails_iff_unsorted`. -/
theorem getUniqueEntries_fails_iff_unsorted_witness :
    getUniqueEntries [2, 1] = Except.error PackError.assertion ∧
    ¬ ([2, 1] : List Int).Sorted (· ≤ ·) :=
  ⟨(getUniqueEntries_fails_iff_unsorted [2, 1] (by decide)).2.2 (by decide), by decide⟩

/-! ## Appends to the index arrays -/

@[simp] theorem Delta.empty_pos {α : Type} (k : Nat) : (Delta.empty : Delta α).pos k = [] := rfl

@[simp] theorem Delta.empty_idx {α : Type} (k : Nat) : (Delta.empty : Delta α).idx k = [] := rfl

@[simp] theorem Delta.empty_values {α : Type} : (Delta.empty : Delta α).values = [] := rfl

@[simp] theorem Delta.append_empty {α : Type} (a : Delta α) : a.append Delta.empty = a := by
  cases a; simp [Delta.append, Delta.empty]

@[simp] theorem Delta.empty_append {α : Type} (a : Delta α) : Delta.empty.append a = a := by
  cases a; simp [Delta.append, Delta.empty]

theorem Delta.append_assoc {α : Type} (a b c : Delta α) :
    (a.append b).append c = a.append (b.append c) := by
  simp only [Delta.append, List.append_assoc, List.map_append, List.map_map, List.length_append,
    Delta.mk.injEq, and_true, true_and]
  funext k
  congr 2
  apply List.map_congr_left
  intro x _
  simp [Nat.add_assoc]

theorem applyIndex_cons_cons (pos idx : List Int) (rest : List (List Int)) (ps : List Nat)
    (xs : List Int) :
    applyIndex (pos :: idx :: rest) ps xs =
      (pos ++ ps.map (fun (c : Nat) => toInt ((idx.length + c : Nat) : Int))) ::
        (idx ++ xs) :: rest :=
  rfl

@[simp] theorem applyIndex_nil (index : List (List Int)) : applyIndex index [] [] = index := by
  match index with
  | [] => rfl
  | [_] => rfl
  | pos :: idx :: rest => rw [applyIndex_cons_cons, List.map_nil, List.append_nil, List.append_nil]

theorem map_add_shift (g : Int → Int) (L n : Nat) (ps : List Nat) :
    ps.map (fun (c : Nat) => g ((L + n + c : Nat) : Int)) =
      (ps.map (fun c => n + c)).map (fun (c : Nat) => g ((L + c : Nat) : Int)) := by
  rw [List.map_map]
  apply List.map_congr_left
  intro x _
  simp only [Function.comp]
  rw [Nat.add_assoc]

theorem applyIndex_applyIndex (index : List (List Int)) (ps ps' : List Nat) (xs xs' : List Int) :
    applyIndex (applyIndex index ps xs) ps' xs' =
      applyIndex index (ps ++ ps'.map (fun c => xs.length + c)) (xs ++ xs') := by
  match index with
  | [] => rfl
  | [_] => rfl
  | pos :: idx :: rest =>
    rw [applyIndex_cons_cons, applyIndex_cons_cons, applyIndex_cons_cons, List.map_append,
      List.append_assoc, List.append_assoc, List.length_append, map_add_shift toInt]

theorem applyFrom_applyFrom {α : Type} (a b : Delta α) (ind : Indices) : ∀ k,
    applyFrom b k (applyFrom a k ind) = applyFrom (a.append b) k ind := by
  induction ind with
  | nil => intro k; simp [applyFrom]
  | cons index rest ih =>
    intro k
    simp only [applyFrom, ih, applyIndex_applyIndex]
    simp [Delta.append]

theorem applyDelta_applyDelta {α : Type} (st : PackState α) (a b : Delta α) :
    applyDelta (applyDelta st a) b = applyDelta st (a.append b) := by
  simp only [applyDelta, applyFrom_applyFrom]
  simp [Delta.append]

theorem applyFrom_empty {α : Type} (ind : Indices) : ∀ k,
    applyFrom (Delta.empty : Delta α) k ind = ind := by
  induction ind with
  | nil => intro k; simp [applyFrom]
  | cons index rest ih => intro k; simp [applyFrom, ih]

@[simp] theorem applyDelta_empty {α : Type} (st : PackState α) :
    applyDelta st Delta.empty = st := by
  cases st
  simp [applyDelta, applyFrom_empty]

theorem length_applyFrom {α : Type} (d : Delta α) (ind : Indices) : ∀ k,
    (applyFrom d k ind).length = ind.length := by
  induction ind with
  | nil => intro k; simp [applyFrom]
  | cons index rest ih => intro k; simp [applyFrom, ih]

theorem getElem?_applyFrom {α : Type} (d : Delta α) (ind : Indices) : ∀ k m,
    (applyFrom d k ind)[m]? =
      (ind[m]?).map (fun index => applyIndex index (d.pos (k + m)) (d.idx (k + m))) := by
  induction ind with
  | nil => intro k m; simp [applyFrom]
  | cons index rest ih =>
    intro k m
    cases m with
    | zero => simp [applyFrom]
    | succ m =>
      simp only [applyFrom, List.getElem?_cons_succ, ih]
      have : k + 1 + m = k + (m + 1) := by omega
      rw [this]

theorem getElem?_applyDelta {α : Type} (st : PackState α) (d : Delta α) (m : Nat) :
    (applyDelta st d).indices[m]? =
      (st.indices[m]?).map (fun index => applyIndex index (d.pos m) (d.idx m)) := by
  simp [applyDelta, getElem?_applyFrom]

theorem applyFrom_level {α : Type} (i : Nat) (ps : List Nat) (xs : List Int) (ind : Indices)
    (index : List (List Int)) (h : ind[i]? = some index) :
    applyFrom (Delta.level i ps xs : Delta α) 0 ind = ind.set i (applyIndex index ps xs) := by
  apply List.ext_getElem?
  intro m
  rw [getElem?_applyFrom]
  by_cases hm : m = i
  · subst hm
    have hlt : m < ind.length := by
      rcases List.getElem?_eq_some_iff.1 h with ⟨hl, _⟩
      exact hl
    simp [Delta.level, h, List.getElem?_set, hlt]
  · have : i ≠ m := fun e => hm e.symm
    simp only [Delta.level, Nat.zero_add, hm, if_false, applyIndex_nil]
    rw [List.getElem?_set_ne this]
    simp

theorem Shape.applyDelta {α : Type} {dimTypes : List DimensionType} {caps : Nat → Int}
    {st : PackState α} (h : Shape dimTypes caps st.indices) (d : Delta α) :
    Shape dimTypes caps (storage.applyDelta st d).indices := by
  refine ⟨?_, ?_⟩
  · simpa [storage.applyDelta, length_applyFrom] using h.1
  · intro k index hk
    rw [getElem?_applyDelta] at hk
    cases ho : st.indices[k]? with
    | none => simp [ho] at hk
    | some old =>
      simp only [ho, Option.map_some', Option.some.injEq] at hk
      subst hk
      have := h.2 k old ho
      constructor
      · intro ht
        rcases this.1 ht with ⟨pos, idx, rest, rfl⟩
        exact ⟨_, _, _, rfl⟩
      · intro ht
        rcases this.2 ht with ⟨c, idx, rest, rfl⟩
        exact ⟨_, _, _, rfl⟩

/-! ## Refinement: `packTensor` on positions and `packRows` on rows -/

theorem at?_eq_ok {β : Type} {v : List β} {k : Nat} {x : β} (h : v[k]? = some x) :
    at? v k = Except.ok x := by
  unfold at?
  rw [h]
  rfl

theorem at?_eq_error {β : Type} {v : List β} {k : Nat} (h : v[k]? = none) :
    at? v k = Except.error PackError.outOfRange := by
  unfold at?
  rw [h]
  rfl

theorem at?_of_lt {β : Type} {v : List β} {k : Nat} (h : k < v.length) :
    at? v k = Except.ok (v.get ⟨k, h⟩) :=
  at?_eq_ok (by simp [List.getElem?_eq_getElem h])

theorem applyFrom_of_empty {α : Type} (d : Delta α) (hp : ∀ k, d.pos k = [])
    (hi : ∀ k, d.idx k = []) (ind : Indices) : ∀ k, applyFrom d k ind = ind := by
  induction ind with
  | nil => intro k; rfl
  | cons index rest ih =>
    intro k
    rw [applyFrom, hp, hi, applyIndex_nil, ih]

theorem applyDelta_leaf {α : Type} (st : PackState α) (v : α) :
    applyDelta st (Delta.leaf v) = { st with values := st.values ++ [v] } := by
  unfold applyDelta
  rw [applyFrom_of_empty _ (fun _ => rfl) (fun _ => rfl)]
  rfl

theorem length_rowsOf {α : Type} [Zero α] (coords : List (List Int)) (vals : List α)
    (b e : Nat) : (rowsOf coords vals b e).length = e - b := by
  simp [rowsOf]

theorem rowsOf_self {α : Type} [Zero α] (coords : List (List Int)) (vals : List α)
    (b : Nat) : rowsOf coords vals b b = [] := by
  simp [rowsOf]

theorem rowsOf_succ {α : Type} [Zero α] (coords : List (List Int)) (vals : List α)
    {b e : Nat} (h : b < e) :
    rowsOf coords vals b e =
      (coords.map (fun col => col.getD b 0), vals.getD b 0) :: rowsOf coords vals (b + 1) e := by
  unfold rowsOf
  have : e - b = (e - (b + 1)) + 1 := by omega
  rw [this, List.range'_succ, List.map_cons]

theorem rowsOf_append {α : Type} [Zero α] (coords : List (List Int)) (vals : List α)
    {b c e : Nat} (h1 : b ≤ c) (h2 : c ≤ e) :
    rowsOf coords vals b e = rowsOf coords vals b c ++ rowsOf coords vals c e := by
  unfold rowsOf
  rw [← List.map_append]
  congr 1
  have h3 : e - b = (e - c) + (c - b) := by omega
  have h4 : b + 1 * (c - b) = c := by omega
  have h5 := List.range'_append b (c - b) (e - c) 1
  rw [h4] at h5
  rw [h3, ← h5]

theorem headAt_row {α : Type} (coords : List (List Int)) (v : α) (i p : Nat)
    (lc : List Int) (h : coords[i]? = some lc) :
    headAt i (coords.map (fun col => col.getD p 0), v) = lc.getD p 0 := by
  unfold headAt
  simp [List.getD_eq_getElem?_getD, List.getElem?_map, h]

theorem map_headAt_rowsOf {α : Type} [Zero α] (coords : List (List Int)) (vals : List α)
    (i : Nat) (lc : List Int) (h : coords[i]? = some lc) (e : Nat) (he : e ≤ lc.length) :
    ∀ (n b : Nat), n = e - b → b ≤ e →
      (rowsOf coords vals b e).map (headAt i) = (lc.drop b).take (e - b) := by
  intro n
  induction n with
  | zero =>
    intro b hn hb
    have : b = e := by omega
    subst this
    simp [rowsOf_self]
  | succ n ih =>
    intro b hn hb
    have hlt : b < e := by omega
    have hbl : b < lc.length := by omega
    rw [rowsOf_succ coords vals hlt, List.map_cons, headAt_row coords _ i b lc h,
      ih (b + 1) (by omega) (by omega)]
    have h1 : e - b = (e - (b + 1)) + 1 := by omega
    rw [h1, List.drop_eq_getElem_cons hbl, List.take_succ_cons]
    simp [List.getD_eq_getElem?_getD, List.getElem?_eq_getElem hbl]

theorem scan_eq {α : Type} [Zero α] (coords : List (List Int)) (vals : List α)
    (i : Nat) (lc : List Int) (h : coords[i]? = some lc) (e : Nat) (he : e ≤ lc.length)
    (j : Int) : ∀ (fuel c : Nat), fuel = e - c → c ≤ e →
      scan lc e j fuel c =
        Except.ok (c + ((rowsOf coords vals c e).takeWhile (fun r => headAt i r = j)).length) := by
  intro fuel
  induction fuel with
  | zero =>
    intro c hf hc
    have : c = e := by omega
    subst this
    simp [scan, rowsOf_self, pure, Except.pure]
  | succ fuel ih =>
    intro c hf hc
    have hlt : c < e := by omega
    have hcl : c < lc.length := by omega
    rw [scan, if_pos hlt, at?_eq_ok (List.getElem?_eq_getElem hcl), rowsOf_succ coords vals hlt]
    have hh : headAt i (coords.map (fun col => col.getD c 0), vals.getD c 0) = lc[c] := by
      rw [headAt_row coords _ i c lc h]
      simp [List.getD_eq_getElem?_getD, List.getElem?_eq_getElem hcl]
    by_cases hj : lc[c] = j
    · have := ih (c + 1) (by omega) (by omega)
      simp only [bind, Except.bind, hj, if_true, this, List.takeWhile_cons, hh, decide_True,
        List.length_cons]
      congr 1
      omega
    · simp only [bind, Except.bind, hj, if_false, pure, Except.pure]
      rw [List.takeWhile_cons, hh]
      simp [hj]

theorem takeWhile_rowsOf {α : Type} [Zero α] (coords : List (List Int)) (vals : List α)
    (p : Row α → Bool) {c e : Nat} (hc : c ≤ e) :
    (rowsOf coords vals c e).takeWhile p =
      rowsOf coords vals c (c + ((rowsOf coords vals c e).takeWhile p).length) ∧
    (rowsOf coords vals c e).dropWhile p =
      rowsOf coords vals (c + ((rowsOf coords vals c e).takeWhile p).length) e ∧
    c + ((rowsOf coords vals c e).takeWhile p).length ≤ e := by
  have hlen : ((rowsOf coords vals c e).takeWhile p).length ≤ e - c := by
    have := (List.takeWhile_sublist p (l := rowsOf coords vals c e)).length_le
    rwa [length_rowsOf] at this
  have hle : c + ((rowsOf coords vals c e).takeWhile p).length ≤ e := by omega
  have hsplit := rowsOf_append coords vals (Nat.le_add_right c
    ((rowsOf coords vals c e).takeWhile p).length) hle
  have htd := List.takeWhile_append_dropWhile p (rowsOf coords vals c e)
  have hl1 : (rowsOf coords vals c (c + ((rowsOf coords vals c e).takeWhile p).length)).length =
      ((rowsOf coords vals c e).takeWhile p).length := by
    rw [length_rowsOf]; omega
  have key := List.append_inj (htd.trans hsplit) hl1.symm
  exact ⟨key.1, key.2, hle⟩

theorem packSegments_eq {α : Type} [Zero α] (coords : List (List Int)) (vals : List α)
    (i : Nat) (lc : List Int) (h : coords[i]? = some lc) (e : Nat) (he : e ≤ lc.length)
    (P : PackState α → Prop) (hP : ∀ st d, P st → P (applyDelta st d))
    (pnl : Nat → Nat → PackState α → Result (PackState α))
    (child : List (Row α) → Result (Delta α))
    (hpnl : ∀ c c' st, c ≤ c' → c' ≤ e → P st →
      pnl c c' st = Except.map (applyDelta st) (child (rowsOf coords vals c c'))) :
    ∀ (js : List Int) (c : Nat) (st : PackState α), c ≤ e → P st →
      packSegments lc e pnl js c st =
        Except.map (fun r => (e - r.1.length, applyDelta st r.2))
          (packSegs i child js (rowsOf coords vals c e)) := by
  intro js
  induction js with
  | nil =>
    intro c st hc _
    simp only [packSegments, packSegs, pure, Except.pure, Except.map, length_rowsOf,
      applyDelta_empty]
    congr 2
    omega
  | cons j js ih =>
    intro c st hc hst
    obtain ⟨h1, h2, h3⟩ := takeWhile_rowsOf coords vals (fun r => decide (headAt i r = j)) hc
    rw [packSegments, packSegs, scan_eq coords vals i lc h e he j (e - c) c rfl hc, h2]
    generalize hcend : c + ((rowsOf coords vals c e).takeWhile
      (fun r => decide (headAt i r = j))).length = cend at h1 h2 h3 ⊢
    rw [h1]
    simp only [bind, Except.bind]
    rw [hpnl c cend st (by omega) h3 hst]
    cases child (rowsOf coords vals c cend) with
    | error err => rfl
    | ok d =>
      simp only [Except.map]
      rw [ih cend (applyDelta st d) h3 (hP st d hst)]
      cases packSegs i child js (rowsOf coords vals cend e) with
      | error err => rfl
      | ok r =>
        simp only [Except.map, pure, Except.pure, applyDelta_applyDelta]

theorem appendArray_one (ind : Indices) (i : Nat) (pos idx : List Int) (rest : List (List Int))
    (xs : List Int) (h : ind[i]? = some (pos :: idx :: rest)) :
    appendArray ind i 1 xs = Except.ok (ind.set i (pos :: (idx ++ xs) :: rest)) := by
  unfold appendArray
  rw [at?_eq_ok h]
  simp only [bind, Except.bind]
  rw [at?_eq_ok (v := pos :: idx :: rest) (k := 1) (x := idx) (by simp)]
  rfl

theorem appendArray_zero (ind : Indices) (i : Nat) (pos idx : List Int) (rest : List (List Int))
    (xs : List Int) (h : ind[i]? = some (pos :: idx :: rest)) :
    appendArray ind i 0 xs = Except.ok (ind.set i ((pos ++ xs) :: idx :: rest)) := by
  unfold appendArray
  rw [at?_eq_ok h]
  simp only [bind, Except.bind]
  rw [at?_eq_ok (v := pos :: idx :: rest) (k := 0) (x := pos) (by simp)]
  rfl

theorem getArray_one (ind : Indices) (i : Nat) (pos idx : List Int) (rest : List (List Int))
    (h : ind[i]? = some (pos :: idx :: rest)) : getArray ind i 1 = Except.ok idx := by
  unfold getArray
  rw [at?_eq_ok h]
  simp only [bind, Except.bind]
  rw [at?_eq_ok (v := pos :: idx :: rest) (k := 1) (x := idx) (by simp)]

theorem getArray_zero (ind : Indices) (i : Nat) (pos idx : List Int) (rest : List (List Int))
    (h : ind[i]? = some (pos :: idx :: rest)) : getArray ind i 0 = Except.ok pos := by
  unfold getArray
  rw [at?_eq_ok h]
  simp only [bind, Except.bind]
  rw [at?_eq_ok (v := pos :: idx :: rest) (k := 0) (x := pos) (by simp)]

theorem appendArray_one_eq_applyFrom {α : Type} (ind : Indices) (i : Nat) (pos idx : List Int)
    (rest : List (List Int)) (xs : List Int) (h : ind[i]? = some (pos :: idx :: rest)) :
    appendArray ind i 1 xs = Except.ok (applyFrom (Delta.level i [] xs : Delta α) 0 ind) := by
  rw [appendArray_one ind i pos idx rest xs h, applyFrom_level i [] xs ind _ h,
    applyIndex_cons_cons, List.map_nil, List.append_nil]

theorem fixedPad_eq {α : Type}
    (i : Nat) (indexValues : List Nat) (segmentSize : Int)
    (P : PackState α → Prop) (hP : ∀ st d, P st → P (applyDelta st d))
    (hidx : ∀ st, P st → ∃ pos idx rest, st.indices[i]? = some (pos :: idx :: rest))
    (pnl : Nat → Nat → PackState α → Result (PackState α))
    (child : List (Row α) → Result (Delta α)) (cb : Nat)
    (hpnl : ∀ st, P st → pnl cb cb st = Except.map (applyDelta st) (child [])) :
    ∀ (n : Nat) (st : PackState α), P st →
      fixedPad i indexValues segmentSize pnl cb n st =
        Except.map (applyDelta st) (padRows i indexValues segmentSize child n) := by
  intro n
  induction n with
  | zero =>
    intro st _
    simp only [fixedPad, padRows, pure, Except.pure, Except.map, applyDelta_empty]
  | succ n ih =>
    intro st hst
    obtain ⟨pos, idx, rest, hi⟩ := hidx st hst
    have hk : ∀ last : Nat,
        (do
          let indices ← appendArray st.indices i 1 [toInt last]
          let st ← pnl cb cb { st with indices := indices }
          fixedPad i indexValues segmentSize pnl cb n st) =
        Except.map (applyDelta st) (do
          let d ← child []
          let r ← padRows i indexValues segmentSize child n
          pure ((Delta.level i [] [toInt last]).append (d.append r))) := by
      intro last
      rw [appendArray_one_eq_applyFrom (α := α) st.indices i pos idx rest _ hi]
      simp only [bind, Except.bind]
      have hst1 : PackState.mk (applyFrom (Delta.level i [] [toInt last] : Delta α) 0 st.indices)
          st.values = applyDelta st (Delta.level i [] [toInt last]) := by
        unfold applyDelta
        simp only [Delta.level, List.append_nil]
      rw [hst1, hpnl _ (hP st _ hst)]
      cases child [] with
      | error err => rfl
      | ok d =>
        simp only [Except.map]
        rw [ih _ (hP _ d (hP st _ hst))]
        cases padRows i indexValues segmentSize child n with
        | error err => rfl
        | ok r =>
          simp only [Except.map, pure, Except.pure, applyDelta_applyDelta, Delta.append_assoc]
    rw [fixedPad, padRows]
    by_cases hs : segmentSize > 0
    · simp only [hs, if_true]
      cases at? indexValues (toSizeT (segmentSize - 1)) with
      | error err => rfl
      | ok last => exact hk last
    · simp only [hs, if_false]
      exact hk 0

theorem packNextLevel_eq {α : Type} [Zero α] (coords : List (List Int)) (vals : List α)
    (leaf : Bool) (next : Nat → Nat → PackState α → Result (PackState α))
    (nextRows : List (Row α) → Result (Delta α)) (c c' : Nat) (st : PackState α)
    (hc : c ≤ c') (hv : c' ≤ vals.length)
    (hnext : leaf = false →
      next c c' st = Except.map (applyDelta st) (nextRows (rowsOf coords vals c c'))) :
    packNextLevel vals leaf next c c' st =
      Except.map (applyDelta st)
        (if leaf then pure (Delta.leaf (leafValue (rowsOf coords vals c c')))
          else nextRows (rowsOf coords vals c c')) := by
  unfold packNextLevel
  cases leaf with
  | false => simpa using hnext rfl
  | true =>
    simp only [if_true]
    by_cases hlt : c < c'
    · have hcl : c < vals.length := by omega
      rw [if_pos hlt, at?_eq_ok (List.getElem?_eq_getElem hcl), rowsOf_succ coords vals hlt]
      simp only [bind, Except.bind, pure, Except.pure, Except.map, leafValue, applyDelta_leaf]
      simp [List.getD_eq_getElem?_getD, List.getElem?_eq_getElem hcl]
    · have : c = c' := by omega
      subst this
      rw [if_neg hlt, rowsOf_self]
      simp only [pure, Except.pure, Except.map, leafValue, applyDelta_leaf]

theorem packTensorAux_eq {α : Type} [Zero α] (dims : List Int) (coords : List (List Int))
    (vals : List α) (dimTypes : List DimensionType) (caps : Nat → Int) (N : Nat)
    (hcoords : dimTypes.length ≤ coords.length) (hcols : ∀ col ∈ coords, N ≤ col.length)
    (hvals : N ≤ vals.length) :
    ∀ (fuel b e i : Nat) (st : PackState α), b ≤ e → e ≤ N → Shape dimTypes caps st.indices →
      packTensorAux dims coords vals dimTypes fuel b e i st =
        Except.map (applyDelta st)
          (packRows dims caps dimTypes fuel i (rowsOf coords vals b e)) := by
  intro fuel
  induction fuel with
  | zero => intro b e i st _ _ _; rfl
  | succ fuel ih =>
    intro b e i st hbe heN hsh
    rw [packTensorAux, packRows]
    cases hdt : dimTypes[i]? with
    | none => rw [at?_eq_error hdt]; rfl
    | some t =>
      have hi : i < dimTypes.length := (List.getElem?_eq_some_iff.1 hdt).1
      have hic : i < coords.length := by omega
      have hlc : coords[i]? = some coords[i] := List.getElem?_eq_getElem hic
      have hlcN : e ≤ (coords[i]).length := le_trans heN (hcols _ (List.getElem_mem hic))
      have hii : i < st.indices.length := by have := hsh.1; omega
      have hindex : st.indices[i]? = some st.indices[i] := List.getElem?_eq_getElem hii
      rw [at?_eq_ok hdt, at?_eq_ok hlc, at?_eq_ok hindex]
      simp only [bind, Except.bind]
      generalize hpnl_def : packNextLevel vals (i + 1 == dimTypes.length)
        (fun b e s => packTensorAux dims coords vals dimTypes fuel b e (i + 1) s) = pnl
      generalize hchild_def : (fun seg : List (Row α) =>
        if (i + 1 == dimTypes.length) = true then
          (pure (Delta.leaf (leafValue seg)) : Result (Delta α))
        else packRows dims caps dimTypes fuel (i + 1) seg) = child
      have hP : ∀ (s : PackState α) (d : Delta α), Shape dimTypes caps s.indices →
          Shape dimTypes caps (applyDelta s d).indices := fun s d hs => hs.applyDelta d
      have hpnl : ∀ c c' s, c ≤ c' → c' ≤ e → Shape dimTypes caps s.indices →
          pnl c c' s = Except.map (applyDelta s) (child (rowsOf coords vals c c')) := by
        intro c c' s hcc hce hs
        rw [← hpnl_def, ← hchild_def]
        exact packNextLevel_eq coords vals _ _ (packRows dims caps dimTypes fuel (i + 1)) c c' s
          hcc (by omega) (fun _ => ih c c' (i + 1) s hcc (by omega) hs)
      have hsegs : ∀ (js : List Int) (s : PackState α), Shape dimTypes caps s.indices →
          packSegments coords[i] e pnl js b s =
            Except.map (fun r => (e - r.1.length, applyDelta s r.2))
              (packSegs i child js (rowsOf coords vals b e)) := fun js s hs =>
        packSegments_eq coords vals i coords[i] hlc e hlcN
          (fun s => Shape dimTypes caps s.indices) hP pnl child hpnl js b s hbe hs
      have hseg : range? coords[i] b e = Except.ok ((rowsOf coords vals b e).map (headAt i)) := by
        unfold range?
        rw [if_pos ⟨hbe, hlcN⟩, map_headAt_rowsOf coords vals i coords[i] hlc e hlcN (e - b) b rfl hbe]
        rfl
      cases t with
      | Dense =>
        simp only []
        cases at? dims i with
        | error err => rfl
        | ok d =>
          simp only []
          rw [hsegs _ st hsh]
          cases packSegs i child (List.map Int.ofNat (List.range d.toNat))
              (rowsOf coords vals b e) with
          | error err => rfl
          | ok r => rfl
      | Sparse =>
        simp only []
        rw [hseg]
        simp only []
        cases getUniqueEntries (List.map (headAt i) (rowsOf coords vals b e)) with
        | error err => rfl
        | ok u =>
          simp only []
          obtain ⟨pos, idx, rest, hshape⟩ := (hsh.2 i _ hindex).1 hdt
          have hidx : st.indices[i]? = some (pos :: idx :: rest) := by rw [hindex, hshape]
          rw [getArray_one st.indices i pos idx rest hidx]
          simp only []
          rw [appendArray_zero st.indices i pos idx rest _ hidx]
          simp only []
          rw [appendArray_one _ i _ idx rest _ (by rw [List.getElem?_set_self hii])]
          simp only [List.set_set]
          have hst : PackState.mk (st.indices.set i
              ((pos ++ [toInt ((idx.length : Int) + (u.length : Int))]) ::
                (idx ++ List.map (fun (j : Nat) => toInt j) u) :: rest)) st.values =
              applyDelta st (Delta.level i [u.length] (List.map (fun (j : Nat) => toInt j) u)) := by
            unfold applyDelta
            rw [applyFrom_level i _ _ st.indices _ hidx, applyIndex_cons_cons, ← Nat.cast_add]
            simp only [Delta.level, List.append_nil, List.map_cons, List.map_nil]
          rw [hst, hsegs _ _ (hP st _ hsh)]
          cases packSegs i child (List.map (fun (j : Nat) => toInt j) u)
              (rowsOf coords vals b e) with
          | error err => rfl
          | ok r => simp only [Except.map, pure, Except.pure, applyDelta_applyDelta]
      | Fixed =>
        simp only []
        obtain ⟨c, idx, rest, hshape⟩ := (hsh.2 i _ hindex).2 hdt
        have hidx : st.indices[i]? = some ((caps i :: c) :: idx :: rest) := by
          rw [hindex, hshape]
        rw [getArray_zero st.indices i _ idx rest hidx]
        simp only []
        rw [at?_eq_ok (v := caps i :: c) (k := 0) (x := caps i) (by simp), hseg]
        simp only []
        cases getUniqueEntries (List.map (headAt i) (rowsOf coords vals b e)) with
        | error err => rfl
        | ok u =>
          simp only []
          have hpad : ∀ (cb : Nat) (s : PackState α), cb ≤ e → Shape dimTypes caps s.indices →
              fixedPad i u (toInt u.length) pnl cb (caps i - toInt u.length).toNat s =
                Except.map (applyDelta s)
                  (padRows i u (toInt u.length) child (caps i - toInt u.length).toNat) := by
            intro cb s hcb hs
            refine fixedPad_eq i u _ (fun s => Shape dimTypes caps s.indices) hP ?_ pnl child cb
              ?_ _ s hs
            · intro s1 hs1
              have hi1 : i < s1.indices.length := by have := hs1.1; omega
              obtain ⟨c1, idx1, rest1, h1⟩ :=
                (hs1.2 i _ (List.getElem?_eq_getElem hi1)).2 hdt
              exact ⟨_, _, _, (List.getElem?_eq_getElem hi1).trans (congrArg some h1)⟩
            · intro s1 hs1
              have := hpnl cb cb s1 (le_refl _) hcb hs1
              rwa [rowsOf_self] at this
          by_cases hs : toInt u.length > 0
          · simp only [hs, if_true]
            rw [appendArray_one_eq_applyFrom (α := α) st.indices i _ idx rest _ hidx]
            simp only [bind, Except.bind]
            have hst : PackState.mk (applyFrom (Delta.level i []
                (List.map (fun (j : Nat) => toInt j) u) : Delta α) 0 st.indices) st.values =
                applyDelta st (Delta.level i [] (List.map (fun (j : Nat) => toInt j) u)) := by
              unfold applyDelta
              simp only [Delta.level, List.append_nil]
            rw [hst, hsegs _ _ (hP st _ hsh)]
            cases packSegs i child (List.map (fun (j : Nat) => toInt j) u)
                (rowsOf coords vals b e) with
            | error err => rfl
            | ok r =>
              simp only [Except.map, pure, Except.pure]
              rw [hpad _ _ (Nat.sub_le _ _) (hP _ _ (hP st _ hsh))]
              cases padRows i u (toInt u.length) child (caps i - toInt u.length).toNat with
              | error err => rfl
              | ok p => simp only [Except.map, applyDelta_applyDelta]
          · simp only [hs, if_false, pure, Except.pure]
            rw [hpad b st hbe hsh]
            cases padRows i u (toInt u.length) child (caps i - toInt u.length).toNat with
            | error err => rfl
            | ok p => simp only [Except.map, Delta.empty_append]

/-! ## Claims on `pack` and `getUniqueEntries` that need no induction -/

/-- C12: `pack` rejects a dimension-count mismatch before doing any work: when
`dimensions.size() != format.getOrder()` it fails with the internal assertion,
whatever the coordinates and values are. -/
theorem pack_rejects_dimension_mismatch {α : Type} [Zero α] (dimensions : List Int)
    (format : List DimensionType) (coordinates : List (List Int)) (values : List α)
    (h : dimensions.length ≠ format.length) :
    pack dimensions format coordinates values = Except.error PackError.assertion := by
  unfold pack
  rw [if_neg h]
  rfl

/-- An instance of `pack_rejects_dimension_mismatch`: two dimension sizes with
a format of order one. -/
theorem pack_rejects_dimension_mismatch_witness :
    ([2, 2] : List Int).length ≠ [DimensionType.Dense].length ∧
    pack [2, 2] [DimensionType.Dense] [[0], [0]] ([5] : List Int) =
      Except.error PackError.assertion :=
  ⟨by decide, pack_rejects_dimension_mismatch [2, 2] [DimensionType.Dense] [[0], [0]] [5]
    (by decide)⟩

/-- C19: the sortedness assertion compares the coordinates after their
conversion to `size_t`: on the decreasing input `[0, -1]` `getUniqueEntries`
does not fail and returns `[0, 2^64 - 1]`, and on the non-decreasing input
`[-1, 0]` it fails its assertion. -/
theorem getUniqueEntries_negative_coordinates :
    getUniqueEntries [0, -1] = Except.ok [0, 2 ^ 64 - 1] ∧
    getUniqueEntries [-1, 0] = Except.error PackError.assertion ∧
    ¬ ([0, -1] : List Int).Sorted (· ≤ ·) ∧ ([-1, 0] : List Int).Sorted (· ≤ ·) := by
  refine ⟨by decide, by decide, by decide, by decide⟩

/-! ## `pack` in terms of `packRows` -/

theorem getElem?_of_drop_eq_cons {β : Type} {l : List β} {k : Nat} {t : β} {ts : List β}
    (h : l.drop k = t :: ts) : l[k]? = some t ∧ l.drop (k + 1) = ts := by
  have h1 : l[k]? = some t := by
    have := congrArg (fun x => x[0]?) h
    simpa using this
  refine ⟨h1, ?_⟩
  have := congrArg List.tail h
  simpa using this

theorem set_append_singleton {β : Type} (acc : List β) (x y : β) :
    (acc ++ [x]).set acc.length y = acc ++ [y] := by
  induction acc with
  | nil => rfl
  | cons a acc ih => simp [ih]

theorem appendArray_push (acc : Indices) (xs : List Int) :
    appendArray (acc ++ [[[], []]]) acc.length 0 xs = Except.ok (acc ++ [[xs, []]]) := by
  rw [appendArray_zero _ _ [] [] [] xs (by simp), set_append_singleton]
  rfl

theorem initIndices_loop (dims : List Int) (format : List DimensionType)
    (coords : List (List Int)) (N : Nat) :
    ∀ (ts : List DimensionType) (k : Nat) (acc ind : Indices), acc.length = k →
      format.drop k = ts →
      (initIndices dims format coords N (List.range' k ts.length) acc = Except.ok ind ↔
        (∀ i, k ≤ i → format[i]? = some DimensionType.Fixed →
          ∃ r, findMaxFixedValue dims coords format.length i 0 N = Except.ok r) ∧
        ind = acc ++ initFrom (capsOf dims coords format.length N) k ts) := by
  intro ts
  induction ts with
  | nil =>
    intro k acc ind _ hd
    have hk : format.length ≤ k := by
      have := congrArg List.length hd
      simp at this
      omega
    simp only [List.length_nil, List.range'_zero, initIndices, pure, Except.pure, initFrom,
      List.append_nil, Except.ok.injEq]
    constructor
    · intro h
      refine ⟨?_, h.symm⟩
      intro i hi hf
      have := (List.getElem?_eq_some_iff.1 hf).1
      omega
    · intro h
      exact h.2.symm
  | cons t ts ih =>
    intro k acc ind hacc hd
    obtain ⟨hk, hd1⟩ := getElem?_of_drop_eq_cons hd
    have hsplit : ∀ (P : Nat → Prop), (∀ i, k ≤ i → P i) ↔ (P k ∧ ∀ i, k + 1 ≤ i → P i) := by
      intro P
      constructor
      · intro h
        exact ⟨h k (le_refl _), fun i hi => h i (by omega)⟩
      · rintro ⟨h1, h2⟩ i hi
        rcases Nat.eq_or_lt_of_le hi with e | e
        · exact e ▸ h1
        · exact h2 i e
    rw [List.length_cons, List.range'_succ, initIndices, at?_eq_ok hk]
    simp only [bind, Except.bind]
    rw [hsplit]
    cases t with
    | Dense =>
      simp only []
      rw [ih (k + 1) (acc ++ [[]]) ind (by simp [hacc]) hd1]
      simp [initFrom, initIndex, hk]
    | Sparse =>
      simp only []
      rw [← hacc, appendArray_push]
      simp only []
      rw [hacc, ih (k + 1) (acc ++ [[[0], []]]) ind (by simp [hacc]) hd1]
      simp [initFrom, initIndex, hk]
    | Fixed =>
      simp only []
      cases hf : findMaxFixedValue dims coords format.length k 0 N with
      | error err =>
        simp only []
        constructor
        · intro h; cases h
        · rintro ⟨⟨h1, _⟩, _⟩
          obtain ⟨r, hr⟩ := h1 hk
          cases hr
      | ok r =>
        simp only []
        rw [← hacc, appendArray_push]
        simp only []
        rw [hacc, ih (k + 1) (acc ++ [[[toInt (toSizeT r)], []]]) ind (by simp [hacc]) hd1]
        have hcap : capsOf dims coords format.length N k = toInt (toSizeT r) := by
          unfold capsOf
          rw [hf]
        simp [initFrom, initIndex, hcap, hf]

theorem initIndices_eq (dims : List Int) (format : List DimensionType)
    (coords : List (List Int)) (N : Nat) (ind : Indices) :
    initIndices dims format coords N (List.range format.length) [] = Except.ok ind ↔
      (∀ i, format[i]? = some DimensionType.Fixed →
        ∃ r, findMaxFixedValue dims coords format.length i 0 N = Except.ok r) ∧
      ind = initFrom (capsOf dims coords format.length N) 0 format := by
  have := initIndices_loop dims format coords N format 0 [] ind rfl rfl
  rw [List.range_eq_range']
  simpa using this

theorem getElem?_initFrom (caps : Nat → Int) : ∀ (ts : List DimensionType) (k m : Nat),
    (initFrom caps k ts)[m]? = (ts[m]?).map (fun t => initIndex t (caps (k + m))) := by
  intro ts
  induction ts with
  | nil => intro k m; simp [initFrom]
  | cons t ts ih =>
    intro k m
    cases m with
    | zero => simp [initFrom]
    | succ m =>
      simp only [initFrom, List.getElem?_cons_succ, ih]
      have : k + 1 + m = k + (m + 1) := by omega
      rw [this]

theorem length_initFrom (caps : Nat → Int) : ∀ (ts : List DimensionType) (k : Nat),
    (initFrom caps k ts).length = ts.length := by
  intro ts
  induction ts with
  | nil => intro k; rfl
  | cons t ts ih => intro k; simp [initFrom, ih]

theorem shape_initFrom (format : List DimensionType) (caps : Nat → Int) :
    Shape format caps (initFrom caps 0 format) := by
  refine ⟨by rw [length_initFrom], ?_⟩
  intro k index hk
  rw [getElem?_initFrom] at hk
  cases ht : format[k]? with
  | none => simp [ht] at hk
  | some t =>
    simp only [ht, Option.map_some', Option.some.injEq, Nat.zero_add] at hk
    subst hk
    constructor
    · intro h
      cases h
      exact ⟨_, _, _, rfl⟩
    · intro h
      cases h
      exact ⟨_, _, _, rfl⟩

theorem copyIndices_eq (dims : List Int) (format : List DimensionType) (caps : Nat → Int)
    (ind : Indices) (hlen : dims.length = format.length) (hsh : Shape format caps ind) :
    ∀ (m k : Nat), k + m ≤ format.length →
      copyIndices dims format ind (List.range' k m) =
        Except.ok ((List.range' k m).map (storedIndex dims format ind)) := by
  intro m
  induction m with
  | zero => intro k _; rfl
  | succ m ih =>
    intro k hk
    have hkf : k < format.length := by omega
    have hkd : k < dims.length := by omega
    have hki : k < ind.length := by have := hsh.1; omega
    have hfk : format[k]? = some format[k] := List.getElem?_eq_getElem hkf
    have hik : ind[k]? = some ind[k] := List.getElem?_eq_getElem hki
    rw [List.range'_succ, copyIndices, at?_eq_ok hfk, List.map_cons]
    simp only [bind, Except.bind]
    rw [ih (k + 1) (by omega)]
    have hgd : format.getD k DimensionType.Dense = format[k] := by
      simp [List.getD_eq_getElem?_getD, hfk]
    have hid : ind.getD k [] = ind[k] := by
      simp [List.getD_eq_getElem?_getD, hik]
    unfold storedIndex
    rw [hgd, hid]
    cases ht : format[k] with
    | Dense =>
      simp only []
      rw [at?_eq_ok (List.getElem?_eq_getElem hkd)]
      simp [pure, Except.pure, List.getD_eq_getElem?_getD, List.getElem?_eq_getElem hkd]
    | Sparse =>
      obtain ⟨pos, idx, rest, hshape⟩ := (hsh.2 k _ hik).1 (by rw [hfk, ht])
      simp only []
      rw [getArray_zero ind k pos idx rest (by rw [hik, hshape]),
        getArray_one ind k pos idx rest (by rw [hik, hshape]), hshape]
      rfl
    | Fixed =>
      obtain ⟨c, idx, rest, hshape⟩ := (hsh.2 k _ hik).2 (by rw [hfk, ht])
      simp only []
      rw [getArray_zero ind k _ idx rest (by rw [hik, hshape]),
        getArray_one ind k _ idx rest (by rw [hik, hshape]), hshape]
      rfl

/-- When every capacity pre-pass succeeds, `pack` on a well-formed coordinate
list is `packRows` on its rows, stored. -/
theorem pack_eq {α : Type} [Zero α] (dims : List Int) (format : List DimensionType)
    (coords : List (List Int)) (vals : List α) (hlen : dims.length = format.length)
    (hcoords : format.length ≤ coords.length) (hcols : ∀ col ∈ coords, vals.length ≤ col.length)
    (hcaps : ∀ i, format[i]? = some DimensionType.Fixed →
      ∃ r, findMaxFixedValue dims coords format.length i 0 vals.length = Except.ok r) :
    pack dims format coords vals =
      Except.map (storageOf dims format (capsOf dims coords format.length vals.length))
        (packRows dims (capsOf dims coords format.length vals.length) format format.length 0
          (rowsOf coords vals 0 vals.length)) := by
  unfold pack
  rw [if_pos hlen, hlen]
  dsimp only
  rw [(initIndices_eq dims format coords vals.length _).2 ⟨hcaps, rfl⟩]
  simp only [bind, Except.bind]
  unfold packTensor
  rw [Nat.sub_zero, packTensorAux_eq dims coords vals format
    (capsOf dims coords format.length vals.length) vals.length hcoords hcols (le_refl _)
    format.length 0 vals.length 0 _ (Nat.zero_le _) (le_refl _) (shape_initFrom _ _)]
  cases packRows dims (capsOf dims coords format.length vals.length) format format.length 0
      (rowsOf coords vals 0 vals.length) with
  | error err => rfl
  | ok d =>
    simp only [Except.map]
    rw [List.range_eq_range',
      copyIndices_eq dims format (capsOf dims coords format.length vals.length) _ hlen
        (Shape.applyDelta (α := α) (show Shape format _ (PackState.mk (α := α) _ []).indices from
          shape_initFrom format _) d) format.length 0 (by omega)]
    simp only [pure, Except.pure, storageOf, applyDelta, List.nil_append, List.range_eq_range']

/-- When `pack` returns a Storage, every capacity pre-pass has succeeded. -/
theorem pack_ok_caps {α : Type} [Zero α] (dims : List Int) (format : List DimensionType)
    (coords : List (List Int)) (vals : List α) (s : Storage α)
    (h : pack dims format coords vals = Except.ok s) :
    ∀ i, format[i]? = some DimensionType.Fixed →
      ∃ r, findMaxFixedValue dims coords format.length i 0 vals.length = Except.ok r := by
  unfold pack at h
  by_cases hlen : dims.length = format.length
  · rw [if_pos hlen, hlen] at h
    dsimp only at h
    cases hi : initIndices dims format coords vals.length (List.range format.length) [] with
    | error err =>
      rw [hi] at h
      cases h
    | ok ind => exact ((initIndices_eq dims format coords vals.length ind).1 hi).1
  · rw [if_neg hlen] at h
    cases h

/-! ## The stored index arrays -/

theorem storageOf_index {α : Type} (dims : List Int) (format : List DimensionType)
    (caps : Nat → Int) (d : Delta α) (f : Nat) (t : DimensionType) (hf : format[f]? = some t) :
    (storageOf dims format caps d).index[f]? =
      some (match t with
        | DimensionType.Dense => [[dims.getD f 0]]
        | DimensionType.Sparse =>
          [[0] ++ (d.pos f).map (fun (c : Nat) => toInt ((0 + c : Nat) : Int)), d.idx f]
        | DimensionType.Fixed =>
          [[caps f] ++ (d.pos f).map (fun (c : Nat) => toInt ((0 + c : Nat) : Int)), d.idx f]) := by
  have hlt : f < format.length := (List.getElem?_eq_some_iff.1 hf).1
  have hgd : format.getD f DimensionType.Dense = t := by
    simp [List.getD_eq_getElem?_getD, hf]
  have hind : (applyFrom d 0 (initFrom caps 0 format)).getD f [] =
      applyIndex (initIndex t (caps f)) (d.pos f) (d.idx f) := by
    rw [List.getD_eq_getElem?_getD, getElem?_applyFrom, getElem?_initFrom, hf]
    simp
  unfold storageOf
  simp only [List.getElem?_map, List.getElem?_range hlt, Option.map_some']
  unfold storedIndex
  rw [hgd, hind]
  cases t with
  | Dense => rfl
  | Sparse => simp only [initIndex, applyIndex_cons_cons, List.length_nil, List.nil_append]; rfl
  | Fixed => simp only [initIndex, applyIndex_cons_cons, List.length_nil, List.nil_append]; rfl

/-! ## Induction principles for `packRows` -/

theorem packSegs_induct {α : Type} (Q : Delta α → Prop) (h0 : Q Delta.empty)
    (happ : ∀ a b, Q a → Q b → Q (a.append b)) (i : Nat)
    (child : List (Row α) → Result (Delta α)) (hchild : ∀ seg d, child seg = Except.ok d → Q d) :
    ∀ (js : List Int) (rows : List (Row α)) (r : List (Row α) × Delta α),
      packSegs i child js rows = Except.ok r → Q r.2 := by
  intro js
  induction js with
  | nil =>
    intro rows r h
    simp only [packSegs, pure, Except.pure, Except.ok.injEq] at h
    subst h
    exact h0
  | cons j js ih =>
    intro rows r h
    rw [packSegs] at h
    cases hc : child (rows.takeWhile (fun r => decide (headAt i r = j))) with
    | error err => rw [hc] at h; cases h
    | ok d =>
      rw [hc] at h
      simp only [bind, Except.bind] at h
      cases hr : packSegs i child js (rows.dropWhile (fun r => decide (headAt i r = j))) with
      | error err => rw [hr] at h; cases h
      | ok r1 =>
        rw [hr] at h
        simp only [pure, Except.pure, Except.ok.injEq] at h
        subst h
        exact happ _ _ (hchild _ _ hc) (ih _ _ hr)

theorem padRows_induct {α : Type} (Q : Delta α → Prop) (h0 : Q Delta.empty)
    (happ : ∀ a b, Q a → Q b → Q (a.append b)) (i : Nat) (hlevel : ∀ x, Q (Delta.level i [] [x]))
    (indexValues : List Nat) (segmentSize : Int)
    (child : List (Row α) → Result (Delta α)) (hchild : ∀ seg d, child seg = Except.ok d → Q d) :
    ∀ (n : Nat) (p : Delta α),
      padRows i indexValues segmentSize child n = Except.ok p → Q p := by
  intro n
  induction n with
  | zero =>
    intro p h
    simp only [padRows, pure, Except.pure, Except.ok.injEq] at h
    subst h
    exact h0
  | succ n ih =>
    intro p h
    rw [padRows] at h
    have hk : ∀ last : Nat, (do
        let d ← child []
        let r ← padRows i indexValues segmentSize child n
        pure ((Delta.level i [] [toInt last]).append (d.append r))) = Except.ok p → Q p := by
      intro last h
      cases hc : child [] with
      | error err => rw [hc] at h; cases h
      | ok d =>
        rw [hc] at h
        simp only [bind, Except.bind] at h
        cases hr : padRows i indexValues segmentSize child n with
        | error err => rw [hr] at h; cases h
        | ok r1 =>
          rw [hr] at h
          simp only [pure, Except.pure, Except.ok.injEq] at h
          subst h
          exact happ _ _ (hlevel _) (happ _ _ (hchild _ _ hc) (ih _ hr))
    by_cases hs : segmentSize > 0
    · simp only [hs, if_true] at h
      cases hl : at? indexValues (toSizeT (segmentSize - 1)) with
      | error err => rw [hl] at h; cases h
      | ok last => rw [hl] at h; exact hk last h
    · simp only [hs, if_false] at h
      exact hk 0 h

theorem packRows_induct {α : Type} [Zero α] (dims : List Int) (caps : Nat → Int)
    (dimTypes : List DimensionType) (Q : Delta α → Prop) (h0 : Q Delta.empty)
    (happ : ∀ a b, Q a → Q b → Q (a.append b)) (hleaf : ∀ v, Q (Delta.leaf v))
    (hsparse : ∀ i n js, dimTypes[i]? = some DimensionType.Sparse → Q (Delta.level i [n] js))
    (hfixed : ∀ i js, dimTypes[i]? = some DimensionType.Fixed → Q (Delta.level i [] js)) :
    ∀ (fuel i : Nat) (rows : List (Row α)) (d : Delta α),
      packRows dims caps dimTypes fuel i rows = Except.ok d → Q d := by
  intro fuel
  induction fuel with
  | zero => intro i rows d h; cases h
  | succ fuel ih =>
    intro i rows d h
    rw [packRows] at h
    cases hdt : dimTypes[i]? with
    | none => rw [at?_eq_error hdt] at h; cases h
    | some t =>
      rw [at?_eq_ok hdt] at h
      simp only [bind, Except.bind] at h
      generalize hchild_def : (fun seg : List (Row α) =>
        if (i + 1 == dimTypes.length) = true then
          (pure (Delta.leaf (leafValue seg)) : Result (Delta α))
        else packRows dims caps dimTypes fuel (i + 1) seg) = child at h
      have hchild : ∀ seg d, child seg = Except.ok d → Q d := by
        intro seg d hd
        rw [← hchild_def] at hd
        by_cases hl : (i + 1 == dimTypes.length) = true
        · simp only [hl, if_true, pure, Except.pure, Except.ok.injEq] at hd
          subst hd
          exact hleaf _
        · simp only [hl] at hd
          exact ih _ _ _ hd
      cases t with
      | Dense =>
        simp only [] at h
        cases hd : at? dims i with
        | error err => rw [hd] at h; cases h
        | ok dd =>
          rw [hd] at h
          simp only [] at h
          cases hr : packSegs i child (List.map Int.ofNat (List.range dd.toNat)) rows with
          | error err => rw [hr] at h; cases h
          | ok r =>
            rw [hr] at h
            simp only [pure, Except.pure, Except.ok.injEq] at h
            subst h
            exact packSegs_induct Q h0 happ i child hchild _ _ _ hr
      | Sparse =>
        simp only [] at h
        cases hu : getUniqueEntries (List.map (headAt i) rows) with
        | error err => rw [hu] at h; cases h
        | ok u =>
          rw [hu] at h
          simp only [] at h
          cases hr : packSegs i child (List.map (fun (j : Nat) => toInt j) u) rows with
          | error err => rw [hr] at h; cases h
          | ok r =>
            rw [hr] at h
            simp only [pure, Except.pure, Except.ok.injEq] at h
            subst h
            exact happ _ _ (hsparse _ _ _ hdt) (packSegs_induct Q h0 happ i child hchild _ _ _ hr)
      | Fixed =>
        simp only [] at h
        cases hu : getUniqueEntries (List.map (headAt i) rows) with
        | error err => rw [hu] at h; cases h
        | ok u =>
          rw [hu] at h
          simp only [] at h
          have hpad : ∀ p, padRows i u (toInt u.length) child (caps i - toInt u.length).toNat =
              Except.ok p → Q p :=
            padRows_induct Q h0 happ i (fun x => hfixed _ _ hdt) u _ child hchild _
          by_cases hs : toInt u.length > 0
          · simp only [hs, if_true] at h
            cases hr : packSegs i child (List.map (fun (j : Nat) => toInt j) u) rows with
            | error err => rw [hr] at h; cases h
            | ok r =>
              rw [hr] at h
              simp only [bind, Except.bind, pure, Except.pure] at h
              cases hp : padRows i u (toInt u.length) child (caps i - toInt u.length).toNat with
              | error err => rw [hp] at h; cases h
              | ok p =>
                rw [hp] at h
                simp only [Except.ok.injEq] at h
                subst h
                exact happ _ _ (happ _ _ (hfixed _ _ hdt)
                  (packSegs_induct Q h0 happ i child hchild _ _ _ hr)) (hpad _ hp)
          · simp only [hs, if_false, bind, Except.bind, pure, Except.pure] at h
            cases hp : padRows i u (toInt u.length) child (caps i - toInt u.length).toNat with
            | error err => rw [hp] at h; cases h
            | ok p =>
              rw [hp] at h
              simp only [Except.ok.injEq] at h
              subst h
              exact happ _ _ h0 (hpad _ hp)

/-! ## The capacity pre-pass returns an `int` -/

theorem isInt_max {a b : Int} (ha : IsInt a) (hb : IsInt b) : IsInt (max a b) := by
  rcases max_choice a b with h | h <;> rw [h] <;> assumption

theorem exploreMax_isInt (coords : List (List Int)) (order i numCoords : Nat)
    (next : List (List Int) → Result Int) (hnext : ∀ nc r, next nc = Except.ok r → IsInt r) :
    ∀ (ms : List Int) (acc r : Int), IsInt acc →
      exploreMax coords order i numCoords next ms acc = Except.ok r → IsInt r := by
  intro ms
  induction ms with
  | nil =>
    intro acc r hacc h
    simp only [exploreMax, pure, Except.pure, Except.ok.injEq] at h
    subst h
    exact hacc
  | cons m ms ih =>
    intro acc r hacc h
    rw [exploreMax] at h
    cases hs : selectRows coords order i m (List.range numCoords) (List.replicate order []) with
    | error err => rw [hs] at h; cases h
    | ok nc =>
      rw [hs] at h
      simp only [bind, Except.bind] at h
      cases hn : next nc with
      | error err => rw [hn] at h; cases h
      | ok seg =>
        rw [hn] at h
        exact ih _ _ (isInt_max hacc (hnext _ _ hn)) h

theorem findMaxFixedValueAux_isInt (order fixedLevel : Nat) :
    ∀ (fuel : Nat) (coords : List (List Int)) (i numCoords : Nat) (r : Int),
      findMaxFixedValueAux order fixedLevel fuel coords i numCoords = Except.ok r → IsInt r := by
  intro fuel
  induction fuel with
  | zero =>
    intro coords i numCoords r h
    unfold findMaxFixedValueAux at h
    by_cases h1 : i = order
    · rw [if_pos h1] at h
      simp only [pure, Except.pure, Except.ok.injEq] at h
      subst h
      exact isInt_toInt _
    · rw [if_neg h1] at h
      by_cases h2 : i = fixedLevel
      · rw [if_pos h2] at h
        cases hc : at? coords i with
        | error err => rw [hc] at h; cases h
        | ok lc =>
          rw [hc] at h
          simp only [bind, Except.bind] at h
          cases hu : getUniqueEntries lc with
          | error err => rw [hu] at h; cases h
          | ok u =>
            rw [hu] at h
            simp only [pure, Except.pure, Except.ok.injEq] at h
            subst h
            exact isInt_toInt _
      · rw [if_neg h2] at h
        cases h
  | succ fuel ih =>
    intro coords i numCoords r h
    unfold findMaxFixedValueAux at h
    by_cases h1 : i = order
    · rw [if_pos h1] at h
      simp only [pure, Except.pure, Except.ok.injEq] at h
      subst h
      exact isInt_toInt _
    · rw [if_neg h1] at h
      by_cases h2 : i = fixedLevel
      · rw [if_pos h2] at h
        cases hc : at? coords i with
        | error err => rw [hc] at h; cases h
        | ok lc =>
          rw [hc] at h
          simp only [bind, Except.bind] at h
          cases hu : getUniqueEntries lc with
          | error err => rw [hu] at h; cases h
          | ok u =>
            rw [hu] at h
            simp only [pure, Except.pure, Except.ok.injEq] at h
            subst h
            exact isInt_toInt _
      · rw [if_neg h2] at h
        simp only [] at h
        cases hc : at? coords i with
        | error err => rw [hc] at h; cases h
        | ok lc =>
          rw [hc] at h
          simp only [bind, Except.bind] at h
          cases hc0 : at? lc 0 with
          | error err => rw [hc0] at h; cases h
          | ok c0 =>
            rw [hc0] at h
            simp only [] at h
            cases hr : countRuns lc (List.range' 1 (numCoords - 1))
                { maxSize := 0, maxCoords := [], coordCur := c0, sizeCur := 1 } with
            | error err => rw [hr] at h; cases h
            | ok s =>
              rw [hr] at h
              simp only [] at h
              exact exploreMax_isInt coords order i numCoords _
                (fun nc r hn => ih nc (i + 1) _ r hn) _ 0 r (by decide) h

theorem findMaxFixedValue_isInt (dims : List Int) (coords : List (List Int))
    (order fixedLevel i numCoords : Nat) (r : Int)
    (h : findMaxFixedValue dims coords order fixedLevel i numCoords = Except.ok r) : IsInt r :=
  findMaxFixedValueAux_isInt order fixedLevel _ coords i numCoords r h

/-! ## Only Sparse levels get `pos` entries -/

theorem packRows_pos_nil {α : Type} [Zero α] (dims : List Int) (caps : Nat → Int)
    (dimTypes : List DimensionType) (fuel i : Nat) (rows : List (Row α)) (d : Delta α)
    (h : packRows dims caps dimTypes fuel i rows = Except.ok d) (k : Nat)
    (hk : dimTypes[k]? ≠ some DimensionType.Sparse) : d.pos k = [] := by
  refine packRows_induct dims caps dimTypes (fun d => d.pos k = []) rfl ?_ (fun _ => rfl) ?_ ?_
    fuel i rows d h
  · intro a b ha hb
    simp only [Delta.append, ha, hb, List.map_nil, List.append_nil]
  · intro i n js hi
    have : k ≠ i := fun e => hk (e ▸ hi)
    simp only [Delta.level, this, if_false]
  · intro i js _
    simp only [Delta.level, ite_self]

theorem pack_length_of_ok {α : Type} [Zero α] (dims : List Int)
    (format : List DimensionType) (coords : List (List Int)) (vals : List α) (s : Storage α)
    (h : pack dims format coords vals = Except.ok s) : dims.length = format.length := by
  by_contra hne
  unfold pack at h
  rw [if_neg hne] at h
  cases h

/-- C11: on a coordinate list with one coordinate sequence per dimension, each
at least as long as the value sequence, whenever `pack` returns a Storage the
`pos` array of every Fixed level `f` holds exactly one element, the value
`findMaxFixedValue(dims, coords, order, f, 0, numCoords)` computed before
packing: `packTensor` appends nothing to it. -/
theorem pack_fixed_pos_is_capacity {α : Type} [Zero α] (dims : List Int)
    (format : List DimensionType) (coords : List (List Int)) (vals : List α) (s : Storage α)
    (hcoords : format.length ≤ coords.length) (hcols : ∀ col ∈ coords, vals.length ≤ col.length)
    (h : pack dims format coords vals = Except.ok s) (f : Nat)
    (hf : format[f]? = some DimensionType.Fixed) :
    ∃ (c : Int) (idx : List Int), s.index[f]? = some [[c], idx] ∧
      findMaxFixedValue dims coords format.length f 0 vals.length = Except.ok c := by
  have hlen := pack_length_of_ok dims format coords vals s h
  have hcaps := pack_ok_caps dims format coords vals s h
  obtain ⟨r, hr⟩ := hcaps f hf
  rw [pack_eq dims format coords vals hlen hcoords hcols hcaps] at h
  cases hd : packRows dims (capsOf dims coords format.length vals.length) format format.length 0
      (rowsOf coords vals 0 vals.length) with
  | error err => rw [hd] at h; cases h
  | ok d =>
    rw [hd] at h
    simp only [Except.map, Except.ok.injEq] at h
    subst h
    have hpos := packRows_pos_nil dims _ format _ _ _ d hd f (by rw [hf]; simp)
    have hcap : capsOf dims coords format.length vals.length f = r := by
      unfold capsOf
      rw [hr]
      exact toInt_toSizeT (findMaxFixedValue_isInt _ _ _ _ _ _ _ hr)
    refine ⟨r, d.idx f, ?_, hr⟩
    rw [storageOf_index dims format _ d f _ hf, hpos, hcap]
    rfl

/-- An instance of `pack_fixed_pos_is_capacity`: the example of the
specification for the format `[Dense, Fixed]`, whose capacity is 3. -/
theorem pack_fixed_pos_is_capacity_witness :
    pack [2, 4] [DimensionType.Dense, DimensionType.Fixed] [[0, 0, 0, 1], [0, 1, 2, 3]]
        ([1, 2, 3, 4] : List Int) =
      Except.ok { format := [DimensionType.Dense, DimensionType.Fixed],
                  index := [[[2]], [[3], [0, 1, 2, 3, 3, 3]]],
                  values := [1, 2, 3, 4, 0, 0] } ∧
    ∃ (c : Int) (idx : List Int),
      ([[[2]], [[3], [0, 1, 2, 3, 3, 3]]] : List (List (List Int)))[1]? = some [[c], idx] ∧
      findMaxFixedValue [2, 4] [[0, 0, 0, 1], [0, 1, 2, 3]] 2 1 0 4 = Except.ok c :=
  ⟨by decide,
    pack_fixed_pos_is_capacity [2, 4] [DimensionType.Dense, DimensionType.Fixed]
      [[0, 0, 0, 1], [0, 1, 2, 3]] ([1, 2, 3, 4] : List Int)
      { format := [DimensionType.Dense, DimensionType.Fixed],
        index := [[[2]], [[3], [0, 1, 2, 3, 3, 3]]],
        values := [1, 2, 3, 4, 0, 0] }
      (by decide) (by decide) (by decide) 1 (by decide)⟩

/-! ## Additive measures of what `packRows` appends -/

theorem packSegs_additive {α : Type} (m : Delta α → Int) (hm0 : m Delta.empty = 0)
    (hadd : ∀ a b, m (a.append b) = m a + m b) (i : Nat)
    (child : List (Row α) → Result (Delta α)) (c : Int)
    (hchild : ∀ seg d, child seg = Except.ok d → m d = c) :
    ∀ (js : List Int) (rows : List (Row α)) (r : List (Row α) × Delta α),
      packSegs i child js rows = Except.ok r → m r.2 = c * js.length := by
  intro js
  induction js with
  | nil =>
    intro rows r h
    simp only [packSegs, pure, Except.pure, Except.ok.injEq] at h
    subst h
    simp [hm0]
  | cons j js ih =>
    intro rows r h
    rw [packSegs] at h
    cases hc : child (rows.takeWhile (fun r => decide (headAt i r = j))) with
    | error err => rw [hc] at h; cases h
    | ok d =>
      rw [hc] at h
      simp only [bind, Except.bind] at h
      cases hr : packSegs i child js (rows.dropWhile (fun r => decide (headAt i r = j))) with
      | error err => rw [hr] at h; cases h
      | ok r1 =>
        rw [hr] at h
        simp only [pure, Except.pure, Except.ok.injEq] at h
        subst h
        simp only [hadd, hchild _ _ hc, ih _ _ hr, List.length_cons]
        push_cast
        ring

theorem padRows_additive {α : Type} (m : Delta α → Int) (hm0 : m Delta.empty = 0)
    (hadd : ∀ a b, m (a.append b) = m a + m b) (i : Nat) (cl : Int)
    (hlevel : ∀ x, m (Delta.level i [] [x]) = cl)
    (indexValues : List Nat) (segmentSize : Int)
    (child : List (Row α) → Result (Delta α)) (c : Int)
    (hchild : ∀ seg d, child seg = Except.ok d → m d = c) :
    ∀ (n : Nat) (p : Delta α),
      padRows i indexValues segmentSize child n = Except.ok p → m p = (cl + c) * n := by
  intro n
  induction n with
  | zero =>
    intro p h
    simp only [padRows, pure, Except.pure, Except.ok.injEq] at h
    subst h
    simp [hm0]
  | succ n ih =>
    intro p h
    rw [padRows] at h
    have hk : ∀ last : Nat, (do
        let d ← child []
        let r ← padRows i indexValues segmentSize child n
        pure ((Delta.level i [] [toInt last]).append (d.append r))) = Except.ok p →
        m p = (cl + c) * (n + 1 : Nat) := by
      intro last h
      cases hc : child [] with
      | error err => rw [hc] at h; cases h
      | ok d =>
        rw [hc] at h
        simp only [bind, Except.bind] at h
        cases hr : padRows i indexValues segmentSize child n with
        | error err => rw [hr] at h; cases h
        | ok r1 =>
          rw [hr] at h
          simp only [pure, Except.pure, Except.ok.injEq] at h
          subst h
          simp only [hadd, hchild _ _ hc, ih _ hr, hlevel]
          push_cast
          ring
    by_cases hs : segmentSize > 0
    · simp only [hs, if_true] at h
      cases hl : at? indexValues (toSizeT (segmentSize - 1)) with
      | error err => rw [hl] at h; cases h
      | ok last => rw [hl] at h; exact hk last h
    · simp only [hs, if_false] at h
      exact hk 0 h

theorem packRows_leaf_balance {α : Type} [Zero α] (dims : List Int) (caps : Nat → Int)
    (dimTypes : List DimensionType)
    (hlast : dimTypes[dimTypes.length - 1]? ≠ some DimensionType.Dense) :
    ∀ (fuel i : Nat) (rows : List (Row α)) (d : Delta α), i < dimTypes.length →
      packRows dims caps dimTypes fuel i rows = Except.ok d →
      (d.values.length : Int) - ((d.idx (dimTypes.length - 1)).length : Int) = 0 := by
  have hm0 : ((Delta.empty : Delta α).values.length : Int) -
      (((Delta.empty : Delta α).idx (dimTypes.length - 1)).length : Int) = 0 := by
    simp
  have hadd : ∀ a b : Delta α, ((a.append b).values.length : Int) -
      (((a.append b).idx (dimTypes.length - 1)).length : Int) =
      ((a.values.length : Int) - ((a.idx (dimTypes.length - 1)).length : Int)) +
      ((b.values.length : Int) - ((b.idx (dimTypes.length - 1)).length : Int)) := by
    intro a b
    simp only [Delta.append, List.length_append]
    push_cast
    ring
  intro fuel
  induction fuel with
  | zero => intro i rows d _ h; cases h
  | succ fuel ih =>
    intro i rows d hi h
    rw [packRows] at h
    have hdt : dimTypes[i]? = some dimTypes[i] := List.getElem?_eq_getElem hi
    rw [at?_eq_ok hdt] at h
    simp only [bind, Except.bind] at h
    generalize hchild_def : (fun seg : List (Row α) =>
      if (i + 1 == dimTypes.length) = true then
        (pure (Delta.leaf (leafValue seg)) : Result (Delta α))
      else packRows dims caps dimTypes fuel (i + 1) seg) = child at h
    have hchild : ∀ seg d, child seg = Except.ok d →
        (d.values.length : Int) - ((d.idx (dimTypes.length - 1)).length : Int) =
          if i + 1 = dimTypes.length then 1 else 0 := by
      intro seg d hd
      rw [← hchild_def] at hd
      by_cases hl : i + 1 = dimTypes.length
      · simp only [hl, beq_self_eq_true, if_true, pure, Except.pure, Except.ok.injEq] at hd
        subst hd
        simp [Delta.leaf, hl]
      · have hl2 : ¬ ((i + 1 == dimTypes.length) = true) := by simpa using hl
        simp only [hl2, if_false] at hd
        rw [if_neg hl]
        exact ih _ _ _ (by omega) hd
    have hlevel : ∀ (ps : List Nat) (xs : List Int),
        (((Delta.level i ps xs : Delta α).values.length : Int) -
          (((Delta.level i ps xs : Delta α).idx (dimTypes.length - 1)).length : Int)) =
          if i + 1 = dimTypes.length then -(xs.length : Int) else 0 := by
      intro ps xs
      by_cases hl : i + 1 = dimTypes.length
      · have : dimTypes.length - 1 = i := by omega
        simp [Delta.level, hl, this]
      · have : dimTypes.length - 1 ≠ i := by omega
        simp [Delta.level, hl, this]
    cases ht : dimTypes[i] with
    | Dense =>
      have hne : i + 1 ≠ dimTypes.length := by
        intro e
        apply hlast
        have : dimTypes.length - 1 = i := by omega
        rw [this, hdt, ht]
      rw [ht] at h
      simp only [] at h
      cases hd : at? dims i with
      | error err => rw [hd] at h; cases h
      | ok dd =>
        rw [hd] at h
        simp only [] at h
        cases hr : packSegs i child (List.map Int.ofNat (List.range dd.toNat)) rows with
        | error err => rw [hr] at h; cases h
        | ok r =>
          rw [hr] at h
          simp only [pure, Except.pure, Except.ok.injEq] at h
          subst h
          rw [packSegs_additive _ hm0 hadd i child _ hchild _ _ _ hr, if_neg hne]
          simp
    | Sparse =>
      rw [ht] at h
      simp only [] at h
      cases hu : getUniqueEntries (List.map (headAt i) rows) with
      | error err => rw [hu] at h; cases h
      | ok u =>
        rw [hu] at h
        simp only [] at h
        cases hr : packSegs i child (List.map (fun (j : Nat) => toInt j) u) rows with
        | error err => rw [hr] at h; cases h
        | ok r =>
          rw [hr] at h
          simp only [pure, Except.pure, Except.ok.injEq] at h
          subst h
          rw [hadd, hlevel, packSegs_additive _ hm0 hadd i child _ hchild _ _ _ hr]
          split <;> simp
    | Fixed =>
      rw [ht] at h
      simp only [] at h
      cases hu : getUniqueEntries (List.map (headAt i) rows) with
      | error err => rw [hu] at h; cases h
      | ok u =>
        rw [hu] at h
        simp only [] at h
        have hpad := padRows_additive _ hm0 hadd i (if i + 1 = dimTypes.length then -1 else 0)
          (fun x => by rw [hlevel]; simp) u (toInt u.length)
          child _ hchild (caps i - toInt u.length).toNat
        by_cases hs : toInt u.length > 0
        · simp only [hs, if_true] at h
          cases hr : packSegs i child (List.map (fun (j : Nat) => toInt j) u) rows with
          | error err => rw [hr] at h; cases h
          | ok r =>
            rw [hr] at h
            simp only [bind, Except.bind, pure, Except.pure] at h
            cases hp : padRows i u (toInt u.length) child (caps i - toInt u.length).toNat with
            | error err => rw [hp] at h; cases h
            | ok p =>
              rw [hp] at h
              simp only [Except.ok.injEq] at h
              subst h
              rw [hadd, hadd, hlevel, packSegs_additive _ hm0 hadd i child _ hchild _ _ _ hr,
                hpad _ hp]
              split <;> simp
        · simp only [hs, if_false, bind, Except.bind, pure, Except.pure] at h
          cases hp : padRows i u (toInt u.length) child (caps i - toInt u.length).toNat with
          | error err => rw [hp] at h; cases h
          | ok p =>
            rw [hp] at h
            simp only [Except.ok.injEq] at h
            subst h
            rw [hadd, hm0, hpad _ hp]
            split <;> simp

/-- C13: on a coordinate list with one coordinate sequence per dimension, each
at least as long as the value sequence, and a format of order `n >= 1` whose
last level is Sparse or Fixed, whenever `pack` returns a Storage the value array
is as long as the `idx` array of the last level. -/
theorem pack_values_length_eq_leaf_idx_length {α : Type} [Zero α] (dims : List Int)
    (format : List DimensionType) (coords : List (List Int)) (vals : List α) (s : Storage α)
    (hcoords : format.length ≤ coords.length) (hcols : ∀ col ∈ coords, vals.length ≤ col.length)
    (hn : 1 ≤ format.length)
    (hlast : format[format.length - 1]? = some DimensionType.Sparse ∨
      format[format.length - 1]? = some DimensionType.Fixed)
    (h : pack dims format coords vals = Except.ok s) :
    ∃ (pos idx : List Int), s.index[format.length - 1]? = some [pos, idx] ∧
      s.values.length = idx.length := by
  have hlen := pack_length_of_ok dims format coords vals s h
  have hcaps := pack_ok_caps dims format coords vals s h
  rw [pack_eq dims format coords vals hlen hcoords hcols hcaps] at h
  cases hd : packRows dims (capsOf dims coords format.length vals.length) format format.length 0
      (rowsOf coords vals 0 vals.length) with
  | error err => rw [hd] at h; cases h
  | ok d =>
    rw [hd] at h
    simp only [Except.map, Except.ok.injEq] at h
    subst h
    have hbal := packRows_leaf_balance dims _ format
      (by rcases hlast with e | e <;> rw [e] <;> simp) _ _ _ d (by omega) hd
    have hv : d.values.length = (d.idx (format.length - 1)).length := by omega
    rcases hlast with e | e
    · exact ⟨_, _, storageOf_index dims format _ d _ _ e, hv⟩
    · exact ⟨_, _, storageOf_index dims format _ d _ _ e, hv⟩

/-- An instance of `pack_values_length_eq_leaf_idx_length`: the `[Dense, Fixed]`
example of the specification, six values for six `idx` entries. -/
theorem pack_values_length_eq_leaf_idx_length_witness :
    ∃ (pos idx : List Int),
      ([[[2]], [[3], [0, 1, 2, 3, 3, 3]]] : List (List (List Int)))[2 - 1]? = some [pos, idx] ∧
      ([1, 2, 3, 4, 0, 0] : List Int).length = idx.length :=
  pack_values_length_eq_leaf_idx_length [2, 4] [DimensionType.Dense, DimensionType.Fixed]
    [[0, 0, 0, 1], [0, 1, 2, 3]] ([1, 2, 3, 4] : List Int)
    { format := [DimensionType.Dense, DimensionType.Fixed],
      index := [[[2]], [[3], [0, 1, 2, 3, 3, 3]]],
      values := [1, 2, 3, 4, 0, 0] }
    (by decide) (by decide) (by decide) (by decide) (by decide)

/-! ## Removing duplicate entries -/

theorem destutter'_eq_cons {β : Type} (R : β → β → Prop) [DecidableRel R] (l : List β) :
    ∀ a, ∃ t, List.destutter' R a l = a :: t := by
  induction l with
  | nil => intro a; exact ⟨[], rfl⟩
  | cons b l ih =>
    intro a
    by_cases h : R a b
    · rw [List.destutter'_cons_pos _ h]; exact ⟨_, rfl⟩
    · rw [List.destutter'_cons_neg _ h]; exact ih a

theorem takeWhile_destutter' {β : Type} (R : β → β → Prop) [DecidableRel R] (p : β → Bool)
    (hp : ∀ a b, ¬ R a b → p a = p b) (l : List β) :
    ∀ a, (List.destutter' R a l).takeWhile p =
      if p a = true then List.destutter' R a (l.takeWhile p) else [] := by
  induction l with
  | nil =>
    intro a
    by_cases h : p a = true <;> simp [h]
  | cons b l ih =>
    intro a
    by_cases ha : p a = true
    · rw [if_pos ha]
      by_cases h : R a b
      · rw [List.destutter'_cons_pos _ h, List.takeWhile_cons, ha, ih b]
        by_cases hb : p b = true
        · simp [hb, List.destutter'_cons_pos _ h]
        · simp [hb]
      · have hb : p b = true := by rw [← hp a b h]; exact ha
        rw [List.destutter'_cons_neg _ h, ih a, if_pos ha, List.takeWhile_cons, hb]
        simp [List.destutter'_cons_neg _ h]
    · rw [if_neg ha]
      obtain ⟨t, ht⟩ := destutter'_eq_cons R (b :: l) a
      rw [ht, List.takeWhile_cons]
      simp [ha]

theorem dropWhile_destutter' {β : Type} (R : β → β → Prop) [DecidableRel R] (p : β → Bool)
    (hp : ∀ a b, ¬ R a b → p a = p b) (l : List β) :
    ∀ a, p a = true → (List.destutter' R a l).dropWhile p = List.destutter R (l.dropWhile p) := by
  induction l with
  | nil => intro a ha; simp [ha]
  | cons b l ih =>
    intro a ha
    by_cases h : R a b
    · rw [List.destutter'_cons_pos _ h, List.dropWhile_cons, ha]
      simp only [if_true]
      by_cases hb : p b = true
      · rw [ih b hb, List.dropWhile_cons, hb]
        simp
      · obtain ⟨t, ht⟩ := destutter'_eq_cons R l b
        rw [List.dropWhile_cons (x := b)]
        simp only [hb]
        rw [ht, List.dropWhile_cons]
        simp only [hb, Bool.false_eq_true, if_false]
        rw [← ht]
        rfl
    · have hb : p b = true := by rw [← hp a b h]; exact ha
      rw [List.destutter'_cons_neg _ h, ih a ha, List.dropWhile_cons, hb]
      simp

theorem takeWhile_dedupRows {α : Type} (p : Row α → Bool)
    (hp : ∀ a b : Row α, a.1 = b.1 → p a = p b) (rows : List (Row α)) :
    (dedupRows rows).takeWhile p = dedupRows (rows.takeWhile p) := by
  have hp2 : ∀ a b : Row α, ¬ (a.1 ≠ b.1) → p a = p b := fun a b h => hp a b (not_not.1 h)
  cases rows with
  | nil => rfl
  | cons a l =>
    unfold dedupRows
    rw [List.destutter_cons', takeWhile_destutter' _ p hp2, List.takeWhile_cons]
    by_cases ha : p a = true
    · simp only [ha, if_true]
      rfl
    · simp [ha]

theorem dropWhile_dedupRows {α : Type} (p : Row α → Bool)
    (hp : ∀ a b : Row α, a.1 = b.1 → p a = p b) (rows : List (Row α)) :
    (dedupRows rows).dropWhile p = dedupRows (rows.dropWhile p) := by
  have hp2 : ∀ a b : Row α, ¬ (a.1 ≠ b.1) → p a = p b := fun a b h => hp a b (not_not.1 h)
  cases rows with
  | nil => rfl
  | cons a l =>
    unfold dedupRows
    rw [List.destutter_cons']
    by_cases ha : p a = true
    · rw [dropWhile_destutter' _ p hp2 l a ha, List.dropWhile_cons, ha]
      simp
    · obtain ⟨t, ht⟩ := destutter'_eq_cons (fun a b : Row α => a.1 ≠ b.1) l a
      rw [ht, List.dropWhile_cons, List.dropWhile_cons]
      simp only [ha, Bool.false_eq_true, if_false]
      rw [← ht]
      rfl

theorem leafValue_dedupRows {α : Type} [Zero α] (seg : List (Row α)) :
    leafValue (dedupRows seg) = leafValue seg := by
  cases seg with
  | nil => rfl
  | cons a l =>
    obtain ⟨t, ht⟩ := destutter'_eq_cons (fun a b : Row α => a.1 ≠ b.1) l a
    unfold dedupRows
    rw [List.destutter_cons', ht]
    rfl

theorem chain'_map_destutter' {β : Type} (R : β → β → Prop) [DecidableRel R] (g : β → Nat)
    (hg : ∀ a b, ¬ R a b → g a = g b) (l : List β) :
    ∀ a, (List.Chain' (· ≤ ·) ((List.destutter' R a l).map g) ↔
        List.Chain' (· ≤ ·) ((a :: l).map g)) ∧
      List.destutter (· ≠ ·) ((List.destutter' R a l).map g) =
        List.destutter (· ≠ ·) ((a :: l).map g) := by
  induction l with
  | nil => intro a; simp
  | cons b l ih =>
    intro a
    by_cases h : R a b
    · obtain ⟨t, ht⟩ := destutter'_eq_cons R l b
      have ihb := ih b
      rw [ht] at ihb
      rw [List.destutter'_cons_pos _ h, ht]
      simp only [List.map_cons, List.chain'_cons, List.destutter_cons'] at ihb ⊢
      refine ⟨by rw [ihb.1], ?_⟩
      by_cases e : g a = g b
      · rw [List.destutter'_cons_neg _ (by simpa using e),
          List.destutter'_cons_neg _ (by simpa using e), e]
        exact ihb.2
      · rw [List.destutter'_cons_pos _ e, List.destutter'_cons_pos _ e, ihb.2]
    · have e : g a = g b := hg a b h
      have iha := ih a
      rw [List.destutter'_cons_neg _ h]
      simp only [List.map_cons, List.chain'_cons, List.destutter_cons'] at iha ⊢
      refine ⟨?_, ?_⟩
      · rw [iha.1, ← e]
        constructor
        · intro hc; exact ⟨le_refl _, hc⟩
        · intro hc; exact hc.2
      · rw [iha.2, List.destutter'_cons_neg _ (by simpa using e)]

theorem getUniqueEntries_dedupRows {α : Type} (i : Nat) (rows : List (Row α)) :
    getUniqueEntries ((dedupRows rows).map (headAt i)) =
      getUniqueEntries (rows.map (headAt i)) := by
  cases rows with
  | nil => rfl
  | cons a l =>
    have hg : ∀ x y : Row α, ¬ (x.1 ≠ y.1) → toSizeT (headAt i x) = toSizeT (headAt i y) := by
      intro x y hxy
      have : x.1 = y.1 := not_not.1 hxy
      unfold headAt
      rw [this]
    have key := chain'_map_destutter' (fun a b : Row α => a.1 ≠ b.1)
      (fun r => toSizeT (headAt i r)) hg l a
    rw [getUniqueEntries_eq, getUniqueEntries_eq]
    unfold dedupRows
    rw [List.destutter_cons', List.map_map, List.map_map]
    have h1 : (toSizeT ∘ headAt i : Row α → Nat) = fun r => toSizeT (headAt i r) := rfl
    rw [h1, key.2]
    by_cases hc : List.Chain' (· ≤ ·) (List.map (fun r => toSizeT (headAt i r)) (a :: l))
    · rw [if_pos hc, if_pos (key.1.2 hc)]
    · rw [if_neg hc, if_neg (fun h => hc (key.1.1 h))]

theorem packSegs_dedupRows {α : Type} (i : Nat) (child : List (Row α) → Result (Delta α))
    (hchild : ∀ seg, child (dedupRows seg) = child seg) :
    ∀ (js : List Int) (rows : List (Row α)),
      packSegs i child js (dedupRows rows) =
        Except.map (fun r => (dedupRows r.1, r.2)) (packSegs i child js rows) := by
  intro js
  induction js with
  | nil => intro rows; rfl
  | cons j js ih =>
    intro rows
    have hp : ∀ a b : Row α, a.1 = b.1 →
        decide (headAt i a = j) = decide (headAt i b = j) := by
      intro a b hab
      unfold headAt
      rw [hab]
    rw [packSegs, packSegs, takeWhile_dedupRows _ hp, dropWhile_dedupRows _ hp, hchild, ih]
    cases child (rows.takeWhile (fun r => decide (headAt i r = j))) with
    | error err => rfl
    | ok d =>
      simp only [bind, Except.bind]
      cases packSegs i child js (rows.dropWhile (fun r => decide (headAt i r = j))) with
      | error err => rfl
      | ok r => rfl

theorem packRows_dedupRows {α : Type} [Zero α] (dims : List Int) (caps : Nat → Int)
    (dimTypes : List DimensionType) :
    ∀ (fuel i : Nat) (rows : List (Row α)),
      packRows dims caps dimTypes fuel i (dedupRows rows) =
        packRows dims caps dimTypes fuel i rows := by
  intro fuel
  induction fuel with
  | zero => intro i rows; rfl
  | succ fuel ih =>
    intro i rows
    rw [packRows, packRows]
    cases hdt : at? dimTypes i with
    | error err => rfl
    | ok t =>
      simp only [bind, Except.bind]
      generalize hchild_def : (fun seg : List (Row α) =>
        if (i + 1 == dimTypes.length) = true then
          (pure (Delta.leaf (leafValue seg)) : Result (Delta α))
        else packRows dims caps dimTypes fuel (i + 1) seg) = child
      have hchild : ∀ seg, child (dedupRows seg) = child seg := by
        intro seg
        rw [← hchild_def]
        by_cases hl : (i + 1 == dimTypes.length) = true
        · simp only [hl, if_true, leafValue_dedupRows]
        · simp only [hl, if_false]
          exact ih _ _
      have hsegs := packSegs_dedupRows i child hchild
      cases t with
      | Dense =>
        simp only []
        cases at? dims i with
        | error err => rfl
        | ok dd =>
          simp only []
          rw [hsegs]
          cases packSegs i child (List.map Int.ofNat (List.range dd.toNat)) rows with
          | error err => rfl
          | ok r => rfl
      | Sparse =>
        simp only []
        rw [getUniqueEntries_dedupRows]
        cases getUniqueEntries (List.map (headAt i) rows) with
        | error err => rfl
        | ok u =>
          simp only []
          rw [hsegs]
          cases packSegs i child (List.map (fun (j : Nat) => toInt j) u) rows with
          | error err => rfl
          | ok r => rfl
      | Fixed =>
        simp only []
        rw [getUniqueEntries_dedupRows]
        cases getUniqueEntries (List.map (headAt i) rows) with
        | error err => rfl
        | ok u =>
          simp only []
          by_cases hs : toInt u.length > 0
          · simp only [hs, if_true]
            rw [hsegs]
            cases packSegs i child (List.map (fun (j : Nat) => toInt j) u) rows with
            | error err => rfl
            | ok r => rfl
          · simp only [hs, if_false]
            rfl

theorem initFrom_caps_congr (caps caps' : Nat → Int) :
    ∀ (ts : List DimensionType) (k : Nat),
      (∀ m, ts[m]? = some DimensionType.Fixed → caps (k + m) = caps' (k + m)) →
      initFrom caps k ts = initFrom caps' k ts := by
  intro ts
  induction ts with
  | nil => intro k _; rfl
  | cons t ts ih =>
    intro k h
    rw [initFrom, initFrom, ih (k + 1) (fun m hm => by
      have := h (m + 1) (by simpa using hm)
      have e : k + 1 + m = k + (m + 1) := by omega
      rw [e]; exact this)]
    cases t with
    | Dense => rfl
    | Sparse => rfl
    | Fixed =>
      have := h 0 (by simp)
      simp only [Nat.add_zero] at this
      rw [initIndex, initIndex, this]

/-- The characterisation `pack_eq` with any capacity function that agrees with
the pre-pass on the Fixed levels. -/
theorem pack_eq_of_caps {α : Type} [Zero α] (dims : List Int) (format : List DimensionType)
    (coords : List (List Int)) (vals : List α) (caps : Nat → Int)
    (hlen : dims.length = format.length)
    (hcoords : format.length ≤ coords.length) (hcols : ∀ col ∈ coords, vals.length ≤ col.length)
    (hcaps : ∀ i, format[i]? = some DimensionType.Fixed →
      ∃ r, findMaxFixedValue dims coords format.length i 0 vals.length = Except.ok r ∧
        caps i = toInt (toSizeT r)) :
    pack dims format coords vals =
      Except.map (storageOf dims format caps)
        (packRows dims caps format format.length 0 (rowsOf coords vals 0 vals.length)) := by
  have hcaps1 : ∀ i, format[i]? = some DimensionType.Fixed →
      ∃ r, findMaxFixedValue dims coords format.length i 0 vals.length = Except.ok r :=
    fun i hi => (hcaps i hi).imp (fun r hr => hr.1)
  have hinit : initFrom (capsOf dims coords format.length vals.length) 0 format =
      initFrom caps 0 format := by
    apply initFrom_caps_congr
    intro m hm
    obtain ⟨r, hr, hc⟩ := hcaps m hm
    simp only [Nat.zero_add]
    rw [hc]
    unfold capsOf
    rw [hr]
  unfold pack
  rw [if_pos hlen, hlen]
  dsimp only
  rw [(initIndices_eq dims format coords vals.length _).2 ⟨hcaps1, rfl⟩, hinit]
  simp only [bind, Except.bind]
  unfold packTensor
  rw [Nat.sub_zero, packTensorAux_eq dims coords vals format caps vals.length hcoords hcols
    (le_refl _) format.length 0 vals.length 0 _ (Nat.zero_le _) (le_refl _)
    (shape_initFrom _ _)]
  cases packRows dims caps format format.length 0 (rowsOf coords vals 0 vals.length) with
  | error err => rfl
  | ok d =>
    simp only [Except.map]
    rw [List.range_eq_range',
      copyIndices_eq dims format caps _ hlen
        (Shape.applyDelta (α := α) (show Shape format _ (PackState.mk (α := α) _ []).indices from
          shape_initFrom format _) d) format.length 0 (by omega)]
    simp only [pure, Except.pure, storageOf, applyDelta, List.nil_append, List.range_eq_range']

theorem getElem_rowsOf {α : Type} [Zero α] (coords : List (List Int)) (vals : List α)
    (b e p : Nat) (hp : p < (rowsOf coords vals b e).length) :
    (rowsOf coords vals b e)[p] =
      (coords.map (fun col => col.getD (b + p) 0), vals.getD (b + p) 0) := by
  unfold rowsOf
  simp [List.getElem_range']

theorem rowsOf_columnsOf {α : Type} [Zero α] (n : Nat) (rows : List (Row α))
    (hrows : ∀ r ∈ rows, r.1.length = n) :
    rowsOf (columnsOf n (rows.map (fun r => r.1))) (rows.map (fun r => r.2)) 0 rows.length =
      rows := by
  apply List.ext_getElem
  · rw [length_rowsOf]; rfl
  · intro p h1 h2
    rw [getElem_rowsOf]
    have hr := hrows _ (List.getElem_mem h2)
    apply Prod.ext
    · simp only [Nat.zero_add, columnsOf, List.map_map]
      apply List.ext_getElem
      · simp [hr]
      · intro k hk1 hk2
        simp [List.getD_eq_getElem?_getD, List.getElem?_eq_getElem h2,
          List.getElem?_eq_getElem hk2]
    · simp [List.getD_eq_getElem?_getD, List.getElem?_eq_getElem h2]

theorem length_of_mem_rowsOf {α : Type} [Zero α] (coords : List (List Int)) (vals : List α)
    (b e : Nat) (r : Row α) (h : r ∈ rowsOf coords vals b e) : r.1.length = coords.length := by
  unfold rowsOf at h
  obtain ⟨p, _, rfl⟩ := List.mem_map.1 h
  simp

theorem mem_dedupRows {α : Type} (rows : List (Row α)) (r : Row α) (h : r ∈ dedupRows rows) :
    r ∈ rows :=
  (List.destutter_sublist _ rows).subset h

/-- C17: for a format made only of Dense and Sparse levels, `pack` returns on a
coordinate list exactly what it returns on the list obtained by keeping, of each
run of identical coordinate tuples, only the first entry and its value (so the
values of the later duplicates appear nowhere in the output).  The coordinate
list has one sequence per dimension, each as long as the value sequence; it
need not be sorted nor in range for the equality to hold. -/
theorem pack_collapses_duplicates {α : Type} [Zero α] (dims : List Int)
    (format : List DimensionType) (coords : List (List Int)) (vals : List α)
    (hfmt : ∀ t ∈ format, t ≠ DimensionType.Fixed)
    (hlen : coords.length = format.length) (hcols : ∀ col ∈ coords, col.length = vals.length) :
    pack dims format coords vals =
      pack dims format (dedupCoordinates coords vals) (dedupValues coords vals) := by
  by_cases hd : dims.length = format.length
  · have hnofixed : ∀ (c : List (List Int)) (n : Nat) (i : Nat),
        format[i]? = some DimensionType.Fixed →
        ∃ r, findMaxFixedValue dims c format.length i 0 n = Except.ok r ∧
          (fun _ : Nat => (0 : Int)) i = toInt (toSizeT r) := by
      intro c n i hi
      exact absurd rfl (hfmt _ (List.mem_iff_getElem?.2 ⟨i, hi⟩))
    have hrows : ∀ r ∈ dedupRows (rowsOf coords vals 0 vals.length),
        r.1.length = coords.length := fun r hr =>
      length_of_mem_rowsOf coords vals 0 vals.length r (mem_dedupRows _ r hr)
    have hvlen : (dedupValues coords vals).length =
        (dedupRows (rowsOf coords vals 0 vals.length)).length := by
      unfold dedupValues
      rw [List.length_map]
    rw [pack_eq_of_caps dims format coords vals (fun _ => 0) hd (by omega)
        (fun col hc => by rw [hcols col hc]) (hnofixed _ _),
      pack_eq_of_caps dims format (dedupCoordinates coords vals) (dedupValues coords vals)
        (fun _ => 0) hd (by unfold dedupCoordinates columnsOf; simp [hlen])
        (fun col hc => by
          unfold dedupCoordinates columnsOf at hc
          obtain ⟨k, _, rfl⟩ := List.mem_map.1 hc
          rw [hvlen]
          simp)
        (hnofixed _ _)]
    have hrw : rowsOf (dedupCoordinates coords vals) (dedupValues coords vals) 0
        (dedupValues coords vals).length = dedupRows (rowsOf coords vals 0 vals.length) := by
      rw [hvlen]
      exact rowsOf_columnsOf coords.length _ hrows
    rw [hrw, packRows_dedupRows]
  · unfold pack
    rw [if_neg hd, if_neg hd]

/-- An instance of `pack_collapses_duplicates`: the entry `(0)` given twice,
with the values 4 and 5, packs like the single entry with the value 4. -/
theorem pack_collapses_duplicates_witness :
    dedupCoordinates [[0, 0, 2]] ([4, 5, 9] : List Int) = [[0, 2]] ∧
    dedupValues [[0, 0, 2]] ([4, 5, 9] : List Int) = [4, 9] ∧
    pack [3] [DimensionType.Sparse] [[0, 0, 2]] ([4, 5, 9] : List Int) =
      Except.ok { format := [DimensionType.Sparse], index := [[[0, 2], [0, 2]]],
                  values := [4, 9] } ∧
    pack [3] [DimensionType.Sparse] [[0, 0, 2]] ([4, 5, 9] : List Int) =
      pack [3] [DimensionType.Sparse] (dedupCoordinates [[0, 0, 2]] ([4, 5, 9] : List Int))
        (dedupValues [[0, 0, 2]] ([4, 5, 9] : List Int)) :=
  ⟨by decide, by decide, by decide,
    pack_collapses_duplicates [3] [DimensionType.Sparse] [[0, 0, 2]] ([4, 5, 9] : List Int)
      (by decide) (by decide) (by decide)⟩

/-! ## Lexicographically sorted rows -/

theorem lt_of_cons_lt_cons {x : Int} {a b : List Int} (h : x :: a < x :: b) : a < b := by
  cases h with
  | cons h3 => exact h3
  | rel h1 => exact absurd h1 (lt_irrefl x)

theorem head_le_of_cons_lt_cons {x y : Int} {a b : List Int} (h : x :: a < y :: b) : x ≤ y := by
  cases h with
  | cons _ => exact le_refl _
  | rel h1 => exact le_of_lt h1

theorem lt_of_singleton_lt {x y : Int} (h : [x] < [y]) : x < y := by
  cases h with
  | cons h3 => cases h3
  | rel h1 => exact h1

theorem lex_drop : ∀ (i : Nat) (a b : List Int), a.take i = b.take i → a < b →
    a.drop i < b.drop i := by
  intro i
  induction i with
  | zero => intro a b _ h; exact h
  | succ i ih =>
    intro a b ht h
    cases a with
    | nil =>
      cases b with
      | nil => exact h
      | cons y b => simp at ht
    | cons x a =>
      cases b with
      | nil => simp at ht
      | cons y b =>
        simp only [List.take_succ_cons, List.cons.injEq] at ht
        obtain ⟨rfl, ht2⟩ := ht
        exact ih a b ht2 (lt_of_cons_lt_cons h)

theorem drop_eq_getD_cons (a : List Int) (i : Nat) (h : i < a.length) :
    a.drop i = a.getD i 0 :: a.drop (i + 1) := by
  rw [List.drop_eq_getElem_cons h]
  simp [List.getD_eq_getElem?_getD, List.getElem?_eq_getElem h]

theorem lex_getD_le (i : Nat) (a b : List Int) (ht : a.take i = b.take i)
    (ha : i < a.length) (hb : i < b.length) (h : a ≤ b) : a.getD i 0 ≤ b.getD i 0 := by
  rcases lt_or_eq_of_le h with h1 | h1
  · have := lex_drop i a b ht h1
    rw [drop_eq_getD_cons a i ha, drop_eq_getD_cons b i hb] at this
    exact head_le_of_cons_lt_cons this
  · rw [h1]

theorem lex_getD_lt (i : Nat) (a b : List Int) (ht : a.take i = b.take i)
    (ha : i + 1 = a.length) (hb : i + 1 = b.length) (h : a < b) : a.getD i 0 < b.getD i 0 := by
  have := lex_drop i a b ht h
  rw [drop_eq_getD_cons a i (by omega), drop_eq_getD_cons b i (by omega),
    List.drop_of_length_le (by omega), List.drop_of_length_le (by omega)] at this
  exact lt_of_singleton_lt this

theorem take_succ_eq (i : Nat) (a b : List Int) (ht : a.take i = b.take i)
    (ha : i < a.length) (hb : i < b.length) (h : a.getD i 0 = b.getD i 0) :
    a.take (i + 1) = b.take (i + 1) := by
  rw [List.take_succ, List.take_succ, ht]
  simp only [List.getD_eq_getElem?_getD, List.getElem?_eq_getElem ha,
    List.getElem?_eq_getElem hb, Option.getD_some] at h
  simp [List.getElem?_eq_getElem ha, List.getElem?_eq_getElem hb, h]

theorem RowsOk.nil {α : Type} (n i : Nat) : RowsOk n i ([] : List (Row α)) := by
  unfold RowsOk
  exact ⟨fun _ h => (by cases h), fun _ h => (by cases h), List.sorted_nil⟩

theorem RowsOk.sublist {α : Type} {n i : Nat} {rows rows' : List (Row α)}
    (h : RowsOk n i rows) (hs : rows'.Sublist rows) : RowsOk n i rows' := by
  unfold RowsOk at h ⊢
  exact ⟨fun r hr => h.1 r (hs.subset hr),
    fun a ha b hb => h.2.1 a (hs.subset ha) b (hs.subset hb),
    List.Pairwise.sublist (hs.map _) h.2.2⟩

theorem RowsOk.heads {α : Type} {n i : Nat} {rows : List (Row α)} (h : RowsOk n i rows)
    (hi : i < n) :
    (rows.map (headAt i)).Sorted (· ≤ ·) ∧ ∀ x ∈ rows.map (headAt i), 0 ≤ x ∧ IsInt x := by
  unfold RowsOk at h
  constructor
  · have h3 := h.2.2
    unfold List.Sorted at h3 ⊢
    rw [List.pairwise_map] at h3 ⊢
    refine h3.imp_of_mem ?_
    intro a b ha hb hab
    exact lex_getD_le i a.1 b.1 (h.2.1 a ha b hb) (by rw [(h.1 a ha).1]; exact hi)
      (by rw [(h.1 b hb).1]; exact hi) hab
  · intro x hx
    obtain ⟨r, hr, rfl⟩ := List.mem_map.1 hx
    have hlen := (h.1 r hr).1
    unfold headAt
    rw [List.getD_eq_getElem?_getD, List.getElem?_eq_getElem (by omega)]
    exact (h.1 r hr).2 _ (List.getElem_mem _)

theorem RowsOk.succ {α : Type} {n i : Nat} {rows : List (Row α)} (h : RowsOk n i rows)
    (hi : i < n) (j : Int) (hj : ∀ r ∈ rows, headAt i r = j) : RowsOk n (i + 1) rows := by
  unfold RowsOk at h ⊢
  exact ⟨h.1,
    fun a ha b hb => take_succ_eq i a.1 b.1 (h.2.1 a ha b hb) (by rw [(h.1 a ha).1]; exact hi)
      (by rw [(h.1 b hb).1]; exact hi) ((hj a ha).trans (hj b hb).symm),
    h.2.2⟩

theorem toInt_toNat_of_nonneg {x : Int} (h0 : 0 ≤ x) (h : IsInt x) :
    toInt ((x.toNat : Nat) : Int) = x := by
  rw [Int.toNat_of_nonneg h0]
  exact toInt_of_isInt h

/-- On the rows of a segment, the index values of a Sparse or Fixed level are
the distinct coordinates of the level. -/
theorem getUniqueEntries_rows {α : Type} {n i : Nat} {rows : List (Row α)}
    (h : RowsOk n i rows) (hi : i < n) :
    getUniqueEntries (rows.map (headAt i)) =
        Except.ok ((rows.map (headAt i)).dedup.map Int.toNat) ∧
      ((rows.map (headAt i)).dedup.map Int.toNat).map (fun (j : Nat) => toInt j) =
        (rows.map (headAt i)).dedup := by
  obtain ⟨h1, h2⟩ := h.heads hi
  refine ⟨getUniqueEntries_of_sorted h1 h2, ?_⟩
  have key : ∀ l : List Int, (∀ x ∈ l, 0 ≤ x ∧ IsInt x) →
      (l.map Int.toNat).map (fun (j : Nat) => toInt j) = l := by
    intro l
    induction l with
    | nil => intro _; rfl
    | cons x l ih =>
      intro hl
      rw [List.map_cons, List.map_cons, ih (fun y hy => hl y (List.mem_cons_of_mem _ hy)),
        toInt_toNat_of_nonneg (hl x (by simp)).1 (hl x (by simp)).2]
  exact key _ (fun x hx => h2 x (List.mem_dedup.1 hx))

/-! ## `packRows` returns on sorted rows -/

theorem packSegs_total {α : Type} (i : Nat) (child : List (Row α) → Result (Delta α))
    (S : List (Row α) → Prop) (hsub : ∀ rows rows', rows'.Sublist rows → S rows → S rows')
    (hchild : ∀ seg j, S seg → (∀ r ∈ seg, headAt i r = j) → ∃ d, child seg = Except.ok d) :
    ∀ (js : List Int) (rows : List (Row α)), S rows →
      ∃ r, packSegs i child js rows = Except.ok r := by
  intro js
  induction js with
  | nil => intro rows _; exact ⟨_, rfl⟩
  | cons j js ih =>
    intro rows hS
    have hseg : ∀ r ∈ rows.takeWhile (fun r => decide (headAt i r = j)), headAt i r = j := by
      intro r hr
      simpa using List.mem_takeWhile_imp hr
    obtain ⟨d, hd⟩ := hchild _ j (hsub _ _ (List.takeWhile_sublist _) hS) hseg
    obtain ⟨r, hr⟩ := ih _ (hsub _ _ (List.dropWhile_sublist _) hS)
    rw [packSegs, hd]
    simp only [bind, Except.bind]
    rw [hr]
    exact ⟨_, rfl⟩

theorem toSizeT_pred_lt_of_toInt_pos (n : Nat) (h : toInt (n : Int) > 0) :
    toSizeT (toInt (n : Int) - 1) < n := by
  unfold toInt at h ⊢
  unfold toSizeT
  split at h <;> rename_i h1
  · rw [if_pos h1]
    omega
  · omega

theorem padRows_total {α : Type} (i : Nat) (u : List Nat)
    (child : List (Row α) → Result (Delta α)) (hchild : ∃ d, child [] = Except.ok d) :
    ∀ (n : Nat), ∃ p, padRows i u (toInt (u.length : Int)) child n = Except.ok p := by
  intro n
  induction n with
  | zero => exact ⟨_, rfl⟩
  | succ n ih =>
    obtain ⟨d, hd⟩ := hchild
    obtain ⟨p, hp⟩ := ih
    rw [padRows]
    by_cases hs : toInt (u.length : Int) > 0
    · have hlt := toSizeT_pred_lt_of_toInt_pos u.length hs
      simp only [hs, if_true]
      rw [at?_of_lt hlt]
      simp only [bind, Except.bind]
      rw [hd]
      simp only []
      rw [hp]
      exact ⟨_, rfl⟩
    · simp only [hs, if_false, bind, Except.bind, pure, Except.pure]
      rw [hd]
      simp only []
      rw [hp]
      exact ⟨_, rfl⟩

theorem packRows_total {α : Type} [Zero α] (dims : List Int) (caps : Nat → Int)
    (dimTypes : List DimensionType) (hdims : dims.length = dimTypes.length) :
    ∀ (fuel i : Nat) (rows : List (Row α)), fuel = dimTypes.length - i → i < dimTypes.length →
      RowsOk dimTypes.length i rows →
      ∃ d, packRows dims caps dimTypes fuel i rows = Except.ok d := by
  intro fuel
  induction fuel with
  | zero => intro i rows hf hi _; omega
  | succ fuel ih =>
    intro i rows hf hi hrows
    rw [packRows, at?_eq_ok (List.getElem?_eq_getElem hi)]
    simp only [bind, Except.bind]
    generalize hchild_def : (fun seg : List (Row α) =>
      if (i + 1 == dimTypes.length) = true then
        (pure (Delta.leaf (leafValue seg)) : Result (Delta α))
      else packRows dims caps dimTypes fuel (i + 1) seg) = child
    have hchild : ∀ seg j, RowsOk dimTypes.length i seg → (∀ r ∈ seg, headAt i r = j) →
        ∃ d, child seg = Except.ok d := by
      intro seg j hseg hj
      rw [← hchild_def]
      by_cases hl : (i + 1 == dimTypes.length) = true
      · simp only [hl, if_true]
        exact ⟨_, rfl⟩
      · simp only [hl, if_false]
        have hne : i + 1 ≠ dimTypes.length := by simpa using hl
        exact ih (i + 1) seg (by omega) (by omega) (hseg.succ hi j hj)
    have hsegs := packSegs_total i child (RowsOk dimTypes.length i)
      (fun rows rows' hs h => h.sublist hs) hchild
    obtain ⟨hu1, hu2⟩ := getUniqueEntries_rows hrows hi
    cases ht : dimTypes[i] with
    | Dense =>
      simp only []
      rw [at?_eq_ok (List.getElem?_eq_getElem (by omega : i < dims.length))]
      simp only []
      obtain ⟨r, hr⟩ := hsegs (List.map Int.ofNat (List.range (dims[i]).toNat)) rows hrows
      rw [hr]
      exact ⟨_, rfl⟩
    | Sparse =>
      simp only []
      rw [hu1]
      simp only []
      obtain ⟨r, hr⟩ := hsegs (List.map (fun (j : Nat) => toInt j)
        ((rows.map (headAt i)).dedup.map Int.toNat)) rows hrows
      rw [hr]
      exact ⟨_, rfl⟩
    | Fixed =>
      simp only []
      rw [hu1]
      simp only []
      obtain ⟨p, hp⟩ := padRows_total i ((rows.map (headAt i)).dedup.map Int.toNat) child
        (hchild [] 0 (RowsOk.nil _ _) (fun _ h => by cases h))
        (caps i - toInt (((rows.map (headAt i)).dedup.map Int.toNat).length : Int)).toNat
      by_cases hs : toInt (((rows.map (headAt i)).dedup.map Int.toNat).length : Int) > 0
      · simp only [hs, if_true]
        obtain ⟨r, hr⟩ := hsegs (List.map (fun (j : Nat) => toInt j)
          ((rows.map (headAt i)).dedup.map Int.toNat)) rows hrows
        rw [hr]
        simp only [pure, Except.pure]
        rw [hp]
        exact ⟨_, rfl⟩
      · simp only [hs, if_false, pure, Except.pure]
        rw [hp]
        exact ⟨_, rfl⟩

/-! ## Segments of a Sparse level are the runs of equal coordinates -/

theorem destutter'_ne_eq (l : List Int) : ∀ (a : Int),
    List.destutter' (· ≠ ·) a l =
      a :: List.destutter (· ≠ ·) (l.dropWhile (fun b => decide (b = a))) := by
  induction l with
  | nil => intro a; rfl
  | cons b l ih =>
    intro a
    by_cases h : a = b
    · subst h
      rw [List.destutter'_cons_neg _ (by simp), ih a, List.dropWhile_cons]
      simp
    · rw [List.destutter'_cons_pos _ h, List.dropWhile_cons]
      have : decide (b = a) = false := by simpa using fun e => h e.symm
      rw [this]
      rfl

theorem packSegs_runs {α : Type} (i : Nat) (child : List (Row α) → Result (Delta α))
    (S : List (Row α) → Prop) (hsub : ∀ rows rows', rows'.Sublist rows → S rows → S rows')
    (Q : List (Row α) → Delta α → Prop) (hQ0 : Q [] Delta.empty)
    (hQapp : ∀ s1 s2 d1 d2, Q s1 d1 → Q s2 d2 → Q (s1 ++ s2) (d1.append d2))
    (hchild : ∀ seg j, S seg → seg ≠ [] → (∀ r ∈ seg, headAt i r = j) →
      ∃ d, child seg = Except.ok d ∧ Q seg d) :
    ∀ (m : Nat) (rows : List (Row α)), rows.length ≤ m → S rows →
      ∃ r, packSegs i child (List.destutter (· ≠ ·) (rows.map (headAt i))) rows = Except.ok r ∧
        r.1 = [] ∧ Q rows r.2 := by
  intro m
  induction m with
  | zero =>
    intro rows hlen _
    have : rows = [] := List.length_eq_zero.1 (by omega)
    subst this
    exact ⟨_, rfl, rfl, hQ0⟩
  | succ m ih =>
    intro rows hlen hS
    cases rows with
    | nil => exact ⟨_, rfl, rfl, hQ0⟩
    | cons a l =>
      have hp : ((fun b => decide (b = headAt i a)) ∘ headAt i : Row α → Bool) =
          fun r => decide (headAt i r = headAt i a) := rfl
      rw [List.map_cons, List.destutter_cons', destutter'_ne_eq, List.dropWhile_map, hp, packSegs]
      have htd := List.takeWhile_append_dropWhile (fun r => decide (headAt i r = headAt i a))
        (a :: l)
      have hne : (a :: l).takeWhile (fun r => decide (headAt i r = headAt i a)) ≠ [] := by
        rw [List.takeWhile_cons]
        simp
      have hseg : ∀ r ∈ (a :: l).takeWhile (fun r => decide (headAt i r = headAt i a)),
          headAt i r = headAt i a := by
        intro r hr
        simpa using List.mem_takeWhile_imp hr
      obtain ⟨d, hd, hQd⟩ := hchild _ _ (hsub _ _ (List.takeWhile_sublist _) hS) hne hseg
      have hdrop : (a :: l).dropWhile (fun r => decide (headAt i r = headAt i a)) =
          l.dropWhile (fun r => decide (headAt i r = headAt i a)) := by
        rw [List.dropWhile_cons]
        simp
      have hlen2 : (l.dropWhile (fun r => decide (headAt i r = headAt i a))).length ≤ m := by
        have := (List.dropWhile_sublist (fun r => decide (headAt i r = headAt i a))
          (l := l)).length_le
        simp only [List.length_cons] at hlen
        omega
      obtain ⟨r, hr, hr1, hQr⟩ := ih _ hlen2
        (hsub _ _ ((List.dropWhile_sublist _).trans (List.sublist_cons_self a l)) hS)
      rw [hd]
      simp only [bind, Except.bind]
      rw [hdrop, hr]
      refine ⟨_, rfl, hr1, ?_⟩
      have := hQapp _ _ _ _ hQd hQr
      rw [← hdrop, htd] at this
      exact this

/-! ## The rows of a well-formed coordinate list -/

theorem map_fst_rowsOf {α : Type} [Zero α] (coords : List (List Int)) (vals : List α) (n : Nat) :
    (rowsOf coords vals 0 n).map (fun r => r.1) = tuplesOf coords n := by
  unfold rowsOf tuplesOf
  rw [List.map_map, Nat.sub_zero]
  rfl

theorem map_snd_rowsOf {α : Type} [Zero α] (coords : List (List Int)) (vals : List α) :
    (rowsOf coords vals 0 vals.length).map (fun r => r.2) = vals := by
  unfold rowsOf
  rw [List.map_map, Nat.sub_zero]
  apply List.ext_getElem
  · simp
  · intro p h1 h2
    simp [List.getElem_range', List.getD_eq_getElem?_getD, List.getElem?_eq_getElem h2]

theorem rowsOk_rowsOf {α : Type} [Zero α] (coords : List (List Int)) (vals : List α) (n : Nat)
    (hcoords : coords.length = n) (hcols : ∀ col ∈ coords, col.length = vals.length)
    (hnn : ∀ col ∈ coords, ∀ x ∈ col, 0 ≤ x ∧ IsInt x)
    (hsorted : (tuplesOf coords vals.length).Sorted (· ≤ ·)) :
    RowsOk n 0 (rowsOf coords vals 0 vals.length) := by
  unfold RowsOk
  refine ⟨?_, fun a _ b _ => rfl, by rw [map_fst_rowsOf]; exact hsorted⟩
  intro r hr
  refine ⟨(length_of_mem_rowsOf coords vals 0 vals.length r hr).trans hcoords, ?_⟩
  unfold rowsOf at hr
  obtain ⟨p, hp, rfl⟩ := List.mem_map.1 hr
  have hp2 : p < vals.length := by
    have := (List.mem_range'_1.1 hp).2
    omega
  intro x hx
  obtain ⟨col, hcol, rfl⟩ := List.mem_map.1 hx
  have hpc : p < col.length := by rw [hcols col hcol]; exact hp2
  rw [List.getD_eq_getElem?_getD, List.getElem?_eq_getElem hpc]
  exact hnn col hcol _ (List.getElem_mem _)

theorem map_headAt_rowsOf_all {α : Type} [Zero α] (coords : List (List Int)) (vals : List α)
    (i : Nat) (lc : List Int) (h : coords[i]? = some lc) (hl : lc.length = vals.length) :
    (rowsOf coords vals 0 vals.length).map (headAt i) = lc := by
  rw [map_headAt_rowsOf coords vals i lc h vals.length (by omega) vals.length 0 rfl
    (Nat.zero_le _)]
  simp [← hl]

/-! ## All-Sparse packing of strictly sorted rows -/

theorem strict_segment_singleton {α : Type} {n i : Nat} (seg : List (Row α))
    (hok : RowsOk n i seg) (hst : (seg.map (fun r => r.1)).Sorted (· < ·)) (hi : i + 1 = n)
    (j : Int) (hj : ∀ r ∈ seg, headAt i r = j) (hne : seg ≠ []) : ∃ a, seg = [a] := by
  cases seg with
  | nil => exact absurd rfl hne
  | cons a l =>
    cases l with
    | nil => exact ⟨a, rfl⟩
    | cons b l =>
      exfalso
      unfold RowsOk at hok
      have hab : a.1 < b.1 := by
        have := List.rel_of_sorted_cons hst b.1 (by simp)
        exact this
      have hlt := lex_getD_lt i a.1 b.1 (hok.2.1 a (by simp) b (by simp))
        (by rw [(hok.1 a (by simp)).1]; exact hi) (by rw [(hok.1 b (by simp)).1]; exact hi) hab
      have h1 := hj a (by simp)
      have h2 := hj b (by simp)
      unfold headAt at h1 h2
      omega

theorem strict_heads_nodup {α : Type} {n i : Nat} (rows : List (Row α))
    (hok : RowsOk n i rows) (hst : (rows.map (fun r => r.1)).Sorted (· < ·)) (hi : i + 1 = n) :
    (rows.map (headAt i)).Nodup := by
  have h3 : (rows.map (headAt i)).Sorted (· < ·) := by
    unfold RowsOk at hok
    unfold List.Sorted at hst ⊢
    rw [List.pairwise_map] at hst ⊢
    refine hst.imp_of_mem ?_
    intro a b ha hb hab
    exact lex_getD_lt i a.1 b.1 (hok.2.1 a ha b hb)
      (by rw [(hok.1 a ha).1]; exact hi) (by rw [(hok.1 b hb).1]; exact hi) hab
  exact h3.nodup

theorem packRows_allSparse {α : Type} [Zero α] (dims : List Int) (caps : Nat → Int)
    (dimTypes : List DimensionType) (hall : ∀ t ∈ dimTypes, t = DimensionType.Sparse) :
    ∀ (fuel i : Nat) (rows : List (Row α)), fuel = dimTypes.length - i → i < dimTypes.length →
      RowsOk dimTypes.length i rows → (rows.map (fun r => r.1)).Sorted (· < ·) →
      ∃ d, packRows dims caps dimTypes fuel i rows = Except.ok d ∧
        d.values = rows.map (fun r => r.2) ∧
        d.idx (dimTypes.length - 1) = rows.map (headAt (dimTypes.length - 1)) := by
  intro fuel
  induction fuel with
  | zero => intro i rows hf hi _ _; omega
  | succ fuel ih =>
    intro i rows hf hi hrows hst
    have hti : dimTypes[i] = DimensionType.Sparse := hall _ (List.getElem_mem _)
    rw [packRows, at?_eq_ok (List.getElem?_eq_getElem hi), hti]
    simp only [bind, Except.bind]
    obtain ⟨hu1, hu2⟩ := getUniqueEntries_rows hrows hi
    rw [hu1]
    simp only []
    rw [hu2, ← destutter_ne_eq_dedup _ (hrows.heads hi).1]
    have hsub : ∀ rows rows' : List (Row α), rows'.Sublist rows →
        (RowsOk dimTypes.length i rows ∧ (rows.map (fun r => r.1)).Sorted (· < ·)) →
        (RowsOk dimTypes.length i rows' ∧ (rows'.map (fun r => r.1)).Sorted (· < ·)) :=
      fun rows rows' hs h => ⟨h.1.sublist hs, List.Pairwise.sublist (hs.map _) h.2⟩
    by_cases hl : i + 1 = dimTypes.length
    · have hleaf : (i + 1 == dimTypes.length) = true := by simpa using hl
      simp only [hleaf, if_true]
      obtain ⟨r, hr, _, hQ1, hQ2⟩ := packSegs_runs i
        (fun seg => (pure (Delta.leaf (leafValue seg)) : Result (Delta α)))
        (fun rows => RowsOk dimTypes.length i rows ∧ (rows.map (fun r => r.1)).Sorted (· < ·))
        hsub
        (fun seg d => d.values = seg.map (fun r => r.2) ∧ d.idx (dimTypes.length - 1) = [])
        ⟨rfl, rfl⟩
        (fun s1 s2 d1 d2 h1 h2 => by
          simp only [Delta.append, h1.1, h2.1, h1.2, h2.2, List.map_append, List.append_nil]
          exact ⟨trivial, trivial⟩)
        (fun seg j hS hne hj => by
          obtain ⟨a, rfl⟩ := strict_segment_singleton seg hS.1 hS.2 hl j hj hne
          exact ⟨_, rfl, rfl, rfl⟩)
        rows.length rows (le_refl _) ⟨hrows, hst⟩
      rw [hr]
      refine ⟨_, rfl, ?_, ?_⟩
      · simp only [Delta.append, Delta.level, hQ1, List.nil_append]
      · have hi1 : dimTypes.length - 1 = i := by omega
        rw [hi1] at hQ2 ⊢
        simp only [Delta.append, Delta.level, hQ2, List.append_nil, if_true]
        rw [destutter_ne_eq_dedup _ (hrows.heads hi).1,
          (strict_heads_nodup rows hrows hst hl).dedup]
    · have hleaf : (i + 1 == dimTypes.length) = false := by simpa using hl
      simp only [hleaf, Bool.false_eq_true, if_false]
      obtain ⟨r, hr, _, hQ1, hQ2⟩ := packSegs_runs i
        (fun seg => packRows dims caps dimTypes fuel (i + 1) seg)
        (fun rows => RowsOk dimTypes.length i rows ∧ (rows.map (fun r => r.1)).Sorted (· < ·))
        hsub
        (fun seg d => d.values = seg.map (fun r => r.2) ∧
          d.idx (dimTypes.length - 1) = seg.map (headAt (dimTypes.length - 1)))
        ⟨rfl, rfl⟩
        (fun s1 s2 d1 d2 h1 h2 => by
          simp only [Delta.append, h1.1, h2.1, h1.2, h2.2, List.map_append]
          exact ⟨trivial, trivial⟩)
        (fun seg j hS hne hj =>
          ih (i + 1) seg (by omega) (by omega) (hS.1.succ hi j hj) hS.2)
        rows.length rows (le_refl _) ⟨hrows, hst⟩
      rw [hr]
      refine ⟨_, rfl, ?_, ?_⟩
      · simp only [Delta.append, Delta.level, hQ1, List.nil_append]
      · have hi1 : dimTypes.length - 1 ≠ i := by omega
        simp only [Delta.append, Delta.level, hQ2, hi1, if_false, List.nil_append]

/-- C15: all-Sparse packing stores the nonzeros unchanged and unpadded.  For
every order `n >= 1`, the all-Sparse format and every strictly
lexicographically sorted list of non-negative `int` coordinates (one sequence
per dimension, each as long as the value sequence), `pack` returns a Storage
whose value array is the input value sequence and whose last level has as `idx`
array the input coordinate sequence of the last dimension. -/
theorem pack_allSparse_stores_nonzeros {α : Type} [Zero α] (dims : List Int)
    (format : List DimensionType) (coords : List (List Int)) (vals : List α)
    (hn : 1 ≤ format.length) (hfmt : ∀ t ∈ format, t = DimensionType.Sparse)
    (hdims : dims.length = format.length) (hcoords : coords.length = format.length)
    (hcols : ∀ col ∈ coords, col.length = vals.length)
    (hnn : ∀ col ∈ coords, ∀ x ∈ col, 0 ≤ x ∧ IsInt x)
    (hsorted : (tuplesOf coords vals.length).Sorted (· < ·)) :
    ∃ (s : Storage α) (pos : List Int), pack dims format coords vals = Except.ok s ∧
      s.values = vals ∧
      s.index[format.length - 1]? = some [pos, coords.getD (format.length - 1) []] := by
  have hnofixed : ∀ i, format[i]? = some DimensionType.Fixed →
      ∃ r, findMaxFixedValue dims coords format.length i 0 vals.length = Except.ok r ∧
        (fun _ : Nat => (0 : Int)) i = toInt (toSizeT r) := by
    intro i hi
    have := hfmt _ (List.getElem?_mem hi)
    cases this
  have hle : (tuplesOf coords vals.length).Sorted (· ≤ ·) :=
    hsorted.imp (fun h => le_of_lt h)
  have hrows := rowsOk_rowsOf coords vals format.length hcoords hcols hnn hle
  obtain ⟨d, hd, hv, hidx⟩ := packRows_allSparse dims (fun _ => 0) format hfmt format.length 0
    (rowsOf coords vals 0 vals.length) (by omega) (by omega) hrows
    (by rw [map_fst_rowsOf]; exact hsorted)
  have hlast : format.length - 1 < coords.length := by omega
  have hlc : coords[format.length - 1]? = some coords[format.length - 1] :=
    List.getElem?_eq_getElem hlast
  have hft : format[format.length - 1]? = some DimensionType.Sparse := by
    rw [List.getElem?_eq_getElem (by omega)]
    exact congrArg some (hfmt _ (List.getElem_mem _))
  refine ⟨storageOf dims format (fun _ => 0) d,
    [0] ++ (d.pos (format.length - 1)).map (fun (c : Nat) => toInt ((0 + c : Nat) : Int)),
    ?_, ?_, ?_⟩
  · rw [pack_eq_of_caps dims format coords vals (fun _ => 0) hdims (by omega)
      (fun col hc => by rw [hcols col hc]) hnofixed, hd]
    rfl
  · show d.values = vals
    rw [hv, map_snd_rowsOf]
  · rw [storageOf_index dims format _ d _ _ hft, hidx,
      map_headAt_rowsOf_all coords vals _ _ hlc (hcols _ (List.getElem_mem _))]
    simp [List.getD_eq_getElem?_getD, hlc]

/-- An instance of `pack_allSparse_stores_nonzeros`: a 2 x 3 matrix with three
nonzeros in the format `[Sparse, Sparse]`. -/
theorem pack_allSparse_stores_nonzeros_witness :
    pack [2, 3] [DimensionType.Sparse, DimensionType.Sparse] [[0, 0, 1], [0, 2, 1]]
        ([1, 2, 3] : List Int) =
      Except.ok { format := [DimensionType.Sparse, DimensionType.Sparse],
                  index := [[[0, 2], [0, 1]], [[0, 2, 3], [0, 2, 1]]],
                  values := [1, 2, 3] } ∧
    ∃ (s : Storage Int) (pos : List Int),
      pack [2, 3] [DimensionType.Sparse, DimensionType.Sparse] [[0, 0, 1], [0, 2, 1]]
        ([1, 2, 3] : List Int) = Except.ok s ∧
      s.values = [1, 2, 3] ∧
      s.index[[DimensionType.Sparse, DimensionType.Sparse].length - 1]? =
        some [pos, ([[0, 0, 1], [0, 2, 1]] : List (List Int)).getD
          ([DimensionType.Sparse, DimensionType.Sparse].length - 1) []] :=
  ⟨by decide,
    pack_allSparse_stores_nonzeros [2, 3] [DimensionType.Sparse, DimensionType.Sparse]
      [[0, 0, 1], [0, 2, 1]] ([1, 2, 3] : List Int) (by decide) (by decide) (by decide)
      (by decide) (by decide) (by decide) (by decide)⟩

/-! ## The frequency loop of the capacity pre-pass -/

theorem countRuns_eq (lc : List Int) : ∀ (m k : Nat) (s : RunState), k + m ≤ lc.length →
    countRuns lc (List.range' k m) s = Except.ok (((lc.drop k).take m).foldl runStep s) := by
  intro m
  induction m with
  | zero => intro k s _; rfl
  | succ m ih =>
    intro k s hk
    have hlt : k < lc.length := by omega
    rw [List.range'_succ, countRuns, at?_eq_ok (List.getElem?_eq_getElem hlt),
      List.drop_eq_getElem_cons hlt, List.take_succ_cons, List.foldl_cons]
    simp only [bind, Except.bind]
    by_cases hc : lc[k] = s.coordCur
    · rw [if_pos hc, ih (k + 1) _ (by omega)]
      simp only [runStep, hc, if_true]
    · rw [if_neg hc, ih (k + 1) _ (by omega)]
      simp only [runStep, hc, if_false]

/-- What `maxSize` and `maxCoords` record once every run of `pre` is complete:
the largest number of occurrences of a value and the values that reach it. -/
theorem recordRun_complete (pre : List Int) (s : RunState)
    (h1 : ∀ x ∈ pre, pre.count x ≤ s.maxSize)
    (h2 : ∀ x ∈ pre, pre.count x = s.maxSize → x ∈ s.maxCoords)
    (h3 : ∀ m ∈ s.maxCoords, m ∈ pre ∧ pre.count m = s.maxSize)
    (h4 : s.maxSize = 0 ∨ s.maxCoords ≠ [])
    (hlt : ∀ x ∈ pre, x < s.coordCur) (hk : 1 ≤ s.sizeCur) :
    (∀ x ∈ pre ++ List.replicate s.sizeCur s.coordCur,
      (pre ++ List.replicate s.sizeCur s.coordCur).count x ≤ (recordRun s).maxSize) ∧
    (∀ x ∈ pre ++ List.replicate s.sizeCur s.coordCur,
      (pre ++ List.replicate s.sizeCur s.coordCur).count x = (recordRun s).maxSize →
        x ∈ (recordRun s).maxCoords) ∧
    (∀ m ∈ (recordRun s).maxCoords, m ∈ pre ++ List.replicate s.sizeCur s.coordCur ∧
      (pre ++ List.replicate s.sizeCur s.coordCur).count m = (recordRun s).maxSize) ∧
    ((recordRun s).maxCoords ≠ [] ∧ 1 ≤ (recordRun s).maxSize) ∧
    (recordRun s).coordCur = s.coordCur ∧ (recordRun s).sizeCur = s.sizeCur := by
  have hcc : pre.count s.coordCur = 0 := by
    rw [List.count_eq_zero]
    intro hm
    exact absurd (hlt _ hm) (lt_irrefl _)
  have hcnt : ∀ x, (pre ++ List.replicate s.sizeCur s.coordCur).count x =
      pre.count x + if x = s.coordCur then s.sizeCur else 0 := by
    intro x
    rw [List.count_append, List.count_replicate]
    by_cases hx : x = s.coordCur
    · simp [hx]
    · have : ¬ (s.coordCur = x) := fun e => hx e.symm
      simp [hx, this]
  have hmem : ∀ x, x ∈ pre ++ List.replicate s.sizeCur s.coordCur ↔ x ∈ pre ∨ x = s.coordCur := by
    intro x
    rw [List.mem_append, List.mem_replicate]
    constructor
    · rintro (h | h)
      · exact Or.inl h
      · exact Or.inr h.2
    · rintro (h | h)
      · exact Or.inl h
      · exact Or.inr ⟨by omega, h⟩
  have hne : ∀ x ∈ pre, x ≠ s.coordCur := fun x hx e => absurd (hlt x hx) (by rw [e]; exact lt_irrefl _)
  unfold recordRun
  by_cases ha : s.sizeCur > s.maxSize
  · rw [if_pos ha]
    refine ⟨?_, ?_, ?_, ⟨by simp, by simpa using hk⟩, rfl, rfl⟩
    · intro x hx
      rw [hcnt]
      rcases (hmem x).1 hx with h | h
      · have := h1 x h
        simp only [hne x h, if_false, Nat.add_zero]
        omega
      · subst h
        simp [hcc]
    · intro x hx hxc
      rw [hcnt] at hxc
      rcases (hmem x).1 hx with h | h
      · have := h1 x h
        simp only [hne x h, if_false, Nat.add_zero] at hxc
        omega
      · simp [h]
    · intro m hm
      simp only [List.mem_singleton] at hm
      subst hm
      refine ⟨(hmem _).2 (Or.inr rfl), ?_⟩
      rw [hcnt]
      simp [hcc]
  · rw [if_neg ha]
    by_cases hb : s.sizeCur = s.maxSize
    · rw [if_pos hb]
      refine ⟨?_, ?_, ?_, ⟨by simp, by simp only; omega⟩, rfl, rfl⟩
      · intro x hx
        rw [hcnt]
        rcases (hmem x).1 hx with h | h
        · have := h1 x h
          simp only [hne x h, if_false, Nat.add_zero]
          exact this
        · subst h
          simp [hcc, hb]
      · intro x hx hxc
        rw [hcnt] at hxc
        rcases (hmem x).1 hx with h | h
        · simp only [hne x h, if_false, Nat.add_zero] at hxc
          exact List.mem_append_left _ (h2 x h hxc)
        · simp [h]
      · intro m hm
        rw [hcnt]
        rcases List.mem_append.1 hm with h | h
        · obtain ⟨h5, h6⟩ := h3 m h
          refine ⟨(hmem _).2 (Or.inl h5), ?_⟩
          simp only [hne m h5, if_false, Nat.add_zero]
          exact h6
        · simp only [List.mem_singleton] at h
          subst h
          refine ⟨(hmem _).2 (Or.inr rfl), ?_⟩
          simp [hcc, hb]
    · rw [if_neg hb]
      have hlt2 : s.sizeCur < s.maxSize := by omega
      have hmc : s.maxCoords ≠ [] := by
        rcases h4 with h | h
        · omega
        · exact h
      refine ⟨?_, ?_, ?_, ⟨hmc, by omega⟩, rfl, rfl⟩
      · intro x hx
        rw [hcnt]
        rcases (hmem x).1 hx with h | h
        · have := h1 x h
          simp only [hne x h, if_false, Nat.add_zero]
          exact this
        · subst h
          simp only [hcc, if_true]
          omega
      · intro x hx hxc
        rw [hcnt] at hxc
        rcases (hmem x).1 hx with h | h
        · simp only [hne x h, if_false, Nat.add_zero] at hxc
          exact h2 x h hxc
        · subst h
          simp only [hcc, if_true] at hxc
          omega
      · intro m hm
        obtain ⟨h5, h6⟩ := h3 m hm
        rw [hcnt]
        refine ⟨(hmem _).2 (Or.inl h5), ?_⟩
        simp only [hne m h5, if_false, Nat.add_zero]
        exact h6

theorem foldl_runStep_inv : ∀ (post pre0 : List Int) (s : RunState),
    RunsDone pre0 s.maxSize s.maxCoords → (∀ x ∈ pre0, x < s.coordCur) → 1 ≤ s.sizeCur →
    (pre0 ++ List.replicate s.sizeCur s.coordCur ++ post).Sorted (· ≤ ·) →
    ∃ pre1, RunsDone pre1 (post.foldl runStep s).maxSize (post.foldl runStep s).maxCoords ∧
      (∀ x ∈ pre1, x < (post.foldl runStep s).coordCur) ∧ 1 ≤ (post.foldl runStep s).sizeCur ∧
      pre1 ++ List.replicate (post.foldl runStep s).sizeCur (post.foldl runStep s).coordCur =
        pre0 ++ List.replicate s.sizeCur s.coordCur ++ post := by
  intro post
  induction post with
  | nil =>
    intro pre0 s h1 h2 h3 _
    exact ⟨pre0, h1, h2, h3, by simp⟩
  | cons c post ih =>
    intro pre0 s h1 h2 h3 hs
    rw [List.foldl_cons]
    by_cases hc : c = s.coordCur
    · have hstep : runStep s c = { s with sizeCur := s.sizeCur + 1 } := by
        unfold runStep
        rw [if_pos hc]
      have hl : pre0 ++ List.replicate (s.sizeCur + 1) s.coordCur ++ post =
          pre0 ++ List.replicate s.sizeCur s.coordCur ++ c :: post := by
        rw [List.replicate_succ', hc]
        simp
      obtain ⟨pre1, g1, g2, g3, g4⟩ := ih pre0 (runStep s c)
        (by rw [hstep]; exact h1) (by rw [hstep]; exact h2) (by rw [hstep]; simp)
        (by rw [hstep]; simp only; rw [hl]; exact hs)
      refine ⟨pre1, g1, g2, g3, ?_⟩
      rw [g4, hstep]
      exact hl
    · have hstep : runStep s c = { recordRun s with sizeCur := 1, coordCur := c } := by
        unfold runStep
        rw [if_neg hc]
      have hlt : s.coordCur < c := by
        have hmem : s.coordCur ∈ pre0 ++ List.replicate s.sizeCur s.coordCur := by
          rw [List.mem_append, List.mem_replicate]
          exact Or.inr ⟨by omega, rfl⟩
        have := List.pairwise_append.1 hs
        have hle := this.2.2 _ hmem c (by simp)
        exact lt_of_le_of_ne hle (fun e => hc e.symm)
      obtain ⟨r1, r2, r3, r4, _, _⟩ := recordRun_complete pre0 s h1.1 h1.2.1 h1.2.2.1 h1.2.2.2
        h2 h3
      have hdone : RunsDone (pre0 ++ List.replicate s.sizeCur s.coordCur)
          (runStep s c).maxSize (runStep s c).maxCoords := by
        rw [hstep]
        exact ⟨r1, r2, r3, Or.inr r4.1⟩
      have hall : ∀ x ∈ pre0 ++ List.replicate s.sizeCur s.coordCur, x < (runStep s c).coordCur := by
        intro x hx
        rw [hstep]
        simp only
        rcases List.mem_append.1 hx with h | h
        · exact lt_trans (h2 x h) hlt
        · rw [(List.mem_replicate.1 h).2]
          exact hlt
      obtain ⟨pre1, g1, g2, g3, g4⟩ := ih (pre0 ++ List.replicate s.sizeCur s.coordCur)
        (runStep s c) hdone hall (by rw [hstep])
        (by rw [hstep]; simpa using hs)
      refine ⟨pre1, g1, g2, g3, ?_⟩
      rw [g4, hstep]
      simp

/-- The frequency loop on a non-decreasing column `c0 :: rest`: after the last
`recordRun`, `maxSize` is the largest number of occurrences of a coordinate and
`maxCoords` holds exactly the coordinates that occur that often. -/
theorem runs_final (c0 : Int) (rest : List Int) (hs : (c0 :: rest).Sorted (· ≤ ·)) :
    RunsDone (c0 :: rest)
      (recordRun (rest.foldl runStep
        { maxSize := 0, maxCoords := [], coordCur := c0, sizeCur := 1 })).maxSize
      (recordRun (rest.foldl runStep
        { maxSize := 0, maxCoords := [], coordCur := c0, sizeCur := 1 })).maxCoords ∧
    (recordRun (rest.foldl runStep
        { maxSize := 0, maxCoords := [], coordCur := c0, sizeCur := 1 })).maxCoords ≠ [] ∧
    1 ≤ (recordRun (rest.foldl runStep
        { maxSize := 0, maxCoords := [], coordCur := c0, sizeCur := 1 })).maxSize := by
  obtain ⟨pre1, g1, g2, g3, g4⟩ := foldl_runStep_inv rest []
    { maxSize := 0, maxCoords := [], coordCur := c0, sizeCur := 1 }
    ⟨fun _ h => (by cases h), fun _ h => (by cases h), fun _ h => (by cases h), Or.inl rfl⟩
    (fun _ h => (by cases h)) (le_refl _) (by simpa using hs)
  obtain ⟨r1, r2, r3, r4, _, _⟩ := recordRun_complete pre1 _ g1.1 g1.2.1 g1.2.2.1 g1.2.2.2 g2 g3
  rw [g4] at r1 r2 r3
  simp only [List.nil_append, List.replicate_one, List.singleton_append] at r1 r2 r3
  exact ⟨⟨r1, r2, r3, Or.inr r4.1⟩, r4.1, r4.2⟩

/-! ## Selecting the entries of one coordinate in the capacity pre-pass -/

theorem length_columnsOf (order : Nat) (T : List (List Int)) :
    (columnsOf order T).length = order := by
  simp [columnsOf]

theorem getElem?_columnsOf (order : Nat) (T : List (List Int)) (k : Nat) (hk : k < order) :
    (columnsOf order T)[k]? = some (T.map (fun t => t.getD k 0)) := by
  simp [columnsOf, List.getElem?_range hk]

theorem columnsOf_nil (order : Nat) : columnsOf order [] = List.replicate order [] := by
  unfold columnsOf
  apply List.ext_getElem
  · simp
  · intro k h1 h2
    simp

theorem set_take_append_drop {β : Type} (A B : List β) (q : Nat) (x : β) (hA : q < A.length)
    (hB : q < B.length) (hx : A[q] = x) :
    (A.take q ++ B.drop q).set q x = A.take (q + 1) ++ B.drop (q + 1) := by
  have hlen : (A.take q).length = q := by rw [List.length_take]; omega
  rw [List.set_append_right _ _ (by omega), hlen, Nat.sub_self, List.drop_eq_getElem_cons hB,
    List.set_cons_zero, List.take_succ, List.getElem?_eq_getElem hA, hx]
  simp

theorem pushRow_eq (order : Nat) (T R : List (List Int)) (j : Nat) (hj : j < T.length) :
    ∀ (m q : Nat), q + m = order →
      pushRow (columnsOf order T) j (List.range' q m)
        ((columnsOf order (R ++ [T[j]])).take q ++ (columnsOf order R).drop q) =
        Except.ok (columnsOf order (R ++ [T[j]])) := by
  intro m
  induction m with
  | zero =>
    intro q hq
    have h1 : (columnsOf order (R ++ [T[j]])).length ≤ q := by rw [length_columnsOf]; omega
    have h2 : (columnsOf order R).length ≤ q := by rw [length_columnsOf]; omega
    rw [List.range'_zero, pushRow, List.take_of_length_le h1, List.drop_of_length_le h2,
      List.append_nil]
    rfl
  | succ m ih =>
    intro q hq
    have hqo : q < order := by omega
    have hnc : ((columnsOf order (R ++ [T[j]])).take q ++ (columnsOf order R).drop q)[q]? =
        some (R.map (fun t => t.getD q 0)) := by
      have hlen : ((columnsOf order (R ++ [T[j]])).take q).length = q := by
        rw [List.length_take, length_columnsOf]; omega
      rw [List.getElem?_append_right (by omega), hlen, Nat.sub_self, List.getElem?_drop,
        Nat.add_zero, getElem?_columnsOf order R q hqo]
    have hcol : (T.map (fun t => t.getD q 0))[j]? = some ((T[j]).getD q 0) := by
      simp [List.getElem?_eq_getElem hj]
    rw [List.range'_succ, pushRow, at?_eq_ok (getElem?_columnsOf order T q hqo)]
    simp only [bind, Except.bind]
    rw [at?_eq_ok hcol]
    simp only []
    rw [at?_eq_ok hnc]
    simp only []
    rw [set_take_append_drop _ _ q _ (by rw [length_columnsOf]; exact hqo)
      (by rw [length_columnsOf]; exact hqo) (by simp [columnsOf])]
    exact ih (q + 1) (by omega)

theorem selectRows_eq (order i : Nat) (m : Int) (T : List (List Int)) (hi : i < order) :
    ∀ (n k : Nat), k + n = T.length →
      selectRows (columnsOf order T) order i m (List.range' k n)
        (columnsOf order ((T.take k).filter (fun t => decide (t.getD i 0 = m)))) =
        Except.ok (columnsOf order (T.filter (fun t => decide (t.getD i 0 = m)))) := by
  intro n
  induction n with
  | zero =>
    intro k hk
    rw [List.range'_zero, selectRows, List.take_of_length_le (by omega)]
    rfl
  | succ n ih =>
    intro k hk
    have hkT : k < T.length := by omega
    have hcol : (T.map (fun t => t.getD i 0))[k]? = some ((T[k]).getD i 0) := by
      simp [List.getElem?_eq_getElem hkT]
    have htake : T.take (k + 1) = T.take k ++ [T[k]] := by
      rw [List.take_succ, List.getElem?_eq_getElem hkT]
      rfl
    rw [List.range'_succ, selectRows, at?_eq_ok (getElem?_columnsOf order T i hi)]
    simp only [bind, Except.bind]
    rw [at?_eq_ok hcol]
    simp only []
    by_cases hc : (T[k]).getD i 0 = m
    · rw [if_pos hc]
      have hpush := pushRow_eq order T ((T.take k).filter (fun t => decide (t.getD i 0 = m)))
        k hkT order 0 (by omega)
      rw [List.take_zero, List.nil_append, List.drop_zero, ← List.range_eq_range'] at hpush
      rw [hpush]
      simp only []
      have hf : (T.take (k + 1)).filter (fun t => decide (t.getD i 0 = m)) =
          (T.take k).filter (fun t => decide (t.getD i 0 = m)) ++ [T[k]] := by
        rw [htake, List.filter_append, List.filter_cons]
        simp only [hc, decide_True, decide_False, if_true, if_false, List.filter_nil,
          List.append_nil, Bool.false_eq_true]
      rw [← hf]
      exact ih (k + 1) (by omega)
    · rw [if_neg hc]
      have hf : (T.take (k + 1)).filter (fun t => decide (t.getD i 0 = m)) =
          (T.take k).filter (fun t => decide (t.getD i 0 = m)) := by
        rw [htake, List.filter_append, List.filter_cons]
        simp only [hc, decide_True, decide_False, if_true, if_false, List.filter_nil,
          List.append_nil, Bool.false_eq_true]
      rw [← hf]
      exact ih (k + 1) (by omega)

theorem selectRows_filter (order i : Nat) (m : Int) (T : List (List Int)) (hi : i < order) :
    selectRows (columnsOf order T) order i m (List.range T.length) (List.replicate order []) =
      Except.ok (columnsOf order (T.filter (fun t => decide (t.getD i 0 = m)))) := by
  have := selectRows_eq order i m T hi T.length 0 (by omega)
  rw [List.take_zero, List.filter_nil, columnsOf_nil, ← List.range_eq_range'] at this
  exact this

theorem exploreMax_eq (coords : List (List Int)) (order i numCoords : Nat)
    (next : List (List Int) → Result Int) (v : Int → Int) :
    ∀ (ms : List Int) (acc : Int),
      (∀ m ∈ ms, ∃ nc, selectRows coords order i m (List.range numCoords)
        (List.replicate order []) = Except.ok nc ∧ next nc = Except.ok (v m)) →
      exploreMax coords order i numCoords next ms acc =
        Except.ok (ms.foldl (fun a m => max a (v m)) acc) := by
  intro ms
  induction ms with
  | nil => intro acc _; rfl
  | cons m ms ih =>
    intro acc h
    obtain ⟨nc, h1, h2⟩ := h m (by simp)
    rw [exploreMax, h1]
    simp only [bind, Except.bind]
    rw [h2]
    simp only []
    rw [ih _ (fun m' hm' => h m' (List.mem_cons_of_mem _ hm')), List.foldl_cons]

theorem foldl_max_ge (v : Int → Int) : ∀ (ms : List Int) (acc : Int),
    acc ≤ ms.foldl (fun a m => max a (v m)) acc ∧
    ∀ m ∈ ms, v m ≤ ms.foldl (fun a m => max a (v m)) acc := by
  intro ms
  induction ms with
  | nil => intro acc; exact ⟨le_refl _, fun _ h => by cases h⟩
  | cons m ms ih =>
    intro acc
    obtain ⟨h1, h2⟩ := ih (max acc (v m))
    rw [List.foldl_cons]
    refine ⟨le_trans (le_max_left _ _) h1, ?_⟩
    intro x hx
    rcases List.mem_cons.1 hx with e | e
    · rw [e]; exact le_trans (le_max_right _ _) h1
    · exact h2 x e

theorem foldl_max_attained (v : Int → Int) : ∀ (ms : List Int) (acc : Int),
    ms.foldl (fun a m => max a (v m)) acc = acc ∨
    ∃ m ∈ ms, ms.foldl (fun a m => max a (v m)) acc = v m := by
  intro ms
  induction ms with
  | nil => intro acc; exact Or.inl rfl
  | cons m ms ih =>
    intro acc
    rw [List.foldl_cons]
    rcases ih (max acc (v m)) with h | ⟨x, hx, h⟩
    · rcases max_choice acc (v m) with e | e
      · left; rw [h, e]
      · right; exact ⟨m, by simp, by rw [h, e]⟩
    · right; exact ⟨x, List.mem_cons_of_mem _ hx, h⟩

/-! ## The capacity pre-pass on sorted tuples -/

theorem TuplesOk.column {order i : Nat} {T : List (List Int)} (h : TuplesOk order i T)
    (hi : i < order) :
    (T.map (fun t => t.getD i 0)).Sorted (· ≤ ·) ∧
      ∀ x ∈ T.map (fun t => t.getD i 0), 0 ≤ x ∧ IsInt x := by
  unfold TuplesOk at h
  constructor
  · have h3 := h.2.2
    unfold List.Sorted at h3 ⊢
    rw [List.pairwise_map]
    refine h3.imp_of_mem ?_
    intro a b ha hb hab
    exact lex_getD_le i a b (h.2.1 a ha b hb) (by rw [(h.1 a ha).1]; exact hi)
      (by rw [(h.1 b hb).1]; exact hi) hab
  · intro x hx
    obtain ⟨t, ht, rfl⟩ := List.mem_map.1 hx
    have hlen := (h.1 t ht).1
    show 0 ≤ t.getD i 0 ∧ IsInt (t.getD i 0)
    rw [List.getD_eq_getElem?_getD, List.getElem?_eq_getElem (by omega)]
    exact (h.1 t ht).2 _ (List.getElem_mem _)

theorem TuplesOk.filter {order i : Nat} {T : List (List Int)} (h : TuplesOk order i T)
    (hi : i < order) (m : Int) :
    TuplesOk order (i + 1) (T.filter (fun t => decide (t.getD i 0 = m))) := by
  unfold TuplesOk at h ⊢
  refine ⟨fun t ht => h.1 t (List.mem_of_mem_filter ht), ?_,
    List.Pairwise.sublist (List.filter_sublist _) h.2.2⟩
  intro a ha b hb
  have ha1 := List.mem_of_mem_filter ha
  have hb1 := List.mem_of_mem_filter hb
  have ha2 : a.getD i 0 = m := by simpa using (List.mem_filter.1 ha).2
  have hb2 : b.getD i 0 = m := by simpa using (List.mem_filter.1 hb).2
  exact take_succ_eq i a b (h.2.1 a ha1 b hb1) (by rw [(h.1 a ha1).1]; exact hi)
    (by rw [(h.1 b hb1).1]; exact hi) (ha2.trans hb2.symm)

theorem getD_take_of_lt (t : List Int) (i f : Nat) (h : i < f) :
    (t.take f).getD i 0 = t.getD i 0 := by
  simp [List.getD_eq_getElem?_getD, List.getElem?_take, h]

theorem distinctUnder_filter (T : List (List Int)) (i f : Nat) (hif : i < f) (m : Int)
    (p : List Int) (hp : p ∈ (T.filter (fun t => decide (t.getD i 0 = m))).map (List.take f)) :
    distinctUnder (T.filter (fun t => decide (t.getD i 0 = m))) f p = distinctUnder T f p := by
  obtain ⟨t0, ht0, rfl⟩ := List.mem_map.1 hp
  have hm : t0.getD i 0 = m := by simpa using (List.mem_filter.1 ht0).2
  unfold distinctUnder
  rw [List.filter_filter]
  congr 3
  apply List.filter_congr
  intro t _
  by_cases ht : t.take f = t0.take f
  · have e : t.getD i 0 = m := by
      rw [← getD_take_of_lt t i f hif, ht, getD_take_of_lt t0 i f hif, hm]
    rw [decide_eq_true ht, decide_eq_true e]
    rfl
  · rw [decide_eq_false ht]
    rfl

theorem count_map_eq_length_filter (g : List Int → Int) (m : Int) (T : List (List Int)) :
    (T.map g).count m = (T.filter (fun t => decide (g t = m))).length := by
  induction T with
  | nil => rfl
  | cons t T ih =>
    rw [List.map_cons, List.count_cons, ih, List.filter_cons]
    by_cases h : g t = m
    · simp [h]
    · simp [h]

theorem toInt_natCast_of_lt {n : Nat} (h : n < 2 ^ 31) : toInt (n : Int) = n :=
  toInt_of_isInt ⟨by omega, by omega⟩

theorem findMaxFixedValueAux_tuples (order f : Nat) (hf : f < order) :
    ∀ (fuel i : Nat) (T : List (List Int)), i ≤ f → f - i ≤ fuel → T ≠ [] →
      TuplesOk order i T → T.length < 2 ^ 31 →
      ∃ p, p ∈ T.map (List.take f) ∧
        findMaxFixedValueAux order f fuel (columnsOf order T) i T.length =
          Except.ok ((distinctUnder T f p : Nat) : Int) := by
  intro fuel
  induction fuel using Nat.strong_induction_on with
  | _ fuel ih =>
    intro i T hif hfuel hne hok hlen
    have hi : i < order := by omega
    obtain ⟨hsorted, hnn⟩ := hok.column hi
    have hcol := getElem?_columnsOf order T i hi
    unfold findMaxFixedValueAux
    rw [if_neg (by omega : ¬ i = order)]
    by_cases hie : i = f
    · subst hie
      rw [if_pos rfl, at?_eq_ok hcol]
      simp only [bind, Except.bind]
      rw [getUniqueEntries_of_sorted hsorted hnn]
      simp only [pure, Except.pure, List.length_map]
      obtain ⟨t0, l, rfl⟩ := List.exists_cons_of_ne_nil hne
      refine ⟨t0.take i, by simp, ?_⟩
      have hall : (t0 :: l).filter (fun t => decide (t.take i = t0.take i)) = t0 :: l := by
        rw [List.filter_eq_self]
        intro t ht
        unfold TuplesOk at hok
        simpa using hok.2.1 t ht t0 (by simp)
      unfold distinctUnder
      rw [hall]
      have hle : ((t0 :: l).map (fun t => t.getD i 0)).dedup.length ≤ (t0 :: l).length := by
        have := (List.dedup_sublist ((t0 :: l).map (fun t => t.getD i 0))).length_le
        simpa using this
      rw [toInt_natCast_of_lt (by omega)]
    · rw [if_neg hie]
      have hlt : i < f := by omega
      cases fuel with
      | zero => omega
      | succ fuel =>
        simp only []
        obtain ⟨t0, l, rfl⟩ := List.exists_cons_of_ne_nil hne
        rw [at?_eq_ok hcol]
        simp only [bind, Except.bind]
        rw [at?_eq_ok (x := t0.getD i 0) (by simp)]
        simp only []
        rw [countRuns_eq _ _ 1 _ (by simp only [List.length_map, List.length_cons]; omega)]
        simp only []
        have hrest : ((List.map (fun t => t.getD i 0) (t0 :: l)).drop 1).take
            ((t0 :: l).length - 1) = l.map (fun t => t.getD i 0) := by
          simp
        rw [hrest]
        obtain ⟨hdone, hmc, hms⟩ := runs_final (t0.getD i 0) (l.map (fun t => t.getD i 0))
          (by simpa using hsorted)
        generalize hs : recordRun (List.foldl runStep
          { maxSize := 0, maxCoords := [], coordCur := t0.getD i 0, sizeCur := 1 }
          (l.map (fun t => t.getD i 0))) = s at hdone hmc hms ⊢
        have hsub : ∀ m ∈ s.maxCoords,
            ((t0 :: l).filter (fun t => decide (t.getD i 0 = m))).length = s.maxSize ∧
            ∃ p, p ∈ ((t0 :: l).filter (fun t => decide (t.getD i 0 = m))).map (List.take f) ∧
              findMaxFixedValueAux order f fuel
                (columnsOf order ((t0 :: l).filter (fun t => decide (t.getD i 0 = m))))
                (i + 1) s.maxSize =
              Except.ok ((distinctUnder (t0 :: l) f p : Nat) : Int) := by
          intro m hm
          obtain ⟨_, hcount⟩ := hdone.2.2.1 m hm
          have hlenm : ((t0 :: l).filter (fun t => decide (t.getD i 0 = m))).length =
              s.maxSize := by
            rw [← hcount]
            exact (count_map_eq_length_filter (fun t => t.getD i 0) m (t0 :: l)).symm
          have hnem : (t0 :: l).filter (fun t => decide (t.getD i 0 = m)) ≠ [] := by
            intro e
            rw [e] at hlenm
            simp at hlenm
            omega
          have hlen2 : ((t0 :: l).filter (fun t => decide (t.getD i 0 = m))).length < 2 ^ 31 :=
            lt_of_le_of_lt (List.filter_sublist _).length_le hlen
          obtain ⟨p, hp, hres⟩ := ih fuel (Nat.lt_succ_self _) (i + 1) _ (by omega) (by omega)
            hnem (hok.filter hi m) hlen2
          rw [hlenm, distinctUnder_filter _ i f hlt m p hp] at hres
          exact ⟨hlenm, p, hp, hres⟩
        obtain ⟨v, hv⟩ : ∃ v : Int → Int, ∀ m ∈ s.maxCoords, ∃ p,
            p ∈ ((t0 :: l).filter (fun t => decide (t.getD i 0 = m))).map (List.take f) ∧
            findMaxFixedValueAux order f fuel
              (columnsOf order ((t0 :: l).filter (fun t => decide (t.getD i 0 = m))))
              (i + 1) s.maxSize = Except.ok (v m) ∧
            v m = ((distinctUnder (t0 :: l) f p : Nat) : Int) := by
          refine ⟨fun m => match findMaxFixedValueAux order f fuel
            (columnsOf order ((t0 :: l).filter (fun t => decide (t.getD i 0 = m))))
            (i + 1) s.maxSize with
            | Except.ok r => r
            | Except.error _ => 0, ?_⟩
          intro m hm
          obtain ⟨_, p, hp, hres⟩ := hsub m hm
          exact ⟨p, hp, by simp only [hres], by simp only [hres]⟩
        have hex := exploreMax_eq (columnsOf order (t0 :: l)) order i (t0 :: l).length
          (fun newCoords => findMaxFixedValueAux order f fuel newCoords (i + 1) s.maxSize)
          v s.maxCoords 0
          (fun m hm => by
            obtain ⟨p, _, hres, _⟩ := hv m hm
            exact ⟨_, selectRows_filter order i m (t0 :: l) hi, hres⟩)
        rw [hex]
        obtain ⟨m0, hm0⟩ := List.exists_mem_of_ne_nil _ hmc
        have hmemsub : ∀ m p,
            p ∈ ((t0 :: l).filter (fun t => decide (t.getD i 0 = m))).map (List.take f) →
            p ∈ (t0 :: l).map (List.take f) := by
          intro m p hp
          obtain ⟨t, ht, rfl⟩ := List.mem_map.1 hp
          exact List.mem_map.2 ⟨t, List.mem_of_mem_filter ht, rfl⟩
        rcases foldl_max_attained v s.maxCoords 0 with h0 | ⟨m, hm, hmx⟩
        · obtain ⟨p, hp, _, hvp⟩ := hv m0 hm0
          have hge := (foldl_max_ge v s.maxCoords 0).2 m0 hm0
          rw [h0, hvp] at hge
          refine ⟨p, hmemsub _ _ hp, ?_⟩
          rw [h0]
          congr 1
          omega
        · obtain ⟨p, hp, _, hvp⟩ := hv m hm
          exact ⟨p, hmemsub _ _ hp, by rw [hmx, hvp]⟩

/-! ## The capacity pre-pass on the whole input -/

theorem length_tuplesOf (coords : List (List Int)) (n : Nat) : (tuplesOf coords n).length = n := by
  simp [tuplesOf]

theorem columnsOf_tuplesOf (coords : List (List Int)) (n : Nat)
    (hcols : ∀ col ∈ coords, col.length = n) :
    columnsOf coords.length (tuplesOf coords n) = coords := by
  apply List.ext_getElem
  · rw [length_columnsOf]
  · intro k h1 h2
    have hk : (columnsOf coords.length (tuplesOf coords n))[k]? =
        some ((tuplesOf coords n).map (fun t => t.getD k 0)) := getElem?_columnsOf _ _ k h2
    rw [List.getElem?_eq_getElem h1] at hk
    rw [Option.some.inj hk]
    have hc := hcols _ (List.getElem_mem h2)
    apply List.ext_getElem
    · simp [tuplesOf, hc]
    · intro p hp1 hp2
      simp [tuplesOf, List.getElem_range', List.getD_eq_getElem?_getD,
        List.getElem?_eq_getElem h2, List.getElem?_eq_getElem hp2]

theorem tuplesOk_tuplesOf (coords : List (List Int)) (n : Nat)
    (hcols : ∀ col ∈ coords, col.length = n)
    (hnn : ∀ col ∈ coords, ∀ x ∈ col, 0 ≤ x ∧ IsInt x)
    (hsorted : (tuplesOf coords n).Sorted (· ≤ ·)) :
    TuplesOk coords.length 0 (tuplesOf coords n) := by
  have h := rowsOk_rowsOf coords (List.replicate n (0 : Int)) coords.length rfl
    (by simpa using hcols) hnn (by simpa using hsorted)
  unfold RowsOk at h
  rw [map_fst_rowsOf, List.length_replicate] at h
  unfold TuplesOk
  refine ⟨?_, fun a _ b _ => rfl, h.2.2⟩
  intro t ht
  rw [← map_fst_rowsOf coords (List.replicate n (0 : Int)) n] at ht
  obtain ⟨r, hr, rfl⟩ := List.mem_map.1 ht
  have := h.1 r (by simpa using hr)
  exact this

theorem le_foldr_max (l : List Nat) : ∀ x ∈ l, x ≤ l.foldr max 0 := by
  induction l with
  | nil => intro x hx; cases hx
  | cons a l ih =>
    intro x hx
    rw [List.foldr_cons]
    rcases List.mem_cons.1 hx with rfl | h
    · exact le_max_left _ _
    · exact le_trans (ih x h) (le_max_right _ _)

theorem distinctUnder_pos (T : List (List Int)) (f : Nat) (p : List Int)
    (hp : p ∈ T.map (List.take f)) : 1 ≤ distinctUnder T f p := by
  obtain ⟨t, ht, rfl⟩ := List.mem_map.1 hp
  unfold distinctUnder
  have hmem : t.getD f 0 ∈ ((T.filter (fun t2 => t2.take f = t.take f)).map
      (fun t => t.getD f 0)).dedup := by
    rw [List.mem_dedup]
    exact List.mem_map.2 ⟨t, List.mem_filter.2 ⟨ht, by simp⟩, rfl⟩
  exact List.length_pos_of_mem hmem

theorem distinctUnder_le_trueCapacity (T : List (List Int)) (f : Nat) (p : List Int)
    (hp : p ∈ T.map (List.take f)) : distinctUnder T f p ≤ trueCapacity T f :=
  le_foldr_max _ _ (List.mem_map.2 ⟨p, hp, rfl⟩)

theorem findMaxFixedValue_eq_distinctUnder (dims : List Int) (coords : List (List Int))
    (f numCoords : Nat) (hf : f < coords.length)
    (hne : 0 < numCoords) (hsmall : numCoords < 2 ^ 31)
    (hcols : ∀ col ∈ coords, col.length = numCoords)
    (hnn : ∀ col ∈ coords, ∀ x ∈ col, 0 ≤ x ∧ IsInt x)
    (hsorted : (tuplesOf coords numCoords).Sorted (· ≤ ·)) :
    ∃ p, p ∈ (tuplesOf coords numCoords).map (List.take f) ∧
      findMaxFixedValue dims coords coords.length f 0 numCoords =
        Except.ok ((distinctUnder (tuplesOf coords numCoords) f p : Nat) : Int) := by
  have hT : tuplesOf coords numCoords ≠ [] := by
    intro h
    have := length_tuplesOf coords numCoords
    rw [h] at this
    simp at this
    omega
  obtain ⟨p, hp, hres⟩ := findMaxFixedValueAux_tuples coords.length f hf (coords.length - 0) 0
    (tuplesOf coords numCoords) (Nat.zero_le _) (by omega) hT
    (tuplesOk_tuplesOf coords numCoords hcols hnn hsorted)
    (by rw [length_tuplesOf]; exact hsmall)
  rw [columnsOf_tuplesOf coords numCoords hcols, length_tuplesOf] at hres
  exact ⟨p, hp, hres⟩

/-- C14: for an order `n >= 1`, a level `f < n` and a non-empty, lexicographically
sorted list of fewer than `2^31` non-negative `int` coordinate tuples, the
capacity pre-pass `findMaxFixedValue(dims, coords, order, f, 0, numCoords)`
returns the number of distinct level-`f` coordinates among the entries under
some prefix `(c_0, ..., c_(f-1))` that occurs in the input; that number is at
least 1 and at most the true maximum distinct-child count at level `f`. -/
theorem findMaxFixedValue_never_overestimates (dims : List Int) (coords : List (List Int))
    (order f numCoords : Nat) (hf : f < order) (hcoords : coords.length = order)
    (hne : 0 < numCoords) (hsmall : numCoords < 2 ^ 31)
    (hcols : ∀ col ∈ coords, col.length = numCoords)
    (hnn : ∀ col ∈ coords, ∀ x ∈ col, 0 ≤ x ∧ IsInt x)
    (hsorted : (tuplesOf coords numCoords).Sorted (· ≤ ·)) :
    ∃ p, p ∈ (tuplesOf coords numCoords).map (List.take f) ∧
      findMaxFixedValue dims coords order f 0 numCoords =
        Except.ok ((distinctUnder (tuplesOf coords numCoords) f p : Nat) : Int) ∧
      1 ≤ distinctUnder (tuplesOf coords numCoords) f p ∧
      distinctUnder (tuplesOf coords numCoords) f p ≤ trueCapacity (tuplesOf coords numCoords) f := by
  subst hcoords
  obtain ⟨p, hp, hres⟩ := findMaxFixedValue_eq_distinctUnder dims coords f numCoords hf hne hsmall
    hcols hnn hsorted
  exact ⟨p, hp, hres, distinctUnder_pos _ _ _ hp, distinctUnder_le_trueCapacity _ _ _ hp⟩

theorem findMaxFixedValue_never_overestimates_witness :
    ∃ p, p ∈ (tuplesOf [[0, 0, 0, 1, 1], [0, 0, 0, 0, 1], [0, 1, 2, 0, 0]] 5).map (List.take 1) ∧
      findMaxFixedValue [2, 2, 3] [[0, 0, 0, 1, 1], [0, 0, 0, 0, 1], [0, 1, 2, 0, 0]] 3 1 0 5 =
        Except.ok ((distinctUnder (tuplesOf [[0, 0, 0, 1, 1], [0, 0, 0, 0, 1], [0, 1, 2, 0, 0]] 5)
          1 p : Nat) : Int) ∧
      1 ≤ distinctUnder (tuplesOf [[0, 0, 0, 1, 1], [0, 0, 0, 0, 1], [0, 1, 2, 0, 0]] 5) 1 p ∧
      distinctUnder (tuplesOf [[0, 0, 0, 1, 1], [0, 0, 0, 0, 1], [0, 1, 2, 0, 0]] 5) 1 p ≤
        trueCapacity (tuplesOf [[0, 0, 0, 1, 1], [0, 0, 0, 0, 1], [0, 1, 2, 0, 0]] 5) 1 :=
  findMaxFixedValue_never_overestimates [2, 2, 3]
    [[0, 0, 0, 1, 1], [0, 0, 0, 0, 1], [0, 1, 2, 0, 0]] 3 1 5 (by decide) (by decide)
    (by decide) (by decide) (by decide) (by decide) (by decide)

/-! ## `pack` returns on well-formed input -/

/-- C16: for an order `n >= 1`, a format of order `n` (any mix of Dense, Sparse
and Fixed), `n` dimension sizes, and a non-empty, lexicographically sorted list
of fewer than `2^31` non-negative `int` coordinate tuples whose `n` coordinate
sequences and value sequence have the same length, `pack` returns a Storage: no
assertion fails and no vector index is out of range. -/
theorem pack_total_on_wellformed_input {α : Type} [Zero α] (dims : List Int)
    (format : List DimensionType) (coords : List (List Int)) (vals : List α)
    (hn : 1 ≤ format.length) (hdims : dims.length = format.length)
    (hcoords : coords.length = format.length)
    (hne : 0 < vals.length) (hsmall : vals.length < 2 ^ 31)
    (hcols : ∀ col ∈ coords, col.length = vals.length)
    (hnn : ∀ col ∈ coords, ∀ x ∈ col, 0 ≤ x ∧ IsInt x)
    (hsorted : (tuplesOf coords vals.length).Sorted (· ≤ ·)) :
    ∃ s : Storage α, pack dims format coords vals = Except.ok s := by
  have hcaps : ∀ i, format[i]? = some DimensionType.Fixed →
      ∃ r, findMaxFixedValue dims coords format.length i 0 vals.length = Except.ok r := by
    intro i hi
    have hif : i < coords.length := by
      rw [hcoords]
      by_contra hge
      rw [List.getElem?_eq_none (by omega)] at hi
      cases hi
    obtain ⟨p, _, hres⟩ := findMaxFixedValue_eq_distinctUnder dims coords i vals.length hif hne
      hsmall hcols hnn hsorted
    rw [hcoords] at hres
    exact ⟨_, hres⟩
  rw [pack_eq dims format coords vals hdims (by omega) (fun col hc => le_of_eq (hcols col hc).symm)
    hcaps]
  obtain ⟨d, hd⟩ := packRows_total dims (capsOf dims coords format.length vals.length) format
    hdims format.length 0 (rowsOf coords vals 0 vals.length) rfl (by omega)
    (rowsOk_rowsOf coords vals format.length hcoords hcols hnn hsorted)
  rw [hd]
  exact ⟨_, rfl⟩

theorem pack_total_on_wellformed_input_witness :
    ∃ s : Storage Int, pack [2, 2, 3] [DimensionType.Dense, DimensionType.Fixed,
      DimensionType.Sparse] [[0, 0, 0, 1, 1], [0, 0, 0, 0, 1], [0, 1, 2, 0, 0]]
      [1, 2, 3, 4, 5] = Except.ok s :=
  pack_total_on_wellformed_input [2, 2, 3] [DimensionType.Dense, DimensionType.Fixed,
    DimensionType.Sparse] [[0, 0, 0, 1, 1], [0, 0, 0, 0, 1], [0, 1, 2, 0, 0]] [1, 2, 3, 4, 5]
    (by decide) (by decide) (by decide) (by decide) (by decide) (by decide) (by decide)
    (by decide)

/-! ## The recorded run computes what `packTensor` computes -/

theorem Traced.result_bind {β γ : Type} (x : Traced β) (f : β → Traced γ) :
    (x >>= f).result = x.result >>= fun b => (f b).result := by
  rcases x with ⟨r, l⟩
  cases r <;> rfl

theorem Traced.log_bind {β γ : Type} (x : Traced β) (f : β → Traced γ) :
    (x >>= f).log = x.log ++
      (match x.result with
        | Except.ok b => (f b).log
        | Except.error _ => []) := by
  rcases x with ⟨r, l⟩
  cases r with
  | error e => show l = l ++ []; rw [List.append_nil]
  | ok b => rfl

theorem Traced.result_bind' {β γ : Type} (x : Traced β) (f : β → Traced γ) :
    (Traced.bind x f).result = Except.bind x.result (fun b => (f b).result) :=
  Traced.result_bind x f

theorem Result.ok_bind {β γ : Type} (a : β) (f : β → Result γ) :
    (Except.ok a >>= f) = f a := by
  show Except.bind (Except.ok a) f = f a
  unfold Except.bind
  exact rfl

theorem Result.error_bind {β γ : Type} (e : PackError) (f : β → Result γ) :
    ((Except.error e : Result β) >>= f) = Except.error e := by
  show Except.bind (Except.error e) f = Except.error e
  unfold Except.bind
  exact rfl

theorem Traced.result_lift {β : Type} (r : Result β) : (Traced.lift r).result = r := by
  cases r <;> rfl

theorem Traced.log_lift {β : Type} (r : Result β) : (Traced.lift r).log = [] := by
  cases r <;> rfl

theorem Traced.result_tell (ev : Event) : (Traced.tell ev).result = Except.ok () := rfl

theorem Traced.log_tell (ev : Event) : (Traced.tell ev).log = [ev] := rfl

theorem Traced.result_pure {β : Type} (b : β) : (pure b : Traced β).result = Except.ok b := by
  have h : (pure b : Traced β) = ⟨Except.ok b, []⟩ := rfl
  rw [h]
  rfl

theorem Traced.log_pure {β : Type} (b : β) : (pure b : Traced β).log = [] := by
  have h : (pure b : Traced β) = ⟨Except.ok b, []⟩ := rfl
  rw [h]
  rfl

theorem packNextLevelT_result {α : Type} [Zero α] (vals : List α) (leaf : Bool)
    (nextT : Nat → Nat → PackState α → Traced (PackState α))
    (next : Nat → Nat → PackState α → Result (PackState α))
    (hnext : leaf = false → ∀ b e s, (nextT b e s).result = next b e s)
    (cbegin cend : Nat) (st : PackState α) :
    (packNextLevelT vals leaf nextT cbegin cend st).result =
      packNextLevel vals leaf next cbegin cend st := by
  unfold packNextLevelT packNextLevel
  cases leaf with
  | true =>
    simp only [if_true]
    by_cases h : cbegin < cend
    · simp only [h, if_true, Traced.result_bind, Traced.result_lift]
      rfl
    · simp only [h, if_false]
      rfl
  | false =>
    simp only [Bool.false_eq_true, if_false]
    exact hnext rfl _ _ _

theorem packSegmentsT_result {α : Type} (i : Nat) (levelCoords : List Int) (end_ : Nat)
    (pnlT : Nat → Nat → PackState α → Traced (PackState α))
    (pnl : Nat → Nat → PackState α → Result (PackState α))
    (hpnl : ∀ b e s, (pnlT b e s).result = pnl b e s) :
    ∀ (js : List Int) (cbegin : Nat) (st : PackState α),
      (packSegmentsT i levelCoords end_ pnlT js cbegin st).result =
        packSegments levelCoords end_ pnl js cbegin st := by
  intro js
  induction js with
  | nil => intro cbegin st; rfl
  | cons j js ih =>
    intro cbegin st
    rw [packSegmentsT, packSegments]
    simp only [Traced.result_bind, Traced.result_tell, Traced.result_lift, hpnl, ih]
    rfl

theorem fixedPadT_result {α : Type} (i : Nat) (indexValues : List Nat) (segmentSize : Int)
    (pnlT : Nat → Nat → PackState α → Traced (PackState α))
    (pnl : Nat → Nat → PackState α → Result (PackState α))
    (hpnl : ∀ b e s, (pnlT b e s).result = pnl b e s) (cbegin : Nat) :
    ∀ (n : Nat) (st : PackState α),
      (fixedPadT i indexValues segmentSize pnlT cbegin n st).result =
        fixedPad i indexValues segmentSize pnl cbegin n st := by
  intro n
  induction n with
  | zero => intro st; rfl
  | succ n ih =>
    intro st
    rw [fixedPadT, fixedPad]
    by_cases hs : segmentSize > 0
    · simp only [hs, if_true, Traced.result_bind, Traced.result_tell, Traced.result_lift, hpnl, ih]
      rfl
    · simp only [hs, if_false, Traced.result_bind, Traced.result_tell, Traced.result_lift, hpnl,
        ih]
      rfl

theorem packFixedT_result {α : Type} (i : Nat) (levelCoords : List Int) (begin_ end_ : Nat)
    (pnlT : Nat → Nat → PackState α → Traced (PackState α))
    (pnl : Nat → Nat → PackState α → Result (PackState α))
    (hpnl : ∀ b e s, (pnlT b e s).result = pnl b e s) (indexValues : List Nat)
    (segmentSize fixedValue : Int) (st : PackState α) :
    (packFixedT i levelCoords begin_ end_ pnlT indexValues segmentSize fixedValue st).result =
      if segmentSize > 0 then do
        let indices ← appendArray st.indices i 1 (indexValues.map (fun (j : Nat) => toInt j))
        let r ← packSegments levelCoords end_ pnl
          (indexValues.map (fun (j : Nat) => toInt j)) begin_ { st with indices := indices }
        fixedPad i indexValues segmentSize pnl r.1 (fixedValue - segmentSize).toNat r.2
      else
        fixedPad i indexValues segmentSize pnl begin_ (fixedValue - segmentSize).toNat st := by
  unfold packFixedT
  by_cases hs : segmentSize > 0
  · simp only [hs, if_true, Traced.result_bind, Traced.result_lift,
      packSegmentsT_result i levelCoords end_ _ _ hpnl, fixedPadT_result i _ _ _ _ hpnl]
  · simp only [hs, if_false, Traced.result_bind, Traced.result_pure, Result.ok_bind,
      fixedPadT_result i _ _ _ _ hpnl]

theorem packTensorAuxT_result {α : Type} [Zero α] (dims : List Int) (coords : List (List Int))
    (vals : List α) (dimTypes : List DimensionType) :
    ∀ (fuel begin_ end_ i depth : Nat) (st : PackState α),
      (packTensorAuxT dims coords vals dimTypes fuel begin_ end_ i depth st).result =
        packTensorAux dims coords vals dimTypes fuel begin_ end_ i st := by
  intro fuel
  induction fuel with
  | zero => intro begin_ end_ i depth st; rfl
  | succ fuel ih =>
    intro begin_ end_ i depth st
    have hpnl := packNextLevelT_result vals (i + 1 == dimTypes.length)
      (fun b e s => packTensorAuxT dims coords vals dimTypes fuel b e (i + 1) (depth + 1) s)
      (fun b e s => packTensorAux dims coords vals dimTypes fuel b e (i + 1) s)
      (fun _ b e s => ih b e (i + 1) (depth + 1) s)
    rw [packTensorAuxT, packTensorAux]
    generalize packNextLevelT vals (i + 1 == dimTypes.length)
      (fun b e s => packTensorAuxT dims coords vals dimTypes fuel b e (i + 1) (depth + 1) s) =
      pnlT at hpnl ⊢
    generalize packNextLevel vals (i + 1 == dimTypes.length)
      (fun b e s => packTensorAux dims coords vals dimTypes fuel b e (i + 1) s) = pnl at hpnl ⊢
    have hseg := fun lc => packSegmentsT_result i lc end_ _ _ hpnl
    have hpad := fun u sz cb => fixedPadT_result i u sz _ _ hpnl cb
    simp only [Traced.result_bind, Traced.result_tell, Traced.result_lift, Result.ok_bind]
    show (at? dimTypes i >>= _) = (at? dimTypes i >>= _)
    cases at? dimTypes i with
    | error e => simp only [Result.error_bind]
    | ok dimType =>
      cases dimType with
      | Dense =>
        simp only [Result.ok_bind, Traced.result_bind, Traced.result_lift, Traced.result_pure,
          hseg]
        simp only [pure, Except.pure]
      | Sparse =>
        simp only [Result.ok_bind, Traced.result_bind, Traced.result_lift, Traced.result_pure,
          hseg]
        simp only [pure, Except.pure]
      | Fixed =>
        simp only [Result.ok_bind, Traced.result_bind, Traced.result_lift,
          packFixedT_result i _ begin_ end_ _ _ hpnl]
        simp only [pure, Except.pure, Result.ok_bind]

/-! ## The events of a recorded run -/

theorem Event.Within.of_deeper {n i depth : Nat} {ev : Event}
    (h : Event.Within n (i + 1) (depth + 1) ev) : Event.Within n i depth ev := by
  cases ev <;> simp only [Event.Within] at h ⊢ <;> omega

theorem Event.Within.ne_iter {n i depth : Nat} {ev : Event}
    (h : Event.Within n (i + 1) depth ev) : ev ≠ Event.iter i := by
  rintro rfl
  simp only [Event.Within] at h
  omega

theorem Event.Within.ne_pad {n i depth : Nat} {ev : Event}
    (h : Event.Within n (i + 1) depth ev) : ev ≠ Event.pad i := by
  rintro rfl
  simp only [Event.Within] at h
  omega

theorem Traced.forall_log_bind {β γ : Type} (P : Event → Prop) (x : Traced β)
    (f : β → Traced γ) (hx : ∀ ev ∈ x.log, P ev)
    (hf : ∀ b, x.result = Except.ok b → ∀ ev ∈ (f b).log, P ev) :
    ∀ ev ∈ (x >>= f).log, P ev := by
  rcases x with ⟨r, l⟩
  cases r with
  | error e => exact hx
  | ok b =>
    intro ev hev
    have hev' : ev ∈ l ++ (f b).log := hev
    rcases List.mem_append.1 hev' with h | h
    · exact hx ev h
    · exact hf b rfl ev h

theorem Traced.forall_log_lift {β : Type} (P : Event → Prop) (r : Result β) :
    ∀ ev ∈ (Traced.lift r).log, P ev := by
  intro ev hev
  rw [Traced.log_lift] at hev
  cases hev

theorem Traced.forall_log_pure {β : Type} (P : Event → Prop) (b : β) :
    ∀ ev ∈ (pure b : Traced β).log, P ev := by
  intro ev hev
  rw [Traced.log_pure] at hev
  cases hev

theorem Traced.forall_log_tell (P : Event → Prop) (e : Event) (h : P e) :
    ∀ ev ∈ (Traced.tell e).log, P ev := by
  intro ev hev
  rw [Traced.log_tell, List.mem_singleton] at hev
  rw [hev]
  exact h

theorem Traced.bind_ok_inv {β γ : Type} {x : Traced β} {f : β → Traced γ} {c : γ}
    (h : (x >>= f).result = Except.ok c) :
    ∃ b, x.result = Except.ok b ∧ (f b).result = Except.ok c ∧
      (x >>= f).log = x.log ++ (f b).log := by
  rcases x with ⟨r, l⟩
  cases r with
  | error e =>
    have h' : (Except.error e : Result γ) = Except.ok c := h
    cases h'
  | ok b => exact ⟨b, rfl, h, rfl⟩

theorem count_eq_zero_of_forall_ne (e : Event) (l : List Event) (h : ∀ ev ∈ l, ev ≠ e) :
    l.count e = 0 :=
  List.count_eq_zero.2 (fun hmem => h e hmem rfl)

theorem packNextLevelT_forall_log {α : Type} [Zero α] (P : Event → Prop) (vals : List α)
    (leaf : Bool) (nextT : Nat → Nat → PackState α → Traced (PackState α))
    (h : leaf = false → ∀ b e s, ∀ ev ∈ (nextT b e s).log, P ev)
    (cbegin cend : Nat) (st : PackState α) :
    ∀ ev ∈ (packNextLevelT vals leaf nextT cbegin cend st).log, P ev := by
  unfold packNextLevelT
  cases leaf with
  | true =>
    simp only [if_true]
    by_cases hc : cbegin < cend
    · simp only [hc, if_true]
      exact Traced.forall_log_bind P _ _ (Traced.forall_log_lift P _)
        (fun b _ => Traced.forall_log_pure P _)
    · simp only [hc, if_false]
      exact Traced.forall_log_pure P _
  | false =>
    simp only [Bool.false_eq_true, if_false]
    exact h rfl _ _ _

theorem packSegmentsT_forall_log {α : Type} (P : Event → Prop) (i : Nat)
    (levelCoords : List Int) (end_ : Nat)
    (pnlT : Nat → Nat → PackState α → Traced (PackState α))
    (hpnl : ∀ b e s, ∀ ev ∈ (pnlT b e s).log, P ev) (hiter : P (Event.iter i)) :
    ∀ (js : List Int) (cbegin : Nat) (st : PackState α),
      ∀ ev ∈ (packSegmentsT i levelCoords end_ pnlT js cbegin st).log, P ev := by
  intro js
  induction js with
  | nil =>
    intro cbegin st
    rw [packSegmentsT]
    exact Traced.forall_log_pure P _
  | cons j js ih =>
    intro cbegin st
    rw [packSegmentsT]
    exact Traced.forall_log_bind P _ _ (Traced.forall_log_tell P _ hiter)
      (fun _ _ => Traced.forall_log_bind P _ _ (Traced.forall_log_lift P _)
        (fun cend _ => Traced.forall_log_bind P _ _ (hpnl _ _ _) (fun st2 _ => ih _ _)))

theorem fixedPadT_forall_log {α : Type} (P : Event → Prop) (i : Nat)
    (indexValues : List Nat) (segmentSize : Int)
    (pnlT : Nat → Nat → PackState α → Traced (PackState α))
    (hpnl : ∀ b e s, ∀ ev ∈ (pnlT b e s).log, P ev) (hpad : P (Event.pad i)) (cbegin : Nat) :
    ∀ (n : Nat) (st : PackState α),
      ∀ ev ∈ (fixedPadT i indexValues segmentSize pnlT cbegin n st).log, P ev := by
  intro n
  induction n with
  | zero =>
    intro st
    rw [fixedPadT]
    exact Traced.forall_log_pure P _
  | succ n ih =>
    intro st
    rw [fixedPadT]
    exact Traced.forall_log_bind P _ _ (Traced.forall_log_tell P _ hpad)
      (fun _ _ => Traced.forall_log_bind P _ _ (Traced.forall_log_lift P _)
        (fun last _ => Traced.forall_log_bind P _ _ (Traced.forall_log_lift P _)
          (fun indices _ => Traced.forall_log_bind P _ _ (hpnl _ _ _) (fun st2 _ => ih _))))

theorem packFixedT_forall_log {α : Type} (P : Event → Prop) (i : Nat)
    (levelCoords : List Int) (begin_ end_ : Nat)
    (pnlT : Nat → Nat → PackState α → Traced (PackState α))
    (hpnl : ∀ b e s, ∀ ev ∈ (pnlT b e s).log, P ev) (hiter : P (Event.iter i))
    (hpad : P (Event.pad i)) (indexValues : List Nat) (segmentSize fixedValue : Int)
    (st : PackState α) :
    ∀ ev ∈ (packFixedT i levelCoords begin_ end_ pnlT indexValues segmentSize fixedValue
      st).log, P ev := by
  unfold packFixedT
  by_cases hs : segmentSize > 0
  · simp only [hs, if_true]
    exact Traced.forall_log_bind P _ _ (Traced.forall_log_lift P _)
      (fun indices _ => Traced.forall_log_bind P _ _
        (packSegmentsT_forall_log P i levelCoords end_ pnlT hpnl hiter _ _ _)
        (fun r _ => fixedPadT_forall_log P i _ _ pnlT hpnl hpad _ _ _))
  · simp only [hs, if_false]
    exact Traced.forall_log_bind P _ _ (Traced.forall_log_pure P _)
      (fun r _ => fixedPadT_forall_log P i _ _ pnlT hpnl hpad _ _ _)

theorem packTensorAuxT_within {α : Type} [Zero α] (dims : List Int) (coords : List (List Int))
    (vals : List α) (dimTypes : List DimensionType) :
    ∀ (fuel begin_ end_ i depth : Nat) (st : PackState α), i < dimTypes.length →
      ∀ ev ∈ (packTensorAuxT dims coords vals dimTypes fuel begin_ end_ i depth st).log,
        Event.Within dimTypes.length i depth ev := by
  intro fuel
  induction fuel with
  | zero =>
    intro begin_ end_ i depth st hi
    rw [packTensorAuxT]
    exact Traced.forall_log_bind _ _ _
      (Traced.forall_log_tell _ _ ⟨le_refl _, hi, rfl⟩)
      (fun _ _ => Traced.forall_log_lift _ _)
  | succ fuel ih =>
    intro begin_ end_ i depth st hi
    have hpnl : ∀ b e s, ∀ ev ∈ (packNextLevelT vals (i + 1 == dimTypes.length)
        (fun b e s => packTensorAuxT dims coords vals dimTypes fuel b e (i + 1) (depth + 1) s)
        b e s).log, Event.Within dimTypes.length i depth ev :=
      packNextLevelT_forall_log _ vals _ _ (fun hleaf b e s ev hev => by
        have hne : ¬ i + 1 = dimTypes.length := by simpa using hleaf
        exact (ih b e (i + 1) (depth + 1) s (by omega) ev hev).of_deeper)
    have hiter : Event.Within dimTypes.length i depth (Event.iter i) := ⟨le_refl _, hi⟩
    have hpad : Event.Within dimTypes.length i depth (Event.pad i) := ⟨le_refl _, hi⟩
    rw [packTensorAuxT]
    generalize packNextLevelT vals (i + 1 == dimTypes.length)
      (fun b e s => packTensorAuxT dims coords vals dimTypes fuel b e (i + 1) (depth + 1) s) =
      pnlT at hpnl ⊢
    refine Traced.forall_log_bind _ _ _ (Traced.forall_log_tell _ _ ⟨le_refl _, hi, rfl⟩)
      (fun _ _ => Traced.forall_log_bind _ _ _ (Traced.forall_log_lift _ _)
        (fun dimType _ => Traced.forall_log_bind _ _ _ (Traced.forall_log_lift _ _)
          (fun levelCoords _ => Traced.forall_log_bind _ _ _ (Traced.forall_log_lift _ _)
            (fun _ _ => ?_))))
    cases dimType with
    | Dense =>
      exact Traced.forall_log_bind _ _ _ (Traced.forall_log_lift _ _)
        (fun d _ => Traced.forall_log_bind _ _ _
          (packSegmentsT_forall_log _ i _ _ pnlT hpnl hiter _ _ _)
          (fun r _ => Traced.forall_log_pure _ _))
    | Sparse =>
      exact Traced.forall_log_bind _ _ _ (Traced.forall_log_lift _ _)
        (fun seg _ => Traced.forall_log_bind _ _ _ (Traced.forall_log_lift _ _)
          (fun indexValues _ => Traced.forall_log_bind _ _ _ (Traced.forall_log_lift _ _)
            (fun idx _ => Traced.forall_log_bind _ _ _ (Traced.forall_log_lift _ _)
              (fun indices _ => Traced.forall_log_bind _ _ _ (Traced.forall_log_lift _ _)
                (fun indices2 _ => Traced.forall_log_bind _ _ _
                  (packSegmentsT_forall_log _ i _ _ pnlT hpnl hiter _ _ _)
                  (fun r _ => Traced.forall_log_pure _ _))))))
    | Fixed =>
      exact Traced.forall_log_bind _ _ _ (Traced.forall_log_lift _ _)
        (fun pos _ => Traced.forall_log_bind _ _ _ (Traced.forall_log_lift _ _)
          (fun fixedValue _ => Traced.forall_log_bind _ _ _ (Traced.forall_log_lift _ _)
            (fun seg _ => Traced.forall_log_bind _ _ _ (Traced.forall_log_lift _ _)
              (fun indexValues _ =>
                packFixedT_forall_log _ i _ _ _ pnlT hpnl hiter hpad _ _ _ _))))

/-! ## The number of loop iterations of a call that returns -/

theorem packSegmentsT_count_iter {α : Type} (i : Nat) (levelCoords : List Int) (end_ : Nat)
    (pnlT : Nat → Nat → PackState α → Traced (PackState α))
    (hpnl : ∀ b e s, ∀ ev ∈ (pnlT b e s).log, ev ≠ Event.iter i) :
    ∀ (js : List Int) (cbegin : Nat) (st : PackState α) (r : Nat × PackState α),
      (packSegmentsT i levelCoords end_ pnlT js cbegin st).result = Except.ok r →
      (packSegmentsT i levelCoords end_ pnlT js cbegin st).log.count (Event.iter i) =
        js.length := by
  intro js
  induction js with
  | nil =>
    intro cbegin st r _
    rw [packSegmentsT, Traced.log_pure]
    rfl
  | cons j js ih =>
    intro cbegin st r h
    rw [packSegmentsT] at h ⊢
    obtain ⟨u, _, h1, hl1⟩ := Traced.bind_ok_inv h
    obtain ⟨cend, _, h2, hl2⟩ := Traced.bind_ok_inv h1
    obtain ⟨st2, _, h3, hl3⟩ := Traced.bind_ok_inv h2
    rw [hl1, hl2, hl3, List.count_append, List.count_append, List.count_append,
      Traced.log_tell, Traced.log_lift, ih _ _ _ h3,
      count_eq_zero_of_forall_ne _ _ (hpnl _ _ _)]
    simp
    omega

theorem fixedPadT_count_pad {α : Type} (i : Nat) (indexValues : List Nat) (segmentSize : Int)
    (pnlT : Nat → Nat → PackState α → Traced (PackState α))
    (hpnl : ∀ b e s, ∀ ev ∈ (pnlT b e s).log, ev ≠ Event.pad i) (cbegin : Nat) :
    ∀ (n : Nat) (st r : PackState α),
      (fixedPadT i indexValues segmentSize pnlT cbegin n st).result = Except.ok r →
      (fixedPadT i indexValues segmentSize pnlT cbegin n st).log.count (Event.pad i) = n := by
  intro n
  induction n with
  | zero =>
    intro st r _
    rw [fixedPadT, Traced.log_pure]
    rfl
  | succ n ih =>
    intro st r h
    rw [fixedPadT] at h ⊢
    obtain ⟨u, _, h1, hl1⟩ := Traced.bind_ok_inv h
    obtain ⟨last, _, h2, hl2⟩ := Traced.bind_ok_inv h1
    obtain ⟨indices, _, h3, hl3⟩ := Traced.bind_ok_inv h2
    obtain ⟨st2, _, h4, hl4⟩ := Traced.bind_ok_inv h3
    rw [hl1, hl2, hl3, hl4, List.count_append, List.count_append, List.count_append,
      List.count_append, Traced.log_tell, Traced.log_lift, Traced.log_lift, ih _ _ h4,
      count_eq_zero_of_forall_ne _ _ (hpnl _ _ _)]
    simp
    omega

theorem packFixedT_counts {α : Type} (i : Nat) (levelCoords : List Int) (begin_ end_ : Nat)
    (pnlT : Nat → Nat → PackState α → Traced (PackState α))
    (hpnl : ∀ b e s, ∀ ev ∈ (pnlT b e s).log, ev ≠ Event.iter i ∧ ev ≠ Event.pad i)
    (indexValues : List Nat) (segmentSize fixedValue : Int) (st r : PackState α)
    (h : (packFixedT i levelCoords begin_ end_ pnlT indexValues segmentSize fixedValue
      st).result = Except.ok r) :
    (packFixedT i levelCoords begin_ end_ pnlT indexValues segmentSize fixedValue
        st).log.count (Event.iter i) = (if segmentSize > 0 then indexValues.length else 0) ∧
      (packFixedT i levelCoords begin_ end_ pnlT indexValues segmentSize fixedValue
        st).log.count (Event.pad i) = (fixedValue - segmentSize).toNat := by
  have hi1 : ∀ b e s, ∀ ev ∈ (pnlT b e s).log, ev ≠ Event.iter i :=
    fun b e s ev hev => (hpnl b e s ev hev).1
  have hp1 : ∀ b e s, ∀ ev ∈ (pnlT b e s).log, ev ≠ Event.pad i :=
    fun b e s ev hev => (hpnl b e s ev hev).2
  have hpadlog : ∀ cb n s, (fixedPadT i indexValues segmentSize pnlT cb n s).log.count
      (Event.iter i) = 0 := fun cb n s =>
    count_eq_zero_of_forall_ne _ _
      (fixedPadT_forall_log _ i _ _ pnlT hi1 (by intro hc; cases hc) cb n s)
  have hseglog : ∀ js cb s, (packSegmentsT i levelCoords end_ pnlT js cb s).log.count
      (Event.pad i) = 0 := fun js cb s =>
    count_eq_zero_of_forall_ne _ _
      (packSegmentsT_forall_log _ i _ _ pnlT hp1 (by intro hc; cases hc) js cb s)
  unfold packFixedT at h ⊢
  by_cases hs : segmentSize > 0
  · simp only [hs, if_true] at h ⊢
    obtain ⟨indices, _, h1, hl1⟩ := Traced.bind_ok_inv h
    obtain ⟨r2, h2, h3, hl2⟩ := Traced.bind_ok_inv h1
    rw [hl1, hl2]
    simp only [List.count_append, Traced.log_lift, List.count_nil, Nat.zero_add, hpadlog,
      hseglog, packSegmentsT_count_iter i levelCoords end_ pnlT hi1 _ _ _ _ h2,
      fixedPadT_count_pad i _ _ pnlT hp1 _ _ _ _ h3, List.length_map, Nat.add_zero]
    exact ⟨trivial, trivial⟩
  · simp only [hs, if_false] at h ⊢
    obtain ⟨r2, _, h3, hl2⟩ := Traced.bind_ok_inv h
    rw [hl2]
    simp only [List.count_append, Traced.log_pure, List.count_nil, Nat.zero_add, hpadlog,
      fixedPadT_count_pad i _ _ pnlT hp1 _ _ _ _ h3]
    exact ⟨trivial, trivial⟩

theorem getUniqueEntries_ok_dedup (seg : List Int) (u : List Nat)
    (h : getUniqueEntries seg = Except.ok u) : u = (seg.map toSizeT).dedup := by
  rw [getUniqueEntries_eq] at h
  by_cases hc : List.Chain' (· ≤ ·) (seg.map toSizeT)
  · rw [if_pos hc] at h
    injection h with h
    rw [← h]
    exact destutter_ne_eq_dedup _ (List.chain'_iff_pairwise.1 hc)
  · rw [if_neg hc] at h
    cases h

theorem packTensorAuxT_counts {α : Type} [Zero α] (dims : List Int) (coords : List (List Int))
    (vals : List α) (dimTypes : List DimensionType) (fuel begin_ end_ i depth : Nat)
    (st st2 : PackState α) (hi : i < dimTypes.length)
    (h : (packTensorAuxT dims coords vals dimTypes (fuel + 1) begin_ end_ i depth st).result =
      Except.ok st2) :
    ∃ dimType levelCoords, at? dimTypes i = Except.ok dimType ∧
      at? coords i = Except.ok levelCoords ∧
      match dimType with
      | DimensionType.Dense => ∃ d, at? dims i = Except.ok d ∧
        (packTensorAuxT dims coords vals dimTypes (fuel + 1) begin_ end_ i depth st).log.count
          (Event.iter i) = d.toNat ∧
        (packTensorAuxT dims coords vals dimTypes (fuel + 1) begin_ end_ i depth st).log.count
          (Event.pad i) = 0
      | DimensionType.Sparse => ∃ seg u, range? levelCoords begin_ end_ = Except.ok seg ∧
        getUniqueEntries seg = Except.ok u ∧
        (packTensorAuxT dims coords vals dimTypes (fuel + 1) begin_ end_ i depth st).log.count
          (Event.iter i) = u.length ∧
        (packTensorAuxT dims coords vals dimTypes (fuel + 1) begin_ end_ i depth st).log.count
          (Event.pad i) = 0
      | DimensionType.Fixed => ∃ seg u pos capacity,
        getArray st.indices i 0 = Except.ok pos ∧ at? pos 0 = Except.ok capacity ∧
        range? levelCoords begin_ end_ = Except.ok seg ∧ getUniqueEntries seg = Except.ok u ∧
        (packTensorAuxT dims coords vals dimTypes (fuel + 1) begin_ end_ i depth st).log.count
          (Event.iter i) = (if toInt u.length > 0 then u.length else 0) ∧
        (packTensorAuxT dims coords vals dimTypes (fuel + 1) begin_ end_ i depth st).log.count
          (Event.pad i) = (capacity - toInt u.length).toNat := by
  have hpnl : ∀ b e s, ∀ ev ∈ (packNextLevelT vals (i + 1 == dimTypes.length)
      (fun b e s => packTensorAuxT dims coords vals dimTypes fuel b e (i + 1) (depth + 1) s)
      b e s).log, ev ≠ Event.iter i ∧ ev ≠ Event.pad i :=
    packNextLevelT_forall_log _ vals _ _ (fun hleaf b e s ev hev => by
      have hne : ¬ i + 1 = dimTypes.length := by simpa using hleaf
      have hw := packTensorAuxT_within dims coords vals dimTypes fuel b e (i + 1) (depth + 1) s
        (by omega) ev hev
      exact ⟨hw.ne_iter, hw.ne_pad⟩)
  have hcall : ∀ ev : Event, List.count ev [Event.call i depth] =
      if ev = Event.call i depth then 1 else 0 := by
    intro ev
    by_cases he : ev = Event.call i depth
    · rw [if_pos he, he]; simp
    · rw [if_neg he]
      exact List.count_eq_zero.2 (fun hm => he (List.mem_singleton.1 hm))
  rw [packTensorAuxT] at h ⊢
  generalize packNextLevelT vals (i + 1 == dimTypes.length)
    (fun b e s => packTensorAuxT dims coords vals dimTypes fuel b e (i + 1) (depth + 1) s) =
    pnlT at hpnl h ⊢
  have hi1 : ∀ b e s, ∀ ev ∈ (pnlT b e s).log, ev ≠ Event.iter i :=
    fun b e s ev hev => (hpnl b e s ev hev).1
  have hp1 : ∀ b e s, ∀ ev ∈ (pnlT b e s).log, ev ≠ Event.pad i :=
    fun b e s ev hev => (hpnl b e s ev hev).2
  have hseglog : ∀ lc js cb s, (packSegmentsT i lc end_ pnlT js cb s).log.count
      (Event.pad i) = 0 := fun lc js cb s =>
    count_eq_zero_of_forall_ne _ _
      (packSegmentsT_forall_log _ i _ _ pnlT hp1 (by intro hc; cases hc) js cb s)
  obtain ⟨u0, _, h, hl0⟩ := Traced.bind_ok_inv h
  obtain ⟨dimType, hdt, h, hl1⟩ := Traced.bind_ok_inv h
  obtain ⟨levelCoords, hlc, h, hl2⟩ := Traced.bind_ok_inv h
  obtain ⟨x, _, h, hl3⟩ := Traced.bind_ok_inv h
  rw [Traced.result_lift] at hdt hlc
  refine ⟨dimType, levelCoords, hdt, hlc, ?_⟩
  rw [hl0, hl1, hl2, hl3]
  simp only [List.count_append, Traced.log_tell, Traced.log_lift, List.count_nil, Nat.zero_add,
    hcall, if_neg (show Event.iter i ≠ Event.call i depth from by intro hc; cases hc),
    if_neg (show Event.pad i ≠ Event.call i depth from by intro hc; cases hc)]
  cases dimType with
  | Dense =>
    simp only [] at h ⊢
    obtain ⟨d, hd, h, hl4⟩ := Traced.bind_ok_inv h
    obtain ⟨r, hr, h, hl5⟩ := Traced.bind_ok_inv h
    rw [Traced.result_lift] at hd
    refine ⟨d, hd, ?_⟩
    rw [hl4, hl5]
    simp only [List.count_append, Traced.log_lift, Traced.log_pure, List.count_nil, Nat.zero_add,
      Nat.add_zero, hseglog, packSegmentsT_count_iter i levelCoords end_ pnlT hi1 _ _ _ _ hr,
      List.length_map, List.length_range]
    exact ⟨trivial, trivial⟩
  | Sparse =>
    simp only [] at h ⊢
    obtain ⟨seg, hseg, h, hl4⟩ := Traced.bind_ok_inv h
    obtain ⟨u, hu, h, hl5⟩ := Traced.bind_ok_inv h
    obtain ⟨idx, _, h, hl6⟩ := Traced.bind_ok_inv h
    obtain ⟨ind1, _, h, hl7⟩ := Traced.bind_ok_inv h
    obtain ⟨ind2, _, h, hl8⟩ := Traced.bind_ok_inv h
    obtain ⟨r, hr, h, hl9⟩ := Traced.bind_ok_inv h
    rw [Traced.result_lift] at hseg hu
    refine ⟨seg, u, hseg, hu, ?_⟩
    rw [hl4, hl5, hl6, hl7, hl8, hl9]
    simp only [List.count_append, Traced.log_lift, Traced.log_pure, List.count_nil, Nat.zero_add,
      Nat.add_zero, hseglog, packSegmentsT_count_iter i levelCoords end_ pnlT hi1 _ _ _ _ hr,
      List.length_map]
    exact ⟨trivial, trivial⟩
  | Fixed =>
    simp only [] at h ⊢
    obtain ⟨pos, hpos, h, hl4⟩ := Traced.bind_ok_inv h
    obtain ⟨capacity, hcap, h, hl5⟩ := Traced.bind_ok_inv h
    obtain ⟨seg, hseg, h, hl6⟩ := Traced.bind_ok_inv h
    obtain ⟨u, hu, h, hl7⟩ := Traced.bind_ok_inv h
    rw [Traced.result_lift] at hpos hcap hseg hu
    refine ⟨seg, u, pos, capacity, hpos, hcap, hseg, hu, ?_⟩
    rw [hl4, hl5, hl6, hl7]
    simp only [List.count_append, Traced.log_lift, List.count_nil, Nat.zero_add]
    exact packFixedT_counts i levelCoords begin_ end_ pnlT hpnl u _ _ st st2 h

/-! ## `packTensor` terminates, nested no deeper than the order -/

/-- C18: a call of `packTensor` at a level `i` below the order `n` of the format
terminates, on every input: the run that records its calls and loop iterations
is defined with exactly `n - i` nested calls available and computes what
`packTensor` computes; every call it enters, also when the run fails, is at a
level `k` with `i <= k < n` and is nested in `k - i` calls, so no call is at a
level `>= n` and the nesting depth is at most `n - i`.  When the call returns,
its Dense loop has run `dims[i]` times (not at all for a negative size), its
Sparse or Fixed loop once per distinct value of the segment, and its Fixed
padding loop `max(0, capacity - number of distinct values)` times (a segment
has fewer than `2^31` distinct values, the range of `int segmentSize`). -/
theorem packTensor_terminates_within_order {α : Type} [Zero α] (dims : List Int)
    (coords : List (List Int)) (vals : List α) (begin_ end_ : Nat)
    (dimTypes : List DimensionType) (i : Nat) (st : PackState α) (hi : i < dimTypes.length) :
    (packTensorT dims coords vals begin_ end_ dimTypes i st).result =
        packTensor dims coords vals begin_ end_ dimTypes i st ∧
      (∀ k d, Event.call k d ∈ (packTensorT dims coords vals begin_ end_ dimTypes i st).log →
        k = i + d ∧ k < dimTypes.length) ∧
      (∀ st2, (packTensorT dims coords vals begin_ end_ dimTypes i st).result = Except.ok st2 →
        ∃ dimType levelCoords, at? dimTypes i = Except.ok dimType ∧
          at? coords i = Except.ok levelCoords ∧
          match dimType with
          | DimensionType.Dense => ∃ d, at? dims i = Except.ok d ∧
            (packTensorT dims coords vals begin_ end_ dimTypes i st).log.count (Event.iter i) =
              d.toNat ∧
            (packTensorT dims coords vals begin_ end_ dimTypes i st).log.count (Event.pad i) = 0
          | DimensionType.Sparse => ∃ seg u, range? levelCoords begin_ end_ = Except.ok seg ∧
            getUniqueEntries seg = Except.ok u ∧ u = (seg.map toSizeT).dedup ∧
            (packTensorT dims coords vals begin_ end_ dimTypes i st).log.count (Event.iter i) =
              u.length ∧
            (packTensorT dims coords vals begin_ end_ dimTypes i st).log.count (Event.pad i) = 0
          | DimensionType.Fixed => ∃ seg u pos capacity,
            getArray st.indices i 0 = Except.ok pos ∧ at? pos 0 = Except.ok capacity ∧
            range? levelCoords begin_ end_ = Except.ok seg ∧
            getUniqueEntries seg = Except.ok u ∧ u = (seg.map toSizeT).dedup ∧
            (u.length < 2 ^ 31 →
              (packTensorT dims coords vals begin_ end_ dimTypes i st).log.count (Event.iter i) =
                u.length ∧
              (packTensorT dims coords vals begin_ end_ dimTypes i st).log.count (Event.pad i) =
                (capacity - (u.length : Int)).toNat)) := by
  obtain ⟨fuel, hfuel⟩ : ∃ fuel, dimTypes.length - i = fuel + 1 := ⟨dimTypes.length - i - 1, by omega⟩
  unfold packTensorT packTensor
  refine ⟨packTensorAuxT_result dims coords vals dimTypes _ begin_ end_ i 0 st, ?_, ?_⟩
  · intro k d hmem
    have hw := packTensorAuxT_within dims coords vals dimTypes _ begin_ end_ i 0 st hi _ hmem
    simp only [Event.Within] at hw
    omega
  · rw [hfuel]
    intro st2 h
    obtain ⟨dimType, levelCoords, hdt, hlc, hm⟩ :=
      packTensorAuxT_counts dims coords vals dimTypes fuel begin_ end_ i 0 st st2 hi h
    refine ⟨dimType, levelCoords, hdt, hlc, ?_⟩
    cases dimType with
    | Dense => exact hm
    | Sparse =>
      obtain ⟨seg, u, hseg, hu, hc⟩ := hm
      exact ⟨seg, u, hseg, hu, getUniqueEntries_ok_dedup seg u hu, hc⟩
    | Fixed =>
      obtain ⟨seg, u, pos, capacity, hpos, hcap, hseg, hu, hc1, hc2⟩ := hm
      refine ⟨seg, u, pos, capacity, hpos, hcap, hseg, hu, getUniqueEntries_ok_dedup seg u hu, ?_⟩
      intro hlt
      rw [toInt_natCast_of_lt hlt] at hc1 hc2
      refine ⟨?_, hc2⟩
      rw [hc1]
      by_cases h0 : ((u.length : Nat) : Int) > 0
      · rw [if_pos h0]
      · rw [if_neg h0]
        omega

theorem packTensor_terminates_within_order_witness :
    (packTensorT [2, 2, 3] [[0, 0, 0, 1, 1], [0, 0, 0, 0, 1], [0, 1, 2, 0, 0]]
        [(1 : Int), 2, 3, 4, 5] 0 5
        [DimensionType.Dense, DimensionType.Fixed, DimensionType.Sparse] 0
        ⟨[[], [[2], []], [[0], []]], []⟩).log.count (Event.call 2 2) = 4 ∧
      (packTensorT [2, 2, 3] [[0, 0, 0, 1, 1], [0, 0, 0, 0, 1], [0, 1, 2, 0, 0]]
        [(1 : Int), 2, 3, 4, 5] 0 5
        [DimensionType.Dense, DimensionType.Fixed, DimensionType.Sparse] 0
        ⟨[[], [[2], []], [[0], []]], []⟩).log.count (Event.iter 0) = 2 ∧
      ((packTensorT [2, 2, 3] [[0, 0, 0, 1, 1], [0, 0, 0, 0, 1], [0, 1, 2, 0, 0]]
        [(1 : Int), 2, 3, 4, 5] 0 5
        [DimensionType.Dense, DimensionType.Fixed, DimensionType.Sparse] 0
        ⟨[[], [[2], []], [[0], []]], []⟩).result =
        packTensor [2, 2, 3] [[0, 0, 0, 1, 1], [0, 0, 0, 0, 1], [0, 1, 2, 0, 0]]
        [(1 : Int), 2, 3, 4, 5] 0 5
        [DimensionType.Dense, DimensionType.Fixed, DimensionType.Sparse] 0
        ⟨[[], [[2], []], [[0], []]], []⟩) :=
  ⟨by decide, by decide, (packTensor_terminates_within_order [2, 2, 3]
    [[0, 0, 0, 1, 1], [0, 0, 0, 0, 1], [0, 1, 2, 0, 0]] [(1 : Int), 2, 3, 4, 5] 0 5
    [DimensionType.Dense, DimensionType.Fixed, DimensionType.Sparse] 0
    ⟨[[], [[2], []], [[0], []]], []⟩ (by decide)).1⟩

/-! ## The empty coordinate list -/

/-- C8: on the coordinate list with zero entries and the format [Dense, Fixed],
`pack` does not return a Storage: the capacity pre-pass of the Fixed level reads
`coords[0][0]`, which is out of range. -/
theorem pack_empty_dense_fixed_out_of_range :
    pack [2, 4] [DimensionType.Dense, DimensionType.Fixed] [[], []] ([] : List Int) =
      Except.error PackError.outOfRange := by
  decide

/-! ## The capacity of a Fixed level against the true maximum -/

theorem pack_ok_fixed_index {α : Type} [Zero α] (dims : List Int)
    (format : List DimensionType) (coords : List (List Int)) (vals : List α) (s : Storage α)
    (hcoords : format.length ≤ coords.length) (hcols : ∀ col ∈ coords, vals.length ≤ col.length)
    (h : pack dims format coords vals = Except.ok s) (f : Nat)
    (hf : format[f]? = some DimensionType.Fixed) :
    ∃ (c : Int) (idx : List Int), s.index[f]? = some [[c], idx] ∧
      findMaxFixedValue dims coords format.length f 0 vals.length = Except.ok c := by
  have hlen := pack_length_of_ok dims format coords vals s h
  have hcaps := pack_ok_caps dims format coords vals s h
  obtain ⟨r, hr⟩ := hcaps f hf
  rw [pack_eq dims format coords vals hlen hcoords hcols hcaps] at h
  cases hd : packRows dims (capsOf dims coords format.length vals.length) format format.length 0
      (rowsOf coords vals 0 vals.length) with
  | error err => rw [hd] at h; cases h
  | ok d =>
    rw [hd] at h
    simp only [Except.map, Except.ok.injEq] at h
    subst h
    have hpos := packRows_pos_nil dims _ format _ _ _ d hd f (by rw [hf]; simp)
    have hcap : capsOf dims coords format.length vals.length f = r := by
      unfold capsOf
      rw [hr]
      exact toInt_toSizeT (findMaxFixedValue_isInt _ _ _ _ _ _ _ hr)
    refine ⟨r, d.idx f, ?_, hr⟩
    rw [storageOf_index dims format _ d f _ hf, hpos, hcap]
    rfl

theorem foldr_max_le (l : List Nat) (b : Nat) (h : ∀ x ∈ l, x ≤ b) : l.foldr max 0 ≤ b := by
  induction l with
  | nil => exact Nat.zero_le _
  | cons a l ih =>
    rw [List.foldr_cons]
    exact max_le (h a (List.mem_cons_self _ _))
      (ih (fun x hx => h x (List.mem_cons_of_mem _ hx)))

theorem trueCapacity_zero_le (T : List (List Int)) :
    trueCapacity T 0 ≤ distinctUnder T 0 [] := by
  unfold trueCapacity
  apply foldr_max_le
  intro x hx
  obtain ⟨p, hp, rfl⟩ := List.mem_map.1 hx
  obtain ⟨t, _, rfl⟩ := List.mem_map.1 hp
  rw [List.take_zero]

/-- C3 (the claim fails here): on a sorted list of five entries of order 3 with
the format [Dense, Fixed, Sparse], `pack` stores the capacity 1 in `pos[0]` of
the Fixed level 1, while the maximum number of distinct level-1 coordinates
under an occurring prefix is 2 (the prefix `(1)` has the level-1 coordinates 0
and 1). -/
theorem pack_fixed_capacity_below_true_maximum :
    pack [2, 2, 3] [DimensionType.Dense, DimensionType.Fixed, DimensionType.Sparse]
        [[0, 0, 0, 1, 1], [0, 0, 0, 0, 1], [0, 1, 2, 0, 0]] ([1, 2, 3, 4, 5] : List Int) =
      Except.ok { format := [DimensionType.Dense, DimensionType.Fixed, DimensionType.Sparse],
                  index := [[[2]], [[1], [0, 0, 1]], [[0, 3, 4, 5], [0, 1, 2, 0, 0]]],
                  values := [1, 2, 3, 4, 5] } ∧
      trueCapacity (tuplesOf [[0, 0, 0, 1, 1], [0, 0, 0, 0, 1], [0, 1, 2, 0, 0]] 5) 1 = 2 := by
  decide

/-- C3 (amended): for a format with a Fixed level `f` and a non-empty,
lexicographically sorted list of fewer than `2^31` non-negative `int`
coordinate tuples (one coordinate sequence per dimension, each as long as the
value sequence), the capacity in `pos[0]` of level `f` of the Storage `pack`
returns is the number of distinct level-`f` coordinates among the entries that
have one prefix `(c_0, ..., c_(f-1))` occurring in the input; so it is at most
the maximum of that number over the occurring prefixes, and it is equal to the
maximum when `f = 0`. -/
theorem pack_fixed_capacity_is_one_segment_size {α : Type} [Zero α] (dims : List Int)
    (format : List DimensionType) (coords : List (List Int)) (vals : List α) (s : Storage α)
    (hcoords : coords.length = format.length)
    (hne : 0 < vals.length) (hsmall : vals.length < 2 ^ 31)
    (hcols : ∀ col ∈ coords, col.length = vals.length)
    (hnn : ∀ col ∈ coords, ∀ x ∈ col, 0 ≤ x ∧ IsInt x)
    (hsorted : (tuplesOf coords vals.length).Sorted (· ≤ ·))
    (h : pack dims format coords vals = Except.ok s) (f : Nat)
    (hf : format[f]? = some DimensionType.Fixed) :
    ∃ (p : List Int) (idx : List Int),
      p ∈ (tuplesOf coords vals.length).map (List.take f) ∧
      s.index[f]? = some [[((distinctUnder (tuplesOf coords vals.length) f p : Nat) : Int)], idx] ∧
      distinctUnder (tuplesOf coords vals.length) f p ≤
        trueCapacity (tuplesOf coords vals.length) f ∧
      (f = 0 → distinctUnder (tuplesOf coords vals.length) f p =
        trueCapacity (tuplesOf coords vals.length) f) := by
  obtain ⟨c, idx, hidx, hc⟩ := pack_ok_fixed_index dims format coords vals s (by omega)
    (fun col hcol => le_of_eq (hcols col hcol).symm) h f hf
  have hfl : f < coords.length := by
    rw [hcoords]
    exact (List.getElem?_eq_some_iff.1 hf).1
  obtain ⟨p, hp, hres⟩ := findMaxFixedValue_eq_distinctUnder dims coords f vals.length hfl hne
    hsmall hcols hnn hsorted
  rw [hcoords, hc] at hres
  injection hres with hres
  subst hres
  refine ⟨p, idx, hp, hidx, distinctUnder_le_trueCapacity _ _ _ hp, ?_⟩
  intro hf0
  subst hf0
  apply le_antisymm (distinctUnder_le_trueCapacity _ _ _ hp)
  obtain ⟨t, _, rfl⟩ := List.mem_map.1 hp
  rw [List.take_zero]
  exact trueCapacity_zero_le _

theorem pack_fixed_capacity_is_one_segment_size_witness :
    ∃ (p : List Int) (idx : List Int),
      p ∈ (tuplesOf [[0, 0, 0, 1], [0, 1, 2, 3]] 4).map (List.take 1) ∧
      (Storage.mk [DimensionType.Dense, DimensionType.Fixed]
        [[[2]], [[3], [0, 1, 2, 3, 3, 3]]] ([1, 2, 3, 4, 0, 0] : List Int)).index[1]? =
        some [[((distinctUnder (tuplesOf [[0, 0, 0, 1], [0, 1, 2, 3]] 4) 1 p : Nat) : Int)], idx] ∧
      distinctUnder (tuplesOf [[0, 0, 0, 1], [0, 1, 2, 3]] 4) 1 p ≤
        trueCapacity (tuplesOf [[0, 0, 0, 1], [0, 1, 2, 3]] 4) 1 ∧
      (1 = 0 → distinctUnder (tuplesOf [[0, 0, 0, 1], [0, 1, 2, 3]] 4) 1 p =
        trueCapacity (tuplesOf [[0, 0, 0, 1], [0, 1, 2, 3]] 4) 1) :=
  pack_fixed_capacity_is_one_segment_size [2, 4] [DimensionType.Dense, DimensionType.Fixed]
    [[0, 0, 0, 1], [0, 1, 2, 3]] ([1, 2, 3, 4] : List Int) _ (by decide) (by decide)
    (by decide) (by decide) (by decide) (by decide) (by decide) 1 (by decide)

/-! ## What a call at a Fixed level appends to `idx` -/

theorem packRows_induct_from {α : Type} [Zero α] (dims : List Int) (caps : Nat → Int)
    (dimTypes : List DimensionType) (Q : Delta α → Prop) (h0 : Q Delta.empty)
    (happ : ∀ a b, Q a → Q b → Q (a.append b)) (hleaf : ∀ v, Q (Delta.leaf v))
    (i0 : Nat) (hsparse : ∀ i n js, i0 ≤ i → Q (Delta.level i [n] js))
    (hfixed : ∀ i js, i0 ≤ i → Q (Delta.level i [] js)) :
    ∀ (fuel i : Nat) (rows : List (Row α)) (d : Delta α), i0 ≤ i →
      packRows dims caps dimTypes fuel i rows = Except.ok d → Q d := by
  intro fuel
  induction fuel with
  | zero => intro i rows d _ h; cases h
  | succ fuel ih =>
    intro i rows d hi0 h
    rw [packRows] at h
    cases hdt : dimTypes[i]? with
    | none => rw [at?_eq_error hdt] at h; cases h
    | some t =>
      rw [at?_eq_ok hdt] at h
      simp only [bind, Except.bind] at h
      generalize hchild_def : (fun seg : List (Row α) =>
        if (i + 1 == dimTypes.length) = true then
          (pure (Delta.leaf (leafValue seg)) : Result (Delta α))
        else packRows dims caps dimTypes fuel (i + 1) seg) = child at h
      have hchild : ∀ seg d, child seg = Except.ok d → Q d := by
        intro seg d hd
        rw [← hchild_def] at hd
        by_cases hl : (i + 1 == dimTypes.length) = true
        · simp only [hl, if_true, pure, Except.pure, Except.ok.injEq] at hd
          subst hd
          exact hleaf _
        · simp only [hl] at hd
          exact ih _ _ _ (by omega) hd
      cases t with
      | Dense =>
        simp only [] at h
        cases hd : at? dims i with
        | error err => rw [hd] at h; cases h
        | ok dd =>
          rw [hd] at h
          simp only [] at h
          cases hr : packSegs i child (List.map Int.ofNat (List.range dd.toNat)) rows with
          | error err => rw [hr] at h; cases h
          | ok r =>
            rw [hr] at h
            simp only [pure, Except.pure, Except.ok.injEq] at h
            subst h
            exact packSegs_induct Q h0 happ i child hchild _ _ _ hr
      | Sparse =>
        simp only [] at h
        cases hu : getUniqueEntries (List.map (headAt i) rows) with
        | error err => rw [hu] at h; cases h
        | ok u =>
          rw [hu] at h
          simp only [] at h
          cases hr : packSegs i child (List.map (fun (j : Nat) => toInt j) u) rows with
          | error err => rw [hr] at h; cases h
          | ok r =>
            rw [hr] at h
            simp only [pure, Except.pure, Except.ok.injEq] at h
            subst h
            exact happ _ _ (hsparse _ _ _ hi0) (packSegs_induct Q h0 happ i child hchild _ _ _ hr)
      | Fixed =>
        simp only [] at h
        cases hu : getUniqueEntries (List.map (headAt i) rows) with
        | error err => rw [hu] at h; cases h
        | ok u =>
          rw [hu] at h
          simp only [] at h
          have hpad : ∀ p, padRows i u (toInt u.length) child (caps i - toInt u.length).toNat =
              Except.ok p → Q p :=
            padRows_induct Q h0 happ i (fun x => hfixed _ _ hi0) u _ child hchild _
          by_cases hs : toInt u.length > 0
          · simp only [hs, if_true] at h
            cases hr : packSegs i child (List.map (fun (j : Nat) => toInt j) u) rows with
            | error err => rw [hr] at h; cases h
            | ok r =>
              rw [hr] at h
              simp only [bind, Except.bind, pure, Except.pure] at h
              cases hp : padRows i u (toInt u.length) child (caps i - toInt u.length).toNat with
              | error err => rw [hp] at h; cases h
              | ok p =>
                rw [hp] at h
                simp only [Except.ok.injEq] at h
                subst h
                exact happ _ _ (happ _ _ (hfixed _ _ hi0)
                  (packSegs_induct Q h0 happ i child hchild _ _ _ hr)) (hpad _ hp)
          · simp only [hs, if_false, bind, Except.bind, pure, Except.pure] at h
            cases hp : padRows i u (toInt u.length) child (caps i - toInt u.length).toNat with
            | error err => rw [hp] at h; cases h
            | ok p =>
              rw [hp] at h
              simp only [Except.ok.injEq] at h
              subst h
              exact happ _ _ h0 (hpad _ hp)


theorem packRows_idx_below {α : Type} [Zero α] (dims : List Int) (caps : Nat → Int)
    (dimTypes : List DimensionType) (k : Nat) (fuel i : Nat) (rows : List (Row α))
    (d : Delta α) (hk : k < i) (h : packRows dims caps dimTypes fuel i rows = Except.ok d) :
    d.idx k = [] := by
  refine packRows_induct_from dims caps dimTypes (fun d => d.idx k = []) rfl ?_ (fun _ => rfl)
    (k + 1) ?_ ?_ fuel i rows d hk h
  · intro a b ha hb
    simp only [Delta.append, ha, hb, List.append_nil]
  · intro i n js hi
    simp only [Delta.level]
    rw [if_neg (by omega)]
  · intro i js hi
    simp only [Delta.level]
    rw [if_neg (by omega)]

theorem packRows_fixed_idx_length {α : Type} [Zero α] (dims : List Int) (caps : Nat → Int)
    (dimTypes : List DimensionType) (fuel f : Nat) (rows : List (Row α)) (d : Delta α)
    (hf : dimTypes[f]? = some DimensionType.Fixed)
    (h : packRows dims caps dimTypes (fuel + 1) f rows = Except.ok d) :
    ∃ u, getUniqueEntries (rows.map (headAt f)) = Except.ok u ∧
      ((d.idx f).length : Int) =
        (if toInt u.length > 0 then (u.length : Int) else 0) +
          ((caps f - toInt u.length).toNat : Int) := by
  have hm0 : (((Delta.empty : Delta α).idx f).length : Int) = 0 := by simp
  have hadd : ∀ a b : Delta α, (((a.append b).idx f).length : Int) =
      ((a.idx f).length : Int) + ((b.idx f).length : Int) := by
    intro a b
    simp only [Delta.append, List.length_append]
    push_cast
    rfl
  rw [packRows, at?_eq_ok hf] at h
  simp only [bind, Except.bind] at h
  generalize hchild_def : (fun seg : List (Row α) =>
    if (f + 1 == dimTypes.length) = true then
      (pure (Delta.leaf (leafValue seg)) : Result (Delta α))
    else packRows dims caps dimTypes fuel (f + 1) seg) = child at h
  have hchild : ∀ seg d, child seg = Except.ok d → ((d.idx f).length : Int) = 0 := by
    intro seg d hd
    rw [← hchild_def] at hd
    by_cases hl : (f + 1 == dimTypes.length) = true
    · simp only [hl, if_true, pure, Except.pure, Except.ok.injEq] at hd
      subst hd
      rfl
    · simp only [hl] at hd
      rw [packRows_idx_below dims caps dimTypes f fuel (f + 1) seg d (by omega) hd]
      rfl
  cases hu : getUniqueEntries (List.map (headAt f) rows) with
  | error err => rw [hu] at h; cases h
  | ok u =>
    rw [hu] at h
    simp only [] at h
    refine ⟨u, rfl, ?_⟩
    have hpad : ∀ p, padRows f u (toInt u.length) child (caps f - toInt u.length).toNat =
        Except.ok p → ((p.idx f).length : Int) = ((caps f - toInt u.length).toNat : Int) := by
      intro p hp
      have := padRows_additive (fun d : Delta α => ((d.idx f).length : Int)) hm0 hadd f 1
        (fun x => by simp [Delta.level]) u _ child 0 hchild _ p hp
      simp only [] at this
      rw [this]
      ring
    by_cases hs : toInt u.length > 0
    · simp only [hs, if_true] at h ⊢
      cases hr : packSegs f child (List.map (fun (j : Nat) => toInt j) u) rows with
      | error err => rw [hr] at h; cases h
      | ok r =>
        rw [hr] at h
        simp only [bind, Except.bind, pure, Except.pure] at h
        cases hp : padRows f u (toInt u.length) child (caps f - toInt u.length).toNat with
        | error err => rw [hp] at h; cases h
        | ok p =>
          rw [hp] at h
          simp only [Except.ok.injEq] at h
          subst h
          have hsegs := packSegs_additive (fun d : Delta α => ((d.idx f).length : Int)) hm0 hadd
            f child 0 hchild _ _ _ hr
          rw [hadd, hadd, hpad p hp]
          simp only [] at hsegs
          rw [hsegs]
          simp [Delta.level]
    · simp only [hs, if_false, bind, Except.bind, pure, Except.pure] at h ⊢
      cases hp : padRows f u (toInt u.length) child (caps f - toInt u.length).toNat with
      | error err => rw [hp] at h; cases h
      | ok p =>
        rw [hp] at h
        simp only [Except.ok.injEq] at h
        subst h
        rw [hadd, hpad p hp, hm0]

/-- C4 (the claim fails here): with the capacity 1 in `pos[0]` of the Fixed
level 1, the call of `packTensor` at level 1 on the entries `(1,0,0), (1,1,0)`
appends two entries, 0 and 1, to the `idx` array of level 1; and the Storage
`pack` returns for the whole list has an `idx` array of length 3 at level 1,
not capacity times the number of parent segments (1 times 2). -/
theorem packTensor_fixed_call_exceeds_capacity :
    packTensor [2, 2, 3] [[0, 0, 0, 1, 1], [0, 0, 0, 0, 1], [0, 1, 2, 0, 0]]
        ([1, 2, 3, 4, 5] : List Int) 3 5
        [DimensionType.Dense, DimensionType.Fixed, DimensionType.Sparse] 1
        ⟨[[], [[1], [0]], [[0, 3], [0, 1, 2]]], [1, 2, 3]⟩ =
      Except.ok ⟨[[], [[1], [0, 0, 1]], [[0, 3, 4, 5], [0, 1, 2, 0, 0]]], [1, 2, 3, 4, 5]⟩ ∧
    pack [2, 2, 3] [DimensionType.Dense, DimensionType.Fixed, DimensionType.Sparse]
        [[0, 0, 0, 1, 1], [0, 0, 0, 0, 1], [0, 1, 2, 0, 0]] ([1, 2, 3, 4, 5] : List Int) =
      Except.ok { format := [DimensionType.Dense, DimensionType.Fixed, DimensionType.Sparse],
                  index := [[[2]], [[1], [0, 0, 1]], [[0, 3, 4, 5], [0, 1, 2, 0, 0]]],
                  values := [1, 2, 3, 4, 5] } := by
  decide

/-- C4 (amended): a call of `packTensor` at a Fixed level `f` that returns, on
index arrays of the shape `pack` builds (the capacity `caps f` in `pos[0]` of
level `f`), appends `max(capacity, k)` entries to the `idx` array of level `f`,
`k` being the number of distinct level-`f` coordinates of its segment (fewer
than `2^31`): exactly capacity entries when the segment has at most capacity
distinct coordinates, and `k` entries otherwise. -/
theorem packTensor_fixed_call_appends {α : Type} [Zero α] (dims : List Int)
    (coords : List (List Int)) (vals : List α) (dimTypes : List DimensionType)
    (caps : Nat → Int) (N : Nat)
    (hcoords : dimTypes.length ≤ coords.length) (hcols : ∀ col ∈ coords, N ≤ col.length)
    (hvals : N ≤ vals.length) (b e f : Nat) (st st2 : PackState α) (hbe : b ≤ e) (heN : e ≤ N)
    (hsh : Shape dimTypes caps st.indices) (hf : dimTypes[f]? = some DimensionType.Fixed)
    (h : packTensor dims coords vals b e dimTypes f st = Except.ok st2) :
    ∃ (c idx added seg : List Int) (u : List Nat),
      getArray st.indices f 0 = Except.ok (caps f :: c) ∧
      getArray st.indices f 1 = Except.ok idx ∧
      range? (coords.getD f []) b e = Except.ok seg ∧
      getUniqueEntries seg = Except.ok u ∧
      getArray st2.indices f 1 = Except.ok (idx ++ added) ∧
      (u.length < 2 ^ 31 → added.length = max u.length (caps f).toNat) := by
  have hfl : f < dimTypes.length := (List.getElem?_eq_some_iff.1 hf).1
  obtain ⟨fuel, hfuel⟩ : ∃ fuel, dimTypes.length - f = fuel + 1 :=
    ⟨dimTypes.length - f - 1, by omega⟩
  unfold packTensor at h
  rw [packTensorAux_eq dims coords vals dimTypes caps N hcoords hcols hvals _ b e f st hbe heN hsh,
    hfuel] at h
  cases hd : packRows dims caps dimTypes (fuel + 1) f (rowsOf coords vals b e) with
  | error err => rw [hd] at h; cases h
  | ok d =>
    rw [hd] at h
    simp only [Except.map, Except.ok.injEq] at h
    subst h
    obtain ⟨u, hu, hlen⟩ := packRows_fixed_idx_length dims caps dimTypes fuel f _ d hf hd
    have hfi : f < st.indices.length := lt_of_lt_of_le hfl hsh.1
    obtain ⟨c, idx, rest, hindex⟩ := (hsh.2 f _ (List.getElem?_eq_getElem hfi)).2 hf
    have hst : st.indices[f]? = some ((caps f :: c) :: idx :: rest) := by
      rw [List.getElem?_eq_getElem hfi, hindex]
    have hst2 : (applyDelta st d).indices[f]? =
        some (((caps f :: c) ++
          (d.pos f).map (fun (c : Nat) => toInt ((idx.length + c : Nat) : Int)))
          :: (idx ++ d.idx f) :: rest) := by
      rw [getElem?_applyDelta, hst]
      rfl
    have hfc : f < coords.length := by omega
    have hlc : coords[f]? = some coords[f] := List.getElem?_eq_getElem hfc
    have hlcN : e ≤ (coords[f]).length := le_trans heN (hcols _ (List.getElem_mem hfc))
    have hgd : coords.getD f [] = coords[f] := by
      simp [List.getD_eq_getElem?_getD, hlc]
    have hseg : (rowsOf coords vals b e).map (headAt f) = ((coords[f]).drop b).take (e - b) :=
      map_headAt_rowsOf coords vals f coords[f] hlc e hlcN (e - b) b rfl hbe
    refine ⟨c, idx, d.idx f, ((coords[f]).drop b).take (e - b), u,
      getArray_zero _ _ _ _ _ hst, getArray_one _ _ _ _ _ hst, ?_, ?_,
      getArray_one _ _ _ _ _ hst2, ?_⟩
    · rw [hgd]
      unfold range?
      rw [if_pos ⟨hbe, hlcN⟩]
      rfl
    · rw [← hseg]
      exact hu
    · intro hlt
      rw [toInt_natCast_of_lt hlt] at hlen
      by_cases h0 : ((u.length : Nat) : Int) > 0
      · rw [if_pos h0] at hlen
        omega
      · rw [if_neg h0] at hlen
        omega

theorem packTensor_fixed_call_appends_witness :
    ∃ (c idx added seg : List Int) (u : List Nat),
      getArray [[], [[2], []], [[0], []]] 1 0 = Except.ok ((fun _ => (2 : Int)) 1 :: c) ∧
      getArray [[], [[2], []], [[0], []]] 1 1 = Except.ok idx ∧
      range? ([[0, 0, 0, 1, 1], [0, 0, 0, 0, 1], [0, 1, 2, 0, 0]].getD 1 []) 0 3 =
        Except.ok seg ∧
      getUniqueEntries seg = Except.ok u ∧
      getArray [[], [[2], [0, 0]], [[0, 3, 3], [0, 1, 2]]] 1 1 = Except.ok (idx ++ added) ∧
      (u.length < 2 ^ 31 → added.length = max u.length ((fun _ => (2 : Int)) 1).toNat) :=
  packTensor_fixed_call_appends [2, 2, 3] [[0, 0, 0, 1, 1], [0, 0, 0, 0, 1], [0, 1, 2, 0, 0]]
    ([1, 2, 3, 4, 5] : List Int) [DimensionType.Dense, DimensionType.Fixed, DimensionType.Sparse]
    (fun _ => 2) 5 (by decide) (by decide) (by decide) 0 3 1
    ⟨[[], [[2], []], [[0], []]], []⟩ ⟨[[], [[2], [0, 0]], [[0, 3, 3], [0, 1, 2]]], [1, 2, 3]⟩
    (by decide) (by decide)
    (shape_initFrom [DimensionType.Dense, DimensionType.Fixed, DimensionType.Sparse] (fun _ => 2))
    (by decide) (by decide)

/-! ## Formats without a Dense level reject unsorted coordinates -/

theorem RowsWf.of_sublist {α : Type} {n : Nat} {rows rows' : List (Row α)}
    (hs : rows'.Sublist rows) (h : RowsWf n rows) : RowsWf n rows' :=
  fun r hr => h r (hs.subset hr)

theorem RowsWf.heads_nonneg {α : Type} {n i : Nat} {rows : List (Row α)} (h : RowsWf n rows)
    (hi : i < n) : ∀ x ∈ rows.map (headAt i), 0 ≤ x ∧ IsInt x := by
  intro x hx
  obtain ⟨r, hr, rfl⟩ := List.mem_map.1 hx
  have hlen := (h r hr).1
  unfold headAt
  rw [List.getD_eq_getElem?_getD, List.getElem?_eq_getElem (by omega)]
  exact (h r hr).2 _ (List.getElem_mem _)

theorem cons_le_cons_of_le (j : Int) {x y : List Int} (h : x ≤ y) : j :: x ≤ j :: y := by
  rw [← not_lt] at h ⊢
  intro hlt
  exact h (lt_of_cons_lt_cons hlt)

theorem map_toNat_toInt : ∀ l : List Int, (∀ x ∈ l, 0 ≤ x ∧ IsInt x) →
    (l.map Int.toNat).map (fun (j : Nat) => toInt j) = l := by
  intro l
  induction l with
  | nil => intro _; rfl
  | cons x l ih =>
    intro hl
    rw [List.map_cons, List.map_cons, ih (fun y hy => hl y (List.mem_cons_of_mem _ hy)),
      toInt_toNat_of_nonneg (hl x (by simp)).1 (hl x (by simp)).2]

theorem head_lt_of_mem_dropWhile {α : Type} (i : Nat) (a : Row α) (l : List (Row α))
    (hheads : ((a :: l).map (headAt i)).Sorted (· ≤ ·)) (ry : Row α)
    (hry : ry ∈ l.dropWhile (fun r => decide (headAt i r = headAt i a))) :
    headAt i a < headAt i ry := by
  have hsub : (l.dropWhile (fun r => decide (headAt i r = headAt i a))).Sublist l :=
    List.dropWhile_sublist _
  cases hrem : l.dropWhile (fun r => decide (headAt i r = headAt i a)) with
  | nil => rw [hrem] at hry; cases hry
  | cons c rem =>
    have hc : decide (headAt i c = headAt i a) = false := by
      have := List.head_dropWhile_not (fun r => decide (headAt i r = headAt i a)) l
        (by rw [hrem]; simp)
      simpa [hrem] using this
    have hc' : headAt i c ≠ headAt i a := by simpa using hc
    have hcl : c ∈ l := hsub.subset (by rw [hrem]; simp)
    have hac : headAt i a ≤ headAt i c :=
      List.rel_of_sorted_cons hheads _ (List.mem_map.2 ⟨c, hcl, rfl⟩)
    have hrems : ((c :: rem).map (headAt i)).Sorted (· ≤ ·) := by
      rw [← hrem]
      exact (hheads.sublist ((hsub.trans (List.sublist_cons_self a l)).map _))
    rw [hrem] at hry
    have hcy : headAt i c ≤ headAt i ry := by
      rcases List.mem_cons.1 hry with h | h
      · rw [h]
      · exact List.rel_of_sorted_cons hrems _ (List.mem_map.2 ⟨ry, h, rfl⟩)
    exact lt_of_lt_of_le (lt_of_le_of_ne hac (fun e => hc' e.symm)) hcy

theorem packSegs_sorted_or_assert_of_le {α : Type} (n i : Nat) (hi : i < n) (B : Nat)
    (child : List (Row α) → Result (Delta α))
    (hchild : ∀ seg, RowsWf n seg → seg.length ≤ B →
      (∃ d, child seg = Except.ok d ∧ (seg.map (fun r => r.1.drop (i + 1))).Sorted (· ≤ ·)) ∨
        child seg = Except.error PackError.assertion) :
    ∀ (m : Nat) (rows : List (Row α)), rows.length ≤ m → rows.length ≤ B → RowsWf n rows →
      (rows.map (headAt i)).Sorted (· ≤ ·) →
      (∃ r, packSegs i child (List.destutter (· ≠ ·) (rows.map (headAt i))) rows = Except.ok r ∧
          (rows.map (fun r => r.1.drop i)).Sorted (· ≤ ·)) ∨
        packSegs i child (List.destutter (· ≠ ·) (rows.map (headAt i))) rows =
          Except.error PackError.assertion := by
  intro m
  induction m with
  | zero =>
    intro rows hlen _ _ _
    have : rows = [] := List.length_eq_zero.1 (by omega)
    subst this
    exact Or.inl ⟨_, rfl, List.sorted_nil⟩
  | succ m ih =>
    intro rows hlen hB hwf hheads
    cases rows with
    | nil => exact Or.inl ⟨_, rfl, List.sorted_nil⟩
    | cons a l =>
      have hp : ((fun b => decide (b = headAt i a)) ∘ headAt i : Row α → Bool) =
          fun r => decide (headAt i r = headAt i a) := rfl
      rw [List.map_cons, List.destutter_cons', destutter'_ne_eq, List.dropWhile_map, hp, packSegs]
      have htd := List.takeWhile_append_dropWhile (fun r => decide (headAt i r = headAt i a))
        (a :: l)
      have hseg : ∀ r ∈ (a :: l).takeWhile (fun r => decide (headAt i r = headAt i a)),
          headAt i r = headAt i a := by
        intro r hr
        simpa using List.mem_takeWhile_imp hr
      have hdrop : (a :: l).dropWhile (fun r => decide (headAt i r = headAt i a)) =
          l.dropWhile (fun r => decide (headAt i r = headAt i a)) := by
        rw [List.dropWhile_cons]
        simp
      have hlen2 : (l.dropWhile (fun r => decide (headAt i r = headAt i a))).length ≤ m := by
        have := (List.dropWhile_sublist (fun r => decide (headAt i r = headAt i a))
          (l := l)).length_le
        simp only [List.length_cons] at hlen
        omega
      have hsubrem : (l.dropWhile (fun r => decide (headAt i r = headAt i a))).Sublist (a :: l) :=
        (List.dropWhile_sublist _).trans (List.sublist_cons_self a l)
      rcases hchild _ (hwf.of_sublist (List.takeWhile_sublist _))
        (le_trans (List.takeWhile_sublist _).length_le hB) with ⟨d, hd, hsd⟩ | hd
      · rcases ih _ hlen2 (le_trans hsubrem.length_le hB) (hwf.of_sublist hsubrem)
          (hheads.sublist (hsubrem.map _)) with ⟨r, hr, hsr⟩ | hr
        · left
          rw [hd]
          simp only [bind, Except.bind]
          rw [hdrop, hr]
          refine ⟨_, rfl, ?_⟩
          rw [← htd, List.map_append]
          unfold List.Sorted
          rw [List.pairwise_append]
          refine ⟨?_, by rw [hdrop]; exact hsr, ?_⟩
          · unfold List.Sorted at hsd
            rw [List.pairwise_map] at hsd ⊢
            refine hsd.imp_of_mem ?_
            intro x y hx hy hxy
            have hxl := (hwf x ((List.takeWhile_sublist _).subset hx)).1
            have hyl := (hwf y ((List.takeWhile_sublist _).subset hy)).1
            rw [drop_eq_getD_cons x.1 i (by omega), drop_eq_getD_cons y.1 i (by omega)]
            have hx2 := hseg x hx
            have hy2 := hseg y hy
            unfold headAt at hx2 hy2
            rw [hx2, hy2]
            exact cons_le_cons_of_le _ hxy
          · intro x hx y hy
            obtain ⟨rx, hrx, rfl⟩ := List.mem_map.1 hx
            obtain ⟨ry, hry, rfl⟩ := List.mem_map.1 hy
            have hxl := (hwf rx ((List.takeWhile_sublist _).subset hrx)).1
            have hyl := (hwf ry ((List.dropWhile_sublist _).subset hry)).1
            rw [drop_eq_getD_cons rx.1 i (by omega), drop_eq_getD_cons ry.1 i (by omega)]
            have hx2 := hseg rx hrx
            unfold headAt at hx2
            rw [hx2]
            apply le_of_lt
            apply List.Lex.rel
            exact head_lt_of_mem_dropWhile i a l hheads ry (by rw [← hdrop]; exact hry)
        · right
          rw [hd]
          simp only [bind, Except.bind]
          rw [hdrop, hr]
      · right
        rw [hd]
        rfl

theorem padRows_ok_or_assert {α : Type} (i : Nat) (u : List Nat) (s : Int)
    (child : List (Row α) → Result (Delta α))
    (hlast : ∃ last : Nat,
      (if s > 0 then at? u (toSizeT (s - 1)) else pure 0) = Except.ok last)
    (hchild : (∃ d, child [] = Except.ok d) ∨ child [] = Except.error PackError.assertion) :
    ∀ (n : Nat), (∃ p, padRows i u s child n = Except.ok p) ∨
      padRows i u s child n = Except.error PackError.assertion := by
  intro n
  induction n with
  | zero => exact Or.inl ⟨_, rfl⟩
  | succ n ih =>
    obtain ⟨last, hl⟩ := hlast
    rw [padRows]
    by_cases hs : s > 0
    · rw [if_pos hs] at hl
      simp only [hs, if_true]
      rw [hl]
      simp only [bind, Except.bind]
      rcases hchild with ⟨d, hd⟩ | hd
      · rw [hd]
        simp only []
        rcases ih with ⟨p, hp⟩ | hp
        · rw [hp]
          exact Or.inl ⟨_, rfl⟩
        · rw [hp]
          exact Or.inr rfl
      · rw [hd]
        exact Or.inr rfl
    · simp only [hs, if_false, bind, Except.bind, pure, Except.pure]
      rcases hchild with ⟨d, hd⟩ | hd
      · rw [hd]
        simp only []
        rcases ih with ⟨p, hp⟩ | hp
        · rw [hp]
          exact Or.inl ⟨_, rfl⟩
        · rw [hp]
          exact Or.inr rfl
      · rw [hd]
        exact Or.inr rfl

theorem packRows_noDense_sorted_or_assert {α : Type} [Zero α] (dims : List Int)
    (caps : Nat → Int) (dimTypes : List DimensionType)
    (hall : ∀ t ∈ dimTypes, t ≠ DimensionType.Dense) :
    ∀ (fuel i : Nat) (rows : List (Row α)), fuel = dimTypes.length - i → i < dimTypes.length →
      RowsWf dimTypes.length rows → rows.length < 2 ^ 31 →
      (∃ d, packRows dims caps dimTypes fuel i rows = Except.ok d ∧
          (rows.map (fun r => r.1.drop i)).Sorted (· ≤ ·)) ∨
        packRows dims caps dimTypes fuel i rows = Except.error PackError.assertion := by
  intro fuel
  induction fuel with
  | zero => intro i rows hf hi _ _; omega
  | succ fuel ih =>
    intro i rows hf hi hwf hlen
    rw [packRows, at?_eq_ok (List.getElem?_eq_getElem hi)]
    simp only [bind, Except.bind]
    generalize hchild_def : (fun seg : List (Row α) =>
      if (i + 1 == dimTypes.length) = true then
        (pure (Delta.leaf (leafValue seg)) : Result (Delta α))
      else packRows dims caps dimTypes fuel (i + 1) seg) = child
    have hchild : ∀ seg, RowsWf dimTypes.length seg → seg.length ≤ rows.length →
        (∃ d, child seg = Except.ok d ∧
          (seg.map (fun r => r.1.drop (i + 1))).Sorted (· ≤ ·)) ∨
          child seg = Except.error PackError.assertion := by
      intro seg hseg hsl
      rw [← hchild_def]
      by_cases hl : (i + 1 == dimTypes.length) = true
      · simp only [hl, if_true]
        left
        refine ⟨_, rfl, ?_⟩
        have hl' : i + 1 = dimTypes.length := by simpa using hl
        have hmap : seg.map (fun r => r.1.drop (i + 1)) = seg.map (fun _ => ([] : List Int)) := by
          apply List.map_congr_left
          intro r hr
          exact List.drop_of_length_le (by rw [(hseg r hr).1]; omega)
        rw [hmap]
        unfold List.Sorted
        rw [List.pairwise_map]
        exact List.pairwise_of_forall (fun _ _ => le_refl _)
      · simp only [hl]
        have hl' : ¬ i + 1 = dimTypes.length := by simpa using hl
        exact ih (i + 1) seg (by omega) (by omega) hseg (by omega)
    have hnn := hwf.heads_nonneg hi
    cases ht : dimTypes[i] with
    | Dense => exact absurd ht (hall _ (List.getElem_mem _))
    | Sparse =>
      simp only []
      by_cases hs : (rows.map (headAt i)).Sorted (· ≤ ·)
      · rw [getUniqueEntries_of_sorted hs hnn]
        simp only []
        rw [map_toNat_toInt _ (fun x hx => hnn x (List.mem_dedup.1 hx)),
          ← destutter_ne_eq_dedup _ hs]
        rcases packSegs_sorted_or_assert_of_le dimTypes.length i hi rows.length child hchild
          rows.length rows (le_refl _) (le_refl _) hwf hs with ⟨r, hr, hsr⟩ | hr
        · left
          rw [hr]
          exact ⟨_, rfl, hsr⟩
        · right
          rw [hr]
      · right
        rw [getUniqueEntries_of_not_sorted hs hnn]
    | Fixed =>
      simp only []
      by_cases hs : (rows.map (headAt i)).Sorted (· ≤ ·)
      · rw [getUniqueEntries_of_sorted hs hnn]
        simp only []
        rw [map_toNat_toInt _ (fun x hx => hnn x (List.mem_dedup.1 hx))]
        simp only [List.length_map]
        have hdl : (rows.map (headAt i)).dedup.length ≤ rows.length := by
          have := (List.dedup_sublist (rows.map (headAt i))).length_le
          simpa using this
        rw [toInt_natCast_of_lt (lt_of_le_of_lt hdl hlen)]
        have hlast : ∃ last : Nat,
            (if (((rows.map (headAt i)).dedup.length : Nat) : Int) > 0 then
              at? ((rows.map (headAt i)).dedup.map Int.toNat)
                (toSizeT ((((rows.map (headAt i)).dedup.length : Nat) : Int) - 1))
            else pure 0) = Except.ok last := by
          by_cases h0 : (((rows.map (headAt i)).dedup.length : Nat) : Int) > 0
          · have hk : toSizeT ((((rows.map (headAt i)).dedup.length : Nat) : Int) - 1) =
                (rows.map (headAt i)).dedup.length - 1 := by
              unfold toSizeT
              omega
            have hklt : (rows.map (headAt i)).dedup.length - 1 <
                ((rows.map (headAt i)).dedup.map Int.toNat).length := by
              simp only [List.length_map]
              omega
            obtain ⟨last, hlast⟩ : ∃ last,
                ((rows.map (headAt i)).dedup.map Int.toNat)[
                  (rows.map (headAt i)).dedup.length - 1]? = some last :=
              ⟨_, List.getElem?_eq_getElem hklt⟩
            exact ⟨last, by rw [if_pos h0, hk]; exact at?_eq_ok hlast⟩
          · exact ⟨0, by rw [if_neg h0]; rfl⟩
        have hpad := padRows_ok_or_assert i ((rows.map (headAt i)).dedup.map Int.toNat)
          (((rows.map (headAt i)).dedup.length : Nat) : Int) child hlast
          ((hchild [] (fun _ h => by cases h) (Nat.zero_le _)).imp
            (fun h => h.imp (fun d hd => hd.1)) id)
          (caps i - (((rows.map (headAt i)).dedup.length : Nat) : Int)).toNat
        by_cases h0 : (((rows.map (headAt i)).dedup.length : Nat) : Int) > 0
        · simp only [h0, if_true]
          rcases packSegs_sorted_or_assert_of_le dimTypes.length i hi rows.length child hchild
            rows.length rows (le_refl _) (le_refl _) hwf hs with ⟨r, hr, hsr⟩ | hr
          · rw [destutter_ne_eq_dedup _ hs] at hr
            rw [hr]
            simp only [pure, Except.pure]
            rcases hpad with ⟨p, hp⟩ | hp
            · left
              rw [hp]
              exact ⟨_, rfl, hsr⟩
            · right
              rw [hp]
          · right
            rw [destutter_ne_eq_dedup _ hs] at hr
            rw [hr]
        · have hnil : rows = [] := by
            have h1 : (rows.map (headAt i)).dedup = [] := List.length_eq_zero.1 (by omega)
            have h2 : rows.map (headAt i) = [] := by
              cases hm : rows.map (headAt i) with
              | nil => rfl
              | cons x xs =>
                have : x ∈ (rows.map (headAt i)).dedup := by
                  rw [List.mem_dedup, hm]
                  exact List.mem_cons_self _ _
                rw [h1] at this
                cases this
            exact List.map_eq_nil_iff.1 h2
          simp only [h0, if_false, pure, Except.pure]
          rcases hpad with ⟨p, hp⟩ | hp
          · left
            rw [hp]
            refine ⟨_, rfl, ?_⟩
            rw [hnil]
            exact List.sorted_nil
          · right
            rw [hp]
      · right
        rw [getUniqueEntries_of_not_sorted hs hnn]

/-! ## The capacity pre-pass on coordinates in any order -/

theorem recordRun_capped (done : List Int) (s : RunState)
    (h1 : ∀ m ∈ s.maxCoords, 1 ≤ s.maxSize ∧ s.maxSize ≤ done.count m)
    (h2 : 1 ≤ s.sizeCur ∧ s.sizeCur ≤ done.count s.coordCur) :
    ∀ m ∈ (recordRun s).maxCoords,
      1 ≤ (recordRun s).maxSize ∧ (recordRun s).maxSize ≤ done.count m := by
  unfold recordRun
  by_cases hgt : s.sizeCur > s.maxSize
  · rw [if_pos hgt]
    dsimp only
    intro m hm
    have hme : m = s.coordCur := by simpa using hm
    rw [hme]
    exact h2
  · rw [if_neg hgt]
    by_cases heq : s.sizeCur = s.maxSize
    · rw [if_pos heq]
      dsimp only
      intro m hm
      rcases List.mem_append.1 hm with hm | hm
      · exact h1 m hm
      · have hme : m = s.coordCur := by simpa using hm
        rw [hme, ← heq]
        exact h2
    · rw [if_neg heq]
      exact h1

theorem runStep_capped (done : List Int) (s : RunState) (c : Int)
    (h1 : ∀ m ∈ s.maxCoords, 1 ≤ s.maxSize ∧ s.maxSize ≤ done.count m)
    (h2 : 1 ≤ s.sizeCur ∧ s.sizeCur ≤ done.count s.coordCur) :
    (∀ m ∈ (runStep s c).maxCoords,
      1 ≤ (runStep s c).maxSize ∧ (runStep s c).maxSize ≤ (done ++ [c]).count m) ∧
    1 ≤ (runStep s c).sizeCur ∧
      (runStep s c).sizeCur ≤ (done ++ [c]).count (runStep s c).coordCur := by
  unfold runStep
  by_cases hc : c = s.coordCur
  · rw [if_pos hc]
    dsimp only
    refine ⟨?_, by omega, ?_⟩
    · intro m hm
      have := h1 m hm
      rw [List.count_append]
      omega
    · rw [List.count_append, hc, List.count_singleton_self]
      omega
  · rw [if_neg hc]
    dsimp only
    refine ⟨?_, le_refl _, ?_⟩
    · intro m hm
      have := recordRun_capped done s h1 h2 m hm
      rw [List.count_append]
      omega
    · rw [List.count_append, List.count_singleton_self]
      omega

theorem foldl_runStep_capped : ∀ (post done : List Int) (s : RunState),
    (∀ m ∈ s.maxCoords, 1 ≤ s.maxSize ∧ s.maxSize ≤ done.count m) →
    (1 ≤ s.sizeCur ∧ s.sizeCur ≤ done.count s.coordCur) →
    (∀ m ∈ (post.foldl runStep s).maxCoords,
      1 ≤ (post.foldl runStep s).maxSize ∧
        (post.foldl runStep s).maxSize ≤ (done ++ post).count m) ∧
    1 ≤ (post.foldl runStep s).sizeCur ∧
      (post.foldl runStep s).sizeCur ≤ (done ++ post).count (post.foldl runStep s).coordCur := by
  intro post
  induction post with
  | nil =>
    intro done s h1 h2
    rw [List.append_nil]
    exact ⟨h1, h2⟩
  | cons c post ih =>
    intro done s h1 h2
    obtain ⟨g1, g2⟩ := runStep_capped done s c h1 h2
    have := ih (done ++ [c]) (runStep s c) g1 g2
    rw [List.append_assoc, List.singleton_append] at this
    exact this

theorem runs_capped (c0 : Int) (rest : List Int) :
    ∀ m ∈ (recordRun (rest.foldl runStep
        { maxSize := 0, maxCoords := [], coordCur := c0, sizeCur := 1 })).maxCoords,
      1 ≤ (recordRun (rest.foldl runStep
        { maxSize := 0, maxCoords := [], coordCur := c0, sizeCur := 1 })).maxSize ∧
      (recordRun (rest.foldl runStep
        { maxSize := 0, maxCoords := [], coordCur := c0, sizeCur := 1 })).maxSize ≤
        (c0 :: rest).count m := by
  obtain ⟨g1, g2⟩ := foldl_runStep_capped rest [c0]
    { maxSize := 0, maxCoords := [], coordCur := c0, sizeCur := 1 }
    (fun _ h => by cases h) ⟨le_refl _, by simp⟩
  exact recordRun_capped ([c0] ++ rest) _ g1 g2

theorem selectRows_take (order i : Nat) (m : Int) (T : List (List Int)) (hi : i < order) :
    ∀ (n k : Nat), k + n ≤ T.length →
      selectRows (columnsOf order T) order i m (List.range' k n)
        (columnsOf order ((T.take k).filter (fun t => decide (t.getD i 0 = m)))) =
        Except.ok (columnsOf order ((T.take (k + n)).filter
          (fun t => decide (t.getD i 0 = m)))) := by
  intro n
  induction n with
  | zero =>
    intro k hk
    rw [List.range'_zero, selectRows]
    rfl
  | succ n ih =>
    intro k hk
    have hkT : k < T.length := by omega
    have hcol : (T.map (fun t => t.getD i 0))[k]? = some ((T[k]).getD i 0) := by
      simp [List.getElem?_eq_getElem hkT]
    have htake : T.take (k + 1) = T.take k ++ [T[k]] := by
      rw [List.take_succ, List.getElem?_eq_getElem hkT]
      rfl
    have hkn : k + (n + 1) = k + 1 + n := by omega
    rw [List.range'_succ, selectRows, at?_eq_ok (getElem?_columnsOf order T i hi), hkn]
    simp only [bind, Except.bind]
    rw [at?_eq_ok hcol]
    simp only []
    by_cases hc : (T[k]).getD i 0 = m
    · rw [if_pos hc]
      have hpush := pushRow_eq order T ((T.take k).filter (fun t => decide (t.getD i 0 = m)))
        k hkT order 0 (by omega)
      rw [List.take_zero, List.nil_append, List.drop_zero, ← List.range_eq_range'] at hpush
      rw [hpush]
      simp only []
      have hf : (T.take (k + 1)).filter (fun t => decide (t.getD i 0 = m)) =
          (T.take k).filter (fun t => decide (t.getD i 0 = m)) ++ [T[k]] := by
        rw [htake, List.filter_append, List.filter_cons]
        simp only [hc, decide_True, decide_False, if_true, if_false, List.filter_nil,
          List.append_nil, Bool.false_eq_true]
      rw [← hf]
      exact ih (k + 1) (by omega)
    · rw [if_neg hc]
      have hf : (T.take (k + 1)).filter (fun t => decide (t.getD i 0 = m)) =
          (T.take k).filter (fun t => decide (t.getD i 0 = m)) := by
        rw [htake, List.filter_append, List.filter_cons]
        simp only [hc, decide_True, decide_False, if_true, if_false, List.filter_nil,
          List.append_nil, Bool.false_eq_true]
      rw [← hf]
      exact ih (k + 1) (by omega)

theorem exploreMax_ok_or_assert (coords : List (List Int)) (order i numCoords : Nat)
    (next : List (List Int) → Result Int) :
    ∀ (ms : List Int) (acc : Int),
      (∀ m ∈ ms, ∃ nc, selectRows coords order i m (List.range numCoords)
        (List.replicate order []) = Except.ok nc ∧
          ((∃ v, next nc = Except.ok v) ∨ next nc = Except.error PackError.assertion)) →
      (∃ r, exploreMax coords order i numCoords next ms acc = Except.ok r) ∨
        exploreMax coords order i numCoords next ms acc =
          Except.error PackError.assertion := by
  intro ms
  induction ms with
  | nil => intro acc _; exact Or.inl ⟨_, rfl⟩
  | cons m ms ih =>
    intro acc h
    obtain ⟨nc, h1, h2⟩ := h m (by simp)
    rw [exploreMax, h1]
    simp only [bind, Except.bind]
    rcases h2 with ⟨v, hv⟩ | hv
    · rw [hv]
      simp only []
      exact ih _ (fun m' hm' => h m' (List.mem_cons_of_mem _ hm'))
    · rw [hv]
      exact Or.inr rfl

theorem findMaxFixedValueAux_ok_or_assert (order f : Nat) (hf : f < order) :
    ∀ (fuel i N : Nat) (T : List (List Int)), i ≤ f → f - i ≤ fuel → 1 ≤ N → N ≤ T.length →
      (∀ k, k < order → ∀ x ∈ T.map (fun t => t.getD k 0), 0 ≤ x ∧ IsInt x) →
      (∃ r, findMaxFixedValueAux order f fuel (columnsOf order T) i N = Except.ok r) ∨
        findMaxFixedValueAux order f fuel (columnsOf order T) i N =
          Except.error PackError.assertion := by
  have hlevel : ∀ (fuel N : Nat) (T : List (List Int)),
      (∀ k, k < order → ∀ x ∈ T.map (fun t => t.getD k 0), 0 ≤ x ∧ IsInt x) →
      (∃ r, findMaxFixedValueAux order f fuel (columnsOf order T) f N = Except.ok r) ∨
        findMaxFixedValueAux order f fuel (columnsOf order T) f N =
          Except.error PackError.assertion := by
    intro fuel N T hnn
    unfold findMaxFixedValueAux
    rw [if_neg (by omega : ¬ f = order), if_pos rfl, at?_eq_ok (getElem?_columnsOf order T f hf)]
    simp only [bind, Except.bind]
    by_cases hs : (T.map (fun t => t.getD f 0)).Sorted (· ≤ ·)
    · rw [getUniqueEntries_of_sorted hs (hnn f hf)]
      exact Or.inl ⟨_, rfl⟩
    · rw [getUniqueEntries_of_not_sorted hs (hnn f hf)]
      exact Or.inr rfl
  intro fuel
  induction fuel with
  | zero =>
    intro i N T hi hfu _ _ hnn
    have hif : i = f := by omega
    rw [hif]
    exact hlevel 0 N T hnn
  | succ fuel ih =>
    intro i N T hi hfu hN hNT hnn
    by_cases hif : i = f
    · rw [hif]
      exact hlevel (fuel + 1) N T hnn
    · have hio : i < order := by omega
      have hcol := getElem?_columnsOf order T i hio
      unfold findMaxFixedValueAux
      rw [if_neg (by omega : ¬ i = order), if_neg hif]
      simp only []
      obtain ⟨t0, l, rfl⟩ := List.exists_cons_of_ne_nil
        (fun e : T = [] => by rw [e] at hNT; simp at hNT; omega)
      rw [at?_eq_ok hcol]
      simp only [bind, Except.bind]
      rw [at?_eq_ok (x := t0.getD i 0) (by simp)]
      simp only []
      rw [countRuns_eq _ _ 1 _ (by simp only [List.length_map]; omega)]
      simp only []
      have hdone : t0.getD i 0 :: ((List.map (fun t => t.getD i 0) (t0 :: l)).drop 1).take
          (N - 1) = ((t0 :: l).take N).map (fun t => t.getD i 0) := by
        obtain ⟨N', rfl⟩ : ∃ N', N = N' + 1 := ⟨N - 1, by omega⟩
        simp [List.map_take]
      have hcap := runs_capped (t0.getD i 0)
        (((List.map (fun t => t.getD i 0) (t0 :: l)).drop 1).take (N - 1))
      rw [hdone] at hcap
      generalize recordRun (List.foldl runStep
        { maxSize := 0, maxCoords := [], coordCur := t0.getD i 0, sizeCur := 1 }
        (((List.map (fun t => t.getD i 0) (t0 :: l)).drop 1).take (N - 1))) = s at hcap ⊢
      apply exploreMax_ok_or_assert
      intro m hm
      obtain ⟨hs1, hs2⟩ := hcap m hm
      have hsel := selectRows_take order i m (t0 :: l) hio N 0 (by omega)
      rw [List.take_zero, List.filter_nil, columnsOf_nil, ← List.range_eq_range',
        Nat.zero_add] at hsel
      refine ⟨_, hsel, ?_⟩
      rw [count_map_eq_length_filter (fun t => t.getD i 0) m ((t0 :: l).take N)] at hs2
      exact ih (i + 1) s.maxSize _ (by omega) (by omega) hs1 hs2
        (fun k hk x hx => by
          obtain ⟨t, ht, rfl⟩ := List.mem_map.1 hx
          exact hnn k hk _ (List.mem_map.2
            ⟨t, (List.take_sublist _ _).subset ((List.filter_sublist _).subset ht), rfl⟩))

theorem initIndices_error (dims : List Int) (format : List DimensionType)
    (coords : List (List Int)) (N : Nat) :
    ∀ (ts : List DimensionType) (k : Nat) (acc : Indices) (e : PackError), acc.length = k →
      format.drop k = ts →
      initIndices dims format coords N (List.range' k ts.length) acc = Except.error e →
      ∃ i, format[i]? = some DimensionType.Fixed ∧
        findMaxFixedValue dims coords format.length i 0 N = Except.error e := by
  intro ts
  induction ts with
  | nil =>
    intro k acc e _ _ h
    simp only [List.length_nil, List.range'_zero, initIndices, pure, Except.pure] at h
    cases h
  | cons t ts ih =>
    intro k acc e hacc hd h
    obtain ⟨hk, hd1⟩ := getElem?_of_drop_eq_cons hd
    rw [List.length_cons, List.range'_succ, initIndices, at?_eq_ok hk] at h
    simp only [bind, Except.bind] at h
    cases t with
    | Dense =>
      simp only [] at h
      exact ih (k + 1) (acc ++ [[]]) e (by simp [hacc]) hd1 h
    | Sparse =>
      simp only [] at h
      rw [← hacc, appendArray_push] at h
      simp only [] at h
      rw [hacc] at h
      exact ih (k + 1) (acc ++ [[[0], []]]) e (by simp [hacc]) hd1 h
    | Fixed =>
      simp only [] at h
      cases hf : findMaxFixedValue dims coords format.length k 0 N with
      | error err =>
        rw [hf] at h
        simp only [] at h
        injection h with h
        exact ⟨k, hk, by rw [← h]; exact hf⟩
      | ok r =>
        rw [hf] at h
        simp only [] at h
        rw [← hacc, appendArray_push] at h
        simp only [] at h
        rw [hacc] at h
        exact ih (k + 1) (acc ++ [[[toInt (toSizeT r)], []]]) e (by simp [hacc]) hd1 h

/-- C5 (the claim fails here): the all-Dense format accepts a coordinate list
that is not sorted: `pack` returns a Storage for the coordinates `1, 0` of a
vector of size 2 (and the entry out of order is dropped). -/
theorem pack_allDense_accepts_unsorted :
    ¬ (tuplesOf [[1, 0]] 2).Sorted (· ≤ ·) ∧
      pack [2] [DimensionType.Dense] [[1, 0]] ([5, 7] : List Int) =
        Except.ok { format := [DimensionType.Dense], index := [[[2]]], values := [0, 5] } := by
  decide

/-- C5 (amended): for every format of an order `n >= 1` whose levels are all
Sparse or Fixed (no Dense level), matching dimension sizes, and a list of fewer
than `2^31` entries with non-negative `int` coordinates (one sequence per
dimension, each as long as the value sequence) that is not lexicographically
sorted, `pack` fails with the internal assertion and returns no Storage. -/
theorem pack_noDense_rejects_unsorted {α : Type} [Zero α] (dims : List Int)
    (format : List DimensionType) (coords : List (List Int)) (vals : List α)
    (hn : 1 ≤ format.length)
    (hfmt : ∀ t ∈ format, t = DimensionType.Sparse ∨ t = DimensionType.Fixed)
    (hdims : dims.length = format.length) (hcoords : coords.length = format.length)
    (hcols : ∀ col ∈ coords, col.length = vals.length)
    (hnn : ∀ col ∈ coords, ∀ x ∈ col, 0 ≤ x ∧ IsInt x)
    (hsmall : vals.length < 2 ^ 31)
    (hunsorted : ¬ (tuplesOf coords vals.length).Sorted (· ≤ ·)) :
    pack dims format coords vals = Except.error PackError.assertion := by
  have hnodense : ∀ t ∈ format, t ≠ DimensionType.Dense := by
    intro t ht e
    rcases hfmt t ht with h | h <;> rw [e] at h <;> cases h
  have hN : 1 ≤ vals.length := by
    by_contra hc
    have h0 : vals.length = 0 := by omega
    rw [h0] at hunsorted
    exact hunsorted (by simp [tuplesOf])
  have hwf : RowsWf format.length (rowsOf coords vals 0 vals.length) := by
    intro r hr
    refine ⟨(length_of_mem_rowsOf coords vals 0 vals.length r hr).trans hcoords, ?_⟩
    unfold rowsOf at hr
    obtain ⟨p, hp, rfl⟩ := List.mem_map.1 hr
    have hp2 : p < vals.length := by
      have := (List.mem_range'_1.1 hp).2
      omega
    intro x hx
    obtain ⟨col, hcol, rfl⟩ := List.mem_map.1 hx
    have hpc : p < col.length := by rw [hcols col hcol]; exact hp2
    rw [List.getD_eq_getElem?_getD, List.getElem?_eq_getElem hpc]
    exact hnn col hcol _ (List.getElem_mem _)
  have hco : columnsOf format.length (tuplesOf coords vals.length) = coords := by
    rw [← hcoords]
    exact columnsOf_tuplesOf coords vals.length hcols
  have hnnT : ∀ k, k < format.length →
      ∀ x ∈ (tuplesOf coords vals.length).map (fun t => t.getD k 0), 0 ≤ x ∧ IsInt x := by
    intro k hk x hx
    have hcolk := getElem?_columnsOf format.length (tuplesOf coords vals.length) k hk
    rw [hco] at hcolk
    exact hnn _ (List.getElem?_mem hcolk) x hx
  cases hi : initIndices dims format coords vals.length (List.range format.length) [] with
  | error e =>
    have hi2 := hi
    rw [List.range_eq_range'] at hi2
    obtain ⟨i, hfi, hfe⟩ := initIndices_error dims format coords vals.length format 0 [] e rfl rfl
      hi2
    have hilt : i < format.length := (List.getElem?_eq_some_iff.1 hfi).1
    have hpre := findMaxFixedValueAux_ok_or_assert format.length i hilt (format.length - 0) 0
      vals.length (tuplesOf coords vals.length) (Nat.zero_le _) (by omega) hN
      (by rw [length_tuplesOf]) hnnT
    rw [hco] at hpre
    have hfe2 : findMaxFixedValueAux format.length i (format.length - 0) coords 0 vals.length =
        Except.error e := hfe
    rw [hfe2] at hpre
    have he : e = PackError.assertion := by
      rcases hpre with ⟨r, hr⟩ | hr
      · cases hr
      · injection hr
    unfold pack
    rw [if_pos hdims, hdims]
    dsimp only
    rw [hi, he]
    rfl
  | ok ind =>
    have hcaps := ((initIndices_eq dims format coords vals.length ind).1 hi).1
    rw [pack_eq dims format coords vals hdims (by omega)
      (fun col hc => by rw [hcols col hc]) hcaps]
    rcases packRows_noDense_sorted_or_assert dims
      (capsOf dims coords format.length vals.length) format hnodense format.length 0
      (rowsOf coords vals 0 vals.length) (by omega) (by omega) hwf
      (by rw [length_rowsOf]; omega) with ⟨d, _, hsd⟩ | hr
    · exfalso
      apply hunsorted
      rw [← map_fst_rowsOf coords vals vals.length]
      simpa using hsd
    · rw [hr]
      rfl

theorem pack_noDense_rejects_unsorted_witness :
    pack [2, 2] [DimensionType.Sparse, DimensionType.Fixed] [[0, 0], [1, 0]]
      ([5, 7] : List Int) = Except.error PackError.assertion :=
  pack_noDense_rejects_unsorted [2, 2] [DimensionType.Sparse, DimensionType.Fixed]
    [[0, 0], [1, 0]] ([5, 7] : List Int) (by decide) (by decide) (by decide) (by decide)
    (by decide) (by decide) (by decide) (by decide)

/-! ## A Dense level over sorted rows -/

theorem lt_head_of_mem_dropWhile {α : Type} (i : Nat) (j : Int) (rows : List (Row α))
    (hheads : (rows.map (headAt i)).Sorted (· ≤ ·)) (hge : ∀ r ∈ rows, j ≤ headAt i r)
    (ry : Row α) (hry : ry ∈ rows.dropWhile (fun r => decide (headAt i r = j))) :
    j < headAt i ry := by
  have hsub : (rows.dropWhile (fun r => decide (headAt i r = j))).Sublist rows :=
    List.dropWhile_sublist _
  cases hrem : rows.dropWhile (fun r => decide (headAt i r = j)) with
  | nil => rw [hrem] at hry; cases hry
  | cons c rem =>
    have hc : decide (headAt i c = j) = false := by
      have := List.head_dropWhile_not (fun r => decide (headAt i r = j)) rows
        (by rw [hrem]; simp)
      simpa [hrem] using this
    have hc' : headAt i c ≠ j := by simpa using hc
    have hcl : c ∈ rows := hsub.subset (by rw [hrem]; simp)
    have hrems : ((c :: rem).map (headAt i)).Sorted (· ≤ ·) := by
      rw [← hrem]
      exact hheads.sublist (hsub.map _)
    rw [hrem] at hry
    have hcy : headAt i c ≤ headAt i ry := by
      rcases List.mem_cons.1 hry with h | h
      · rw [h]
      · exact List.rel_of_sorted_cons hrems _ (List.mem_map.2 ⟨ry, h, rfl⟩)
    exact lt_of_lt_of_le (lt_of_le_of_ne (hge c hcl) (fun e => hc' e.symm)) hcy

theorem packSegs_dense_prefix {α : Type} (i k : Nat) (child : List (Row α) → Result (Delta α))
    (S : List (Row α) → Prop) (hsub : ∀ rows rows', rows'.Sublist rows → S rows → S rows')
    (hchild : ∀ seg j, S seg → (∀ r ∈ seg, headAt i r = j) →
      ∃ d, child seg = Except.ok d ∧ d.values = seg.map (fun r => r.2) ∧
        d.idx k = seg.map (headAt k) ∧ d.pos k = [seg.length]) :
    ∀ (len j0 : Nat) (rows : List (Row α)), S rows → (rows.map (headAt i)).Sorted (· ≤ ·) →
      (∀ r ∈ rows, (j0 : Int) ≤ headAt i r ∧ headAt i r < (j0 : Int) + len) →
      ∃ r, packSegs i child ((List.range' j0 len).map Int.ofNat) rows = Except.ok r ∧
        r.2.values = rows.map (fun r => r.2) ∧ r.2.idx k = rows.map (headAt k) ∧
        r.2.pos k = (List.range' j0 len).map
          (fun (j : Nat) => (rows.filter (fun r => decide (headAt i r ≤ (j : Int)))).length) := by
  intro len
  induction len with
  | zero =>
    intro j0 rows _ _ hr
    have : rows = [] := by
      cases rows with
      | nil => rfl
      | cons a l =>
        have := hr a (List.mem_cons_self _ _)
        omega
    subst this
    exact ⟨_, rfl, rfl, rfl, rfl⟩
  | succ len ih =>
    intro j0 rows hS hheads hr
    rw [List.range'_succ, List.map_cons, packSegs]
    have hj0 : Int.ofNat j0 = (j0 : Int) := rfl
    rw [hj0]
    have htd := List.takeWhile_append_dropWhile (fun r => decide (headAt i r = (j0 : Int))) rows
    have hseg : ∀ r ∈ rows.takeWhile (fun r => decide (headAt i r = (j0 : Int))),
        headAt i r = (j0 : Int) := by
      intro r hr
      simpa using List.mem_takeWhile_imp hr
    have hrem : ∀ r ∈ rows.dropWhile (fun r => decide (headAt i r = (j0 : Int))),
        (j0 : Int) < headAt i r := fun r hr' =>
      lt_head_of_mem_dropWhile i j0 rows hheads (fun r hr2 => (hr r hr2).1) r hr'
    obtain ⟨d, hd, hd1, hd2, hd3⟩ := hchild _ _ (hsub _ _ (List.takeWhile_sublist _) hS) hseg
    obtain ⟨r, hr0, hr1, hr2, hr3⟩ := ih (j0 + 1) _ (hsub _ _ (List.dropWhile_sublist _) hS)
      (hheads.sublist ((List.dropWhile_sublist _).map _))
      (fun r hr' => by
        have h1 := hrem r hr'
        have h2 := (hr r ((List.dropWhile_sublist _).subset hr')).2
        push_cast
        omega)
    rw [hd]
    simp only [bind, Except.bind]
    rw [hr0]
    refine ⟨_, rfl, ?_, ?_, ?_⟩
    · simp only [Delta.append, hd1, hr1, ← List.map_append, htd]
    · simp only [Delta.append, hd2, hr2, ← List.map_append, htd]
    · simp only [Delta.append, hd2, hd3, hr3, List.length_map, List.map_map, List.map_cons,
        List.singleton_append]
      have hf0 : ∀ (j : Nat), j0 ≤ j →
          (rows.filter (fun r => decide (headAt i r ≤ (j : Int)))).length =
          (rows.takeWhile (fun r => decide (headAt i r = (j0 : Int)))).length +
          ((rows.dropWhile (fun r => decide (headAt i r = (j0 : Int)))).filter
            (fun r => decide (headAt i r ≤ (j : Int)))).length := by
        intro j hj
        conv_lhs => rw [← htd]
        rw [List.filter_append, List.length_append]
        congr 1
        rw [List.filter_eq_self.2]
        intro r hr'
        have := hseg r hr'
        simp only [decide_eq_true_eq]
        omega
      congr 1
      · rw [hf0 j0 (le_refl _)]
        have : (rows.dropWhile (fun r => decide (headAt i r = (j0 : Int)))).filter
            (fun r => decide (headAt i r ≤ (j0 : Int))) = [] := by
          rw [List.filter_eq_nil_iff]
          intro r hr'
          have := hrem r hr'
          simp only [decide_eq_true_eq]
          omega
        rw [this]
        rfl
      · apply List.map_congr_left
        intro j hj
        have hj' := (List.mem_range'_1.1 hj).1
        simp only [Function.comp]
        rw [hf0 j (by omega)]

theorem packRows_sparse_leaf {α : Type} [Zero α] (dims : List Int) (caps : Nat → Int)
    (dimTypes : List DimensionType) (fuel i : Nat) (hl : i + 1 = dimTypes.length)
    (hdt : dimTypes[i]? = some DimensionType.Sparse) (rows : List (Row α))
    (hrows : RowsOk dimTypes.length i rows) (hst : (rows.map (fun r => r.1)).Sorted (· < ·)) :
    ∃ d, packRows dims caps dimTypes (fuel + 1) i rows = Except.ok d ∧
      d.values = rows.map (fun r => r.2) ∧ d.idx i = rows.map (headAt i) ∧
      d.pos i = [rows.length] := by
  have hi : i < dimTypes.length := by omega
  rw [packRows, at?_eq_ok hdt]
  simp only [bind, Except.bind]
  obtain ⟨hu1, hu2⟩ := getUniqueEntries_rows hrows hi
  rw [hu1]
  simp only []
  rw [hu2, ← destutter_ne_eq_dedup _ (hrows.heads hi).1]
  have hsub : ∀ rows rows' : List (Row α), rows'.Sublist rows →
      (RowsOk dimTypes.length i rows ∧ (rows.map (fun r => r.1)).Sorted (· < ·)) →
      (RowsOk dimTypes.length i rows' ∧ (rows'.map (fun r => r.1)).Sorted (· < ·)) :=
    fun rows rows' hs h => ⟨h.1.sublist hs, List.Pairwise.sublist (hs.map _) h.2⟩
  have hleaf : (i + 1 == dimTypes.length) = true := by simpa using hl
  simp only [hleaf, if_true]
  obtain ⟨r, hr, _, hQ1, hQ2, hQ3⟩ := packSegs_runs i
    (fun seg => (pure (Delta.leaf (leafValue seg)) : Result (Delta α)))
    (fun rows => RowsOk dimTypes.length i rows ∧ (rows.map (fun r => r.1)).Sorted (· < ·))
    hsub
    (fun seg d => d.values = seg.map (fun r => r.2) ∧ d.idx i = [] ∧ d.pos i = [])
    ⟨rfl, rfl, rfl⟩
    (fun s1 s2 d1 d2 h1 h2 => by
      simp only [Delta.append, h1.1, h2.1, h1.2.1, h2.2.1, h1.2.2, h2.2.2, List.map_append,
        List.append_nil, List.map_nil]
      exact ⟨trivial, trivial, trivial⟩)
    (fun seg j hS hne hj => by
      obtain ⟨a, rfl⟩ := strict_segment_singleton seg hS.1 hS.2 hl j hj hne
      exact ⟨_, rfl, rfl, rfl, rfl⟩)
    rows.length rows (le_refl _) ⟨hrows, hst⟩
  rw [hr]
  have hnd := strict_heads_nodup rows hrows hst hl
  refine ⟨_, rfl, ?_, ?_, ?_⟩
  · simp only [Delta.append, Delta.level, hQ1, List.nil_append]
  · simp only [Delta.append, Delta.level, hQ2, List.append_nil, if_true]
    rw [destutter_ne_eq_dedup _ (hrows.heads hi).1, hnd.dedup]
  · simp only [Delta.append, Delta.level, hQ3, List.map_nil, List.append_nil, if_true,
      List.length_map]
    rw [destutter_ne_eq_dedup _ (hrows.heads hi).1, hnd.dedup, List.length_map]

theorem length_filter_le_succ {β : Type} (g : β → Int) (l : List β) (r : Int) :
    (l.filter (fun t => decide (g t ≤ r + 1))).length =
      (l.filter (fun t => decide (g t ≤ r))).length +
        (l.filter (fun t => decide (g t = r + 1))).length := by
  induction l with
  | nil => rfl
  | cons t l ih =>
    simp only [List.filter_cons]
    by_cases h1 : g t ≤ r
    · have h2 : g t ≤ r + 1 := by omega
      have h3 : ¬ g t = r + 1 := by omega
      simp only [h1, h2, h3, decide_True, decide_False, if_true, List.length_cons, ih]
      simp
      omega
    · by_cases h3 : g t = r + 1
      · have h2 : g t ≤ r + 1 := by omega
        simp only [h1, h2, h3, decide_True, decide_False, if_true, List.length_cons, ih]
        simp
        omega
      · have h2 : ¬ g t ≤ r + 1 := by omega
        simp only [h1, h2, h3, decide_False]
        simpa using ih

/-! ## [Dense, Sparse] packing is compressed-row storage -/

theorem count_map_eq_length_filter_rows {β : Type} (g : β → Int) (m : Int) (l : List β) :
    (l.map g).count m = (l.filter (fun t => decide (g t = m))).length := by
  induction l with
  | nil => rfl
  | cons t l ih =>
    rw [List.map_cons, List.count_cons, ih, List.filter_cons]
    by_cases h : g t = m
    · simp [h]
    · simp [h]

theorem getD_cons_map_map_range' (f : Nat → Int) (c : Nat → Nat) (M q : Nat) (hq : q < M) :
    ([0] ++ ((List.range' 0 M).map c).map f).getD (q + 1) 0 = f (c q) := by
  rw [List.getD_eq_getElem?_getD, List.singleton_append, List.getElem?_cons_succ,
    List.getElem?_map, List.getElem?_map, List.getElem?_range' _ _ hq]
  simp only [Option.map_some', Option.getD_some, Nat.zero_add, Nat.one_mul]

theorem csr_pos_getD {β : Type} (g : β → Int) (rows : List β) (M : Nat)
    (hsmall : rows.length < 2 ^ 31) (q : Nat) (hq : q < M) :
    ([0] ++ ((List.range' 0 M).map (fun (j : Nat) =>
      (rows.filter (fun t => decide (g t ≤ (j : Int)))).length)).map
        (fun (c : Nat) => toInt ((0 + c : Nat) : Int))).getD (q + 1) 0 =
      ((rows.filter (fun t => decide (g t ≤ (q : Int)))).length : Int) := by
  have hle : (rows.filter (fun t => decide (g t ≤ (q : Int)))).length < 2 ^ 31 :=
    lt_of_le_of_lt (List.length_filter_le _ _) hsmall
  rw [getD_cons_map_map_range' _ _ M q hq]
  show toInt ((0 + (rows.filter (fun t => decide (g t ≤ (q : Int)))).length : Nat) : Int) = _
  rw [Nat.zero_add]
  exact toInt_natCast_of_lt hle

theorem csr_pos_diff {β : Type} (g : β → Int) (rows : List β) (M : Nat)
    (hg : ∀ t ∈ rows, 0 ≤ g t) (hsmall : rows.length < 2 ^ 31) (q : Nat) (hq : q < M) :
    ([0] ++ ((List.range' 0 M).map (fun (j : Nat) =>
      (rows.filter (fun t => decide (g t ≤ (j : Int)))).length)).map
        (fun (c : Nat) => toInt ((0 + c : Nat) : Int))).getD (q + 1) 0 -
    ([0] ++ ((List.range' 0 M).map (fun (j : Nat) =>
      (rows.filter (fun t => decide (g t ≤ (j : Int)))).length)).map
        (fun (c : Nat) => toInt ((0 + c : Nat) : Int))).getD q 0 =
      ((rows.map g).count (q : Int) : Int) := by
  rw [csr_pos_getD g rows M hsmall q hq, count_map_eq_length_filter_rows]
  cases q with
  | zero =>
    have h0 : rows.filter (fun t => decide (g t ≤ ((0 : Nat) : Int))) =
        rows.filter (fun t => decide (g t = ((0 : Nat) : Int))) := by
      apply List.filter_congr
      intro t ht
      have := hg t ht
      simp only [Nat.cast_zero, decide_eq_decide]
      omega
    rw [h0]
    simp
  | succ q =>
    rw [csr_pos_getD g rows M hsmall q (by omega)]
    have := length_filter_le_succ g rows (q : Int)
    push_cast
    rw [this]
    push_cast
    ring

/-- C10: for dims `[m, n]`, the format [Dense, Sparse] and a strictly
lexicographically sorted list of fewer than `2^31` entries with row coordinates
in `[0, m)` and non-negative column coordinates, `pack` returns a Storage whose
level-1 `pos` array has length `m + 1` and starts with 0, with `pos[r+1] - pos[r]`
the number of input entries in row `r` for every `r` in `[0, m)`, whose level-1
`idx` array is the input column-coordinate sequence, and whose value array is
the input value sequence. -/
theorem pack_dense_sparse_is_csr {α : Type} [Zero α] (m n : Int) (rowC colC : List Int)
    (vals : List α) (hm : IsInt m)
    (hrl : rowC.length = vals.length) (hcl : colC.length = vals.length)
    (hsmall : vals.length < 2 ^ 31)
    (hrow : ∀ x ∈ rowC, 0 ≤ x ∧ x < m) (hcol : ∀ x ∈ colC, 0 ≤ x ∧ IsInt x)
    (hst : (tuplesOf [rowC, colC] vals.length).Sorted (· < ·)) :
    ∃ (s : Storage α) (pos : List Int),
      pack [m, n] [DimensionType.Dense, DimensionType.Sparse] [rowC, colC] vals = Except.ok s ∧
      s.index[1]? = some [pos, colC] ∧ s.values = vals ∧
      pos.length = m.toNat + 1 ∧ pos[0]? = some 0 ∧
      ∀ r : Nat, (r : Int) < m → pos.getD (r + 1) 0 - pos.getD r 0 = rowC.count (r : Int) := by
  have hnofixed : ∀ i, [DimensionType.Dense, DimensionType.Sparse][i]? =
      some DimensionType.Fixed →
      ∃ r, findMaxFixedValue [m, n] [rowC, colC]
        [DimensionType.Dense, DimensionType.Sparse].length i 0 vals.length = Except.ok r ∧
        (fun _ : Nat => (0 : Int)) i = toInt (toSizeT r) := by
    intro i hi
    rcases i with _ | _ | i <;> simp at hi
  have hcols : ∀ col ∈ [rowC, colC], col.length = vals.length := by
    intro col hc
    simp only [List.mem_cons, List.mem_singleton, List.not_mem_nil, or_false] at hc
    rcases hc with rfl | rfl
    · exact hrl
    · exact hcl
  have hnn : ∀ col ∈ [rowC, colC], ∀ x ∈ col, 0 ≤ x ∧ IsInt x := by
    intro col hc x hx
    simp only [List.mem_cons, List.mem_singleton, List.not_mem_nil, or_false] at hc
    rcases hc with rfl | rfl
    · have := hrow x hx
      unfold IsInt at hm ⊢
      exact ⟨this.1, by omega, by omega⟩
    · exact hcol x hx
  have hrows := rowsOk_rowsOf [rowC, colC] vals 2 rfl hcols hnn (hst.imp (fun h => le_of_lt h))
  have hstr : ((rowsOf [rowC, colC] vals 0 vals.length).map (fun r => r.1)).Sorted (· < ·) := by
    rw [map_fst_rowsOf]; exact hst
  have hh0 : (rowsOf [rowC, colC] vals 0 vals.length).map (headAt 0) = rowC :=
    map_headAt_rowsOf_all [rowC, colC] vals 0 rowC rfl hrl
  have hh1 : (rowsOf [rowC, colC] vals 0 vals.length).map (headAt 1) = colC :=
    map_headAt_rowsOf_all [rowC, colC] vals 1 colC rfl hcl
  rw [pack_eq_of_caps [m, n] [DimensionType.Dense, DimensionType.Sparse] [rowC, colC] vals
    (fun _ => 0) rfl (le_refl _) (fun col hc => le_of_eq (hcols col hc).symm) hnofixed]
  generalize hrdef : rowsOf [rowC, colC] vals 0 vals.length = rows at hrows hstr hh0 hh1
  have hlenr : rows.length = vals.length := by rw [← hrdef, length_rowsOf]; omega
  have hsub : ∀ rows rows' : List (Row α), rows'.Sublist rows →
      (RowsOk 2 0 rows ∧ (rows.map (fun r => r.1)).Sorted (· < ·)) →
      (RowsOk 2 0 rows' ∧ (rows'.map (fun r => r.1)).Sorted (· < ·)) :=
    fun rows rows' hs h => ⟨h.1.sublist hs, List.Pairwise.sublist (hs.map _) h.2⟩
  obtain ⟨r, hr, hv, hidx, hpos⟩ := packSegs_dense_prefix 0 1
    (fun seg => packRows [m, n] (fun _ => 0) [DimensionType.Dense, DimensionType.Sparse] 1 1 seg)
    (fun rows => RowsOk 2 0 rows ∧ (rows.map (fun r => r.1)).Sorted (· < ·))
    hsub
    (fun seg j hS hj => packRows_sparse_leaf [m, n] (fun _ => 0)
      [DimensionType.Dense, DimensionType.Sparse] 0 1 rfl rfl seg
      (hS.1.succ (by decide) j hj) hS.2)
    m.toNat 0 rows ⟨hrows, hstr⟩ (hrows.heads (by decide)).1
    (fun row hrow' => by
      have hx : headAt 0 row ∈ rowC := by
        rw [← hh0]
        exact List.mem_map.2 ⟨row, hrow', rfl⟩
      have := hrow _ hx
      push_cast
      omega)
  have hpk : packRows [m, n] (fun _ => 0) [DimensionType.Dense, DimensionType.Sparse] 2 0 rows =
      Except.ok r.2 := by
    rw [packRows, at?_eq_ok (v := [DimensionType.Dense, DimensionType.Sparse]) (k := 0)
      (x := DimensionType.Dense) rfl]
    simp only [bind, Except.bind]
    rw [at?_eq_ok (v := [m, n]) (k := 0) (x := m) rfl]
    simp only []
    have hchild : (fun seg : List (Row α) =>
        if (0 + 1 == [DimensionType.Dense, DimensionType.Sparse].length) = true then
          (pure (Delta.leaf (leafValue seg)) : Result (Delta α))
        else packRows [m, n] (fun _ => 0) [DimensionType.Dense, DimensionType.Sparse] 1 (0 + 1)
          seg) = (fun seg =>
        packRows [m, n] (fun _ => 0) [DimensionType.Dense, DimensionType.Sparse] 1 1 seg) := by
      funext seg
      rfl
    rw [hchild, List.range_eq_range', hr]
    rfl
  have hlen2 : [DimensionType.Dense, DimensionType.Sparse].length = 2 := rfl
  rw [hlen2, hpk]
  refine ⟨_, [0] ++ (r.2.pos 1).map (fun (c : Nat) => toInt ((0 + c : Nat) : Int)), rfl, ?_, ?_,
    ?_, ?_, ?_⟩
  · rw [storageOf_index [m, n] [DimensionType.Dense, DimensionType.Sparse] _ r.2 1
      DimensionType.Sparse rfl]
    simp only []
    rw [hidx, hh1]
  · show r.2.values = vals
    rw [hv, ← hrdef, map_snd_rowsOf]
  · rw [hpos]
    simp
  · simp
  · intro q hq
    rw [hpos, ← hh0]
    exact csr_pos_diff (headAt 0) rows m.toNat
      (fun t ht => ((hrows.heads (by decide)).2 _ (List.mem_map.2 ⟨t, ht, rfl⟩)).1)
      (by omega) q (by omega)

theorem pack_dense_sparse_is_csr_witness :
    ∃ (s : Storage Int) (pos : List Int),
      pack [2, 4] [DimensionType.Dense, DimensionType.Sparse] [[0, 0, 0, 1], [0, 1, 2, 3]]
        [1, 2, 3, 4] = Except.ok s ∧
      s.index[1]? = some [pos, [0, 1, 2, 3]] ∧ s.values = [1, 2, 3, 4] ∧
      pos.length = (2 : Int).toNat + 1 ∧ pos[0]? = some 0 ∧
      ∀ r : Nat, (r : Int) < 2 →
        pos.getD (r + 1) 0 - pos.getD r 0 = ([0, 0, 0, 1] : List Int).count (r : Int) :=
  pack_dense_sparse_is_csr 2 4 [0, 0, 0, 1] [0, 1, 2, 3] ([1, 2, 3, 4] : List Int)
    (by decide) (by decide) (by decide) (by decide) (by decide) (by decide) (by decide)

/-! ## A Dense level packs one block per index value -/

theorem takeWhile_eq_filter_of_sorted {α : Type} (i : Nat) (j : Int) (rows : List (Row α))
    (hheads : (rows.map (headAt i)).Sorted (· ≤ ·)) (hge : ∀ r ∈ rows, j ≤ headAt i r) :
    rows.takeWhile (fun r => decide (headAt i r = j)) =
      rows.filter (fun r => decide (headAt i r = j)) := by
  have htd := List.takeWhile_append_dropWhile (fun r => decide (headAt i r = j)) rows
  conv_rhs => rw [← htd]
  rw [List.filter_append]
  have h1 : (rows.takeWhile (fun r => decide (headAt i r = j))).filter
      (fun r => decide (headAt i r = j)) = rows.takeWhile (fun r => decide (headAt i r = j)) := by
    rw [List.filter_eq_self]
    intro r hr
    exact List.mem_takeWhile_imp (p := fun r => decide (headAt i r = j)) hr
  have h2 : (rows.dropWhile (fun r => decide (headAt i r = j))).filter
      (fun r => decide (headAt i r = j)) = [] := by
    rw [List.filter_eq_nil_iff]
    intro r hr
    have := lt_head_of_mem_dropWhile i j rows hheads hge r hr
    simp only [decide_eq_true_eq]
    omega
  rw [h1, h2, List.append_nil]

theorem filter_dropWhile_of_lt {α : Type} (i : Nat) (j j2 : Int) (hj : j < j2)
    (rows : List (Row α)) :
    (rows.dropWhile (fun r => decide (headAt i r = j))).filter
        (fun r => decide (headAt i r = j2)) =
      rows.filter (fun r => decide (headAt i r = j2)) := by
  have htd := List.takeWhile_append_dropWhile (fun r => decide (headAt i r = j)) rows
  conv_rhs => rw [← htd]
  rw [List.filter_append]
  have h1 : (rows.takeWhile (fun r => decide (headAt i r = j))).filter
      (fun r => decide (headAt i r = j2)) = [] := by
    rw [List.filter_eq_nil_iff]
    intro r hr
    have : headAt i r = j := by simpa using List.mem_takeWhile_imp hr
    simp only [decide_eq_true_eq]
    omega
  rw [h1, List.nil_append]

theorem packSegs_dense_blocks {α : Type} (i : Nat) (child : List (Row α) → Result (Delta α))
    (S : List (Row α) → Prop) (hsub : ∀ rows rows', rows'.Sublist rows → S rows → S rows')
    (D : List (Row α) → Delta α)
    (hchild : ∀ seg j, S seg → (∀ r ∈ seg, headAt i r = j) → child seg = Except.ok (D seg)) :
    ∀ (len j0 : Nat) (rows : List (Row α)), S rows → (rows.map (headAt i)).Sorted (· ≤ ·) →
      (∀ r ∈ rows, (j0 : Int) ≤ headAt i r) →
      ∃ rest, packSegs i child ((List.range' j0 len).map Int.ofNat) rows =
        Except.ok (rest, ((List.range' j0 len).map (fun (j : Nat) =>
          D (rows.filter (fun r => decide (headAt i r = (j : Int)))))).foldr
            Delta.append Delta.empty) := by
  intro len
  induction len with
  | zero =>
    intro j0 rows _ _ _
    exact ⟨rows, rfl⟩
  | succ len ih =>
    intro j0 rows hS hheads hr
    rw [List.range'_succ, List.map_cons, packSegs]
    have hj0 : Int.ofNat j0 = (j0 : Int) := rfl
    rw [hj0]
    have hseg : ∀ r ∈ rows.takeWhile (fun r => decide (headAt i r = (j0 : Int))),
        headAt i r = (j0 : Int) := by
      intro r hr
      simpa using List.mem_takeWhile_imp hr
    have hrem : ∀ r ∈ rows.dropWhile (fun r => decide (headAt i r = (j0 : Int))),
        (j0 : Int) < headAt i r := fun r hr' =>
      lt_head_of_mem_dropWhile i j0 rows hheads hr r hr'
    rw [hchild _ _ (hsub _ _ (List.takeWhile_sublist _) hS) hseg]
    obtain ⟨rest, hr0⟩ := ih (j0 + 1) _ (hsub _ _ (List.dropWhile_sublist _) hS)
      (hheads.sublist ((List.dropWhile_sublist _).map _))
      (fun r hr' => by
        have h1 := hrem r hr'
        push_cast
        omega)
    simp only [bind, Except.bind]
    rw [hr0]
    refine ⟨rest, ?_⟩
    simp only [pure, Except.pure, List.map_cons, List.foldr_cons]
    rw [takeWhile_eq_filter_of_sorted i j0 rows hheads hr]
    have hmap : (List.range' (j0 + 1) len).map (fun (j : Nat) =>
        D ((rows.dropWhile (fun r => decide (headAt i r = (j0 : Int)))).filter
          (fun r => decide (headAt i r = (j : Int))))) =
        (List.range' (j0 + 1) len).map (fun (j : Nat) =>
          D (rows.filter (fun r => decide (headAt i r = (j : Int))))) := by
      apply List.map_congr_left
      intro j hj
      have hj' := (List.mem_range'_1.1 hj).1
      rw [filter_dropWhile_of_lt i j0 j (by omega) rows]
    rw [hmap]

theorem foldr_append_values {α : Type} (ds : List (Delta α)) :
    (ds.foldr Delta.append Delta.empty).values = ds.flatMap (fun d => d.values) := by
  induction ds with
  | nil => rfl
  | cons d ds ih =>
    rw [List.foldr_cons, List.flatMap_cons, ← ih]
    rfl

theorem foldr_append_idx {α : Type} (k : Nat) (ds : List (Delta α)) :
    (ds.foldr Delta.append Delta.empty).idx k = ds.flatMap (fun d => d.idx k) := by
  induction ds with
  | nil => rfl
  | cons d ds ih =>
    rw [List.foldr_cons, List.flatMap_cons, ← ih]
    rfl

theorem length_flatMap_uniform {β γ : Type} (l : List β) (f : β → List γ) (L : Nat)
    (h : ∀ x ∈ l, (f x).length = L) : (l.flatMap f).length = l.length * L := by
  induction l with
  | nil => simp
  | cons x l ih =>
    rw [List.flatMap_cons, List.length_append, h x (List.mem_cons_self _ _),
      ih (fun y hy => h y (List.mem_cons_of_mem _ hy)), List.length_cons]
    ring

theorem drop_flatMap_uniform {β γ : Type} (f : β → List γ) (L : Nat) :
    ∀ (l : List β) (q : Nat), (∀ x ∈ l, (f x).length = L) →
      (l.flatMap f).drop (q * L) = (l.drop q).flatMap f := by
  intro l
  induction l with
  | nil => intro q _; simp
  | cons x l ih =>
    intro q h
    cases q with
    | zero => simp
    | succ q =>
      rw [List.flatMap_cons, List.drop_succ_cons, ← ih q (fun y hy => h y (List.mem_cons_of_mem _ hy))]
      have hx := h x (List.mem_cons_self _ _)
      rw [show (q + 1) * L = (f x).length + q * L by rw [hx]; ring, List.drop_append]

theorem take_drop_flatMap_uniform {β γ : Type} (f : β → List γ) (L : Nat) (l : List β)
    (q : Nat) (h : ∀ x ∈ l, (f x).length = L) (x : β) (hx : l[q]? = some x) :
    ((l.flatMap f).drop (q * L)).take L = f x := by
  rw [drop_flatMap_uniform f L l q h]
  have hq : q < l.length := (List.getElem?_eq_some_iff.1 hx).1
  have hxe : l[q] = x := by
    rw [List.getElem?_eq_getElem hq] at hx
    exact Option.some.inj hx
  rw [List.drop_eq_getElem_cons hq, List.flatMap_cons, hxe]
  have hL := h x (List.mem_iff_getElem?.2 ⟨q, hx⟩)
  rw [← hL, List.take_left]

/-! ## All-Dense packing is the dense expansion -/

theorem flatMap_map_eq {β γ δ : Type} (l : List β) (f : β → γ) (g : γ → List δ) :
    (l.map f).flatMap g = l.flatMap (fun x => g (f x)) := by
  induction l with
  | nil => rfl
  | cons x l ih => rw [List.map_cons, List.flatMap_cons, List.flatMap_cons, ih]

theorem flatMap_congr_mem {β γ : Type} (l : List β) (f g : β → List γ)
    (h : ∀ x ∈ l, f x = g x) : l.flatMap f = l.flatMap g := by
  induction l with
  | nil => rfl
  | cons x l ih =>
    rw [List.flatMap_cons, List.flatMap_cons, h x (List.mem_cons_self _ _),
      ih (fun y hy => h y (List.mem_cons_of_mem _ hy))]

theorem packRows_allDense {α : Type} [Zero α] (dims : List Int) (caps : Nat → Int)
    (dimTypes : List DimensionType) (hall : ∀ t ∈ dimTypes, t = DimensionType.Dense)
    (hdims : dims.length = dimTypes.length) :
    ∀ (fuel i : Nat) (rows : List (Row α)), fuel = dimTypes.length - i → i < dimTypes.length →
      RowsOk dimTypes.length i rows →
      ∃ d, packRows dims caps dimTypes fuel i rows = Except.ok d ∧
        d.values = denseValues ((dims.drop i).map Int.toNat) i rows := by
  intro fuel
  induction fuel with
  | zero => intro i rows hf hi _; omega
  | succ fuel ih =>
    intro i rows hf hi hrows
    have hti : dimTypes[i] = DimensionType.Dense := hall _ (List.getElem_mem _)
    have hid : i < dims.length := by omega
    rw [packRows, at?_eq_ok (List.getElem?_eq_getElem hi), hti]
    simp only [bind, Except.bind]
    rw [at?_eq_ok (List.getElem?_eq_getElem hid)]
    simp only []
    generalize hchild_def : (fun seg : List (Row α) =>
      if (i + 1 == dimTypes.length) = true then
        (pure (Delta.leaf (leafValue seg)) : Result (Delta α))
      else packRows dims caps dimTypes fuel (i + 1) seg) = child
    have hchildex : ∀ seg j, RowsOk dimTypes.length i seg → (∀ r ∈ seg, headAt i r = j) →
        ∃ d, child seg = Except.ok d ∧
          d.values = denseValues ((dims.drop (i + 1)).map Int.toNat) (i + 1) seg := by
      intro seg j hseg hj
      rw [← hchild_def]
      by_cases hl : (i + 1 == dimTypes.length) = true
      · simp only [hl, if_true]
        have hl' : i + 1 = dimTypes.length := by simpa using hl
        refine ⟨_, rfl, ?_⟩
        rw [List.drop_of_length_le (by omega)]
        rfl
      · simp only [hl]
        have hl' : ¬ i + 1 = dimTypes.length := by simpa using hl
        exact ih (i + 1) seg (by omega) (by omega) (hseg.succ hi j hj)
    obtain ⟨D, hD⟩ : ∃ D : List (Row α) → Delta α, ∀ seg j, RowsOk dimTypes.length i seg →
        (∀ r ∈ seg, headAt i r = j) → child seg = Except.ok (D seg) ∧
          (D seg).values = denseValues ((dims.drop (i + 1)).map Int.toNat) (i + 1) seg := by
      refine ⟨fun seg => match child seg with
        | Except.ok d => d
        | Except.error _ => Delta.empty, ?_⟩
      intro seg j hseg hj
      obtain ⟨d, hd, hv⟩ := hchildex seg j hseg hj
      simp only [hd]
      exact ⟨trivial, hv⟩
    obtain ⟨rest, hp⟩ := packSegs_dense_blocks i child (RowsOk dimTypes.length i)
      (fun rows rows' hs h => h.sublist hs) D (fun seg j hS hj => (hD seg j hS hj).1)
      (dims[i]).toNat 0 rows hrows (hrows.heads hi).1
      (fun r hr => by
        have := ((hrows.heads hi).2 _ (List.mem_map.2 ⟨r, hr, rfl⟩)).1
        simpa using this)
    rw [List.range_eq_range', hp]
    refine ⟨_, rfl, ?_⟩
    simp only []
    rw [foldr_append_values, flatMap_map_eq, List.drop_eq_getElem_cons hid, List.map_cons]
    show _ = (List.range' 0 (dims[i]).toNat).flatMap _
    apply flatMap_congr_mem
    intro j _
    exact (hD _ (j : Int) (hrows.sublist (List.filter_sublist _))
      (fun r hr => by simpa using (List.mem_filter.1 hr).2)).2

theorem length_denseValues {α : Type} [Zero α] : ∀ (ds : List Nat) (i : Nat)
    (rows : List (Row α)), (denseValues ds i rows).length = ds.prod := by
  intro ds
  induction ds with
  | nil => intro i rows; rfl
  | cons d ds ih =>
    intro i rows
    rw [denseValues, length_flatMap_uniform _ _ ds.prod (fun j _ => ih _ _), List.length_range',
      List.prod_cons]

theorem foldl_rowMajor (l : List (Nat × Nat)) : ∀ acc : Nat,
    l.foldl (fun acc p => acc * p.1 + p.2) acc =
      acc * (l.map (fun p => p.1)).prod + l.foldl (fun acc p => acc * p.1 + p.2) 0 := by
  induction l with
  | nil => intro acc; simp
  | cons p l ih =>
    intro acc
    rw [List.foldl_cons, List.foldl_cons, ih (acc * p.1 + p.2), ih (0 * p.1 + p.2),
      List.map_cons, List.prod_cons]
    ring

theorem rowMajor_cons (d x : Nat) (ds t : List Nat) (h : t.length = ds.length) :
    rowMajor (d :: ds) (x :: t) = x * ds.prod + rowMajor ds t := by
  unfold rowMajor
  rw [List.zip_cons_cons, List.foldl_cons, foldl_rowMajor]
  have : (ds.zip t).map (fun p => p.1) = ds := by
    rw [← List.unzip_fst, List.unzip_zip_left (by omega)]
  rw [this]
  ring

theorem rowMajor_lt : ∀ (ds t : List Nat), List.Forall₂ (fun (x d : Nat) => x < d) t ds →
    rowMajor ds t < ds.prod := by
  intro ds
  induction ds with
  | nil =>
    intro t h
    cases h
    simp [rowMajor]
  | cons d ds ih =>
    intro t h
    cases h with
    | cons hx ht =>
      rename_i x t
      rw [rowMajor_cons d x ds t ht.length_eq, List.prod_cons]
      have := ih t ht
      calc x * ds.prod + rowMajor ds t < x * ds.prod + ds.prod := by omega
        _ = (x + 1) * ds.prod := by ring
        _ ≤ d * ds.prod := Nat.mul_le_mul_right _ hx

theorem getElem?_denseValues {α : Type} [Zero α] : ∀ (ds t : List Nat) (i : Nat)
    (rows : List (Row α)), List.Forall₂ (fun (x d : Nat) => x < d) t ds →
      (denseValues ds i rows)[rowMajor ds t]? =
        some (leafValue (rows.filter (fun r => matchFrom i t r))) := by
  intro ds
  induction ds with
  | nil =>
    intro t i rows h
    cases h
    have : rows.filter (fun r => matchFrom i [] r) = rows := by
      rw [List.filter_eq_self]
      intro r _
      rfl
    rw [this]
    rfl
  | cons d ds ih =>
    intro t i rows h
    cases h with
    | cons hx ht =>
      rename_i x t
      have hlt := rowMajor_lt ds t ht
      rw [rowMajor_cons d x ds t ht.length_eq, denseValues]
      have hblock := take_drop_flatMap_uniform (fun (j : Nat) =>
        denseValues ds (i + 1) (rows.filter (fun r => decide (headAt i r = (j : Int)))))
        ds.prod (List.range' 0 d) x (fun j _ => length_denseValues ds _ _) x
        (by rw [List.getElem?_range' _ _ hx]; simp)
      have h1 : ((List.range' 0 d).flatMap (fun (j : Nat) =>
          denseValues ds (i + 1) (rows.filter (fun r => decide (headAt i r = (j : Int))))))[
          x * ds.prod + rowMajor ds t]? =
          ((((List.range' 0 d).flatMap (fun (j : Nat) =>
          denseValues ds (i + 1) (rows.filter (fun r => decide (headAt i r = (j : Int)))))).drop
            (x * ds.prod)).take ds.prod)[rowMajor ds t]? := by
        rw [List.getElem?_take_of_lt hlt, List.getElem?_drop]
      rw [h1, hblock, ih t (i + 1) _ ht, List.filter_filter]
      congr 2
      apply List.filter_congr
      intro r _
      simp only [matchFrom, Bool.and_comm]

theorem leafValue_filter {α : Type} [Zero α] (p : Row α → Bool) (l : List (Row α)) :
    leafValue (l.filter p) =
      (match l.find? p with
        | some r => r.2
        | none => 0) := by
  induction l with
  | nil => rfl
  | cons a l ih =>
    by_cases h : p a = true
    · rw [List.filter_cons_of_pos h, List.find?_cons_of_pos _ h]
      rfl
    · rw [List.filter_cons_of_neg h, List.find?_cons_of_neg _ h]
      exact ih

theorem find?_congr_mem {β : Type} (p q : β → Bool) (l : List β) (h : ∀ x ∈ l, p x = q x) :
    l.find? p = l.find? q := by
  induction l with
  | nil => rfl
  | cons a l ih =>
    have ha := h a (List.mem_cons_self _ _)
    have hl := ih (fun x hx => h x (List.mem_cons_of_mem _ hx))
    by_cases hp : p a = true
    · rw [List.find?_cons_of_pos _ hp, List.find?_cons_of_pos _ (by rw [← ha]; exact hp)]
    · rw [List.find?_cons_of_neg _ hp, List.find?_cons_of_neg _ (by rw [← ha]; exact hp), hl]

theorem matchFrom_iff {α : Type} : ∀ (t : List Nat) (i : Nat) (r : Row α),
    r.1.length = i + t.length →
      (matchFrom i t r = true ↔ r.1.drop i = t.map (fun (x : Nat) => (x : Int))) := by
  intro t
  induction t with
  | nil =>
    intro i r h
    simp only [matchFrom, List.map_nil, true_iff]
    exact List.drop_of_length_le (by simp at h; omega)
  | cons x t ih =>
    intro i r h
    simp only [List.length_cons] at h
    rw [matchFrom, Bool.and_eq_true, decide_eq_true_eq, ih (i + 1) r (by omega),
      drop_eq_getD_cons r.1 i (by omega), List.map_cons, List.cons.injEq]
    rfl

theorem prod_toNat (dims : List Int) (hd : ∀ d ∈ dims, 0 ≤ d) :
    (((dims.map Int.toNat).prod : Nat) : Int) = dims.prod := by
  induction dims with
  | nil => rfl
  | cons d dims ih =>
    rw [List.map_cons, List.prod_cons, List.prod_cons, Nat.cast_mul,
      ih (fun x hx => hd x (List.mem_cons_of_mem _ hx)),
      Int.toNat_of_nonneg (hd d (List.mem_cons_self _ _))]

/-- C1: for the all-Dense format of an order `n >= 1`, non-negative dimension
sizes `d` and a strictly lexicographically sorted list of non-negative `int`
coordinates (in particular coordinates in `[0, d_k)`), the value array `pack`
returns has length `d_0 * ... * d_(n-1)`, and for every tuple `t` with
`0 <= t_k < d_k` its entry at the row-major position of `t` is the input value
stored at `t` if `t` occurs in the coordinate list and 0 otherwise. -/
theorem pack_allDense_is_row_major {α : Type} [Zero α] (dims : List Int)
    (format : List DimensionType) (coords : List (List Int)) (vals : List α)
    (hn : 1 ≤ format.length) (hfmt : ∀ t ∈ format, t = DimensionType.Dense)
    (hdims : dims.length = format.length) (hd : ∀ d ∈ dims, 0 ≤ d)
    (hcoords : coords.length = format.length)
    (hcols : ∀ col ∈ coords, col.length = vals.length)
    (hnn : ∀ col ∈ coords, ∀ x ∈ col, 0 ≤ x ∧ IsInt x)
    (hst : (tuplesOf coords vals.length).Sorted (· < ·)) :
    ∃ s : Storage α, pack dims format coords vals = Except.ok s ∧
      (s.values.length : Int) = dims.prod ∧
      ∀ t : List Nat, List.Forall₂ (fun (x : Nat) (d : Int) => (x : Int) < d) t dims →
        s.values[rowMajor (dims.map Int.toNat) t]? =
          some (valueAt (rowsOf coords vals 0 vals.length)
            (t.map (fun (x : Nat) => (x : Int)))) := by
  have hnofixed : ∀ i, format[i]? = some DimensionType.Fixed →
      ∃ r, findMaxFixedValue dims coords format.length i 0 vals.length = Except.ok r ∧
        (fun _ : Nat => (0 : Int)) i = toInt (toSizeT r) := by
    intro i hi
    have := hfmt _ (List.getElem?_mem hi)
    cases this
  have hrows := rowsOk_rowsOf coords vals format.length hcoords hcols hnn
    (hst.imp (fun h => le_of_lt h))
  obtain ⟨d, hd1, hd2⟩ := packRows_allDense dims (fun _ => 0) format hfmt hdims format.length 0
    (rowsOf coords vals 0 vals.length) (by omega) (by omega) hrows
  rw [pack_eq_of_caps dims format coords vals (fun _ => 0) hdims (by omega)
    (fun col hc => by rw [hcols col hc]) hnofixed, hd1]
  refine ⟨_, rfl, ?_, ?_⟩
  · show ((d.values.length : Nat) : Int) = dims.prod
    rw [hd2, length_denseValues, List.drop_zero, prod_toNat dims hd]
  · intro t ht
    show d.values[rowMajor (dims.map Int.toNat) t]? = _
    rw [hd2, List.drop_zero]
    have ht2 : List.Forall₂ (fun (x d : Nat) => x < d) t (dims.map Int.toNat) := by
      rw [List.forall₂_map_right_iff]
      refine ht.imp ?_
      intro x d hx
      omega
    rw [getElem?_denseValues _ t 0 _ ht2, leafValue_filter]
    unfold valueAt
    have hlen : t.length = format.length := by
      rw [← hdims]
      exact ht.length_eq
    rw [find?_congr_mem (fun r => matchFrom 0 t r)
      (fun r => decide (r.1 = t.map (fun (x : Nat) => (x : Int)))) _ (fun r hr => by
        have hr1 := (hrows.1 r hr).1
        have := matchFrom_iff t 0 r (by omega)
        rw [List.drop_zero] at this
        show matchFrom 0 t r = decide (r.1 = t.map (fun (x : Nat) => (x : Int)))
        by_cases hm : matchFrom 0 t r = true
        · rw [hm]
          exact (decide_eq_true (this.1 hm)).symm
        · have hm' : matchFrom 0 t r = false := by simpa using hm
          rw [hm']
          exact (decide_eq_false (fun e => hm (this.2 e))).symm)]

theorem pack_allDense_is_row_major_witness :
    ∃ s : Storage Int, pack [2, 2] [DimensionType.Dense, DimensionType.Dense] [[0, 1], [0, 1]]
        [5, 7] = Except.ok s ∧
      (s.values.length : Int) = ([2, 2] : List Int).prod ∧
      ∀ t : List Nat, List.Forall₂ (fun (x : Nat) (d : Int) => (x : Int) < d) t [2, 2] →
        s.values[rowMajor (([2, 2] : List Int).map Int.toNat) t]? =
          some (valueAt (rowsOf [[0, 1], [0, 1]] ([5, 7] : List Int) 0
            ([5, 7] : List Int).length) (t.map (fun (x : Nat) => (x : Int)))) :=
  pack_allDense_is_row_major [2, 2] [DimensionType.Dense, DimensionType.Dense]
    [[0, 1], [0, 1]] ([5, 7] : List Int) (by decide) (by decide) (by decide) (by decide)
    (by decide) (by decide) (by decide) (by decide)

/-! ## The capacity of the last level of strictly sorted entries -/

theorem foldl_max_const (c : Int) (hc : 0 ≤ c) : ∀ (ms : List Int), ms ≠ [] →
    ms.foldl (fun a _ => max a c) 0 = c := by
  intro ms hne
  rcases foldl_max_attained (fun _ => c) ms 0 with h | ⟨m, _, h⟩
  · obtain ⟨m0, hm0⟩ := List.exists_mem_of_ne_nil _ hne
    have := (foldl_max_ge (fun _ => c) ms 0).2 m0 hm0
    rw [h] at this ⊢
    have h2 : c ≤ 0 := this
    omega
  · exact h

theorem findMaxFixedValueAux_last_strict (order i : Nat) (ho : i + 2 = order)
    (fuel : Nat) (T : List (List Int)) (hne : T ≠ []) (hok : TuplesOk order i T)
    (hst : T.Sorted (· < ·)) (hlen : T.length < 2 ^ 31) :
    ∃ c : Nat, findMaxFixedValueAux order (i + 1) (fuel + 1) (columnsOf order T) i T.length =
        Except.ok (c : Int) ∧
      (∀ x, (T.map (fun t => t.getD i 0)).count x ≤ c) ∧
      ∃ x ∈ T.map (fun t => t.getD i 0), (T.map (fun t => t.getD i 0)).count x = c := by
  have hi : i < order := by omega
  obtain ⟨hsorted, hnn⟩ := hok.column hi
  have hcol := getElem?_columnsOf order T i hi
  unfold findMaxFixedValueAux
  rw [if_neg (by omega : ¬ i = order), if_neg (by omega : ¬ i = i + 1)]
  simp only []
  obtain ⟨t0, l, rfl⟩ := List.exists_cons_of_ne_nil hne
  rw [at?_eq_ok hcol]
  simp only [bind, Except.bind]
  rw [at?_eq_ok (x := t0.getD i 0) (by simp)]
  simp only []
  rw [countRuns_eq _ _ 1 _ (by simp only [List.length_map, List.length_cons]; omega)]
  simp only []
  have hrest : ((List.map (fun t => t.getD i 0) (t0 :: l)).drop 1).take
      ((t0 :: l).length - 1) = l.map (fun t => t.getD i 0) := by
    simp
  rw [hrest]
  obtain ⟨hdone, hmc, hms⟩ := runs_final (t0.getD i 0) (l.map (fun t => t.getD i 0))
    (by simpa using hsorted)
  generalize hs : recordRun (List.foldl runStep
    { maxSize := 0, maxCoords := [], coordCur := t0.getD i 0, sizeCur := 1 }
    (l.map (fun t => t.getD i 0))) = s at hdone hmc hms ⊢
  have hsub : ∀ m ∈ s.maxCoords,
      findMaxFixedValueAux order (i + 1) fuel
        (columnsOf order ((t0 :: l).filter (fun t => decide (t.getD i 0 = m))))
        (i + 1) s.maxSize = Except.ok ((s.maxSize : Nat) : Int) := by
    intro m hm
    obtain ⟨_, hcount⟩ := hdone.2.2.1 m hm
    have hlenm : ((t0 :: l).filter (fun t => decide (t.getD i 0 = m))).length =
        s.maxSize := by
      rw [← hcount]
      exact (count_map_eq_length_filter (fun t => t.getD i 0) m (t0 :: l)).symm
    have hokm := hok.filter hi m
    obtain ⟨hsm, hnm⟩ := hokm.column (by omega : i + 1 < order)
    have hstm : ((t0 :: l).filter (fun t => decide (t.getD i 0 = m))).Sorted (· < ·) :=
      List.Pairwise.sublist (List.filter_sublist _) hst
    have hnd : (((t0 :: l).filter (fun t => decide (t.getD i 0 = m))).map
        (fun t => t.getD (i + 1) 0)).Nodup := by
      have h3 : (((t0 :: l).filter (fun t => decide (t.getD i 0 = m))).map
          (fun t => t.getD (i + 1) 0)).Sorted (· < ·) := by
        unfold TuplesOk at hokm
        unfold List.Sorted at hstm ⊢
        rw [List.pairwise_map]
        refine hstm.imp_of_mem ?_
        intro a b ha hb hab
        exact lex_getD_lt (i + 1) a b (hokm.2.1 a ha b hb)
          (by rw [(hokm.1 a ha).1]; omega) (by rw [(hokm.1 b hb).1]; omega) hab
      exact h3.nodup
    unfold findMaxFixedValueAux
    rw [if_neg (by omega : ¬ i + 1 = order), if_pos rfl,
      at?_eq_ok (getElem?_columnsOf order _ (i + 1) (by omega))]
    simp only [bind, Except.bind]
    rw [getUniqueEntries_of_sorted hsm hnm]
    simp only [pure, Except.pure, List.length_map]
    rw [hnd.dedup, List.length_map, hlenm, toInt_natCast_of_lt]
    rw [← hlenm]
    exact lt_of_le_of_lt (List.filter_sublist _).length_le hlen
  have hex := exploreMax_eq (columnsOf order (t0 :: l)) order i (t0 :: l).length
    (fun newCoords => findMaxFixedValueAux order (i + 1) fuel newCoords (i + 1) s.maxSize)
    (fun _ => ((s.maxSize : Nat) : Int)) s.maxCoords 0
    (fun m hm => ⟨_, selectRows_filter order i m (t0 :: l) hi, hsub m hm⟩)
  rw [hex, foldl_max_const _ (by positivity) _ hmc]
  refine ⟨s.maxSize, rfl, ?_, ?_⟩
  · intro x
    by_cases hx : x ∈ (t0 :: l).map (fun t => t.getD i 0)
    · exact hdone.1 x (by simpa using hx)
    · rw [List.count_eq_zero.2 hx]
      exact Nat.zero_le _
  · obtain ⟨m0, hm0⟩ := List.exists_mem_of_ne_nil _ hmc
    obtain ⟨hmem, hcount⟩ := hdone.2.2.1 m0 hm0
    exact ⟨m0, by simpa using hmem, by simpa using hcount⟩

/-! ## A Fixed last level: the entries followed by the padding -/

theorem padRows_leaf {α : Type} [Zero α] (i : Nat) (u : List Nat) (s : Int) (last : Nat)
    (hlast : (if s > 0 then at? u (toSizeT (s - 1)) else pure 0) = Except.ok last) :
    ∀ (n : Nat), ∃ p, padRows i u s
        (fun seg => (pure (Delta.leaf (leafValue seg)) : Result (Delta α))) n = Except.ok p ∧
      p.idx i = List.replicate n (toInt (last : Int)) ∧
      p.values = List.replicate n (0 : α) ∧ p.pos i = [] := by
  intro n
  induction n with
  | zero => exact ⟨_, rfl, rfl, rfl, rfl⟩
  | succ n ih =>
    obtain ⟨p, hp, h1, h2, h3⟩ := ih
    rw [padRows]
    by_cases hs : s > 0
    · rw [if_pos hs] at hlast
      simp only [hs, if_true]
      rw [hlast]
      simp only [bind, Except.bind, pure, Except.pure]
      rw [show padRows i u s (fun seg => Except.ok (Delta.leaf (leafValue seg))) n =
        Except.ok p from hp]
      refine ⟨_, rfl, ?_, ?_, ?_⟩
      · simp only [Delta.append, Delta.level, Delta.leaf, h1, if_true, List.nil_append]
        rfl
      · simp only [Delta.append, Delta.level, Delta.leaf, h2, List.nil_append]
        rfl
      · simp only [Delta.append, Delta.level, Delta.leaf, h3, if_true, List.nil_append,
          List.map_nil]
    · rw [if_neg hs] at hlast
      have hl0 : last = 0 := by
        injection hlast with h
        exact h.symm
      subst hl0
      simp only [hs, if_false, bind, Except.bind, pure, Except.pure]
      rw [show padRows i u s (fun seg => Except.ok (Delta.leaf (leafValue seg))) n =
        Except.ok p from hp]
      refine ⟨_, rfl, ?_, ?_, ?_⟩
      · simp only [Delta.append, Delta.level, Delta.leaf, h1, if_true, List.nil_append]
        rfl
      · simp only [Delta.append, Delta.level, Delta.leaf, h2, List.nil_append]
        rfl
      · simp only [Delta.append, Delta.level, Delta.leaf, h3, if_true, List.nil_append,
          List.map_nil]

theorem packRows_fixed_leaf {α : Type} [Zero α] (dims : List Int) (caps : Nat → Int)
    (dimTypes : List DimensionType) (fuel i : Nat) (hl : i + 1 = dimTypes.length)
    (hdt : dimTypes[i]? = some DimensionType.Fixed) (rows : List (Row α))
    (hrows : RowsOk dimTypes.length i rows) (hst : (rows.map (fun r => r.1)).Sorted (· < ·))
    (hlen : rows.length < 2 ^ 31) (cap : Nat) (hcap : caps i = (cap : Int)) :
    ∃ d, packRows dims caps dimTypes (fuel + 1) i rows = Except.ok d ∧
      d.values = rows.map (fun r => r.2) ++ List.replicate (cap - rows.length) (0 : α) ∧
      d.idx i = rows.map (headAt i) ++
        List.replicate (cap - rows.length) ((rows.map (headAt i)).getLast?.getD 0) ∧
      d.pos i = [] := by
  have hi : i < dimTypes.length := by omega
  rw [packRows, at?_eq_ok hdt]
  simp only [bind, Except.bind]
  obtain ⟨hu1, hu2⟩ := getUniqueEntries_rows hrows hi
  have hnd := strict_heads_nodup rows hrows hst hl
  rw [hnd.dedup] at hu1 hu2
  rw [hu1]
  simp only []
  rw [hu2]
  have hleaf : (i + 1 == dimTypes.length) = true := by simpa using hl
  simp only [hleaf, if_true, List.length_map]
  rw [toInt_natCast_of_lt hlen, hcap]
  have hpadn : ((cap : Int) - (rows.length : Int)).toNat = cap - rows.length := by omega
  rw [hpadn]
  by_cases h0 : ((rows.length : Nat) : Int) > 0
  · have hpos : 0 < rows.length := by omega
    have hk : toSizeT (((rows.length : Nat) : Int) - 1) = rows.length - 1 := by
      unfold toSizeT
      omega
    have hklt : rows.length - 1 < ((rows.map (headAt i)).map Int.toNat).length := by
      simp only [List.length_map]
      omega
    obtain ⟨last, hlast⟩ : ∃ last, ((rows.map (headAt i)).map Int.toNat)[rows.length - 1]? =
        some last := ⟨_, List.getElem?_eq_getElem hklt⟩
    obtain ⟨p, hp, hp1, hp2, hp3⟩ := padRows_leaf (α := α) i ((rows.map (headAt i)).map Int.toNat)
      ((rows.length : Nat) : Int) last
      (by rw [if_pos h0, hk]; exact at?_eq_ok hlast) (cap - rows.length)
    have hlastv : toInt (last : Int) = (rows.map (headAt i)).getLast?.getD 0 := by
      have h1 : (((rows.map (headAt i)).map Int.toNat).map (fun (j : Nat) => toInt j))[
          rows.length - 1]? = some (toInt (last : Int)) := by
        rw [List.getElem?_map, hlast]
        rfl
      rw [hu2] at h1
      rw [List.getLast?_eq_getElem?, List.length_map, h1, Option.getD_some]
    simp only [h0, if_true]
    have hsub : ∀ rows rows' : List (Row α), rows'.Sublist rows →
        (RowsOk dimTypes.length i rows ∧ (rows.map (fun r => r.1)).Sorted (· < ·)) →
        (RowsOk dimTypes.length i rows' ∧ (rows'.map (fun r => r.1)).Sorted (· < ·)) :=
      fun rows rows' hs h => ⟨h.1.sublist hs, List.Pairwise.sublist (hs.map _) h.2⟩
    obtain ⟨r, hr, _, hQ1, hQ2, hQ3⟩ := packSegs_runs i
      (fun seg => (pure (Delta.leaf (leafValue seg)) : Result (Delta α)))
      (fun rows => RowsOk dimTypes.length i rows ∧ (rows.map (fun r => r.1)).Sorted (· < ·))
      hsub
      (fun seg d => d.values = seg.map (fun r => r.2) ∧ d.idx i = [] ∧ d.pos i = [])
      ⟨rfl, rfl, rfl⟩
      (fun s1 s2 d1 d2 h1 h2 => by
        simp only [Delta.append, h1.1, h2.1, h1.2.1, h2.2.1, h1.2.2, h2.2.2, List.map_append,
          List.append_nil, List.map_nil]
        exact ⟨trivial, trivial, trivial⟩)
      (fun seg j hS hne hj => by
        obtain ⟨a, rfl⟩ := strict_segment_singleton seg hS.1 hS.2 hl j hj hne
        exact ⟨_, rfl, rfl, rfl, rfl⟩)
      rows.length rows (le_refl _) ⟨hrows, hst⟩
    rw [destutter_ne_eq_dedup _ (hrows.heads hi).1, hnd.dedup] at hr
    rw [hr]
    simp only [pure, Except.pure]
    rw [show padRows i ((rows.map (headAt i)).map Int.toNat) ((rows.length : Nat) : Int)
      (fun seg => Except.ok (Delta.leaf (leafValue seg))) (cap - rows.length) = Except.ok p
      from hp]
    refine ⟨_, rfl, ?_, ?_, ?_⟩
    · simp only [Delta.append, Delta.level, hQ1, hp2, List.nil_append]
    · simp only [Delta.append, Delta.level, hQ2, hp1, hlastv, List.append_nil, if_true]
    · simp only [Delta.append, Delta.level, hQ3, hp3, List.map_nil, List.append_nil, if_true]
  · have hnil : rows = [] := List.length_eq_zero.1 (by omega)
    subst hnil
    obtain ⟨p, hp, hp1, hp2, hp3⟩ := padRows_leaf (α := α) i
      ((([] : List (Row α)).map (headAt i)).map Int.toNat)
      (((([] : List (Row α)).length : Nat) : Int)) 0
      (by rw [if_neg h0]; rfl) (cap - ([] : List (Row α)).length)
    simp only [h0, if_false, pure, Except.pure]
    rw [show padRows i ((([] : List (Row α)).map (headAt i)).map Int.toNat)
      (((([] : List (Row α)).length : Nat) : Int))
      (fun seg => Except.ok (Delta.leaf (leafValue seg))) (cap - ([] : List (Row α)).length) =
      Except.ok p from hp]
    refine ⟨_, rfl, ?_, ?_, ?_⟩
    · simp only [Delta.append, Delta.empty, hp2, List.nil_append, List.map_nil]
    · simp only [Delta.append, Delta.empty, hp1, List.nil_append, List.map_nil]
      rw [toInt_natCast_of_lt (n := 0) (by norm_num)]
      rfl
    · simp only [Delta.append, Delta.empty, hp3, List.nil_append, List.map_nil]

/-! ## [Dense, Fixed] packing is a padded row layout -/

theorem strict_heads_sorted {α : Type} {n i : Nat} (rows : List (Row α))
    (hok : RowsOk n i rows) (hst : (rows.map (fun r => r.1)).Sorted (· < ·)) (hi : i + 1 = n) :
    (rows.map (headAt i)).Sorted (· < ·) := by
  unfold RowsOk at hok
  unfold List.Sorted at hst ⊢
  rw [List.pairwise_map] at hst ⊢
  refine hst.imp_of_mem ?_
  intro a b ha hb hab
  exact lex_getD_lt i a.1 b.1 (hok.2.1 a ha b hb)
    (by rw [(hok.1 a ha).1]; omega) (by rw [(hok.1 b hb).1]; omega) hab

/-- C9: for a matrix with dimensions `[m, n]`, format [Dense, Fixed] and a
non-empty, strictly lexicographically sorted list of fewer than `2^31` entries
with row coordinates in `[0, m)` and non-negative column coordinates, `pack`
returns a Storage whose level-1 index is `[[c], idx]` where the capacity `c` is
the maximum number of entries in any row; `idx` and the value array both have
length `m * c`; and for every row `r` the slice `[r*c, r*c + c)` of `idx` is the
row's column coordinates, which are increasing, followed by copies of the row's
last column coordinate (of 0 when the row has no entries), and the same slice of
the value array is the row's input values followed by zeros. -/
theorem pack_dense_fixed_is_ell {α : Type} [Zero α] (m n : Int) (rowC colC : List Int)
    (vals : List α) (hm : IsInt m)
    (hrl : rowC.length = vals.length) (hcl : colC.length = vals.length)
    (hne : 0 < vals.length) (hsmall : vals.length < 2 ^ 31)
    (hrow : ∀ x ∈ rowC, 0 ≤ x ∧ x < m) (hcol : ∀ x ∈ colC, 0 ≤ x ∧ IsInt x)
    (hst : (tuplesOf [rowC, colC] vals.length).Sorted (· < ·)) :
    ∃ (s : Storage α) (c : Nat) (idx : List Int),
      pack [m, n] [DimensionType.Dense, DimensionType.Fixed] [rowC, colC] vals = Except.ok s ∧
      s.index[1]? = some [[(c : Int)], idx] ∧
      (∀ r : Int, rowC.count r ≤ c) ∧ (∃ r ∈ rowC, rowC.count r = c) ∧
      idx.length = m.toNat * c ∧ s.values.length = m.toNat * c ∧
      ∀ r : Nat, (r : Int) < m →
        (rowEntries (rowsOf [rowC, colC] vals 0 vals.length) r).length = rowC.count (r : Int) ∧
        ((rowEntries (rowsOf [rowC, colC] vals 0 vals.length) r).map (headAt 1)).Sorted
          (· < ·) ∧
        (idx.drop (r * c)).take c =
          (rowEntries (rowsOf [rowC, colC] vals 0 vals.length) r).map (headAt 1) ++
            List.replicate (c - rowC.count (r : Int))
              (((rowEntries (rowsOf [rowC, colC] vals 0 vals.length) r).map
                (headAt 1)).getLast?.getD 0) ∧
        (s.values.drop (r * c)).take c =
          (rowEntries (rowsOf [rowC, colC] vals 0 vals.length) r).map (fun e => e.2) ++
            List.replicate (c - rowC.count (r : Int)) (0 : α) := by
  have hcols : ∀ col ∈ [rowC, colC], col.length = vals.length := by
    intro col hc
    simp only [List.mem_cons, List.mem_singleton, List.not_mem_nil, or_false] at hc
    rcases hc with rfl | rfl
    · exact hrl
    · exact hcl
  have hnn : ∀ col ∈ [rowC, colC], ∀ x ∈ col, 0 ≤ x ∧ IsInt x := by
    intro col hc x hx
    simp only [List.mem_cons, List.mem_singleton, List.not_mem_nil, or_false] at hc
    rcases hc with rfl | rfl
    · have := hrow x hx
      unfold IsInt at hm ⊢
      exact ⟨this.1, by omega, by omega⟩
    · exact hcol x hx
  have hrows := rowsOk_rowsOf [rowC, colC] vals 2 rfl hcols hnn (hst.imp (fun h => le_of_lt h))
  have hstr : ((rowsOf [rowC, colC] vals 0 vals.length).map (fun r => r.1)).Sorted (· < ·) := by
    rw [map_fst_rowsOf]; exact hst
  have hh0 : (rowsOf [rowC, colC] vals 0 vals.length).map (headAt 0) = rowC :=
    map_headAt_rowsOf_all [rowC, colC] vals 0 rowC rfl hrl
  have hT0 : (tuplesOf [rowC, colC] vals.length).map (fun t => t.getD 0 0) = rowC := by
    rw [← map_fst_rowsOf [rowC, colC] vals vals.length, List.map_map]
    exact hh0
  have hTok : TuplesOk 2 0 (tuplesOf [rowC, colC] vals.length) :=
    tuplesOk_tuplesOf [rowC, colC] vals.length hcols hnn (hst.imp (fun h => le_of_lt h))
  have hTlen := length_tuplesOf [rowC, colC] vals.length
  have hTne : tuplesOf [rowC, colC] vals.length ≠ [] := by
    intro e
    rw [e] at hTlen
    simp only [List.length_nil] at hTlen
    omega
  obtain ⟨c, hc, hcmax, x0, hx0, hcatt⟩ := findMaxFixedValueAux_last_strict 2 0 rfl 1
    (tuplesOf [rowC, colC] vals.length) hTne hTok hst (by rw [hTlen]; exact hsmall)
  have hcolsOf : columnsOf 2 (tuplesOf [rowC, colC] vals.length) = [rowC, colC] :=
    columnsOf_tuplesOf [rowC, colC] vals.length hcols
  rw [hcolsOf, hTlen] at hc
  rw [hT0] at hcmax hx0 hcatt
  have hcle : c ≤ vals.length := by
    rw [← hcatt, ← hrl]
    exact List.count_le_length _ _
  have hfm : findMaxFixedValue [m, n] [rowC, colC] 2 1 0 vals.length = Except.ok (c : Int) := hc
  have hcapc : toInt ((toSizeT (c : Int) : Nat) : Int) = (c : Int) := by
    have h1 : toSizeT (c : Int) = c := by
      unfold toSizeT
      omega
    rw [h1]
    exact toInt_natCast_of_lt (by omega)
  have hcaps : ∀ i, [DimensionType.Dense, DimensionType.Fixed][i]? =
      some DimensionType.Fixed →
      ∃ r, findMaxFixedValue [m, n] [rowC, colC]
        [DimensionType.Dense, DimensionType.Fixed].length i 0 vals.length = Except.ok r ∧
        (fun _ : Nat => (c : Int)) i = toInt (toSizeT r) := by
    intro i hi
    rcases i with _ | _ | i
    · simp at hi
    · exact ⟨_, hfm, hcapc.symm⟩
    · simp at hi
  rw [pack_eq_of_caps [m, n] [DimensionType.Dense, DimensionType.Fixed] [rowC, colC] vals
    (fun _ => (c : Int)) rfl (le_refl _) (fun col hc => le_of_eq (hcols col hc).symm) hcaps]
  generalize hrdef : rowsOf [rowC, colC] vals 0 vals.length = rows at hrows hstr hh0
  have hlenr : rows.length = vals.length := by rw [← hrdef, length_rowsOf]; omega
  have hsub : ∀ rows rows' : List (Row α), rows'.Sublist rows →
      (RowsOk 2 0 rows ∧ (rows.map (fun r => r.1)).Sorted (· < ·) ∧ rows.length < 2 ^ 31) →
      (RowsOk 2 0 rows' ∧ (rows'.map (fun r => r.1)).Sorted (· < ·) ∧
        rows'.length < 2 ^ 31) :=
    fun rows rows' hs h => ⟨h.1.sublist hs, List.Pairwise.sublist (hs.map _) h.2.1,
      lt_of_le_of_lt hs.length_le h.2.2⟩
  have hchildex : ∀ seg (j : Int),
      (RowsOk 2 0 seg ∧ (seg.map (fun r => r.1)).Sorted (· < ·) ∧ seg.length < 2 ^ 31) →
      (∀ r ∈ seg, headAt 0 r = j) →
      ∃ d, packRows [m, n] (fun _ => (c : Int)) [DimensionType.Dense, DimensionType.Fixed] 1 1
          seg = Except.ok d ∧
        d.values = seg.map (fun r => r.2) ++ List.replicate (c - seg.length) (0 : α) ∧
        d.idx 1 = seg.map (headAt 1) ++
          List.replicate (c - seg.length) ((seg.map (headAt 1)).getLast?.getD 0) ∧
        d.pos 1 = [] :=
    fun seg j hS hj => packRows_fixed_leaf [m, n] (fun _ => (c : Int))
      [DimensionType.Dense, DimensionType.Fixed] 0 1 rfl rfl seg
      (hS.1.succ (by decide) j hj) hS.2.1 hS.2.2 c rfl
  obtain ⟨D, hD⟩ : ∃ D : List (Row α) → Delta α, ∀ seg (j : Int),
      (RowsOk 2 0 seg ∧ (seg.map (fun r => r.1)).Sorted (· < ·) ∧ seg.length < 2 ^ 31) →
      (∀ r ∈ seg, headAt 0 r = j) →
      packRows [m, n] (fun _ => (c : Int)) [DimensionType.Dense, DimensionType.Fixed] 1 1
          seg = Except.ok (D seg) ∧
        (D seg).values = seg.map (fun r => r.2) ++ List.replicate (c - seg.length) (0 : α) ∧
        (D seg).idx 1 = seg.map (headAt 1) ++
          List.replicate (c - seg.length) ((seg.map (headAt 1)).getLast?.getD 0) := by
    refine ⟨fun seg => match packRows [m, n] (fun _ => (c : Int))
        [DimensionType.Dense, DimensionType.Fixed] 1 1 seg with
      | Except.ok d => d
      | Except.error _ => Delta.empty, ?_⟩
    intro seg j hseg hj
    obtain ⟨d, hd, hv, hidx, _⟩ := hchildex seg j hseg hj
    simp only [hd]
    exact ⟨trivial, hv, hidx⟩
  have hS : RowsOk 2 0 rows ∧ (rows.map (fun r => r.1)).Sorted (· < ·) ∧
      rows.length < 2 ^ 31 := ⟨hrows, hstr, by omega⟩
  obtain ⟨rest, hp⟩ := packSegs_dense_blocks 0
    (fun seg => packRows [m, n] (fun _ => (c : Int))
      [DimensionType.Dense, DimensionType.Fixed] 1 1 seg)
    (fun rows => RowsOk 2 0 rows ∧ (rows.map (fun r => r.1)).Sorted (· < ·) ∧
      rows.length < 2 ^ 31)
    hsub D (fun seg j hS hj => (hD seg j hS hj).1)
    m.toNat 0 rows hS (hrows.heads (by decide)).1
    (fun r hr => by
      have := ((hrows.heads (by decide)).2 _ (List.mem_map.2 ⟨r, hr, rfl⟩)).1
      simpa using this)
  have hpk : packRows [m, n] (fun _ => (c : Int)) [DimensionType.Dense, DimensionType.Fixed] 2 0
      rows = Except.ok
        (((List.range' 0 m.toNat).map (fun (j : Nat) =>
          D (rows.filter (fun r => decide (headAt 0 r = (j : Int)))))).foldr
            Delta.append Delta.empty) := by
    rw [packRows, at?_eq_ok (v := [DimensionType.Dense, DimensionType.Fixed]) (k := 0)
      (x := DimensionType.Dense) rfl]
    simp only [bind, Except.bind]
    rw [at?_eq_ok (v := [m, n]) (k := 0) (x := m) rfl]
    simp only []
    have hchild : (fun seg : List (Row α) =>
        if (0 + 1 == [DimensionType.Dense, DimensionType.Fixed].length) = true then
          (pure (Delta.leaf (leafValue seg)) : Result (Delta α))
        else packRows [m, n] (fun _ => (c : Int)) [DimensionType.Dense, DimensionType.Fixed] 1
          (0 + 1) seg) = (fun seg =>
        packRows [m, n] (fun _ => (c : Int)) [DimensionType.Dense, DimensionType.Fixed] 1 1
          seg) := by
      funext seg
      rfl
    rw [hchild, List.range_eq_range', hp]
    rfl
  have hlen2 : [DimensionType.Dense, DimensionType.Fixed].length = 2 := rfl
  rw [hlen2, hpk]
  have hblock : ∀ j : Nat,
      (rows.filter (fun r => decide (headAt 0 r = (j : Int)))).length = rowC.count (j : Int) := by
    intro j
    rw [← hh0]
    exact (count_map_eq_length_filter_rows (headAt 0) (j : Int) rows).symm
  have hDj : ∀ j : Nat,
      (D (rows.filter (fun r => decide (headAt 0 r = (j : Int))))).values =
        (rows.filter (fun r => decide (headAt 0 r = (j : Int)))).map (fun r => r.2) ++
          List.replicate (c - rowC.count (j : Int)) (0 : α) ∧
      (D (rows.filter (fun r => decide (headAt 0 r = (j : Int))))).idx 1 =
        (rows.filter (fun r => decide (headAt 0 r = (j : Int)))).map (headAt 1) ++
          List.replicate (c - rowC.count (j : Int))
            (((rows.filter (fun r => decide (headAt 0 r = (j : Int)))).map
              (headAt 1)).getLast?.getD 0) := by
    intro j
    have := (hD (rows.filter (fun r => decide (headAt 0 r = (j : Int)))) (j : Int)
      (hsub _ _ (List.filter_sublist _) hS)
      (fun r hr => by simpa using (List.mem_filter.1 hr).2)).2
    rw [hblock j] at this
    exact this
  have hidx : ∀ d : Delta α, d = ((List.range' 0 m.toNat).map (fun (j : Nat) =>
      D (rows.filter (fun r => decide (headAt 0 r = (j : Int)))))).foldr
        Delta.append Delta.empty →
      d.idx 1 = (List.range' 0 m.toNat).flatMap (fun (j : Nat) =>
        (D (rows.filter (fun r => decide (headAt 0 r = (j : Int))))).idx 1) ∧
      d.values = (List.range' 0 m.toNat).flatMap (fun (j : Nat) =>
        (D (rows.filter (fun r => decide (headAt 0 r = (j : Int))))).values) := by
    intro d hd
    subst hd
    rw [foldr_append_idx, foldr_append_values, flatMap_map_eq, flatMap_map_eq]
    exact ⟨rfl, rfl⟩
  generalize hddef : ((List.range' 0 m.toNat).map (fun (j : Nat) =>
      D (rows.filter (fun r => decide (headAt 0 r = (j : Int)))))).foldr
        Delta.append Delta.empty = d at hpk
  obtain ⟨hdi, hdv⟩ := hidx d hddef.symm
  have hli : ∀ j ∈ List.range' 0 m.toNat,
      ((D (rows.filter (fun r => decide (headAt 0 r = ((j : Nat) : Int))))).idx 1).length =
        c := by
    intro j _
    rw [(hDj j).2, List.length_append, List.length_map, List.length_replicate, hblock j]
    have := hcmax (j : Int)
    omega
  have hlv : ∀ j ∈ List.range' 0 m.toNat,
      ((D (rows.filter (fun r => decide (headAt 0 r = ((j : Nat) : Int))))).values).length =
        c := by
    intro j _
    rw [(hDj j).1, List.length_append, List.length_map, List.length_replicate, hblock j]
    have := hcmax (j : Int)
    omega
  refine ⟨_, c, d.idx 1, rfl, ?_, hcmax, ⟨x0, hx0, hcatt⟩, ?_, ?_, ?_⟩
  · rw [storageOf_index [m, n] [DimensionType.Dense, DimensionType.Fixed] _ d 1
      DimensionType.Fixed rfl]
    simp only []
    rw [packRows_pos_nil _ _ _ _ _ _ d hpk 1 (by simp)]
    rfl
  · rw [hdi, length_flatMap_uniform _ _ c hli, List.length_range']
  · show d.values.length = _
    rw [hdv, length_flatMap_uniform _ _ c hlv, List.length_range']
  · intro q hq
    have hq' : (List.range' 0 m.toNat)[q]? = some q := by
      rw [List.getElem?_range' _ _ (by omega)]
      simp
    refine ⟨hblock q, ?_, ?_, ?_⟩
    · exact strict_heads_sorted _
        ((hrows.sublist (List.filter_sublist _)).succ (by decide) (q : Int)
          (fun r hr => by simpa using (List.mem_filter.1 hr).2))
        (List.Pairwise.sublist ((List.filter_sublist _).map _) hstr) rfl
    · rw [hdi, take_drop_flatMap_uniform _ c _ q hli q hq']
      exact (hDj q).2
    · show (d.values.drop (q * c)).take c = _
      rw [hdv, take_drop_flatMap_uniform _ c _ q hlv q hq']
      exact (hDj q).1

theorem pack_dense_fixed_is_ell_witness :
    ∃ (s : Storage Int) (c : Nat) (idx : List Int),
      pack [2, 4] [DimensionType.Dense, DimensionType.Fixed] [[0, 0, 0, 1], [0, 1, 2, 3]]
        [1, 2, 3, 4] = Except.ok s ∧
      s.index[1]? = some [[(c : Int)], idx] ∧
      (∀ r : Int, ([0, 0, 0, 1] : List Int).count r ≤ c) ∧
      (∃ r ∈ ([0, 0, 0, 1] : List Int), ([0, 0, 0, 1] : List Int).count r = c) ∧
      idx.length = (2 : Int).toNat * c ∧ s.values.length = (2 : Int).toNat * c ∧
      ∀ r : Nat, (r : Int) < 2 →
        (rowEntries (rowsOf [[0, 0, 0, 1], [0, 1, 2, 3]] ([1, 2, 3, 4] : List Int) 0
          ([1, 2, 3, 4] : List Int).length) r).length =
            ([0, 0, 0, 1] : List Int).count (r : Int) ∧
        ((rowEntries (rowsOf [[0, 0, 0, 1], [0, 1, 2, 3]] ([1, 2, 3, 4] : List Int) 0
          ([1, 2, 3, 4] : List Int).length) r).map (headAt 1)).Sorted (· < ·) ∧
        (idx.drop (r * c)).take c =
          (rowEntries (rowsOf [[0, 0, 0, 1], [0, 1, 2, 3]] ([1, 2, 3, 4] : List Int) 0
            ([1, 2, 3, 4] : List Int).length) r).map (headAt 1) ++
            List.replicate (c - ([0, 0, 0, 1] : List Int).count (r : Int))
              (((rowEntries (rowsOf [[0, 0, 0, 1], [0, 1, 2, 3]] ([1, 2, 3, 4] : List Int) 0
                ([1, 2, 3, 4] : List Int).length) r).map (headAt 1)).getLast?.getD 0) ∧
        (s.values.drop (r * c)).take c =
          (rowEntries (rowsOf [[0, 0, 0, 1], [0, 1, 2, 3]] ([1, 2, 3, 4] : List Int) 0
            ([1, 2, 3, 4] : List Int).length) r).map (fun e => e.2) ++
            List.replicate (c - ([0, 0, 0, 1] : List Int).count (r : Int)) (0 : Int) :=
  pack_dense_fixed_is_ell 2 4 [0, 0, 0, 1] [0, 1, 2, 3] ([1, 2, 3, 4] : List Int)
    (by decide) (by decide) (by decide) (by decide) (by decide) (by decide) (by decide)
    (by decide)

/-! ## Running sums and blocks of rows -/

theorem length_runningSums : ∀ (l : List Nat) (acc : Nat), (runningSums l acc).length = l.length := by
  intro l
  induction l with
  | nil => intro acc; rfl
  | cons c cs ih => intro acc; rw [runningSums, List.length_cons, ih, List.length_cons]

theorem runningSums_append : ∀ (a b : List Nat) (acc : Nat),
    runningSums (a ++ b) acc = runningSums a acc ++ runningSums b (acc + a.sum) := by
  intro a
  induction a with
  | nil => intro b acc; simp [runningSums]
  | cons c cs ih =>
    intro b acc
    rw [List.cons_append, runningSums, runningSums, ih, List.sum_cons, List.cons_append,
      Nat.add_assoc]

theorem runningSums_map_add : ∀ (l : List Nat) (a acc : Nat),
    (runningSums l acc).map (fun c => a + c) = runningSums l (a + acc) := by
  intro l
  induction l with
  | nil => intro a acc; rfl
  | cons c cs ih =>
    intro a acc
    rw [runningSums, runningSums, List.map_cons, ih, Nat.add_assoc]

theorem getD_runningSums : ∀ (l : List Nat) (acc j : Nat), j ≤ l.length →
    (acc :: runningSums l acc).getD j 0 = acc + (l.take j).sum := by
  intro l
  induction l with
  | nil =>
    intro acc j hj
    have : j = 0 := by simpa using hj
    subst this
    simp
  | cons c cs ih =>
    intro acc j hj
    cases j with
    | zero => simp
    | succ j =>
      rw [runningSums, List.getD_cons_succ, ih (acc + c) j (by simpa using hj), List.take_succ_cons,
        List.sum_cons, Nat.add_assoc]

theorem sorted_runningSums : ∀ (l : List Nat) (acc : Nat),
    (acc :: runningSums l acc).Sorted (· ≤ ·) ∧ ∀ x ∈ acc :: runningSums l acc, x ≤ acc + l.sum := by
  intro l
  induction l with
  | nil =>
    intro acc
    simp [runningSums]
  | cons c cs ih =>
    intro acc
    obtain ⟨h1, h2⟩ := ih (acc + c)
    rw [runningSums, List.sum_cons]
    constructor
    · exact List.Sorted.cons (by omega) h1
    · intro x hx
      rcases List.mem_cons.1 hx with e | e
      · rw [e]; omega
      · have := h2 x e
        omega

theorem getLast?_runningSums : ∀ (l : List Nat) (acc : Nat),
    (acc :: runningSums l acc).getLast? = some (acc + l.sum) := by
  intro l
  induction l with
  | nil => intro acc; simp [runningSums]
  | cons c cs ih =>
    intro acc
    rw [runningSums, List.getLast?_cons_cons, ih, List.sum_cons, Nat.add_assoc]

theorem drop_take_flatten {γ : Type} : ∀ (L : List (List γ)) (j : Nat) (x : List γ),
    L[j]? = some x →
    (L.flatten.drop ((L.take j).map List.length).sum).take x.length = x := by
  intro L
  induction L with
  | nil => intro j x h; simp at h
  | cons y L ih =>
    intro j x h
    cases j with
    | zero =>
      simp only [List.getElem?_cons_zero, Option.some.injEq] at h
      subst h
      simp
    | succ j =>
      rw [List.getElem?_cons_succ] at h
      rw [List.take_succ_cons, List.map_cons, List.sum_cons, List.flatten_cons,
        List.drop_append]
      exact ih j x h

theorem foldr_append_layout {α β : Type} (k : Nat) (D : β → Delta α)
    (sl : β → List (List Int)) :
    ∀ (l : List β), (∀ x ∈ l, (D x).idx k = (sl x).flatten ∧
        (D x).pos k = runningSums ((sl x).map List.length) 0) →
      ((l.map D).foldr Delta.append Delta.empty).idx k = (l.flatMap sl).flatten ∧
      ((l.map D).foldr Delta.append Delta.empty).pos k =
        runningSums ((l.flatMap sl).map List.length) 0 := by
  intro l
  induction l with
  | nil => intro _; exact ⟨rfl, rfl⟩
  | cons x l ih =>
    intro h
    obtain ⟨h1, h2⟩ := ih (fun y hy => h y (List.mem_cons_of_mem _ hy))
    obtain ⟨g1, g2⟩ := h x (List.mem_cons_self _ _)
    rw [List.map_cons, List.foldr_cons, List.flatMap_cons, List.flatten_append, List.map_append,
      runningSums_append]
    constructor
    · show (D x).idx k ++ _ = _
      rw [g1, h1]
    · show (D x).pos k ++ List.map (fun c => ((D x).idx k).length + c) _ = _
      rw [g2, h2, runningSums_map_add, g1, List.length_flatten, Nat.add_zero, Nat.zero_add]

theorem flatMap_filter_blocks {α : Type} (i : Nat) : ∀ (js : List Int) (rows : List (Row α)),
    js.Sorted (· < ·) → (rows.map (headAt i)).Sorted (· ≤ ·) →
    (∀ r ∈ rows, headAt i r ∈ js) →
    js.flatMap (fun j => rows.filter (fun r => decide (headAt i r = j))) = rows := by
  intro js
  induction js with
  | nil =>
    intro rows _ _ hmem
    cases rows with
    | nil => rfl
    | cons a l => exact absurd (hmem a (List.mem_cons_self _ _)) (List.not_mem_nil _)
  | cons j js ih =>
    intro rows hjs hheads hmem
    have hge : ∀ r ∈ rows, j ≤ headAt i r := by
      intro r hr
      rcases List.mem_cons.1 (hmem r hr) with e | e
      · rw [e]
      · exact le_of_lt (List.rel_of_sorted_cons hjs _ e)
    have hrem : ∀ r ∈ rows.dropWhile (fun r => decide (headAt i r = j)), headAt i r ∈ js := by
      intro r hr
      have hlt := lt_head_of_mem_dropWhile i j rows hheads hge r hr
      rcases List.mem_cons.1 (hmem r ((List.dropWhile_sublist _).subset hr)) with e | e
      · omega
      · exact e
    have hrest := ih (rows.dropWhile (fun r => decide (headAt i r = j))) hjs.of_cons
      (hheads.sublist ((List.dropWhile_sublist _).map _)) hrem
    rw [List.flatMap_cons, ← takeWhile_eq_filter_of_sorted i j rows hheads hge]
    have hcongr : js.flatMap (fun j2 => rows.filter (fun r => decide (headAt i r = j2))) =
        js.flatMap (fun j2 => (rows.dropWhile (fun r => decide (headAt i r = j))).filter
          (fun r => decide (headAt i r = j2))) := by
      apply flatMap_congr_mem
      intro j2 hj2
      rw [filter_dropWhile_of_lt i j j2 (List.rel_of_sorted_cons hjs _ hj2) rows]
    rw [hcongr, hrest]
    exact List.takeWhile_append_dropWhile _ _

theorem dedup_flatMap_of_pairwise_disjoint {β γ : Type} [DecidableEq γ] (f : β → List γ) :
    ∀ (l : List β), l.Pairwise (fun x y => List.Disjoint (f x) (f y)) →
      (l.flatMap f).dedup = l.flatMap (fun x => (f x).dedup) := by
  intro l
  induction l with
  | nil => intro _; rfl
  | cons x l ih =>
    intro h
    rw [List.pairwise_cons] at h
    rw [List.flatMap_cons, List.flatMap_cons, List.Disjoint.dedup_append, ih h.2]
    intro a ha hb
    obtain ⟨y, hy, hay⟩ := List.mem_flatMap.1 hb
    exact h.1 y hy ha hay

theorem packSegs_sorted_blocks {α : Type} (i : Nat) (child : List (Row α) → Result (Delta α))
    (S : List (Row α) → Prop) (hsub : ∀ rows rows', rows'.Sublist rows → S rows → S rows')
    (D : List (Row α) → Delta α)
    (hchild : ∀ seg j, S seg → seg ≠ [] → (∀ r ∈ seg, headAt i r = j) →
      child seg = Except.ok (D seg)) :
    ∀ (js : List Int) (rows : List (Row α)), js.Sorted (· < ·) → S rows →
      (rows.map (headAt i)).Sorted (· ≤ ·) → (∀ r ∈ rows, headAt i r ∈ js) →
      (∀ j ∈ js, ∃ r ∈ rows, headAt i r = j) →
      ∃ rest, packSegs i child js rows =
        Except.ok (rest, (js.map (fun j =>
          D (rows.filter (fun r => decide (headAt i r = j))))).foldr
            Delta.append Delta.empty) := by
  intro js
  induction js with
  | nil =>
    intro rows _ _ _ _ _
    exact ⟨rows, rfl⟩
  | cons j js ih =>
    intro rows hjs hS hheads hmem hex
    have hge : ∀ r ∈ rows, j ≤ headAt i r := by
      intro r hr
      rcases List.mem_cons.1 (hmem r hr) with e | e
      · rw [e]
      · exact le_of_lt (List.rel_of_sorted_cons hjs _ e)
    have hrem : ∀ r ∈ rows.dropWhile (fun r => decide (headAt i r = j)), headAt i r ∈ js := by
      intro r hr
      have hlt := lt_head_of_mem_dropWhile i j rows hheads hge r hr
      rcases List.mem_cons.1 (hmem r ((List.dropWhile_sublist _).subset hr)) with e | e
      · omega
      · exact e
    have htw := takeWhile_eq_filter_of_sorted i j rows hheads hge
    have hseg : ∀ r ∈ rows.takeWhile (fun r => decide (headAt i r = j)), headAt i r = j := by
      intro r hr
      simpa using List.mem_takeWhile_imp hr
    have hne : rows.takeWhile (fun r => decide (headAt i r = j)) ≠ [] := by
      obtain ⟨r, hr, hrj⟩ := hex j (List.mem_cons_self _ _)
      rw [htw]
      intro e
      have : r ∈ rows.filter (fun r => decide (headAt i r = j)) :=
        List.mem_filter.2 ⟨hr, by simpa using hrj⟩
      rw [e] at this
      cases this
    rw [packSegs, hchild _ j (hsub _ _ (List.takeWhile_sublist _) hS) hne hseg]
    obtain ⟨rest, hr0⟩ := ih (rows.dropWhile (fun r => decide (headAt i r = j))) hjs.of_cons
      (hsub _ _ (List.dropWhile_sublist _) hS)
      (hheads.sublist ((List.dropWhile_sublist _).map _)) hrem
      (fun j2 hj2 => by
        obtain ⟨r, hr, hrj⟩ := hex j2 (List.mem_cons_of_mem _ hj2)
        have hmf : r ∈ rows.filter (fun r => decide (headAt i r = j2)) :=
          List.mem_filter.2 ⟨hr, by simpa using hrj⟩
        rw [← filter_dropWhile_of_lt i j j2 (List.rel_of_sorted_cons hjs _ hj2) rows] at hmf
        exact ⟨r, (List.mem_filter.1 hmf).1, hrj⟩)
    simp only [bind, Except.bind]
    rw [hr0]
    refine ⟨rest, ?_⟩
    simp only [pure, Except.pure, List.map_cons, List.foldr_cons]
    rw [htw]
    have hmap : js.map (fun j2 =>
        D ((rows.dropWhile (fun r => decide (headAt i r = j))).filter
          (fun r => decide (headAt i r = j2)))) =
        js.map (fun j2 => D (rows.filter (fun r => decide (headAt i r = j2)))) := by
      apply List.map_congr_left
      intro j2 hj2
      rw [filter_dropWhile_of_lt i j j2 (List.rel_of_sorted_cons hjs _ hj2) rows]
    rw [hmap]

theorem packRows_pos_below {α : Type} [Zero α] (dims : List Int) (caps : Nat → Int)
    (dimTypes : List DimensionType) (k : Nat) (fuel i : Nat) (rows : List (Row α))
    (d : Delta α) (hk : k < i) (h : packRows dims caps dimTypes fuel i rows = Except.ok d) :
    d.pos k = [] := by
  refine packRows_induct_from dims caps dimTypes (fun d => d.pos k = []) rfl ?_ (fun _ => rfl)
    (k + 1) ?_ ?_ fuel i rows d hk h
  · intro a b ha hb
    simp only [Delta.append, ha, hb, List.append_nil, List.map_nil]
  · intro i n js hi
    simp only [Delta.level]
    rw [if_neg (by omega)]
  · intro i js hi
    simp only [Delta.level]
    rw [if_neg (by omega)]

/-! ## The segments of an all-Sparse packing -/

theorem dedup_of_const {γ : Type} [DecidableEq γ] (a : γ) : ∀ (l : List γ), l ≠ [] →
    (∀ x ∈ l, x = a) → l.dedup = [a] := by
  intro l
  induction l with
  | nil => intro h _; exact absurd rfl h
  | cons x l ih =>
    intro _ hall
    have hx : x = a := hall x (List.mem_cons_self _ _)
    cases l with
    | nil => rw [hx]; rfl
    | cons y l' =>
      have hy : y = a := hall y (List.mem_cons_of_mem _ (List.mem_cons_self _ _))
      rw [List.dedup_cons_of_mem (by rw [hx, hy]; exact List.mem_cons_self _ _)]
      exact ih (by simp) (fun z hz => hall z (List.mem_cons_of_mem _ hz))

theorem foldr_append_nil_at {α β : Type} (k : Nat) (D : β → Delta α) :
    ∀ (l : List β), (∀ x ∈ l, (D x).idx k = [] ∧ (D x).pos k = []) →
      ((l.map D).foldr Delta.append Delta.empty).idx k = [] ∧
      ((l.map D).foldr Delta.append Delta.empty).pos k = [] := by
  intro l
  induction l with
  | nil => intro _; exact ⟨rfl, rfl⟩
  | cons x l ih =>
    intro h
    obtain ⟨h1, h2⟩ := ih (fun y hy => h y (List.mem_cons_of_mem _ hy))
    obtain ⟨g1, g2⟩ := h x (List.mem_cons_self _ _)
    rw [List.map_cons, List.foldr_cons]
    constructor
    · show (D x).idx k ++ _ = _
      rw [g1, h1]
      rfl
    · show (D x).pos k ++ List.map (fun c => ((D x).idx k).length + c) _ = _
      rw [g2, h2]
      rfl

theorem length_foldr_append_pos {α β : Type} (k : Nat) (D : β → Delta α) :
    ∀ (l : List β), (((l.map D).foldr Delta.append Delta.empty).pos k).length =
      (l.flatMap (fun x => (D x).pos k)).length := by
  intro l
  induction l with
  | nil => rfl
  | cons x l ih =>
    rw [List.map_cons, List.foldr_cons, List.flatMap_cons, List.length_append, ← ih]
    show ((D x).pos k ++ List.map (fun c => ((D x).idx k).length + c) _).length = _
    rw [List.length_append, List.length_map]

theorem length_flatMap_le {β γ δ : Type} (f : β → List γ) (g : β → List δ) :
    ∀ (l : List β), (∀ x ∈ l, (f x).length ≤ (g x).length) →
      (l.flatMap f).length ≤ (l.flatMap g).length := by
  intro l
  induction l with
  | nil => intro _; exact le_refl _
  | cons x l ih =>
    intro h
    rw [List.flatMap_cons, List.flatMap_cons, List.length_append, List.length_append]
    have h1 := h x (List.mem_cons_self _ _)
    have h2 := ih (fun y hy => h y (List.mem_cons_of_mem _ hy))
    omega

theorem length_flatMap_eq {β γ δ : Type} (f : β → List γ) (g : β → List δ) :
    ∀ (l : List β), (∀ x ∈ l, (f x).length = (g x).length) →
      (l.flatMap f).length = (l.flatMap g).length := by
  intro l
  induction l with
  | nil => intro _; rfl
  | cons x l ih =>
    intro h
    rw [List.flatMap_cons, List.flatMap_cons, List.length_append, List.length_append,
      h x (List.mem_cons_self _ _), ih (fun y hy => h y (List.mem_cons_of_mem _ hy))]

theorem map_flatMap_eq {β γ δ : Type} (f : γ → δ) (g : β → List γ) : ∀ (l : List β),
    (l.flatMap g).map f = l.flatMap (fun x => (g x).map f) := by
  intro l
  induction l with
  | nil => rfl
  | cons x l ih => rw [List.flatMap_cons, List.flatMap_cons, List.map_append, ih]

theorem sorted_lt_dedup {l : List Int} (h : l.Sorted (· ≤ ·)) : l.dedup.Sorted (· < ·) := by
  have h2 : l.dedup.Sorted (· ≤ ·) := h.sublist (List.dedup_sublist l)
  exact h2.lt_of_le (List.nodup_dedup l)

theorem segmentAt_filter {α : Type} (i k : Nat) (hik : i < k) (rows : List (Row α)) (j : Int)
    (p : List Int)
    (hp : p ∈ prefixesOf k (rows.filter (fun r => decide (headAt i r = j)))) :
    segmentAt k (rows.filter (fun r => decide (headAt i r = j))) p = segmentAt k rows p := by
  unfold prefixesOf at hp
  obtain ⟨r0, hr0, hpe⟩ := List.mem_map.1 (List.mem_dedup.1 hp)
  have hj0 : headAt i r0 = j := by simpa using (List.mem_filter.1 hr0).2
  unfold segmentAt
  rw [List.filter_filter]
  congr 2
  apply List.filter_congr
  intro r _
  by_cases hr : r.1.take k = p
  · have hj : headAt i r = j := by
      unfold headAt at hj0 ⊢
      rw [← getD_take_of_lt r.1 i k hik, hr, ← hpe, getD_take_of_lt r0.1 i k hik, hj0]
    simp [hr, hj]
  · simp [hr]

theorem prefixesOf_blocks {α : Type} (n i k : Nat) (hi : i < n) (hik : i < k)
    (rows : List (Row α)) (hrows : RowsOk n i rows) :
    prefixesOf k rows = ((rows.map (headAt i)).dedup).flatMap
      (fun j => prefixesOf k (rows.filter (fun r => decide (headAt i r = j)))) := by
  have hheads := (hrows.heads hi).1
  have hb := flatMap_filter_blocks i ((rows.map (headAt i)).dedup) rows (sorted_lt_dedup hheads)
    hheads (fun r hr => List.mem_dedup.2 (List.mem_map.2 ⟨r, hr, rfl⟩))
  unfold prefixesOf
  conv_lhs => rw [← hb]
  rw [map_flatMap_eq]
  apply dedup_flatMap_of_pairwise_disjoint
  have hnd : ((rows.map (headAt i)).dedup).Pairwise (· ≠ ·) := List.nodup_dedup _
  refine hnd.imp ?_
  intro x y hxy p hp1 hp2
  obtain ⟨r1, hr1, h1⟩ := List.mem_map.1 hp1
  obtain ⟨r2, hr2, h2⟩ := List.mem_map.1 hp2
  have hx : headAt i r1 = x := by simpa using (List.mem_filter.1 hr1).2
  have hy : headAt i r2 = y := by simpa using (List.mem_filter.1 hr2).2
  apply hxy
  unfold headAt at hx hy
  rw [← hx, ← hy, ← getD_take_of_lt r1.1 i k hik, ← getD_take_of_lt r2.1 i k hik, h1, h2]

theorem segments_blocks {α : Type} (n i k : Nat) (hi : i < n) (hik : i < k)
    (rows : List (Row α)) (hrows : RowsOk n i rows) :
    ((rows.map (headAt i)).dedup).flatMap (fun j =>
        (prefixesOf k (rows.filter (fun r => decide (headAt i r = j)))).map
          (segmentAt k (rows.filter (fun r => decide (headAt i r = j))))) =
      (prefixesOf k rows).map (segmentAt k rows) := by
  rw [prefixesOf_blocks n i k hi hik rows hrows, map_flatMap_eq]
  apply flatMap_congr_mem
  intro j _
  apply List.map_congr_left
  intro p hp
  exact segmentAt_filter i k hik rows j p hp

theorem prefixesOf_of_common {α : Type} (n i : Nat) (rows : List (Row α))
    (hrows : RowsOk n i rows) (hne : rows ≠ []) :
    ∃ p0, prefixesOf i rows = [p0] ∧ segmentAt i rows p0 = (rows.map (headAt i)).dedup := by
  obtain ⟨a, l, rfl⟩ := List.exists_cons_of_ne_nil hne
  refine ⟨a.1.take i, ?_, ?_⟩
  · unfold prefixesOf
    apply dedup_of_const _ _ (by simp)
    intro x hx
    obtain ⟨r, hr, rfl⟩ := List.mem_map.1 hx
    exact hrows.2.1 r hr a (List.mem_cons_self _ _)
  · unfold segmentAt
    rw [List.filter_eq_self.2]
    intro r hr
    simpa using hrows.2.1 r hr a (List.mem_cons_self _ _)

theorem packRows_allSparse_layout {α : Type} [Zero α] (dims : List Int) (caps : Nat → Int)
    (dimTypes : List DimensionType) (hall : ∀ t ∈ dimTypes, t = DimensionType.Sparse) :
    ∀ (fuel i : Nat) (rows : List (Row α)), fuel = dimTypes.length - i → i < dimTypes.length →
      RowsOk dimTypes.length i rows → rows ≠ [] →
      ∃ d, packRows dims caps dimTypes fuel i rows = Except.ok d ∧
        ∀ k, i ≤ k → k < dimTypes.length →
          d.idx k = ((prefixesOf k rows).map (segmentAt k rows)).flatten ∧
          d.pos k = runningSums (((prefixesOf k rows).map (segmentAt k rows)).map List.length) 0 ∧
          (d.idx k).length ≤ rows.length ∧
          (k + 1 < dimTypes.length → (d.pos (k + 1)).length = (d.idx k).length) := by
  intro fuel
  induction fuel with
  | zero => intro i rows hf hi _ _; omega
  | succ fuel ih =>
    intro i rows hf hi hrows hne
    have hti : dimTypes[i] = DimensionType.Sparse := hall _ (List.getElem_mem _)
    have hdt : dimTypes[i]? = some DimensionType.Sparse := by
      rw [List.getElem?_eq_getElem hi, hti]
    rw [packRows, at?_eq_ok hdt]
    simp only [bind, Except.bind]
    obtain ⟨hu1, hu2⟩ := getUniqueEntries_rows hrows hi
    rw [hu1]
    simp only []
    rw [hu2]
    simp only [List.length_map]
    generalize hchild_def : (fun seg : List (Row α) =>
      if (i + 1 == dimTypes.length) = true then
        (pure (Delta.leaf (leafValue seg)) : Result (Delta α))
      else packRows dims caps dimTypes fuel (i + 1) seg) = child
    have hheads := (hrows.heads hi).1
    have hjs := sorted_lt_dedup hheads
    have hchildex : ∀ seg j, RowsOk dimTypes.length i seg → seg ≠ [] →
        (∀ r ∈ seg, headAt i r = j) →
        ∃ d, child seg = Except.ok d ∧ d.idx i = [] ∧ d.pos i = [] ∧
          ∀ k, i + 1 ≤ k → k < dimTypes.length →
            d.idx k = ((prefixesOf k seg).map (segmentAt k seg)).flatten ∧
            d.pos k =
              runningSums (((prefixesOf k seg).map (segmentAt k seg)).map List.length) 0 ∧
            (d.idx k).length ≤ seg.length ∧
            (k + 1 < dimTypes.length → (d.pos (k + 1)).length = (d.idx k).length) := by
      intro seg j hseg hsne hj
      rw [← hchild_def]
      by_cases hl : (i + 1 == dimTypes.length) = true
      · simp only [hl, if_true]
        have hl' : i + 1 = dimTypes.length := by simpa using hl
        refine ⟨_, rfl, rfl, rfl, ?_⟩
        intro k hk1 hk2
        omega
      · simp only [hl]
        have hl' : ¬ i + 1 = dimTypes.length := by simpa using hl
        obtain ⟨d, hd, hprops⟩ := ih (i + 1) seg (by omega) (by omega) (hseg.succ hi j hj) hsne
        exact ⟨d, hd, packRows_idx_below dims caps dimTypes i fuel (i + 1) seg d (by omega) hd,
          packRows_pos_below dims caps dimTypes i fuel (i + 1) seg d (by omega) hd, hprops⟩
    obtain ⟨D, hD⟩ : ∃ D : List (Row α) → Delta α, ∀ seg j, RowsOk dimTypes.length i seg →
        seg ≠ [] → (∀ r ∈ seg, headAt i r = j) →
        child seg = Except.ok (D seg) ∧ (D seg).idx i = [] ∧ (D seg).pos i = [] ∧
          ∀ k, i + 1 ≤ k → k < dimTypes.length →
            (D seg).idx k = ((prefixesOf k seg).map (segmentAt k seg)).flatten ∧
            (D seg).pos k =
              runningSums (((prefixesOf k seg).map (segmentAt k seg)).map List.length) 0 ∧
            ((D seg).idx k).length ≤ seg.length ∧
            (k + 1 < dimTypes.length → ((D seg).pos (k + 1)).length = ((D seg).idx k).length) := by
      refine ⟨fun seg => match child seg with
        | Except.ok d => d
        | Except.error _ => Delta.empty, ?_⟩
      intro seg j hseg hsne hj
      obtain ⟨d, hd, h1, h2, h3⟩ := hchildex seg j hseg hsne hj
      simp only [hd]
      exact ⟨trivial, h1, h2, h3⟩
    have hmem : ∀ r ∈ rows, headAt i r ∈ (rows.map (headAt i)).dedup :=
      fun r hr => List.mem_dedup.2 (List.mem_map.2 ⟨r, hr, rfl⟩)
    have hex : ∀ j ∈ (rows.map (headAt i)).dedup, ∃ r ∈ rows, headAt i r = j := by
      intro j hj
      obtain ⟨r, hr, hrj⟩ := List.mem_map.1 (List.mem_dedup.1 hj)
      exact ⟨r, hr, hrj⟩
    obtain ⟨rest, hp⟩ := packSegs_sorted_blocks i child (RowsOk dimTypes.length i)
      (fun rows rows' hs h => h.sublist hs) D (fun seg j hS hsne hj => (hD seg j hS hsne hj).1)
      ((rows.map (headAt i)).dedup) rows hjs hrows hheads hmem hex
    rw [hp]
    refine ⟨_, rfl, ?_⟩
    have hblock : ∀ j ∈ (rows.map (headAt i)).dedup,
        (D (rows.filter (fun r => decide (headAt i r = j)))).idx i = [] ∧
        (D (rows.filter (fun r => decide (headAt i r = j)))).pos i = [] ∧
        RowsOk dimTypes.length (i + 1) (rows.filter (fun r => decide (headAt i r = j))) ∧
        rows.filter (fun r => decide (headAt i r = j)) ≠ [] ∧
        ∀ k, i + 1 ≤ k → k < dimTypes.length →
          (D (rows.filter (fun r => decide (headAt i r = j)))).idx k =
            ((prefixesOf k (rows.filter (fun r => decide (headAt i r = j)))).map
              (segmentAt k (rows.filter (fun r => decide (headAt i r = j))))).flatten ∧
          (D (rows.filter (fun r => decide (headAt i r = j)))).pos k =
            runningSums (((prefixesOf k (rows.filter (fun r => decide (headAt i r = j)))).map
              (segmentAt k (rows.filter (fun r => decide (headAt i r = j))))).map
                List.length) 0 ∧
          ((D (rows.filter (fun r => decide (headAt i r = j)))).idx k).length ≤
            (rows.filter (fun r => decide (headAt i r = j))).length ∧
          (k + 1 < dimTypes.length →
            ((D (rows.filter (fun r => decide (headAt i r = j)))).pos (k + 1)).length =
              ((D (rows.filter (fun r => decide (headAt i r = j)))).idx k).length) := by
      intro j hj
      obtain ⟨r, hr, hrj⟩ := hex j hj
      have hsne : rows.filter (fun r => decide (headAt i r = j)) ≠ [] := by
        intro e
        have : r ∈ rows.filter (fun r => decide (headAt i r = j)) :=
          List.mem_filter.2 ⟨hr, by simpa using hrj⟩
        rw [e] at this
        cases this
      have hjall : ∀ r ∈ rows.filter (fun r => decide (headAt i r = j)), headAt i r = j :=
        fun r hr => by simpa using (List.mem_filter.1 hr).2
      have hok := hrows.sublist (List.filter_sublist (p := fun r => decide (headAt i r = j))
        (l := rows))
      obtain ⟨_, h1, h2, h3⟩ := hD _ j hok hsne hjall
      exact ⟨h1, h2, hok.succ hi j hjall, hsne, h3⟩
    intro k hik hkn
    by_cases hk : k = i
    · subst hk
      obtain ⟨f1, f2⟩ := foldr_append_nil_at k
        (fun j => D (rows.filter (fun r => decide (headAt k r = j))))
        ((rows.map (headAt k)).dedup) (fun j hj => ⟨(hblock j hj).1, (hblock j hj).2.1⟩)
      obtain ⟨p0, hp0, hs0⟩ := prefixesOf_of_common dimTypes.length k rows hrows hne
      have hidx : ((Delta.level k [((rows.map (headAt k)).dedup).length]
          ((rows.map (headAt k)).dedup)).append
          ((((rows.map (headAt k)).dedup).map (fun j =>
            D (rows.filter (fun r => decide (headAt k r = j))))).foldr
              Delta.append Delta.empty)).idx k = (rows.map (headAt k)).dedup := by
        show (Delta.level k _ _).idx k ++ _ = _
        rw [f1, List.append_nil]
        simp only [Delta.level, if_true]
      refine ⟨?_, ?_, ?_, ?_⟩
      · rw [hidx, hp0, List.map_cons, List.map_nil, List.flatten_cons, List.flatten_nil,
          List.append_nil, hs0]
      · show (Delta.level k _ _).pos k ++ List.map _ _ = _
        rw [f2, hp0, List.map_cons, List.map_nil, List.map_cons, List.map_nil, hs0]
        simp only [Delta.level, if_true, List.map_nil, List.append_nil, runningSums,
          Nat.zero_add]
      · rw [hidx]
        have := (List.dedup_sublist (rows.map (headAt k))).length_le
        simpa using this
      · intro hk1
        rw [hidx]
        show ((Delta.level k _ _).pos (k + 1) ++ List.map _ _).length = _
        rw [List.length_append, List.length_map, length_foldr_append_pos]
        have hlev : ((Delta.level k [((rows.map (headAt k)).dedup).length]
            ((rows.map (headAt k)).dedup) : Delta α).pos (k + 1)) = [] := by
          simp only [Delta.level]
          rw [if_neg (by omega)]
        rw [hlev, List.length_nil, Nat.zero_add]
        rw [length_flatMap_uniform _ _ 1, Nat.mul_one]
        intro j hj
        obtain ⟨_, _, hok1, hsne, h3⟩ := hblock j hj
        obtain ⟨q0, hq0, _⟩ := prefixesOf_of_common dimTypes.length (k + 1) _ hok1 hsne
        rw [(h3 (k + 1) (le_refl _) hk1).2.1, length_runningSums, List.length_map,
          List.length_map, hq0]
        rfl
    · have hik2 : i < k := by omega
      have hlev1 : ((Delta.level i [((rows.map (headAt i)).dedup).length]
          ((rows.map (headAt i)).dedup) : Delta α).idx k) = [] := by
        simp only [Delta.level]
        rw [if_neg hk]
      have hlev2 : ((Delta.level i [((rows.map (headAt i)).dedup).length]
          ((rows.map (headAt i)).dedup) : Delta α).pos k) = [] := by
        simp only [Delta.level]
        rw [if_neg hk]
      have hlev3 : ((Delta.level i [((rows.map (headAt i)).dedup).length]
          ((rows.map (headAt i)).dedup) : Delta α).pos (k + 1)) = [] := by
        simp only [Delta.level]
        rw [if_neg (by omega)]
      obtain ⟨f1, f2⟩ := foldr_append_layout k
        (fun j => D (rows.filter (fun r => decide (headAt i r = j))))
        (fun j => (prefixesOf k (rows.filter (fun r => decide (headAt i r = j)))).map
          (segmentAt k (rows.filter (fun r => decide (headAt i r = j)))))
        ((rows.map (headAt i)).dedup)
        (fun j hj => ⟨((hblock j hj).2.2.2.2 k (by omega) hkn).1,
          ((hblock j hj).2.2.2.2 k (by omega) hkn).2.1⟩)
      rw [segments_blocks dimTypes.length i k hi hik2 rows hrows] at f1 f2
      have hidx : ((Delta.level i [((rows.map (headAt i)).dedup).length]
          ((rows.map (headAt i)).dedup)).append
          ((((rows.map (headAt i)).dedup).map (fun j =>
            D (rows.filter (fun r => decide (headAt i r = j))))).foldr
              Delta.append Delta.empty)).idx k =
          ((((rows.map (headAt i)).dedup).map (fun j =>
            D (rows.filter (fun r => decide (headAt i r = j))))).foldr
              Delta.append Delta.empty).idx k := by
        show (Delta.level i _ _).idx k ++ _ = _
        rw [hlev1, List.nil_append]
      refine ⟨?_, ?_, ?_, ?_⟩
      · rw [hidx, f1]
      · show (Delta.level i _ _).pos k ++ List.map _ _ = _
        rw [hlev2, hlev1, List.nil_append, f2]
        simp
      · rw [hidx, foldr_append_idx, flatMap_map_eq]
        have hb := flatMap_filter_blocks i ((rows.map (headAt i)).dedup) rows hjs hheads hmem
        conv_rhs => rw [← hb]
        apply length_flatMap_le
        intro j hj
        exact ((hblock j hj).2.2.2.2 k (by omega) hkn).2.2.1
      · intro hk1
        rw [hidx, foldr_append_idx, flatMap_map_eq]
        show ((Delta.level i _ _).pos (k + 1) ++ List.map _ _).length = _
        rw [hlev3, List.nil_append, List.length_map, length_foldr_append_pos]
        apply length_flatMap_eq
        intro j hj
        exact ((hblock j hj).2.2.2.2 k (by omega) hkn).2.2.2 hk1

theorem prefixesOf_eq_parentPrefixes {α : Type} (n k : Nat) (rows : List (Row α))
    (hrows : RowsOk n 0 rows) (hne : rows ≠ []) :
    prefixesOf k rows = parentPrefixes (rows.map (fun r => r.1)) k := by
  unfold parentPrefixes
  by_cases hk : k = 0
  · rw [if_pos hk, hk]
    obtain ⟨p0, hp0, _⟩ := prefixesOf_of_common n 0 rows hrows hne
    have hmem : p0 ∈ prefixesOf 0 rows := by rw [hp0]; exact List.mem_cons_self _ _
    unfold prefixesOf at hmem
    obtain ⟨r, _, hr⟩ := List.mem_map.1 (List.mem_dedup.1 hmem)
    rw [hp0, ← hr]
    rfl
  · rw [if_neg hk]
    unfold prefixesOf
    rw [List.map_map]
    rfl

theorem length_segmentAt {α : Type} (k : Nat) (rows : List (Row α)) (p : List Int) :
    (segmentAt k rows p).length = distinctUnder (rows.map (fun r => r.1)) k p := by
  unfold segmentAt distinctUnder
  rw [List.filter_map, List.map_map]
  rfl

theorem sorted_segmentAt {α : Type} (n k : Nat) (hk : k < n) (rows : List (Row α))
    (hrows : RowsOk n 0 rows) (p : List Int) : (segmentAt k rows p).Sorted (· < ·) := by
  unfold segmentAt
  apply sorted_lt_dedup
  have hok : RowsOk n k (rows.filter (fun r => decide (r.1.take k = p))) := by
    unfold RowsOk at hrows ⊢
    refine ⟨fun r hr => hrows.1 r ((List.filter_sublist _).subset hr), ?_,
      List.Pairwise.sublist ((List.filter_sublist _).map _) hrows.2.2⟩
    intro a ha b hb
    have h1 : a.1.take k = p := by simpa using (List.mem_filter.1 ha).2
    have h2 : b.1.take k = p := by simpa using (List.mem_filter.1 hb).2
    rw [h1, h2]
  exact (hok.heads hk).1

theorem packRows_allSparse_layout_top {α : Type} [Zero α] (dims : List Int) (caps : Nat → Int)
    (dimTypes : List DimensionType) (hall : ∀ t ∈ dimTypes, t = DimensionType.Sparse)
    (hn : 1 ≤ dimTypes.length) (fuel : Nat) (hf : fuel = dimTypes.length)
    (rows : List (Row α)) (hrows : RowsOk dimTypes.length 0 rows) :
    ∃ d, packRows dims caps dimTypes fuel 0 rows = Except.ok d ∧
      ∀ k, k < dimTypes.length →
        d.idx k = ((parentPrefixes (rows.map (fun r => r.1)) k).map (segmentAt k rows)).flatten ∧
        d.pos k = runningSums (((parentPrefixes (rows.map (fun r => r.1)) k).map
          (segmentAt k rows)).map List.length) 0 ∧
        (d.idx k).length ≤ rows.length ∧
        (k + 1 < dimTypes.length → (d.pos (k + 1)).length = (d.idx k).length) := by
  by_cases hne : rows = []
  · subst hne
    obtain ⟨fuel, rfl⟩ : ∃ f, fuel = f + 1 := ⟨fuel - 1, by omega⟩
    have hti : dimTypes[0] = DimensionType.Sparse := hall _ (List.getElem_mem _)
    have hdt : dimTypes[0]? = some DimensionType.Sparse := by
      rw [List.getElem?_eq_getElem (by omega), hti]
    have hu : getUniqueEntries ([] : List Int) = Except.ok [] :=
      getUniqueEntries_of_sorted (l := []) List.sorted_nil (fun _ h => by cases h)
    rw [packRows, at?_eq_ok hdt]
    simp only [bind, Except.bind, List.map_nil]
    rw [hu]
    refine ⟨_, rfl, ?_⟩
    intro k hk
    unfold parentPrefixes
    by_cases hk0 : k = 0
    · subst hk0
      rw [if_pos rfl]
      refine ⟨rfl, rfl, le_refl _, ?_⟩
      intro _
      rfl
    · rw [if_neg hk0]
      have hl1 : ((Delta.level 0 [([] : List Nat).length]
          (List.map (fun (j : Nat) => toInt j) []) : Delta α).idx k) = [] := by
        simp only [Delta.level]
        rw [if_neg hk0]
      have hl2 : ((Delta.level 0 [([] : List Nat).length]
          (List.map (fun (j : Nat) => toInt j) []) : Delta α).pos k) = [] := by
        simp only [Delta.level]
        rw [if_neg hk0]
      have hl3 : ((Delta.level 0 [([] : List Nat).length]
          (List.map (fun (j : Nat) => toInt j) []) : Delta α).pos (k + 1)) = [] := by
        simp only [Delta.level]
        rw [if_neg (by omega)]
      refine ⟨?_, ?_, ?_, ?_⟩
      · show (Delta.level 0 _ _).idx k ++ _ = _
        rw [hl1]
        rfl
      · show (Delta.level 0 _ _).pos k ++ List.map _ _ = _
        rw [hl2]
        rfl
      · show ((Delta.level 0 _ _).idx k ++ _).length ≤ _
        rw [hl1]
        exact le_refl _
      · intro _
        show ((Delta.level 0 _ _).pos (k + 1) ++ List.map _ _).length =
          ((Delta.level 0 _ _).idx k ++ _).length
        rw [hl1, hl3]
        rfl
  · obtain ⟨d, hd, hprops⟩ := packRows_allSparse_layout dims caps dimTypes hall fuel 0 rows
      (by omega) (by omega) hrows hne
    refine ⟨d, hd, ?_⟩
    intro k hk
    rw [← prefixesOf_eq_parentPrefixes dimTypes.length k rows hrows hne]
    exact hprops k (Nat.zero_le _) hk

theorem getD_map_natCast (P : List Nat) (j : Nat) :
    (P.map (fun (c : Nat) => (c : Int))).getD j 0 = ((P.getD j 0 : Nat) : Int) := by
  rw [List.getD_eq_getElem?_getD, List.getD_eq_getElem?_getD, List.getElem?_map]
  cases P[j]? with
  | none => rfl
  | some x => rfl

theorem layout_props (L : List (List Int)) (hsmall : L.flatten.length < 2 ^ 31)
    (pos : List Int)
    (hpos : pos = [0] ++ (runningSums (L.map List.length) 0).map
      (fun (c : Nat) => toInt ((0 + c : Nat) : Int))) :
    pos[0]? = some 0 ∧ pos.Sorted (· ≤ ·) ∧ pos.length = 1 + L.length ∧
    pos.getLast? = some (L.flatten.length : Int) ∧
    ∀ j x, L[j]? = some x →
      pos.getD (j + 1) 0 - pos.getD j 0 = (x.length : Int) ∧
      (L.flatten.drop (pos.getD j 0).toNat).take (pos.getD (j + 1) 0 - pos.getD j 0).toNat =
        x := by
  obtain ⟨hs1, hs2⟩ := sorted_runningSums (L.map List.length) 0
  rw [Nat.zero_add, ← List.length_flatten] at hs2
  have hP : pos = (0 :: runningSums (L.map List.length) 0).map (fun (c : Nat) => (c : Int)) := by
    have hm : (runningSums (L.map List.length) 0).map
        (fun (c : Nat) => toInt ((0 + c : Nat) : Int)) =
        (runningSums (L.map List.length) 0).map (fun (c : Nat) => (c : Int)) := by
      apply List.map_congr_left
      intro c hc
      rw [Nat.zero_add]
      exact toInt_natCast_of_lt (lt_of_le_of_lt (hs2 c (List.mem_cons_of_mem _ hc)) hsmall)
    rw [hpos, hm, List.map_cons, List.singleton_append, Nat.cast_zero]
  refine ⟨by rw [hpos, List.singleton_append, List.getElem?_cons_zero], ?_, ?_, ?_, ?_⟩
  · rw [hP]
    unfold List.Sorted at hs1 ⊢
    rw [List.pairwise_map]
    exact hs1.imp (fun h => by exact_mod_cast h)
  · rw [hP, List.length_map, List.length_cons, length_runningSums, List.length_map]
    omega
  · rw [hP, List.getLast?_map, getLast?_runningSums, Nat.zero_add, ← List.length_flatten]
    rfl
  · intro j x hx
    have hj : j < L.length := (List.getElem?_eq_some_iff.1 hx).1
    have h1 := getD_runningSums (L.map List.length) 0 j (by rw [List.length_map]; omega)
    have h2 := getD_runningSums (L.map List.length) 0 (j + 1) (by rw [List.length_map]; omega)
    have h3 : ((L.map List.length).take (j + 1)).sum =
        ((L.map List.length).take j).sum + x.length := by
      rw [List.take_succ, List.sum_append, List.getElem?_map, hx]
      simp
    rw [Nat.zero_add] at h1 h2
    rw [hP, getD_map_natCast, getD_map_natCast, h1, h2, h3, ← List.map_take]
    have hd : (((((L.take j).map List.length).sum + x.length : Nat) : Int) -
        ((((L.take j).map List.length).sum : Nat) : Int)) = (x.length : Int) := by
      push_cast
      omega
    rw [hd]
    refine ⟨rfl, ?_⟩
    rw [Int.toNat_ofNat, Int.toNat_ofNat]
    exact drop_take_flatten L j x hx

/-- C2: for every order `n >= 1`, the all-Sparse format, matching dimension
sizes, and a lexicographically sorted list of fewer than `2^31` entries with
non-negative `int` coordinates, `pack` returns a Storage, and at every level `k`
its index is `[pos, idx]` where: `pos[0] = 0`; `pos` is non-decreasing; `pos` has
one entry per parent segment after the leading 0 (2 entries at level 0, and
`1 + length (idx of level k-1)` entries at a level `k > 0`); the last entry of
`pos` is the length of `idx`; and for the `j`-th parent segment, of coordinate
prefix `p`, `pos[j+1] - pos[j]` is the number of distinct level-`k` coordinates
among the input entries with the prefix `p`, and the slice
`idx[pos[j] .. pos[j+1])` is strictly increasing. -/
theorem pack_allSparse_pos_idx_wellformed {α : Type} [Zero α] (dims : List Int)
    (format : List DimensionType) (coords : List (List Int)) (vals : List α)
    (hn : 1 ≤ format.length) (hfmt : ∀ t ∈ format, t = DimensionType.Sparse)
    (hdims : dims.length = format.length) (hcoords : coords.length = format.length)
    (hcols : ∀ col ∈ coords, col.length = vals.length)
    (hnn : ∀ col ∈ coords, ∀ x ∈ col, 0 ≤ x ∧ IsInt x)
    (hsmall : vals.length < 2 ^ 31)
    (hsorted : (tuplesOf coords vals.length).Sorted (· ≤ ·)) :
    ∃ s, pack dims format coords vals = Except.ok s ∧
      ∀ k, k < format.length → ∃ pos idx, s.index[k]? = some [pos, idx] ∧
        pos[0]? = some 0 ∧ pos.Sorted (· ≤ ·) ∧
        pos.length = 1 + (parentPrefixes (tuplesOf coords vals.length) k).length ∧
        (k = 0 → pos.length = 2) ∧
        (∀ k0 pos0 idx0, k = k0 + 1 → s.index[k0]? = some [pos0, idx0] →
          pos.length = 1 + idx0.length) ∧
        pos.getLast? = some (idx.length : Int) ∧
        ∀ j p, (parentPrefixes (tuplesOf coords vals.length) k)[j]? = some p →
          pos.getD (j + 1) 0 - pos.getD j 0 =
            (distinctUnder (tuplesOf coords vals.length) k p : Int) ∧
          ((idx.drop (pos.getD j 0).toNat).take
            (pos.getD (j + 1) 0 - pos.getD j 0).toNat).Sorted (· < ·) := by
  have hnofixed : ∀ i, format[i]? = some DimensionType.Fixed →
      ∃ r, findMaxFixedValue dims coords format.length i 0 vals.length = Except.ok r ∧
        (fun _ : Nat => (0 : Int)) i = toInt (toSizeT r) := by
    intro i hi
    have := hfmt _ (List.getElem?_mem hi)
    cases this
  have hrows := rowsOk_rowsOf coords vals format.length hcoords hcols hnn hsorted
  have hT := map_fst_rowsOf coords vals vals.length
  have hlenr : (rowsOf coords vals 0 vals.length).length = vals.length := by
    rw [length_rowsOf]
    omega
  rw [pack_eq_of_caps dims format coords vals (fun _ => 0) hdims (by omega)
    (fun col hc => by rw [hcols col hc]) hnofixed]
  obtain ⟨d, hd, hprops⟩ := packRows_allSparse_layout_top dims (fun _ => 0) format hfmt hn
    format.length rfl (rowsOf coords vals 0 vals.length) hrows
  rw [hd]
  refine ⟨_, rfl, ?_⟩
  intro k hk
  have hindex : ∀ k, k < format.length →
      (storageOf dims format (fun _ => 0) d).index[k]? =
        some [[0] ++ (d.pos k).map (fun (c : Nat) => toInt ((0 + c : Nat) : Int)), d.idx k] := by
    intro k hk
    have hfk : format[k]? = some DimensionType.Sparse := by
      rw [List.getElem?_eq_getElem hk, hfmt _ (List.getElem_mem _)]
    exact storageOf_index dims format (fun _ => 0) d k DimensionType.Sparse hfk
  obtain ⟨h1, h2, h3, _⟩ := hprops k hk
  rw [hT] at h1 h2
  obtain ⟨p1, p2, p3, p4, p5⟩ := layout_props
    ((parentPrefixes (tuplesOf coords vals.length) k).map
      (segmentAt k (rowsOf coords vals 0 vals.length)))
    (by rw [← h1]; omega)
    ([0] ++ (d.pos k).map (fun (c : Nat) => toInt ((0 + c : Nat) : Int)))
    (by rw [h2])
  refine ⟨_, _, hindex k hk, p1, p2, ?_, ?_, ?_, ?_, ?_⟩
  · rw [p3, List.length_map]
  · intro hk0
    rw [p3, List.length_map, hk0]
    rfl
  · intro k0 pos0 idx0 hk0 hs0
    have hk0n : k0 < format.length := by omega
    rw [hindex k0 hk0n] at hs0
    have hidx0 : d.idx k0 = idx0 := by
      injection hs0 with hs0
      injection hs0 with _ hs0
      injection hs0 with hs0 _
    rw [← hidx0, ← (hprops k0 hk0n).2.2.2 (by omega), ← hk0]
    simp only [List.length_append, List.length_map, List.length_singleton]
  · rw [p4, h1]
  · intro j p hp
    have hL : ((parentPrefixes (tuplesOf coords vals.length) k).map
        (segmentAt k (rowsOf coords vals 0 vals.length)))[j]? =
        some (segmentAt k (rowsOf coords vals 0 vals.length) p) := by
      rw [List.getElem?_map, hp]
      rfl
    obtain ⟨q1, q2⟩ := p5 j _ hL
    rw [h1, q2]
    refine ⟨?_, sorted_segmentAt format.length k hk _ hrows p⟩
    rw [q1, length_segmentAt, hT]

theorem pack_allSparse_pos_idx_wellformed_witness :
    ∃ s, pack [3] [DimensionType.Sparse] [[0, 2]] ([4, 9] : List Int) = Except.ok s ∧
      ∀ k, k < [DimensionType.Sparse].length →
        ∃ pos idx, s.index[k]? = some [pos, idx] ∧
        pos[0]? = some 0 ∧ pos.Sorted (· ≤ ·) ∧
        pos.length = 1 + (parentPrefixes (tuplesOf [[0, 2]] ([4, 9] : List Int).length) k).length ∧
        (k = 0 → pos.length = 2) ∧
        (∀ k0 pos0 idx0, k = k0 + 1 → s.index[k0]? = some [pos0, idx0] →
          pos.length = 1 + idx0.length) ∧
        pos.getLast? = some (idx.length : Int) ∧
        ∀ j p, (parentPrefixes (tuplesOf [[0, 2]] ([4, 9] : List Int).length) k)[j]? = some p →
          pos.getD (j + 1) 0 - pos.getD j 0 =
            (distinctUnder (tuplesOf [[0, 2]] ([4, 9] : List Int).length) k p : Int) ∧
          ((idx.drop (pos.getD j 0).toNat).take
            (pos.getD (j + 1) 0 - pos.getD j 0).toNat).Sorted (· < ·) :=
  pack_allSparse_pos_idx_wellformed [3] [DimensionType.Sparse] [[0, 2]] ([4, 9] : List Int)
    (by decide) (by decide) (by decide) (by decide) (by decide) (by decide) (by decide)
    (by decide)

end storage
end taco
